import Mathlib

/-!
# ais_seqmaker: segmentation and resampling of vessel trajectories

A shallow embedding of the C++ sources (`ais.cpp`, `utility.hpp`, `seq.cpp`,
`sequencer.cpp`, `seq_maker.cpp`) together with machine-checked properties.

Conventions of the embedding:

* `std::uint32_t` / `unsigned` values are natural numbers; every arithmetic
  operation on them is reduced modulo `2^32` (`uadd`, `usub`, `umul`),
  `std::size_t` arithmetic modulo `2^64`.
* `std::int32_t` coordinates are integers.
* `double` arithmetic is not fixed by the embedding: all functions take a
  record `Dbl` of the floating-point operations the sources use, so that every
  structural theorem holds for whatever arithmetic the target provides.
* `std::vector` is `List`; an out-of-bounds read (undefined behaviour in the
  sources) makes the embedded function return `none`.
-/

namespace seqmaker

/-! ## Machine arithmetic -/

/-- Number of values of a 32-bit unsigned integer. -/
def U32 : Nat := 2 ^ 32

/-- Number of values of a 64-bit `std::size_t`. -/
def U64 : Nat := 2 ^ 64

/-- Unsigned 32-bit addition `a + b`. -/
def uadd (a b : Nat) : Nat := (a + b) % U32

/-- Unsigned 32-bit subtraction `a - b` (wraps around when `a < b`). -/
def usub (a b : Nat) : Nat := (a % U32 + (U32 - b % U32)) % U32

/-- Unsigned 32-bit multiplication `a * b`. -/
def umul (a b : Nat) : Nat := (a * b) % U32

/-- The operations on C++ `double` used by the sources.  `F` is the set of
`double` values; the fields are the conversions, the arithmetic operators, the
two `<cmath>` functions and the comparisons.  `lit m k` is the value of the
decimal literal `m * 10^(-k)`, `lt a b` is `a < b` and `le a b` is `a <= b`. -/
structure Dbl where
  F : Type
  lit : Nat → Nat → F
  ofInt : Int → F
  ofNat : Nat → F
  toInt : F → Int
  add : F → F → F
  sub : F → F → F
  mul : F → F → F
  div : F → F → F
  sqrt : F → F
  cos : F → F
  round : F → F
  lt : F → F → Bool
  le : F → F → Bool

/-! ## A model of IEEE 754 binary64 arithmetic

The sources are compiled for targets on which `double` is IEEE 754 binary64 with
round-to-nearest-even.  `ieee.B64` models these values and `ieee.model` the
operations; `std::cos` is not fixed by IEEE 754 and stays a parameter. -/

namespace ieee

/-- Values of binary64: `fin s m e` is `(-1)^s * m * 2^e`.  The results of all
operations are in canonical form: `m < 2^53`, `-1074 ≤ e ≤ 971` and
`2^52 ≤ m` unless `e = -1074`. -/
inductive B64 where
  | nan : B64
  | inf (s : Bool) : B64
  | fin (s : Bool) (m : Nat) (e : Int) : B64
deriving DecidableEq, Repr

/-- Bit length of a positive number by bisection: with `2^r ≤ n < 2^(r + 2^k)`
the result is the `b` with `2^b ≤ n < 2^(b + 1)`; `k` bits of `b` are left to
decide. -/
def blen.bisect (n : Nat) : Nat → Nat → Nat
  | 0, r => r
  | k + 1, r =>
    if 2 ^ (r + 2 ^ k) ≤ n then blen.bisect n k (r + 2 ^ k) else blen.bisect n k r

/-- Bit length with explicit fuel, 64 bits at a time. -/
def blen.go : Nat → Nat → Nat
  | 0, _ => 0
  | f + 1, n =>
    if n = 0 then 0
    else if n < 2 ^ 64 then blen.bisect n 6 0 + 1
    else blen.go f (n / 2 ^ 64) + 64

/-- Bit length: `2^(blen n - 1) ≤ n < 2^(blen n)` for `n > 0`. -/
def blen (n : Nat) : Nat := blen.go n n

/-- Numerator of `n / (d * 2^e)`. -/
def scaleN (n : Nat) (e : Int) : Nat := if e < 0 then n * 2 ^ (-e).toNat else n

/-- Denominator of `n / (d * 2^e)`. -/
def scaleD (d : Nat) (e : Int) : Nat := if e < 0 then d else d * 2 ^ e.toNat

/-- The exponent of the binary64 grid around the positive rational `n / d`:
the `e ≥ -1074` with `n / d < 2^(e + 53)` and, unless `e = -1074`,
`2^(e + 52) ≤ n / d`. -/
def expo (n d : Nat) : Int :=
  let e1 : Int := (blen n : Int) - (blen d : Int) - 53
  let e2 := if scaleN n e1 / scaleD d e1 < 2 ^ 53 then e1 else e1 + 1
  max e2 (-1074)

/-- Rounding of the rational `(-1)^s * n / d` (`d > 0`) to the nearest binary64
value, ties to even; overflow gives infinity. -/
def rnd (s : Bool) (n d : Nat) : B64 :=
  if n = 0 then .fin s 0 (-1074) else
  let e := expo n d
  let N := scaleN n e
  let Dn := scaleD d e
  let q := N / Dn
  let r := N % Dn
  let m := if 2 * r < Dn then q else if Dn < 2 * r then q + 1 else q + q % 2
  let e3 := if m = 2 ^ 53 then e + 1 else e
  let m3 := if m = 2 ^ 53 then 2 ^ 52 else m
  if e3 > 971 then .inf s else .fin s m3 e3

/-- Rounding of `(-1)^s * n * 2^g`. -/
def rndZ (s : Bool) (n : Nat) (g : Int) : B64 :=
  rnd s (if g < 0 then n else n * 2 ^ g.toNat) (if g < 0 then 2 ^ (-g).toNat else 1)

/-- The signed integer `k` with `(-1)^s * m * 2^e = k * 2^g`, for `g ≤ e`. -/
def scaled (s : Bool) (m : Nat) (e g : Int) : Int :=
  (if s then -1 else 1) * ((m * 2 ^ (e - g).toNat : Nat) : Int)

/-- Negation. -/
def neg : B64 → B64
  | .nan => .nan
  | .inf s => .inf (!s)
  | .fin s m e => .fin (!s) m e

/-- Addition. -/
def add : B64 → B64 → B64
  | .nan, _ => .nan
  | _, .nan => .nan
  | .inf s, .inf t => if s = t then .inf s else .nan
  | .inf s, .fin _ _ _ => .inf s
  | .fin _ _ _, .inf t => .inf t
  | .fin s m e, .fin t k f =>
    let g := min e f
    let c := scaled s m e g + scaled t k f g
    if c = 0 then .fin (s && t) 0 (-1074) else rndZ (decide (c < 0)) c.natAbs g

/-- Subtraction. -/
def sub (a b : B64) : B64 := add a (neg b)

/-- Multiplication. -/
def mul : B64 → B64 → B64
  | .nan, _ => .nan
  | _, .nan => .nan
  | .inf s, .inf t => .inf (xor s t)
  | .inf s, .fin t k _ => if k = 0 then .nan else .inf (xor s t)
  | .fin s m _, .inf t => if m = 0 then .nan else .inf (xor s t)
  | .fin s m e, .fin t k f => rndZ (xor s t) (m * k) (e + f)

/-- Division. -/
def div : B64 → B64 → B64
  | .nan, _ => .nan
  | _, .nan => .nan
  | .inf _, .inf _ => .nan
  | .inf s, .fin t _ _ => .inf (xor s t)
  | .fin s _ _, .inf t => .fin (xor s t) 0 (-1074)
  | .fin s m e, .fin t k f =>
    if k = 0 then (if m = 0 then .nan else .inf (xor s t))
    else rnd (xor s t) (scaleN m (f - e)) (scaleD k (f - e))

/-- Integer square root by bisection on the bits, `k` bits left to decide. -/
def isqrt.go (n : Nat) : Nat → Nat → Nat
  | 0, r => r
  | k + 1, r => if (r + 2 ^ k) * (r + 2 ^ k) ≤ n then isqrt.go n k (r + 2 ^ k) else isqrt.go n k r

/-- Integer square root: the largest `r` with `r * r ≤ n`. -/
def isqrt (n : Nat) : Nat := isqrt.go n (blen n / 2 + 1) 0

/-- Square root (correctly rounded). -/
def sqrt : B64 → B64
  | .nan => .nan
  | .inf s => if s then .nan else .inf false
  | .fin s m e =>
    if m = 0 then .fin s 0 (-1074)
    else if s then .nan
    else
      let p := e - 110
      let t := if p % 2 = 0 then p / 2 else (p - 1) / 2
      let v := m * 2 ^ (e - 2 * t).toNat
      let r := isqrt v
      if r * r = v then rndZ false r t else rndZ false (2 * r + 1) (t - 1)

/-- `std::round`: to the nearest integer, halfway cases away from zero. -/
def round : B64 → B64
  | .nan => .nan
  | .inf s => .inf s
  | .fin s m e =>
    if e ≥ 0 then .fin s m e
    else
      let d := 2 ^ (-e).toNat
      rndZ s (if 2 * (m % d) < d then m / d else m / d + 1) 0

/-- Conversion to `std::int32_t`: truncation toward zero.  For NaN, infinities
and values outside the range of `int32_t` the conversion is undefined in C++;
the model returns `-2^31`, the result of the x86-64 conversion instruction. -/
def toInt : B64 → Int
  | .fin s m e =>
    let v : Nat := if e < 0 then m / 2 ^ (-e).toNat else m * 2 ^ e.toNat
    let z : Int := if s then -(v : Int) else (v : Int)
    if -2 ^ 31 ≤ z ∧ z < 2 ^ 31 then z else -2 ^ 31
  | _ => -2 ^ 31

/-- Comparison `a < b`. -/
def lt : B64 → B64 → Bool
  | .nan, _ => false
  | _, .nan => false
  | .inf s, .inf t => s && !t
  | .inf s, .fin _ _ _ => s
  | .fin _ _ _, .inf t => !t
  | .fin s m e, .fin t k f => decide (scaled s m e (min e f) < scaled t k f (min e f))

/-- Comparison `a <= b`. -/
def le : B64 → B64 → Bool
  | .nan, _ => false
  | _, .nan => false
  | .inf s, .inf t => s || !t
  | .inf s, .fin _ _ _ => s
  | .fin _ _ _, .inf t => !t
  | .fin s m e, .fin t k f => decide (scaled s m e (min e f) ≤ scaled t k f (min e f))

/-- The part of `std::cos` that the C standard fixes: `cos(±0) = 1`.  All other
arguments are mapped to NaN; the examples that use this function only take
the cosine of zero (positions on the equator). -/
def cos_zero : B64 → B64
  | .fin _ 0 _ => .fin false (2 ^ 52) (-52)
  | _ => .nan

/-- The binary64 operations, for a given implementation of `std::cos`. -/
def model (cos : B64 → B64) : Dbl where
  F := B64
  lit := fun m k => rnd false m (10 ^ k)
  ofInt := fun z => rndZ (decide (z < 0)) z.natAbs 0
  ofNat := fun n => rndZ false n 0
  toInt := toInt
  add := add
  sub := sub
  mul := mul
  div := div
  sqrt := sqrt
  cos := cos
  round := round
  lt := lt
  le := le

end ieee

namespace ais

/-- `struct Point`: latitude and longitude in units of 1/600000 degree. -/
structure Point where
  latitude : Int
  longitude : Int
deriving DecidableEq, Repr

/-- `struct Position`: a timestamp (seconds) and a point. -/
structure Position where
  t : Nat
  x : Point
deriving DecidableEq, Repr

/-- `using Trajectory = std::vector<Position>`. -/
abbrev Trajectory := List Position

/-- `Point::dist_nm`. -/
def Point.dist_nm (D : Dbl) (self other : Point) : D.F :=
  let ais2deg := fun (a : Int) => D.div (D.ofInt a) (D.lit 600000 0)
  let deg2rad := fun (deg : D.F) =>
    D.mul (D.div deg (D.lit 180 0)) (D.lit 314159265358979323846 20)
  let deg2nm := fun (deg : D.F) => D.mul deg (D.lit 60 0)
  let dlat_deg := ais2deg (self.latitude - other.latitude)
  let dlon_deg := ais2deg (self.longitude - other.longitude)
  let mlat_deg := D.div (ais2deg (self.latitude + other.latitude)) (D.lit 2 0)
  let cos_mlat := D.cos (deg2rad mlat_deg)
  let dist_deg :=
    D.sqrt (D.add (D.mul dlat_deg dlat_deg)
      (D.mul (D.mul (D.mul cos_mlat cos_mlat) dlon_deg) dlon_deg))
  deg2nm dist_deg

/-- `Point::interpolate`. -/
def Point.interpolate (D : Dbl) (self other : Point) (w : D.F) : Point :=
  let intrplt := fun (a b : Int) =>
    D.toInt (D.add (D.mul (D.sub (D.lit 1 0) w) (D.ofInt a)) (D.mul w (D.ofInt b)))
  { latitude := intrplt self.latitude other.latitude,
    longitude := intrplt self.longitude other.longitude }

end ais

namespace utility

/-- The `do ... while (it != last)` loop of `adjacent_diff`: the first list is
the range starting at `first`, the second the range starting at `it`. -/
def adjacent_diff.loop {α β : Type} (op : α → α → β) : List α → List α → List β
  | a :: as, b :: bs => op a b :: adjacent_diff.loop op as bs
  | _, _ => []

/-- `utility::adjacent_diff`: the values written through `d_first`. -/
def adjacent_diff {α β : Type} (xs : List α) (op : α → α → β) (stride : Nat) : List β :=
  if xs.length > stride then adjacent_diff.loop op xs (xs.drop stride) else []

/-- The `for` loop of `low_pass_filter` together with the final `if (acc < 1)`:
`acc` is the run counter, the list is the range `[first, last)`. -/
def low_pass_filter.loop {α : Type} (binary_op : α → α → Bool) : Nat → List α → List α
  | acc, a :: b :: rest =>
    let acc1 := if binary_op a b then 0 else acc + 1
    if acc1 < 2 then a :: low_pass_filter.loop binary_op acc1 (b :: rest)
    else low_pass_filter.loop binary_op acc1 (b :: rest)
  | acc, [a] => if acc < 1 then [a] else []
  | _, [] => []

/-- `utility::low_pass_filter`: the elements written through `d_first`. -/
def low_pass_filter {α : Type} (xs : List α) (binary_op : α → α → Bool) : List α :=
  if xs.length > 1 then low_pass_filter.loop binary_op 1 xs else []

end utility

namespace ais

/-- `acc_dist_nm`: accumulated length of a polyline. -/
def acc_dist_nm (D : Dbl) (points : List Point) : D.F :=
  if points.length > 1 then
    let d := utility.adjacent_diff points (fun a b => a.dist_nm D b) 1
    d.foldl D.add (D.lit 0 0)
  else D.lit 0 0

end ais

open ais

/-- `struct split_args`. -/
structure split_args (D : Dbl) where
  seq_length : Nat
  dt_max : Nat
  dti : Nat
  ds_max : D.F
  v_min : D.F

/-- The inner `while (trajectory[j + 1].t < ti) j += 1` of `interpolate`.  The
index `j` is represented by the suffix `trajectory[j..]`; reading
`trajectory[j + 1]` past the end gives `none`. -/
def interpolate.advance (ti : Nat) : List Position → Option (List Position)
  | pj :: pj1 :: rest =>
    if pj1.t < ti then interpolate.advance ti (pj1 :: rest) else some (pj :: pj1 :: rest)
  | _ => none

/-- The `for (i = ...; i < n_grid_points; i++)` loop of `interpolate`: `k` is the
number of iterations left, `sfx` the suffix `trajectory[j..]`. -/
def interpolate.loop (D : Dbl) (t0 dt n_grid_points : Nat) :
    Nat → List Position → Option (List Point)
  | 0, _ => some []
  | k + 1, sfx =>
    let i := n_grid_points - (k + 1)
    let ti := uadd t0 (umul i dt)
    match interpolate.advance ti sfx with
    | some (pj :: pj1 :: rest) =>
      let tj1 := pj.t
      let tj2 := pj1.t
      let w := D.div (D.ofNat (usub ti tj1)) (D.ofNat (usub tj2 tj1))
      match interpolate.loop D t0 dt n_grid_points k (pj :: pj1 :: rest) with
      | some seq => some (pj.x.interpolate D pj1.x w :: seq)
      | none => none
    | _ => none

/-- `seqmaker::interpolate`. -/
def interpolate (D : Dbl) (trajectory : Trajectory) (n_grid_points dt : Nat) :
    Option (List Point) :=
  match trajectory with
  | [] => none
  | front :: _ => interpolate.loop D front.t dt n_grid_points n_grid_points trajectory

/-- The gap test shared by `split` and `drop_rate`:
`pos.t - last_pos.t > args.dt_max or pos.x.dist_nm(last_pos.x) > args.ds_max`. -/
def is_gap (D : Dbl) (args : split_args D) (pos last_pos : Position) : Bool :=
  decide (usub pos.t last_pos.t > args.dt_max) ||
    D.lt args.ds_max (pos.x.dist_nm D last_pos.x)

/-- The minimal accumulated distance of `split`:
`d_min = args.v_min * nm_per_s * args.seq_length * args.dti` with
`nm_per_s = 1. / 3600.`. -/
def d_min (D : Dbl) (args : split_args D) : D.F :=
  let nm_per_s := D.div (D.lit 1 0) (D.lit 3600 0)
  D.mul (D.mul (D.mul args.v_min nm_per_s) (D.ofNat args.seq_length)) (D.ofNat args.dti)

/-- The local variables of `split` that live across loop iterations. -/
structure split.State where
  seqs : List Point
  buffer : Trajectory
  t0 : Nat

/-- One iteration of the `for (auto pos : trajectory)` loop of `split`.
`s.buffer` is the buffer before `buffer.emplace_back(pos)`, so that
`buffer[buffer.size() - 2]` is its last element. -/
def split.step (D : Dbl) (args : split_args D) (s : split.State) (pos : Position) :
    Option split.State :=
  match s.buffer.getLast? with
  | none => some { s with buffer := [pos], t0 := pos.t }
  | some last_pos =>
    if is_gap D args pos last_pos then
      some { s with buffer := [pos], t0 := pos.t }
    else if usub pos.t s.t0 ≥ umul args.seq_length args.dti then
      match interpolate D (s.buffer ++ [pos]) (uadd args.seq_length 1) args.dti with
      | none => none
      | some seq =>
        if D.le (d_min D args) (acc_dist_nm D seq) then
          some { s with seqs := s.seqs ++ seq, buffer := [] }
        else
          some { s with buffer := [] }
    else
      some { s with buffer := s.buffer ++ [pos] }

/-- The `for (auto pos : trajectory)` loop of `split`. -/
def split.loop (D : Dbl) (args : split_args D) :
    split.State → List Position → Option split.State
  | s, [] => some s
  | s, pos :: rest =>
    match split.step D args s pos with
    | none => none
    | some s1 => split.loop D args s1 rest

/-- `seqmaker::split`. -/
def split (D : Dbl) (trajectory : Trajectory) (args : split_args D) : Option (List Point) :=
  match split.loop D args { seqs := [], buffer := [], t0 := 0 } trajectory with
  | none => none
  | some s => some s.seqs

/-- The local variables of `drop_rate` that live across loop iterations. -/
structure drop_rate.State where
  total : Nat
  i : Nat
  last_pos : Position
  t0 : Nat

/-- One iteration of the `for (auto pos : trajectory)` loop of `drop_rate`. -/
def drop_rate.step (D : Dbl) (args : split_args D) (s : drop_rate.State) (pos : Position) :
    drop_rate.State :=
  let i := uadd s.i 1
  if i = 1 then
    { s with i := i, t0 := pos.t, last_pos := pos }
  else if is_gap D args pos s.last_pos then
    { s with i := 1, t0 := pos.t, last_pos := pos }
  else if usub pos.t s.t0 ≥ umul args.seq_length args.dti then
    { s with total := uadd s.total i, i := 0, last_pos := pos }
  else
    { s with i := i, last_pos := pos }

/-- The value of `total` after the loop of `drop_rate`. -/
def drop_rate.total (D : Dbl) (trajectory : Trajectory) (args : split_args D) : Nat :=
  (trajectory.foldl (drop_rate.step D args)
    { total := 0, i := 0, last_pos := { t := 0, x := { latitude := 0, longitude := 0 } },
      t0 := 0 }).total

/-- `seqmaker::drop_rate`. -/
def drop_rate (D : Dbl) (trajectory : Trajectory) (args : split_args D) : D.F :=
  D.sub (D.lit 1 0)
    (D.div (D.ofNat (drop_rate.total D trajectory args)) (D.ofNat trajectory.length))

/-! ## Trajectory store and orchestrator (`sequencer.cpp`, `seq_maker.cpp`) -/

/-- The loop of `std::unique`: `result` is the last element kept so far. -/
def std_unique.loop {α : Type} (p : α → α → Bool) : α → List α → List α
  | _, [] => []
  | result, b :: rest =>
    if p result b then std_unique.loop p result rest else b :: std_unique.loop p b rest

/-- `std::unique` followed by `erase`: the first element of every run of
consecutive equivalent elements. -/
def std_unique {α : Type} (p : α → α → Bool) : List α → List α
  | [] => []
  | a :: rest => a :: std_unique.loop p a rest

/-- The postcondition of `std::sort(first, last, by_time)`: the result is a
permutation of the input in which no element is followed by one with a smaller
timestamp.  The order among equal timestamps is left open. -/
def IsSortedByTime (raw sorted : Trajectory) : Prop :=
  sorted.Perm raw ∧ sorted.Pairwise (fun a b => a.t ≤ b.t)

/-- A sorting function meeting the postcondition of `std::sort`. -/
def SortSpec (sort : Trajectory → Trajectory) : Prop :=
  ∀ raw, IsSortedByTime raw (sort raw)

/-- Insertion of one position into a list sorted by time. -/
def sort_by_time.insert (p : Position) : Trajectory → Trajectory
  | [] => [p]
  | q :: rest => if p.t ≤ q.t then p :: q :: rest else q :: sort_by_time.insert p rest

/-- An executable sorting function (insertion sort by timestamp), one of the
functions meeting `SortSpec`. -/
def sort_by_time : Trajectory → Trajectory
  | [] => []
  | p :: rest => sort_by_time.insert p (sort_by_time rest)

/-- The part of the body of the loop of `Sequencer::run` that normalises one
buffer: `std::unique` with `time_eq` on the sorted buffer, then, if requested,
`low_pass_filter` with the predicate `is_valid`. -/
def Sequencer.clean (D : Dbl) (args : split_args D) (apply_low_pass_filter : Bool)
    (sorted : Trajectory) : Trajectory :=
  let time_eq := fun (a b : Position) => decide (a.t = b.t)
  let trajectory := std_unique time_eq sorted
  if apply_low_pass_filter then
    let is_valid := fun (a b : Position) => D.le (a.x.dist_nm D b.x) args.ds_max
    utility.low_pass_filter trajectory is_valid
  else
    trajectory

/-- The condition under which `Sequencer::run` calls `process`:
`n > 0 and n * dt_max >= dt` and `t_max - t_min >= dt`, with
`dt = seq_length * dti` in 32-bit and `n * dt_max` in 64-bit arithmetic. -/
def Sequencer.gate (D : Dbl) (args : split_args D) (trajectory : Trajectory) : Bool :=
  let dt := umul args.seq_length args.dti
  let n := trajectory.length
  if n > 0 ∧ (n * args.dt_max) % U64 ≥ dt then
    match trajectory.head?, trajectory.getLast? with
    | some front, some back => decide (usub back.t front.t ≥ dt)
    | _, _ => false
  else
    false

/-- `Sequencer::run`, for a handler whose `process` acts on a state `σ`.  The
store `trajectories_` is the list of its (key, buffer) entries in iteration
order; `sort` is the sorting function. -/
def Sequencer.run {σ : Type} (D : Dbl) (args : split_args D)
    (sort : Trajectory → Trajectory) (process : σ → Int → Trajectory → Option σ)
    (apply_low_pass_filter : Bool) : List (Int × Trajectory) → σ → Option σ
  | [], st => some st
  | (mmsi, raw) :: rest, st =>
    let trajectory := Sequencer.clean D args apply_low_pass_filter (sort raw)
    if Sequencer.gate D args trajectory then
      match process st mmsi trajectory with
      | none => none
      | some st1 => Sequencer.run D args sort process apply_low_pass_filter rest st1
    else
      Sequencer.run D args sort process apply_low_pass_filter rest st

/-- `std::unordered_map::emplace`: adds the entry unless the key is present. -/
def emplace {ν : Type} (m : List (Int × ν)) (k : Int) (v : ν) : List (Int × ν) :=
  if m.any (fun e => e.1 == k) then m else m ++ [(k, v)]

/-- `std::unordered_map::insert_or_assign`. -/
def insert_or_assign {ν : Type} (m : List (Int × ν)) (k : Int) (v : ν) : List (Int × ν) :=
  if m.any (fun e => e.1 == k) then m.map (fun e => if e.1 == k then (k, v) else e)
  else m ++ [(k, v)]

/-- `Sequencer::add_trajectory`. -/
def Sequencer.add_trajectory (trajectories_ : List (Int × Trajectory)) (mmsi : Int)
    (trajectory : Trajectory) : List (Int × Trajectory) :=
  insert_or_assign trajectories_ mmsi trajectory

/-- `SequenceMaker::process`. -/
def SequenceMaker.process (D : Dbl) (args : split_args D) (seqs_ : List (Int × List Point))
    (mmsi : Int) (trajectory : Trajectory) : Option (List (Int × List Point)) :=
  match split D trajectory args with
  | none => none
  | some stripped_seq =>
    if stripped_seq ≠ [] then some (emplace seqs_ mmsi stripped_seq) else some seqs_

/-- `SequenceMaker::run` on a freshly constructed handler (`seqs_` empty). -/
def SequenceMaker.run (D : Dbl) (args : split_args D) (sort : Trajectory → Trajectory)
    (apply_low_pass_filter : Bool) (trajectories_ : List (Int × Trajectory)) :
    Option (List (Int × List Point)) :=
  Sequencer.run D args sort (SequenceMaker.process D args) apply_low_pass_filter
    trajectories_ []

/-! ## Data of the test suite (`tests.cpp`) -/

/-- The parameters of the test cases `Test split` and `Test seqmaker with LPF`:
`seq_length = 5`, `dti = 5`, `dt_max = 15`, `ds_max = 5. / (600000. / 60.)` and
`v_min = 0.`. -/
def test_args (D : Dbl) : split_args D where
  seq_length := 5
  dt_max := 15
  dti := 5
  ds_max := D.div (D.lit 5 0) (D.div (D.lit 600000 0) (D.lit 60 0))
  v_min := D.lit 0 0

/-- The trajectory of the test case `Test interpolation`. -/
def test_interpolation_trajectory : Trajectory :=
  [⟨0, ⟨0, 0⟩⟩, ⟨20, ⟨4, 2⟩⟩, ⟨50, ⟨10, 5⟩⟩]

/-- The trajectory of the test case `Test split`. -/
def test_split_trajectory : Trajectory :=
  [⟨0, ⟨0, 0⟩⟩, ⟨10, ⟨4, 2⟩⟩, ⟨20, ⟨8, 4⟩⟩, ⟨30, ⟨12, 6⟩⟩, ⟨40, ⟨16, 8⟩⟩, ⟨50, ⟨20, 10⟩⟩,
   ⟨60, ⟨24, 12⟩⟩, ⟨70, ⟨28, 14⟩⟩, ⟨999, ⟨32, 16⟩⟩, ⟨90, ⟨36, 18⟩⟩, ⟨100, ⟨40, 20⟩⟩,
   ⟨110, ⟨44, 22⟩⟩, ⟨120, ⟨48, 24⟩⟩, ⟨130, ⟨52, 26⟩⟩, ⟨140, ⟨60, 28⟩⟩, ⟨150, ⟨60, 30⟩⟩]

/-- The trajectory of the test case `Test seqmaker with LPF`, before it is
shuffled. -/
def test_lpf_trajectory : Trajectory :=
  [⟨0, ⟨0, 0⟩⟩, ⟨10, ⟨4, 2⟩⟩, ⟨11, ⟨99, 4⟩⟩, ⟨20, ⟨8, 4⟩⟩, ⟨30, ⟨12, 6⟩⟩, ⟨31, ⟨16, 8⟩⟩,
   ⟨40, ⟨16, 8⟩⟩, ⟨41, ⟨20, 99⟩⟩, ⟨42, ⟨20, 99⟩⟩, ⟨50, ⟨20, 10⟩⟩, ⟨60, ⟨24, 12⟩⟩,
   ⟨70, ⟨28, 14⟩⟩, ⟨80, ⟨32, 16⟩⟩, ⟨90, ⟨36, 18⟩⟩, ⟨999, ⟨36, 18⟩⟩, ⟨100, ⟨40, 20⟩⟩,
   ⟨110, ⟨44, 22⟩⟩, ⟨120, ⟨48, 24⟩⟩, ⟨130, ⟨52, 26⟩⟩, ⟨140, ⟨56, 28⟩⟩, ⟨150, ⟨60, 30⟩⟩,
   ⟨160, ⟨64, 32⟩⟩, ⟨161, ⟨64, 99⟩⟩, ⟨170, ⟨68, 34⟩⟩, ⟨180, ⟨72, 36⟩⟩, ⟨190, ⟨76, 38⟩⟩]

/-- The sequence expected by the test case `Test seqmaker with LPF`. -/
def test_lpf_expected : List Point :=
  [⟨0, 0⟩, ⟨2, 1⟩, ⟨4, 2⟩, ⟨6, 3⟩, ⟨8, 4⟩, ⟨10, 5⟩,
   ⟨20, 10⟩, ⟨22, 11⟩, ⟨24, 12⟩, ⟨26, 13⟩, ⟨28, 14⟩, ⟨30, 15⟩,
   ⟨36, 18⟩, ⟨38, 19⟩, ⟨40, 20⟩, ⟨42, 21⟩, ⟨44, 22⟩, ⟨46, 23⟩,
   ⟨52, 26⟩, ⟨54, 27⟩, ⟨56, 28⟩, ⟨58, 29⟩, ⟨60, 30⟩, ⟨62, 31⟩]

/-- The sequence expected by the test case `Test split`. -/
def test_split_expected : List Point :=
  [⟨0, 0⟩, ⟨2, 1⟩, ⟨4, 2⟩, ⟨6, 3⟩, ⟨8, 4⟩, ⟨10, 5⟩,
   ⟨16, 8⟩, ⟨18, 9⟩, ⟨20, 10⟩, ⟨22, 11⟩, ⟨24, 12⟩, ⟨26, 13⟩,
   ⟨36, 18⟩, ⟨38, 19⟩, ⟨40, 20⟩, ⟨42, 21⟩, ⟨44, 22⟩, ⟨46, 23⟩]

/-- The transition predicate of the test case `Test low pass filter`:
`std::abs(a - b) < 2`. -/
def test_abs_diff_lt_2 (a b : Int) : Bool := decide ((a - b).natAbs < 2)

/-- Four positions on the equator, ten seconds and two longitude units apart. -/
def equator_trajectory : Trajectory :=
  [⟨0, ⟨0, 0⟩⟩, ⟨10, ⟨0, 2⟩⟩, ⟨20, ⟨0, 4⟩⟩, ⟨30, ⟨0, 6⟩⟩]

/-! ## Specification-level definitions

The notions the statements below are phrased in.  They are not part of the
sources. -/

namespace utility

/-- Whether the transition between elements `k` and `k + 1` exists and is valid. -/
def valid_at {α : Type} (valid : α → α → Bool) (xs : List α) (k : Nat) : Bool :=
  match xs[k]?, xs[k + 1]? with
  | some a, some b => valid a b
  | _, _ => false

/-- Element `k` has a valid transition with its left or its right neighbour. -/
def has_valid_neighbour {α : Type} (valid : α → α → Bool) (xs : List α) (k : Nat) : Bool :=
  (decide (0 < k) && valid_at valid xs (k - 1)) || valid_at valid xs k

end utility

/-- The dispatch condition of the orchestrator in the words of the
specification: the buffer is non-empty, `size * dt_max >= seq_length * dti` and
`last.t - first.t >= seq_length * dti`, evaluated in the machine arithmetic of
the sources. -/
def GateCondition (D : Dbl) (args : split_args D) (C : Trajectory) : Prop :=
  C ≠ [] ∧ (C.length * args.dt_max) % U64 ≥ umul args.seq_length args.dti ∧
    ∃ first last, C.head? = some first ∧ C.getLast? = some last ∧
      usub last.t first.t ≥ umul args.seq_length args.dti

/-- `pt` is the value `interpolate` computes for the grid time `ti`: the blend of
the consecutive pair `(p_j, p_j+1)` with the smallest `j` such that
`p_j+1.t >= ti`, with weight `(ti - p_j.t) / (p_j+1.t - p_j.t)`. -/
def IsGridPoint (D : Dbl) (trajectory : Trajectory) (ti : Nat) (pt : Point) : Prop :=
  ∃ j pj pj1, trajectory[j]? = some pj ∧ trajectory[j + 1]? = some pj1 ∧ ti ≤ pj1.t ∧
    (∀ j', j' < j → ∀ q, trajectory[j' + 1]? = some q → q.t < ti) ∧
    pt = pj.x.interpolate D pj1.x (D.div (D.ofNat (ti - pj.t)) (D.ofNat (pj1.t - pj.t)))

/-- The completed segments of `split`: the successive contents of `buffer` each
time the branch `pos.t - t0 >= args.seq_length * args.dti` is taken, i.e. the
arguments of the calls of `interpolate`, in order.  The control flow is that of
`split.step`; `buffer` and `t0` are the loop variables before the iteration. -/
def split.segments (D : Dbl) (args : split_args D) :
    Trajectory → Nat → List Position → List Trajectory
  | _, _, [] => []
  | buffer, t0, pos :: rest =>
    match buffer.getLast? with
    | none => split.segments D args [pos] pos.t rest
    | some last_pos =>
      if is_gap D args pos last_pos then split.segments D args [pos] pos.t rest
      else if usub pos.t t0 ≥ umul args.seq_length args.dti then
        (buffer ++ [pos]) :: split.segments D args [] t0 rest
      else split.segments D args (buffer ++ [pos]) t0 rest

/-- The admission test of `split`: `ais::acc_dist_nm(seq) >= d_min`. -/
def split.accepted (D : Dbl) (args : split_args D) (seq : List Point) : Bool :=
  D.le (d_min D args) (acc_dist_nm D seq)

/-- `run` consists of the positions `a..b` of `trajectory` and is a completed
gap-free run: consecutive positions are no gap, the span from the first to the
last position reaches `seq_length * dti`, and no earlier position does. -/
structure IsRun (D : Dbl) (args : split_args D) (trajectory : Trajectory) (a b : Nat)
    (run : Trajectory) : Prop where
  positions : run = (trajectory.drop a).take (b + 1 - a)
  lt : a < b
  bound : b < trajectory.length
  nogap : run.Chain' (fun p q =>
    usub q.t p.t ≤ args.dt_max ∧ D.lt args.ds_max (q.x.dist_nm D p.x) = false)
  reach : ∃ pa pb, run.head? = some pa ∧ run.getLast? = some pb ∧
    usub pb.t pa.t ≥ umul args.seq_length args.dti
  early : ∀ pa, run.head? = some pa →
    ∀ p ∈ run.dropLast.tail, usub p.t pa.t < umul args.seq_length args.dti

/-- The invariant of the working buffer of `split`. -/
structure split.BufInv (D : Dbl) (args : split_args D) (buffer : Trajectory) (t0 : Nat) :
    Prop where
  nogap : buffer.Chain' (fun p q =>
    usub q.t p.t ≤ args.dt_max ∧ D.lt args.ds_max (q.x.dist_nm D p.x) = false)
  anchor : ∀ pa, buffer.head? = some pa → pa.t = t0
  early : ∀ p ∈ buffer.tail, usub p.t t0 < umul args.seq_length args.dti

namespace ieee

/-- The rational value of a finite binary64 value (0 for NaN and infinities). -/
def val : B64 → ℚ
  | .fin s m e => (if s then -1 else 1) * ((m : ℚ) * (2 : ℚ) ^ e)
  | _ => 0

/-- The canonical form of the finite results of the operations. -/
def Canon (m : Nat) (e : Int) : Prop :=
  m < 2 ^ 53 ∧ -1074 ≤ e ∧ e ≤ 971 ∧ (2 ^ 52 ≤ m ∨ e = -1074)

/-- Finite and non-negative. -/
def Fin0 (x : B64) : Prop := ∃ m e, x = .fin false m e

/-- Finite, non-negative and in canonical form. -/
def NN (x : B64) : Prop := ∃ m e, x = .fin false m e ∧ Canon m e

/-- Replaces the sign of a value. -/
def withSign (s : Bool) : B64 → B64
  | .nan => .nan
  | .inf _ => .inf s
  | .fin _ m e => .fin s m e

/-- The absolute value. -/
def abs (x : B64) : B64 := withSign false x

end ieee

/-! ### Notions for the distance computation in the binary64 model -/

namespace ieee

/-- Finite with magnitude at most `2^j`. -/
def Bnd (j : Int) (x : B64) : Prop :=
  ∃ s m e, x = .fin s m e ∧ (m : ℚ) * (2 : ℚ) ^ e ≤ (2 : ℚ) ^ j

/-- `std::cos` as far as the development relies on it: finite arguments give
finite values of magnitude at most one, and arguments of magnitude at most
`2^-10` give values of at least one half. -/
structure CosSpec (cos : B64 → B64) : Prop where
  bounded : ∀ s m e, Bnd 0 (cos (.fin s m e))
  near_zero : ∀ x, le (abs x) (.fin false (2 ^ 52) (-62)) = true →
    ∃ m e, cos x = .fin false m e ∧ (1 / 2 : ℚ) ≤ (m : ℚ) * (2 : ℚ) ^ e

/-- The function `ais2deg` of `Point::dist_nm` in the binary64 model. -/
def ais2deg (a : Int) : B64 := div (rndZ (decide (a < 0)) a.natAbs 0) (rnd false 600000 1)

/-- The argument of `std::cos` in `Point::dist_nm(self, other)`. -/
def cos_arg (self other : Point) : B64 :=
  mul (div (div (ais2deg (self.latitude + other.latitude)) (rnd false 2 1)) (rnd false 180 1))
    (rnd false 314159265358979323846 (10 ^ 20))

/-- The argument of `std::sqrt` in `Point::dist_nm`, as a function of the cosine
`c` and of the differences `dlat` and `dlon` in degrees. -/
def S_of (c dlat dlon : B64) : B64 :=
  add (mul dlat dlat) (mul (mul (mul c c) dlon) dlon)

/-- The value of `Point::dist_nm(self, other)` when `std::cos` returns `c`. -/
def dist_of (c : B64) (self other : Point) : B64 :=
  mul (sqrt (S_of c (ais2deg (self.latitude - other.latitude))
      (ais2deg (self.longitude - other.longitude))))
    (rnd false 60 1)

/-- Coordinates in the range of `std::int32_t`. -/
def InRange (p : Point) : Prop :=
  -2 ^ 31 ≤ p.latitude ∧ p.latitude < 2 ^ 31 ∧ -2 ^ 31 ≤ p.longitude ∧ p.longitude < 2 ^ 31

/-- Not NaN and not negative: a non-negative finite value or `+∞`. -/
def NonNeg (x : B64) : Prop := x = .inf false ∨ Fin0 x

/-- Boolean test for `Fin0`. -/
def isFin0 : B64 → Bool
  | .fin false _ _ => true
  | _ => false

/-- All intermediate results of `S_of c a b` are finite and non-negative. -/
def chain_ok (c a b : B64) : Bool :=
  isFin0 (mul c c) && isFin0 (mul (mul c c) b) && isFin0 (mul (mul (mul c c) b) b) &&
    isFin0 (mul a a) && isFin0 (S_of c a b)

/-- Prop version of `chain_ok`. -/
def ChainFin (c a b : B64) : Prop :=
  Fin0 (mul c c) ∧ Fin0 (mul (mul c c) b) ∧ Fin0 (mul (mul (mul c c) b) b) ∧
    Fin0 (mul a a) ∧ Fin0 (S_of c a b)

/-- The value one. -/
def one : B64 := .fin false (2 ^ 52) (-52)

/-- The value one half. -/
def half : B64 := .fin false (2 ^ 52) (-53)

/-- The value sixty. -/
def sixty : B64 := .fin false 8444249301319680 (-47)

/-- The grid point `2^-17`: sixty times it is below the `ds_max` of the tests. -/
def Ynear : B64 := .fin false (2 ^ 52) (-69)

/-- The grid point `5 * 2^-19`: sixty times it is above the `ds_max` of the tests. -/
def Yfar : B64 := .fin false (5 * 2 ^ 50) (-69)

/-- The `ds_max` of the tests, `5. / (600000. / 60.)`. -/
def ds_test : B64 := .fin false 4611686018427388 (-63)

/-- Sufficient condition for `dist_nm(p, q) ≤ 60 * 2^-17` whenever the cosine is
in `[0, 1]`: the argument of the square root, computed with cosine 1, is at
most `2^-34`. -/
def near_chk (p q : Point) : Bool :=
  match ais2deg (p.latitude - q.latitude), ais2deg (p.longitude - q.longitude) with
  | .fin _ k1 f1, .fin _ k2 f2 =>
    chain_ok one (.fin false k1 f1) (.fin false k2 f2) &&
      le (S_of one (.fin false k1 f1) (.fin false k2 f2)) (.fin false (2 ^ 104) (-138))
  | _, _ => false

/-- Sufficient condition for `dist_nm(p, q) ≥ 60 * 5 * 2^-19` whenever the cosine
is in `[1/2, 1]`: the argument of the square root, computed with cosine 1/2, is
at least `25 * 2^-38` (and with cosine 1 at most 1). -/
def far_chk (p q : Point) : Bool :=
  match ais2deg (p.latitude - q.latitude), ais2deg (p.longitude - q.longitude) with
  | .fin _ k1 f1, .fin _ k2 f2 =>
    chain_ok one (.fin false k1 f1) (.fin false k2 f2) &&
      le (S_of one (.fin false k1 f1) (.fin false k2 f2)) one &&
      le (.fin false (25 * 2 ^ 100) (-138)) (S_of half (.fin false k1 f1) (.fin false k2 f2))
  | _, _ => false

/-- The pair `(p, q)` is classified: the argument of the cosine is at most
`2^-10` in magnitude and the distance is recognised as near or as far. -/
def classified (p q : Point) : Bool :=
  le (abs (cos_arg p q)) (.fin false (2 ^ 52) (-62)) && (near_chk p q || far_chk p q)

/-- The constant function 1, which meets `CosSpec`. -/
def cos_unit : B64 → B64 := fun _ => .fin false (2 ^ 52) (-52)

end ieee

/-- Consecutive positions of the trajectory are classified, the later position
first (the order of the arguments of `dist_nm` in `split`). -/
def classified_gaps : Trajectory → Bool
  | l :: pos :: rest => ieee.classified pos.x l.x && classified_gaps (pos :: rest)
  | _ => true

/-- The buffer of the test case `Test seqmaker with LPF` after sorting,
de-duplication and the spike filter: the positions at 11, 161 and 999 seconds
are removed. -/
def test_lpf_cleaned : Trajectory :=
  [⟨0, ⟨0, 0⟩⟩, ⟨10, ⟨4, 2⟩⟩, ⟨20, ⟨8, 4⟩⟩, ⟨30, ⟨12, 6⟩⟩, ⟨31, ⟨16, 8⟩⟩,
   ⟨40, ⟨16, 8⟩⟩, ⟨41, ⟨20, 99⟩⟩, ⟨42, ⟨20, 99⟩⟩, ⟨50, ⟨20, 10⟩⟩, ⟨60, ⟨24, 12⟩⟩,
   ⟨70, ⟨28, 14⟩⟩, ⟨80, ⟨32, 16⟩⟩, ⟨90, ⟨36, 18⟩⟩, ⟨100, ⟨40, 20⟩⟩,
   ⟨110, ⟨44, 22⟩⟩, ⟨120, ⟨48, 24⟩⟩, ⟨130, ⟨52, 26⟩⟩, ⟨140, ⟨56, 28⟩⟩, ⟨150, ⟨60, 30⟩⟩,
   ⟨160, ⟨64, 32⟩⟩, ⟨170, ⟨68, 34⟩⟩, ⟨180, ⟨72, 36⟩⟩, ⟨190, ⟨76, 38⟩⟩]

/-- Consecutive positions of the trajectory are classified, the earlier
position first (the order of the arguments of `dist_nm` in `is_valid`). -/
def classified_steps : Trajectory → Bool
  | a :: b :: rest => ieee.classified a.x b.x && classified_steps (b :: rest)
  | _ => true

/-! ### Validation of input records (`ais.hpp`, `utility.hpp`, `sequencer.cpp`)

These definitions are translated from the sources. -/

namespace ais

/-- `is_valid_mmsi`. -/
def is_valid_mmsi (mmsi : Int) : Bool :=
  let MIN_MMSI : Int := 200000000
  let MAX_MMSI : Int := 799999999
  decide (mmsi ≥ MIN_MMSI) && decide (mmsi ≤ MAX_MMSI)

/-- `Point::MAX_LATITUDE`. -/
def Point.MAX_LATITUDE : Int := 180 * 600000

/-- `Point::MIN_LATITUDE`. -/
def Point.MIN_LATITUDE : Int := -Point.MAX_LATITUDE

/-- `Point::MAX_LONGITUDE`. -/
def Point.MAX_LONGITUDE : Int := 180 * 600000

/-- `Point::MIN_LONGITUDE`. -/
def Point.MIN_LONGITUDE : Int := -Point.MAX_LONGITUDE

end ais

namespace utility

/-- The digits consumed by `std::from_chars` in base 10: the value of the
longest prefix of decimal digits, accumulated from `acc`. -/
def from_chars.digits : Nat → List Char → Nat
  | acc, [] => acc
  | acc, c :: cs =>
    if c.isDigit then from_chars.digits (acc * 10 + (c.toNat - 48)) cs else acc

/-- `std::from_chars(first, last, value)` for `std::uint32_t`: the pattern is a
non-empty sequence of decimal digits (no sign, no leading white space); without
a match, or when the number is not representable, `value` is left unmodified. -/
def from_chars_u32 (s : List Char) (value : Nat) : Nat :=
  match s with
  | [] => value
  | c :: _ =>
    if c.isDigit then
      if from_chars.digits 0 s < U32 then from_chars.digits 0 s else value
    else value

/-- `std::from_chars(first, last, value)` for `std::int32_t`: the pattern is an
optional minus sign followed by a non-empty sequence of decimal digits. -/
def from_chars_i32 (s : List Char) (value : Int) : Int :=
  match s with
  | [] => value
  | c :: cs =>
    if c = '-' then
      match cs with
      | [] => value
      | d :: _ =>
        if d.isDigit then
          if from_chars.digits 0 cs ≤ 2 ^ 31 then -(from_chars.digits 0 cs : Int) else value
        else value
    else if c.isDigit then
      if from_chars.digits 0 s < 2 ^ 31 then (from_chars.digits 0 s : Int) else value
    else value

/-- `utility::to<std::uint32_t>`. -/
def to_u32 (s : List Char) (fallback : Nat) : Nat := from_chars_u32 s fallback

/-- `utility::to<std::int32_t>`. -/
def to_i32 (s : List Char) (fallback : Int) : Int := from_chars_i32 s fallback

/-- `utility::time_recorded<ais::time_t>`: all arithmetic is unsigned 32-bit, so
`-ONE_MINUTE` is `2^32 - 60`. -/
def time_recorded (recv_seconds slot_seconds : List Char) : Option Nat :=
  let recv := to_u32 recv_seconds 0
  let slot_max_value := 59
  let slot := to_u32 slot_seconds (uadd slot_max_value 1)
  if recv = 0 ∨ slot > slot_max_value then none
  else
    let ONE_MINUTE := 60
    let sec := recv % ONE_MINUTE
    let slot_correction := if sec < slot then usub 0 ONE_MINUTE else 0
    let dt := usub (usub sec slot) slot_correction
    some (usub recv dt)

end utility

/-- The lambda `process_ais_line` of the constructor of `Sequencer`: an empty
column throws `std::invalid_argument` (`Except.error`), an invalid record gives
`std::nullopt`. -/
def process_ais_line (t_str mmsi_str slot_str lat_str lon_str : List Char) :
    Except String (Option (Int × Position)) :=
  if t_str.isEmpty || mmsi_str.isEmpty || slot_str.isEmpty || lat_str.isEmpty ||
      lon_str.isEmpty then
    .error "Invalid data format. At least one column is empty."
  else
    let pos_fallback : Int := 2 ^ 31 - 1
    let t := utility.time_recorded t_str slot_str
    let mmsi := utility.to_i32 mmsi_str 0
    let lat := utility.to_i32 lat_str pos_fallback
    let lon := utility.to_i32 lon_str pos_fallback
    let valid_pos := decide (Point.MIN_LATITUDE ≤ lat) && decide (lat ≤ Point.MAX_LATITUDE) &&
      decide (Point.MIN_LONGITUDE ≤ lon) && decide (lon ≤ Point.MAX_LONGITUDE)
    match t with
    | some tv =>
      if is_valid_mmsi mmsi && valid_pos then
        .ok (some (mmsi, { t := tv, x := { latitude := lat, longitude := lon } }))
      else .ok none
    | none => .ok none

namespace utility

/-- The text starts with an unsigned integer: its first character is a
decimal digit. -/
def starts_with_uint : List Char → Bool
  | c :: _ => c.isDigit
  | [] => false

/-- The text starts with an integer: an optional minus sign followed by a
decimal digit. -/
def starts_with_int : List Char → Bool
  | c :: cs => if c = '-' then starts_with_uint cs else c.isDigit
  | [] => false

end utility

/-! ### Notions for the distance over the reals and for the blend of `interpolate` -/

/-- An exact interpretation of the arithmetic `D` over the reals: `r` maps the
values of `D` to real numbers and the operations used by `Point::dist_nm` are the
operations on real numbers. -/
structure Dbl.Exact (D : Dbl) (r : D.F → ℝ) : Prop where
  lit : ∀ m k, r (D.lit m k) = (m : ℝ) / 10 ^ k
  ofInt : ∀ z, r (D.ofInt z) = (z : ℝ)
  add : ∀ a b, r (D.add a b) = r a + r b
  mul : ∀ a b, r (D.mul a b) = r a * r b
  div : ∀ a b, r (D.div a b) = r a / r b
  sqrt : ∀ a, r (D.sqrt a) = Real.sqrt (r a)
  cos : ∀ a, r (D.cos a) = Real.cos (r a)

namespace ieee

/-- Truncation toward zero of a rational number. -/
def trunc (x : ℚ) : Int := if 0 ≤ x then ⌊x⌋ else ⌈x⌉

end ieee

/-- The coordinate the specification assigns to `interpolate`: the blend
`a + w * (b - a)`, computed without rounding, truncated toward zero. -/
def blend_trunc (a b : Int) (w : ℚ) : Int := ieee.trunc ((a : ℚ) + w * ((b : ℚ) - (a : ℚ)))

/-! ### The output of `split` read as a trajectory on the grid -/

/-- The points of a sequence stamped with the grid times `t`, `t + dti`,
`t + 2 * dti`, ... -/
def grid_stamp (dti : Nat) : Nat → List Point → Trajectory
  | _, [] => []
  | t, x :: xs => { t := t, x := x } :: grid_stamp dti (t + dti) xs

/-! ### The blend of `Point::interpolate` before the conversion -/

namespace ais

/-- The `double` expression `(1. - w) * a + w * b` whose conversion to the
coordinate type is the result of the local function `intrplt` of
`Point::interpolate`. -/
def Point.blend (D : Dbl) (a b : Int) (w : D.F) : D.F :=
  D.add (D.mul (D.sub (D.lit 1 0) w) (D.ofInt a)) (D.mul w (D.ofInt b))

end ais

/-! ### The reset policy of `drop_rate` in the words of the specification, and positions at the thresholds -/

/-- The reset policy the specification ascribes to `drop_rate`: as
`drop_rate.step`, except that the anchor is set only for the first position of
the trajectory (`i == 1` with no completed segment before), so that the position
following a completed segment is tested against the previous anchor. -/
def drop_rate.step_keeping_anchor (D : Dbl) (args : split_args D)
    (s : drop_rate.State × Bool) (pos : Position) : drop_rate.State × Bool :=
  let i := uadd s.1.i 1
  if s.2 = false then
    ({ s.1 with i := i, t0 := pos.t, last_pos := pos }, true)
  else if is_gap D args pos s.1.last_pos then
    ({ s.1 with i := 1, t0 := pos.t, last_pos := pos }, true)
  else if usub pos.t s.1.t0 ≥ umul args.seq_length args.dti then
    ({ s.1 with total := uadd s.1.total i, i := 0, last_pos := pos }, true)
  else
    ({ s.1 with i := i, last_pos := pos }, true)

/-- The value of `total` under the reset policy of `drop_rate.step_keeping_anchor`. -/
def drop_rate.total_keeping_anchor (D : Dbl) (trajectory : Trajectory) (args : split_args D) :
    Nat :=
  (trajectory.foldl (drop_rate.step_keeping_anchor D args)
    ({ total := 0, i := 0, last_pos := { t := 0, x := { latitude := 0, longitude := 0 } },
       t0 := 0 }, false)).1.total

/-- The parameters of the tests with the spatial threshold set to the distance
between two positions on the equator that are two longitude units apart. -/
def boundary_args : split_args (ieee.model ieee.cos_zero) where
  seq_length := 5
  dt_max := 15
  dti := 5
  ds_max := Point.dist_nm (ieee.model ieee.cos_zero) ⟨0, 2⟩ ⟨0, 0⟩
  v_min := (ieee.model ieee.cos_zero).lit 0 0

/-- Three positions on the equator, exactly `dt_max = 15` seconds and exactly
`ds_max` apart. -/
def boundary_trajectory : Trajectory :=
  [⟨0, ⟨0, 0⟩⟩, ⟨15, ⟨0, 2⟩⟩, ⟨30, ⟨0, 4⟩⟩]

/-! ### The line splitter (`utility.hpp`), ingestion (`sequencer.cpp`, `io.hpp`) and the handlers `SequenceDiff` and `SequenceCounter` -/

namespace utility

/-- The `for` loop of `detail::split_map`.  `tokens` holds `tokens[0..i)`,
`first` is the range `[first, line.end())`, `std::find_first_of` is the split of
that range at its first separator.  `fuel` bounds the number of iterations;
every iteration but the last removes at least one character. -/
def detail.split_map.loop (delimiter : List Char) (N : Nat) :
    Nat → List (List Char) → List Char → List (List Char)
  | 0, tokens, _ => tokens
  | fuel + 1, tokens, first =>
    if tokens.length < N ∧ first ≠ [] then
      let token := first.takeWhile (fun c => !delimiter.contains c)
      let second := first.dropWhile (fun c => !delimiter.contains c)
      let tokens1 := if token ≠ [] then tokens ++ [token] else tokens
      match second with
      | [] => tokens1
      | _ :: next => detail.split_map.loop delimiter N fuel tokens1 next
    else tokens

/-- `utility::split_map` for a function `map` of `N` parameters, given as a
function of the list of its `N` arguments: `std::invalid_argument` is
`Except.error`. -/
def split_map {β : Type} (N : Nat) (line delimiter : List Char)
    (map : List (List Char) → β) : Except String β :=
  let tokens := detail.split_map.loop delimiter N (line.length + 1) [] line
  if tokens.length ≠ N then
    .error "Invalid data format. Could not find enough columns."
  else .ok (map tokens)

/-- The non-empty separator-free tokens of a line: the line is cut at every
character that occurs in `delimiter` and the empty pieces are discarded. -/
def separator_free_tokens (delimiter line : List Char) : List (List Char) :=
  (line.splitOnP (fun c => delimiter.contains c)).filter (fun t => !t.isEmpty)

end utility

/-- The update of `trajectories_` in the callback of the constructor of
`Sequencer`: `find(mmsi)`, `try_emplace(mmsi, 0)` if the key is absent, then
`emplace_back` on the buffer found. -/
def Sequencer.append_position : List (Int × Trajectory) → Int → Position →
    List (Int × Trajectory)
  | [], mmsi, pos => [(mmsi, [pos])]
  | (k, buffer) :: rest, mmsi, pos =>
    if k = mmsi then (k, buffer ++ [pos]) :: rest
    else (k, buffer) :: Sequencer.append_position rest mmsi pos

/-- The lambda `process_ais_line` as the function of the list of its five
arguments that `split_map` applies to the tokens. -/
def Sequencer.process_tokens (tokens : List (List Char)) :
    Except String (Option (Int × Position)) :=
  match tokens with
  | [t_str, mmsi_str, slot_str, lat_str, lon_str] =>
    process_ais_line t_str mmsi_str slot_str lat_str lon_str
  | _ => .ok none

/-- The callback the constructor of `Sequencer` passes to
`io::process_input_stream`, as a function of the store and the line:
`split_map` with the five-parameter lambda `process_ais_line`, then the update
of the store if the result holds a value.  An exception is `Except.error`. -/
def Sequencer.ingest (delimiter : List Char) (trajectories_ : List (Int × Trajectory))
    (line : List Char) : Except String (List (Int × Trajectory)) :=
  match utility.split_map 5 line delimiter Sequencer.process_tokens with
  | .error msg => .error msg
  | .ok (.error msg) => .error msg
  | .ok (.ok none) => .ok trajectories_
  | .ok (.ok (some (mmsi, trajectory))) =>
    .ok (Sequencer.append_position trajectories_ mmsi trajectory)

/-- `io::process_input_stream`: `f` is called with every line that is terminated
by a newline character; `buffer` holds the characters read since the last
newline.  An exception thrown by `f` ends the loop. -/
def process_input_stream {σ : Type} (f : σ → List Char → Except String σ) :
    List Char → List Char → σ → Except String σ
  | [], _, st => .ok st
  | c :: rest, buffer, st =>
    if c = '\n' then
      match f st buffer with
      | .error msg => .error msg
      | .ok st1 => process_input_stream f rest [] st1
    else process_input_stream f rest (buffer ++ [c]) st

/-- The store after the constructor `Sequencer(split_args, delimiter)` has read
the standard input `input`. -/
def Sequencer.read (delimiter input : List Char) : Except String (List (Int × Trajectory)) :=
  if delimiter.isEmpty then .ok []
  else process_input_stream (Sequencer.ingest delimiter) input [] []

/-- The parameters the constructor of `SequenceDiff` passes to `Sequencer`:
`seq_length = 0`, `dt_max = 1`, `dti = 0`, `ds_max = 0.`, `v_min = 0.`. -/
def SequenceDiff.args (D : Dbl) : split_args D where
  seq_length := 0
  dt_max := 1
  dti := 0
  ds_max := D.lit 0 0
  v_min := D.lit 0 0

/-- The lambda that `SequenceDiff::process` passes to `adjacent_diff`:
`(pos2.t - pos1.t, static_cast<int32_t>(std::round(dx_nm * AIS_SCALE)))` with
`dx_nm = pos2.x.dist_nm(pos1.x)` and `AIS_SCALE = 10000.`. -/
def SequenceDiff.diff (D : Dbl) (pos1 pos2 : Position) : Nat × Int :=
  let dt := usub pos2.t pos1.t
  let dx_nm := pos2.x.dist_nm D pos1.x
  let AIS_SCALE := D.lit 10000 0
  let dx_ais := D.round (D.mul dx_nm AIS_SCALE)
  (dt, D.toInt dx_ais)

/-- `SequenceDiff::process`, as a function of the member `diffs_`. -/
def SequenceDiff.process (D : Dbl) (stride_ : Nat) (diffs_ : List (Nat × Int)) (_mmsi : Int)
    (trajectory : Trajectory) : Option (List (Nat × Int)) :=
  if trajectory.length > stride_ then
    let diff := utility.adjacent_diff trajectory (SequenceDiff.diff D) stride_
    some (diffs_ ++ diff)
  else some diffs_

/-- `SequenceDiff::run` on a freshly constructed handler (`diffs_` empty). -/
def SequenceDiff.run (D : Dbl) (sort : Trajectory → Trajectory) (stride : Nat)
    (trajectories_ : List (Int × Trajectory)) : Option (List (Nat × Int)) :=
  Sequencer.run D (SequenceDiff.args D) sort (SequenceDiff.process D stride) false
    trajectories_ []

/-- `SequenceCounter::process`, as a function of the member `drop_rates_`. -/
def SequenceCounter.process (D : Dbl) (args : split_args D) (drop_rates_ : List (Int × D.F))
    (mmsi : Int) (trajectory : Trajectory) : Option (List (Int × D.F)) :=
  some (emplace drop_rates_ mmsi (drop_rate D trajectory args))

/-- `SequenceCounter::run` on a freshly constructed handler (`drop_rates_`
empty). -/
def SequenceCounter.run (D : Dbl) (args : split_args D) (sort : Trajectory → Trajectory)
    (apply_low_pass_filter : Bool) (trajectories_ : List (Int × Trajectory)) :
    Option (List (Int × D.F)) :=
  Sequencer.run D args sort (SequenceCounter.process D args) apply_low_pass_filter
    trajectories_ []

/-- A store with three vessels: four positions out of order with one repeated
timestamp, a single position, and two positions out of order. -/
def diff_store : List (Int × Trajectory) :=
  [(211000000, [⟨10, ⟨6000, 0⟩⟩, ⟨0, ⟨0, 0⟩⟩, ⟨10, ⟨9999, 0⟩⟩, ⟨25, ⟨6000, 6000⟩⟩]),
   (305000000, [⟨5, ⟨0, 0⟩⟩]),
   (412000000, [⟨7, ⟨0, 0⟩⟩, ⟨3, ⟨0, 1⟩⟩])]

/-- A store with three vessels: a single position, two positions 100 s apart,
and four positions 10 s apart. -/
def counter_store : List (Int × Trajectory) :=
  [(211000000, [⟨0, ⟨0, 0⟩⟩]),
   (305000000, [⟨0, ⟨0, 0⟩⟩, ⟨100, ⟨0, 0⟩⟩]),
   (412000000, [⟨0, ⟨0, 0⟩⟩, ⟨10, ⟨0, 0⟩⟩, ⟨20, ⟨0, 0⟩⟩, ⟨30, ⟨0, 0⟩⟩])]

/-! ### Integer arithmetic of `Point::dist_nm`, the lambdas `is_valid` and `valid_pos`, and notions for the range of `interpolate` -/

namespace ais

/-- A result of arithmetic on `Point::value_type` (`std::int32_t`): the value
when it is representable; signed overflow is undefined behaviour (`none`). -/
def i32 (z : Int) : Option Int := if -2 ^ 31 ≤ z ∧ z < 2 ^ 31 then some z else none

/-- `Point::dist_nm` with the three integer expressions `latitude -
other.latitude`, `longitude - other.longitude` and `latitude + other.latitude`
evaluated in `std::int32_t`. -/
def Point.dist_nm_i32 (D : Dbl) (self other : Point) : Option D.F :=
  let ais2deg := fun (a : Int) => D.div (D.ofInt a) (D.lit 600000 0)
  let deg2rad := fun (deg : D.F) =>
    D.mul (D.div deg (D.lit 180 0)) (D.lit 314159265358979323846 20)
  let deg2nm := fun (deg : D.F) => D.mul deg (D.lit 60 0)
  match i32 (self.latitude - other.latitude), i32 (self.longitude - other.longitude),
      i32 (self.latitude + other.latitude) with
  | some dlat, some dlon, some slat =>
    let dlat_deg := ais2deg dlat
    let dlon_deg := ais2deg dlon
    let mlat_deg := D.div (ais2deg slat) (D.lit 2 0)
    let cos_mlat := D.cos (deg2rad mlat_deg)
    let dist_deg :=
      D.sqrt (D.add (D.mul dlat_deg dlat_deg)
        (D.mul (D.mul (D.mul cos_mlat cos_mlat) dlon_deg) dlon_deg))
    some (deg2nm dist_deg)
  | _, _, _ => none

end ais

/-- The lambda `is_valid` of `Sequencer::run`:
`a.x.dist_nm(b.x) <= ds_max`. -/
def Sequencer.is_valid (D : Dbl) (args : split_args D) (a b : Position) : Bool :=
  D.le (a.x.dist_nm D b.x) args.ds_max

/-- The lambda `valid_pos` of `process_ais_line`:
`MIN_LAT <= lat and lat <= MAX_LAT and MIN_LON <= lon and lon <= MAX_LON`. -/
def valid_pos (lat lon : Int) : Bool :=
  decide (Point.MIN_LATITUDE ≤ lat) && decide (lat ≤ Point.MAX_LATITUDE) &&
    decide (Point.MIN_LONGITUDE ≤ lon) && decide (lon ≤ Point.MAX_LONGITUDE)

/-- The coordinate `r` lies in the interval spanned by `a` and `b`, or is the
integer next to that interval on the side of zero. -/
def NearSpan (a b r : Int) : Prop :=
  (0 ≤ max a b → r ≤ max a b) ∧ (max a b < 0 → r ≤ max a b + 1) ∧
    (min a b ≤ 0 → min a b ≤ r) ∧ (0 < min a b → min a b - 1 ≤ r)

theorem usub_eq (a b : Nat) (hb : b ≤ a) (ha : a < U32) : usub a b = a - b := by
  unfold usub
  have hb2 : b < U32 := lt_of_le_of_lt hb ha
  rw [Nat.mod_eq_of_lt ha, Nat.mod_eq_of_lt hb2]
  have : a + (U32 - b) = (a - b) + U32 := by omega
  rw [this, Nat.add_mod_right, Nat.mod_eq_of_lt (by omega)]

theorem uadd_eq (a b : Nat) (h : a + b < U32) : uadd a b = a + b := Nat.mod_eq_of_lt h

theorem umul_eq (a b : Nat) (h : a * b < U32) : umul a b = a * b := Nat.mod_eq_of_lt h

/-! ### The spike filter -/

namespace utility

theorem getElem?_append_head {α : Type} (pre : List α) (a : α) (rest : List α) :
    (pre ++ a :: rest)[pre.length]? = some a := by
  rw [List.getElem?_append_right (le_refl _)]
  simp

theorem getElem?_append_second {α : Type} (pre : List α) (a b : α) (rest : List α) :
    (pre ++ a :: b :: rest)[pre.length + 1]? = some b := by
  rw [List.getElem?_append_right (by omega)]
  simp

theorem getElem?_append_past {α : Type} (pre : List α) (a : α) :
    (pre ++ [a])[pre.length + 1]? = none := by
  simp

theorem low_pass_filter_loop_spec {α : Type} (valid : α → α → Bool) (xs pre : List α) (acc : Nat)
    (hacc : acc = 0 ↔ (0 < pre.length ∧ valid_at valid (pre ++ xs) (pre.length - 1) = true)) :
    low_pass_filter.loop valid acc xs =
      ((List.range' pre.length xs.length).filter
        (has_valid_neighbour valid (pre ++ xs))).filterMap (fun k => (pre ++ xs)[k]?) := by
  induction xs generalizing pre acc with
  | nil => simp [low_pass_filter.loop]
  | cons a rest ih =>
    cases rest with
    | nil =>
      have h1 : valid_at valid (pre ++ [a]) pre.length = false := by
        simp only [valid_at, getElem?_append_head, getElem?_append_past]
      by_cases h0 : acc = 0
      · have := hacc.1 h0
        simp [low_pass_filter.loop, List.range', has_valid_neighbour, h1, h0, this]
      · have h2 : ¬ (0 < pre.length ∧ valid_at valid (pre ++ [a]) (pre.length - 1) = true) :=
          fun h => h0 (hacc.2 h)
        have h3 : (decide (0 < pre.length) && valid_at valid (pre ++ [a]) (pre.length - 1)) = false := by
          simpa using h2
        simp [low_pass_filter.loop, List.range', has_valid_neighbour, h1, h0, h3]
    | cons b rest =>
      have hk : valid_at valid (pre ++ a :: b :: rest) pre.length = valid a b := by
        simp only [valid_at, getElem?_append_head, getElem?_append_second]
      have hrec := ih (pre ++ [a]) (if valid a b then 0 else acc + 1) (by
        simp only [List.length_append, List.length_singleton, Nat.add_sub_cancel,
          List.append_assoc, List.singleton_append, hk]
        by_cases hv : valid a b = true <;> simp [hv])
      simp only [List.append_assoc, List.singleton_append, List.length_append,
        List.length_singleton] at hrec
      have hkeep : has_valid_neighbour valid (pre ++ a :: b :: rest) pre.length
          = (decide (acc = 0) || valid a b) := by
        simp only [has_valid_neighbour, hk]
        by_cases h0 : acc = 0
        · have := hacc.1 h0
          simp [h0, this]
        · have h2 : ¬ (0 < pre.length ∧
              valid_at valid (pre ++ a :: b :: rest) (pre.length - 1) = true) :=
            fun h => h0 (hacc.2 h)
          have h3 : (decide (0 < pre.length) &&
              valid_at valid (pre ++ a :: b :: rest) (pre.length - 1)) = false := by
            simpa using h2
          simp [h3, h0]
      rw [low_pass_filter.loop]
      simp only [List.length_cons, List.range'_succ pre.length, List.filter_cons, hkeep]
      simp only [List.length_cons] at hrec
      cases hv : valid a b
      · simp only [hv, Bool.false_eq_true, if_false] at hrec
        by_cases h0 : acc = 0
        · subst h0
          simp only [decide_True, Bool.true_or, if_true, List.filterMap_cons,
            getElem?_append_head, Bool.false_eq_true, if_false, Nat.zero_add,
            Nat.one_lt_ofNat, hrec]
        · have h2 : ¬ (acc + 1 < 2) := by omega
          have h3 : decide (acc = 0) = false := by simpa using h0
          simp only [h3, Bool.or_false, Bool.false_eq_true, if_false, h2, hrec]
      · simp only [hv, if_true] at hrec
        simp only [Bool.or_true, if_true, List.filterMap_cons, getElem?_append_head,
          Nat.zero_lt_two, hrec]

end utility

theorem utility.low_pass_filter_loop_sublist {α : Type} (op : α → α → Bool) (xs : List α)
    (acc : Nat) : (utility.low_pass_filter.loop op acc xs).Sublist xs := by
  induction xs generalizing acc with
  | nil => simp [utility.low_pass_filter.loop]
  | cons a rest ih =>
    cases rest with
    | nil =>
      rw [utility.low_pass_filter.loop]
      split <;> simp
    | cons b rest =>
      rw [utility.low_pass_filter.loop]
      generalize (if op a b = true then 0 else acc + 1) = acc1
      split
      · exact (ih _).cons₂ a
      · exact (ih _).cons a

theorem utility.low_pass_filter_sublist {α : Type} (op : α → α → Bool) (xs : List α) :
    (utility.low_pass_filter xs op).Sublist xs := by
  unfold utility.low_pass_filter
  split
  · exact utility.low_pass_filter_loop_sublist op xs 1
  · exact List.nil_sublist xs

/-! ### `std::unique` on a buffer sorted by time -/

theorem std_unique_loop_sublist {α : Type} (p : α → α → Bool) (r : α) (xs : List α) :
    (std_unique.loop p r xs).Sublist xs := by
  induction xs generalizing r with
  | nil => simp [std_unique.loop]
  | cons b rest ih =>
    rw [std_unique.loop]
    split
    · exact (ih r).cons b
    · exact (ih b).cons₂ b

theorem std_unique_sublist {α : Type} (p : α → α → Bool) (xs : List α) :
    (std_unique p xs).Sublist xs := by
  cases xs with
  | nil => simp [std_unique]
  | cons a rest => exact (std_unique_loop_sublist p a rest).cons₂ a

theorem std_unique_loop_increasing (r : Position) (xs : Trajectory)
    (hr : ∀ x ∈ xs, r.t ≤ x.t) (hs : xs.Pairwise (fun a b => a.t ≤ b.t)) :
    (std_unique.loop (fun a b => decide (a.t = b.t)) r xs).Pairwise (fun a b => a.t < b.t) ∧
      ∀ y ∈ std_unique.loop (fun a b => decide (a.t = b.t)) r xs, r.t < y.t := by
  induction xs generalizing r with
  | nil => simp [std_unique.loop]
  | cons b rest ih =>
    rw [std_unique.loop]
    have hrest := List.pairwise_cons.1 hs
    by_cases hb : r.t = b.t
    · simp only [hb, decide_True, if_true]
      have := ih r (fun x hx => hr x (List.mem_cons_of_mem _ hx)) hrest.2
      rw [hb] at this
      exact this
    · simp only [hb, decide_False, Bool.false_eq_true, if_false]
      have hlt : r.t < b.t := lt_of_le_of_ne (hr b (List.mem_cons_self _ _)) hb
      have h := ih b hrest.1 hrest.2
      refine ⟨List.pairwise_cons.2 ⟨h.2, h.1⟩, ?_⟩
      intro y hy
      rcases List.mem_cons.1 hy with rfl | hy
      · exact hlt
      · exact lt_trans hlt (h.2 y hy)

theorem std_unique_increasing (xs : Trajectory) (hs : xs.Pairwise (fun a b => a.t ≤ b.t)) :
    (std_unique (fun a b => decide (a.t = b.t)) xs).Pairwise (fun a b => a.t < b.t) := by
  cases xs with
  | nil => simp [std_unique]
  | cons a rest =>
    have hrest := List.pairwise_cons.1 hs
    have h := std_unique_loop_increasing a rest hrest.1 hrest.2
    exact List.pairwise_cons.2 ⟨h.2, h.1⟩

theorem std_unique_loop_times (r : Position) (xs : Trajectory) :
    ∀ x ∈ xs, ∃ y ∈ r :: std_unique.loop (fun a b => decide (a.t = b.t)) r xs, y.t = x.t := by
  induction xs generalizing r with
  | nil => simp
  | cons b rest ih =>
    intro x hx
    rw [std_unique.loop]
    by_cases hb : r.t = b.t
    · simp only [hb, decide_True, if_true]
      rcases List.mem_cons.1 hx with rfl | hx
      · exact ⟨r, List.mem_cons_self _ _, hb⟩
      · exact ih r x hx
    · simp only [hb, decide_False, Bool.false_eq_true, if_false]
      rcases List.mem_cons.1 hx with rfl | hx
      · exact ⟨x, List.mem_cons_of_mem _ (List.mem_cons_self _ _), rfl⟩
      · obtain ⟨y, hy, hyt⟩ := ih b x hx
        exact ⟨y, List.mem_cons_of_mem _ hy, hyt⟩

theorem std_unique_times (xs : Trajectory) :
    ∀ x ∈ xs, ∃ y ∈ std_unique (fun a b => decide (a.t = b.t)) xs, y.t = x.t := by
  cases xs with
  | nil => simp
  | cons a rest =>
    intro x hx
    rcases List.mem_cons.1 hx with rfl | hx
    · exact ⟨x, by simp [std_unique], rfl⟩
    · exact std_unique_loop_times a rest x hx

theorem pairwise_lt_chain (xs : Trajectory) (h : xs.Pairwise (fun a b => a.t < b.t)) :
    xs.Chain' (fun a b => a.t < b.t) :=
  List.Pairwise.chain' h

theorem sort_by_time.insert_perm (p : Position) (xs : Trajectory) :
    (sort_by_time.insert p xs).Perm (p :: xs) := by
  induction xs with
  | nil => simp [sort_by_time.insert]
  | cons q rest ih =>
    rw [sort_by_time.insert]
    split
    · exact List.Perm.refl _
    · exact ((ih.cons q).trans (List.Perm.swap p q rest))

theorem sort_by_time.insert_sorted (p : Position) (xs : Trajectory)
    (h : xs.Pairwise (fun a b => a.t ≤ b.t)) :
    (sort_by_time.insert p xs).Pairwise (fun a b => a.t ≤ b.t) := by
  induction xs with
  | nil => simp [sort_by_time.insert]
  | cons q rest ih =>
    rw [sort_by_time.insert]
    have hq := List.pairwise_cons.1 h
    split
    · rename_i hpq
      refine List.pairwise_cons.2 ⟨?_, h⟩
      intro y hy
      rcases List.mem_cons.1 hy with rfl | hy
      · exact hpq
      · exact le_trans hpq (hq.1 y hy)
    · rename_i hpq
      refine List.pairwise_cons.2 ⟨?_, ih hq.2⟩
      intro y hy
      rcases List.mem_cons.1 ((sort_by_time.insert_perm p rest).subset hy) with rfl | hy
      · omega
      · exact hq.1 y hy

theorem sort_by_time_spec : SortSpec sort_by_time := by
  intro raw
  induction raw with
  | nil => exact ⟨List.Perm.refl _, List.Pairwise.nil⟩
  | cons p rest ih =>
    exact ⟨(sort_by_time.insert_perm p _).trans (ih.1.cons p),
      sort_by_time.insert_sorted p _ ih.2⟩

theorem Sequencer.gate_iff (D : Dbl) (args : split_args D) (C : Trajectory) :
    Sequencer.gate D args C = true ↔ GateCondition D args C := by
  unfold Sequencer.gate GateCondition
  cases C with
  | nil => simp
  | cons a rest =>
    have hl : ∃ last, (a :: rest).getLast? = some last :=
      ⟨(a :: rest).getLast (by simp), List.getLast?_eq_getLast _ _⟩
    obtain ⟨last, hlast⟩ := hl
    by_cases h : ((a :: rest).length * args.dt_max) % U64 ≥ umul args.seq_length args.dti
    · simp [h, hlast]
    · have h2 : ¬ (umul args.seq_length args.dti ≤ (rest.length + 1) * args.dt_max % U64) := by
        simpa using h
      simp [h, h2]

/-! ### The grid resampler -/

theorem interpolate_advance_spec (ti : Nat) (sfx : List Position) (last : Position)
    (hlen : 2 ≤ sfx.length) (hlast : sfx.getLast? = some last) (hti : ti ≤ last.t) :
    ∃ skipped pj pj1 rest, sfx = skipped ++ pj :: pj1 :: rest ∧
      interpolate.advance ti sfx = some (pj :: pj1 :: rest) ∧ ti ≤ pj1.t ∧
      ∀ k < skipped.length, ∀ q, sfx[k + 1]? = some q → q.t < ti := by
  induction sfx with
  | nil => simp at hlen
  | cons a rest ih =>
    cases rest with
    | nil => simp at hlen
    | cons b rest =>
      rw [interpolate.advance]
      by_cases hb : b.t < ti
      · simp only [hb, if_true]
        have hlen2 : 2 ≤ (b :: rest).length := by
          cases rest with
          | nil =>
            simp at hlast
            subst hlast
            omega
          | cons c rest => simp
        have hlast2 : (b :: rest).getLast? = some last := by
          simpa [List.getLast?_cons_cons] using hlast
        obtain ⟨skipped, pj, pj1, rest2, h1, h2, h3, h4⟩ := ih hlen2 hlast2
        refine ⟨a :: skipped, pj, pj1, rest2, by simp [h1], h2, h3, ?_⟩
        intro k hk q hq
        cases k with
        | zero =>
          simp at hq
          subst hq
          exact hb
        | succ k =>
          simp only [List.length_cons] at hk
          exact h4 k (by omega) q (by simpa using hq)
      · simp only [hb, if_false]
        exact ⟨[], a, b, rest, rfl, rfl, by omega, by simp⟩

theorem getLast?_append_cons {α : Type} (xs : List α) (a : α) (ys : List α) :
    (xs ++ a :: ys).getLast? = (a :: ys).getLast? := by
  rw [List.getLast?_append]
  simp [List.getLast?_eq_getLast]

theorem interpolate_loop_spec (D : Dbl) (front : Position) (tail : List Position)
    (last : Position) (N dt : Nat)
    (hsorted : (front :: tail).Pairwise (fun a b => a.t ≤ b.t))
    (hU : ∀ p ∈ front :: tail, p.t < U32)
    (hgrid : ∀ i < N, front.t + i * dt ≤ last.t)
    (k : Nat) (pre sfx : List Position) (htraj : front :: tail = pre ++ sfx)
    (hlen : 2 ≤ sfx.length) (hlast : sfx.getLast? = some last) (hk : k ≤ N)
    (hinv : ∀ j', j' < pre.length → ∀ q, (front :: tail)[j' + 1]? = some q →
      0 < k → q.t < front.t + (N - k) * dt) :
    ∃ pts, interpolate.loop D front.t dt N k sfx = some pts ∧ pts.length = k ∧
      ∀ r < k, ∃ pt, pts[r]? = some pt ∧
        IsGridPoint D (front :: tail) (front.t + (N - k + r) * dt) pt := by
  induction k generalizing pre sfx with
  | zero => exact ⟨[], rfl, rfl, by simp⟩
  | succ k ih =>
    have hi : N - (k + 1) < N := by omega
    have hlastU : last.t < U32 := by
      apply hU
      rw [htraj]
      have : last ∈ sfx := List.mem_of_getLast?_eq_some hlast
      exact List.mem_append_right _ this
    have hti : uadd front.t (umul (N - (k + 1)) dt) = front.t + (N - (k + 1)) * dt := by
      have h1 := hgrid _ hi
      rw [umul_eq _ _ (by omega), uadd_eq _ _ (by omega)]
    obtain ⟨skipped, pj, pj1, rest, h1, h2, h3, h4⟩ :=
      interpolate_advance_spec (front.t + (N - (k + 1)) * dt) sfx last hlen hlast (hgrid _ hi)
    have htraj2 : front :: tail = (pre ++ skipped) ++ pj :: pj1 :: rest := by
      rw [htraj, h1, List.append_assoc]
    have hmono : (N - (k + 1)) * dt ≤ (N - k) * dt := Nat.mul_le_mul_right _ (by omega)
    have hclause : ∀ j', j' < (pre ++ skipped).length → ∀ q,
        (front :: tail)[j' + 1]? = some q → q.t < front.t + (N - (k + 1)) * dt := by
      intro j' hj' q hq
      by_cases hjp : j' < pre.length
      · exact hinv j' hjp q hq (by omega)
      · have hj2 : j' - pre.length < skipped.length := by
          simp only [List.length_append] at hj'
          omega
        apply h4 (j' - pre.length) hj2 q
        rw [htraj, List.getElem?_append_right (by omega)] at hq
        have : j' + 1 - pre.length = j' - pre.length + 1 := by omega
        rw [this] at hq
        exact hq
    have hlast2 : (pj :: pj1 :: rest).getLast? = some last := by
      rw [h1, getLast?_append_cons] at hlast
      exact hlast
    obtain ⟨pts, hp1, hp2, hp3⟩ := ih (pre ++ skipped) (pj :: pj1 :: rest) htraj2
      (by simp) hlast2 (by omega)
      (fun j' hj' q hq _ => lt_of_lt_of_le (hclause j' hj' q hq) (by omega))
    have hgetj : (front :: tail)[(pre ++ skipped).length]? = some pj := by
      rw [htraj2, List.getElem?_append_right (le_refl _)]
      simp
    have hgetj1 : (front :: tail)[(pre ++ skipped).length + 1]? = some pj1 := by
      rw [htraj2, List.getElem?_append_right (by omega)]
      simp
    have hpjle : pj.t ≤ front.t + (N - (k + 1)) * dt := by
      by_cases h0 : (pre ++ skipped).length = 0
      · rw [h0] at hgetj
        simp at hgetj
        rw [← hgetj]
        omega
      · have := hclause ((pre ++ skipped).length - 1) (by omega) pj (by
          have : (pre ++ skipped).length - 1 + 1 = (pre ++ skipped).length := by omega
          rw [this]
          exact hgetj)
        omega
    have hpj1 : pj.t ≤ pj1.t := by
      rw [htraj2] at hsorted
      have := (List.pairwise_append.1 hsorted).2.1
      exact (List.pairwise_cons.1 this).1 pj1 (by simp)
    have hpj1U : pj1.t < U32 := by
      apply hU
      rw [htraj2]
      simp
    have hgi := hgrid _ hi
    refine ⟨pj.x.interpolate D pj1.x
      (D.div (D.ofNat (front.t + (N - (k + 1)) * dt - pj.t)) (D.ofNat (pj1.t - pj.t))) :: pts,
      ?_, by simp [hp2], ?_⟩
    · rw [interpolate.loop]
      simp only [hti, h2, hp1]
      rw [usub_eq _ _ hpjle (by omega), usub_eq _ _ hpj1 hpj1U]
    · intro r hr
      cases r with
      | zero =>
        exact ⟨_, by simp, (pre ++ skipped).length, pj, pj1, hgetj, hgetj1, h3,
          hclause, rfl⟩
      | succ r =>
        obtain ⟨pt, hpt1, hpt2⟩ := hp3 r (by omega)
        refine ⟨pt, by simpa using hpt1, ?_⟩
        have : N - (k + 1) + (r + 1) = N - k + r := by omega
        rw [this]
        exact hpt2

end seqmaker

namespace seqmaker
open ais

/-! ### Segmentation -/

theorem split.loop_segments (D : Dbl) (args : split_args D) (traj : List Position)
    (s s1 : split.State) (h : split.loop D args s traj = some s1) :
    ∃ seqs, List.Forall₂
        (fun seg seq => interpolate D seg (uadd args.seq_length 1) args.dti = some seq)
        (split.segments D args s.buffer s.t0 traj) seqs ∧
      s1.seqs = s.seqs ++ (seqs.filter (split.accepted D args)).flatten := by
  induction traj generalizing s with
  | nil =>
    simp only [split.loop, Option.some.injEq] at h
    subst h
    exact ⟨[], by simp [split.segments], by simp⟩
  | cons pos rest ih =>
    rw [split.loop] at h
    rw [split.segments]
    unfold split.step at h
    cases hb : s.buffer.getLast? with
    | none =>
      simp only [hb] at h ⊢
      exact ih _ h
    | some last_pos =>
      simp only [hb] at h ⊢
      by_cases hg : is_gap D args pos last_pos = true
      · simp only [hg, if_true] at h ⊢
        exact ih _ h
      · simp only [hg, Bool.false_eq_true, if_false] at h ⊢
        by_cases hd : usub pos.t s.t0 ≥ umul args.seq_length args.dti
        · simp only [hd, if_true] at h ⊢
          cases hi : interpolate D (s.buffer ++ [pos]) (uadd args.seq_length 1) args.dti with
          | none => simp [hi] at h
          | some seq =>
            simp only [hi] at h
            by_cases ha : D.le (d_min D args) (acc_dist_nm D seq) = true
            · simp only [ha, if_true] at h
              obtain ⟨seqs, h1, h2⟩ := ih _ h
              refine ⟨seq :: seqs, List.Forall₂.cons hi h1, ?_⟩
              simp only [h2, List.filter_cons, split.accepted, ha, if_true, List.flatten_cons,
                List.append_assoc]
            · simp only [ha, Bool.false_eq_true, if_false] at h
              obtain ⟨seqs, h1, h2⟩ := ih _ h
              refine ⟨seq :: seqs, List.Forall₂.cons hi h1, ?_⟩
              simp only [h2, List.filter_cons, split.accepted, ha, Bool.false_eq_true, if_false]
        · simp only [hd, if_false] at h ⊢
          exact ih _ h

theorem split.loop_defined (D : Dbl) (args : split_args D) (traj : List Position)
    (s : split.State)
    (h : ∀ seg ∈ split.segments D args s.buffer s.t0 traj,
      ∃ seq, interpolate D seg (uadd args.seq_length 1) args.dti = some seq) :
    ∃ s1, split.loop D args s traj = some s1 := by
  induction traj generalizing s with
  | nil => exact ⟨s, rfl⟩
  | cons pos rest ih =>
    rw [split.loop]
    rw [split.segments] at h
    unfold split.step
    cases hb : s.buffer.getLast? with
    | none =>
      simp only [hb] at h ⊢
      exact ih _ h
    | some last_pos =>
      simp only [hb] at h ⊢
      by_cases hg : is_gap D args pos last_pos = true
      · simp only [hg, if_true] at h ⊢
        exact ih _ h
      · simp only [hg, Bool.false_eq_true, if_false] at h ⊢
        by_cases hd : usub pos.t s.t0 ≥ umul args.seq_length args.dti
        · simp only [hd, if_true] at h ⊢
          obtain ⟨seq, hi⟩ := h _ (List.mem_cons_self _ _)
          simp only [hi]
          by_cases ha : D.le (d_min D args) (acc_dist_nm D seq) = true
          · simp only [ha, if_true]
            exact ih _ (fun seg hs => h seg (List.mem_cons_of_mem _ hs))
          · simp only [ha, Bool.false_eq_true, if_false]
            exact ih _ (fun seg hs => h seg (List.mem_cons_of_mem _ hs))
        · simp only [hd, if_false] at h ⊢
          exact ih _ h

theorem is_gap_false (D : Dbl) (args : split_args D) (pos last_pos : Position)
    (h : ¬ is_gap D args pos last_pos = true) :
    usub pos.t last_pos.t ≤ args.dt_max ∧
      D.lt args.ds_max (pos.x.dist_nm D last_pos.x) = false := by
  unfold is_gap at h
  simp only [Bool.or_eq_true, decide_eq_true_eq, not_or, Bool.not_eq_true] at h
  exact ⟨by omega, h.2⟩

theorem split.BufInv.single (D : Dbl) (args : split_args D) (pos : Position) :
    split.BufInv D args [pos] pos.t :=
  ⟨List.chain'_singleton _, by simp, by simp⟩

theorem split.BufInv.empty (D : Dbl) (args : split_args D) (t0 : Nat) :
    split.BufInv D args [] t0 :=
  ⟨List.chain'_nil, by simp, by simp⟩

theorem chain'_append_singleton {α : Type} (R : α → α → Prop) (xs : List α) (x last : α)
    (hc : xs.Chain' R) (hl : xs.getLast? = some last) (hr : R last x) :
    (xs ++ [x]).Chain' R := by
  rw [List.chain'_append]
  refine ⟨hc, List.chain'_singleton _, ?_⟩
  intro a ha b hb
  simp only [List.head?_cons, Option.mem_def, Option.some.injEq] at hb
  rw [Option.mem_def, hl, Option.some.injEq] at ha
  subst ha hb
  exact hr

theorem split.segments_runs (D : Dbl) (args : split_args D) (full rest : List Position)
    (buffer : Trajectory) (t0 : Nat) (pre : List Position)
    (hfull : full = pre ++ buffer ++ rest) (hinv : split.BufInv D args buffer t0) :
    ∃ runs : List (Nat × Nat),
      List.Forall₂ (fun r seg => IsRun D args full r.1 r.2 seg) runs
        (split.segments D args buffer t0 rest) ∧
      (∀ r ∈ runs, pre.length ≤ r.1) ∧ runs.Pairwise (fun r s => r.2 < s.1) := by
  induction rest generalizing buffer t0 pre with
  | nil => exact ⟨[], by simp [split.segments], by simp, List.Pairwise.nil⟩
  | cons pos rest ih =>
    rw [split.segments]
    cases hb : buffer.getLast? with
    | none =>
      have hnil : buffer = [] := List.getLast?_eq_none_iff.1 hb
      subst hnil
      simp only
      exact ih [pos] pos.t pre (by simp [hfull]) (split.BufInv.single D args pos)
    | some last_pos =>
      simp only
      have hne : buffer ≠ [] := by
        intro h
        rw [h] at hb
        simp at hb
      have hlenpos : 0 < buffer.length := List.length_pos.2 hne
      by_cases hg : is_gap D args pos last_pos = true
      · simp only [hg, if_true]
        obtain ⟨runs, h1, h2, h3⟩ := ih [pos] pos.t (pre ++ buffer) (by simp [hfull])
          (split.BufInv.single D args pos)
        refine ⟨runs, h1, ?_, h3⟩
        intro r hr
        have := h2 r hr
        simp only [List.length_append] at this
        omega
      · simp only [hg, Bool.false_eq_true, if_false]
        have hng := is_gap_false D args pos last_pos hg
        have hchain : (buffer ++ [pos]).Chain' (fun p q =>
            usub q.t p.t ≤ args.dt_max ∧ D.lt args.ds_max (q.x.dist_nm D p.x) = false) :=
          chain'_append_singleton _ buffer pos last_pos hinv.nogap hb hng
        obtain ⟨pa, hpa⟩ : ∃ pa, buffer.head? = some pa := by
          cases buffer with
          | nil => exact absurd rfl hne
          | cons a _ => exact ⟨a, rfl⟩
        have hpa2 : (buffer ++ [pos]).head? = some pa := by
          cases buffer with
          | nil => exact absurd rfl hne
          | cons a _ => simpa using hpa
        by_cases hd : usub pos.t t0 ≥ umul args.seq_length args.dti
        · simp only [hd, if_true]
          obtain ⟨runs, h1, h2, h3⟩ := ih [] t0 (pre ++ buffer ++ [pos]) (by simp [hfull])
            (split.BufInv.empty D args t0)
          refine ⟨(pre.length, pre.length + buffer.length) :: runs,
            List.Forall₂.cons ?_ h1, ?_, ?_⟩
          · refine ⟨?_, by simp only; omega, ?_, hchain, ?_, ?_⟩
            · simp only
              rw [hfull]
              have e1 : pre ++ buffer ++ pos :: rest = pre ++ ((buffer ++ [pos]) ++ rest) := by
                simp
              rw [e1, List.drop_left]
              have e2 : pre.length + buffer.length + 1 - pre.length
                  = (buffer ++ [pos]).length := by
                simp only [List.length_append, List.length_singleton]
                omega
              rw [e2, List.take_left]
            · simp only [hfull, List.length_append, List.length_cons]
              omega
            · refine ⟨pa, pos, hpa2, by simp, ?_⟩
              rw [hinv.anchor pa hpa]
              exact hd
            · intro pa2 hpa3 p hp
              rw [hpa2] at hpa3
              simp only [Option.some.injEq] at hpa3
              subst hpa3
              rw [hinv.anchor pa hpa]
              simp only [List.dropLast_concat] at hp
              exact hinv.early p hp
          · intro r hr
            rcases List.mem_cons.1 hr with rfl | hr
            · exact le_refl _
            · have := h2 r hr
              simp only [List.length_append, List.length_singleton] at this
              omega
          · refine List.pairwise_cons.2 ⟨?_, h3⟩
            intro r hr
            have := h2 r hr
            simp only [List.length_append, List.length_singleton] at this
            simp only
            omega
        · simp only [hd, if_false]
          refine ih (buffer ++ [pos]) t0 pre (by simp [hfull]) ⟨hchain, ?_, ?_⟩
          · intro pa2 hpa3
            rw [hpa2] at hpa3
            simp only [Option.some.injEq] at hpa3
            subst hpa3
            exact hinv.anchor pa hpa
          · intro p hp
            have htail : (buffer ++ [pos]).tail = buffer.tail ++ [pos] := by
              cases buffer with
              | nil => exact absurd rfl hne
              | cons a _ => simp
            rw [htail] at hp
            rcases List.mem_append.1 hp with hp | hp
            · exact hinv.early p hp
            · simp only [List.mem_singleton] at hp
              subst hp
              omega

theorem split.emitted_of_segments (D : Dbl) (args : split_args D) (traj : Trajectory)
    (acc : List Point → Bool) (runs : List (Nat × Nat)) (segs : List Trajectory)
    (seqs : List (List Point))
    (h1 : List.Forall₂ (fun r seg => IsRun D args traj r.1 r.2 seg) runs segs)
    (h2 : List.Forall₂
      (fun seg seq => interpolate D seg (uadd args.seq_length 1) args.dti = some seq) segs seqs)
    (h3 : runs.Pairwise (fun r s => r.2 < s.1)) :
    ∃ emitted : List (Nat × Nat × List Point),
      (∀ e ∈ emitted, (e.1, e.2.1) ∈ runs ∧ ∃ run, IsRun D args traj e.1 e.2.1 run ∧
        interpolate D run (uadd args.seq_length 1) args.dti = some e.2.2) ∧
      emitted.Pairwise (fun e f => e.2.1 < f.1) ∧
      (seqs.filter acc).flatten = (emitted.map (fun e => e.2.2)).flatten := by
  induction h1 generalizing seqs with
  | nil =>
    cases h2
    exact ⟨[], by simp, List.Pairwise.nil, by simp⟩
  | @cons r seg runs segs hr _ ih =>
    cases h2 with
    | @cons _ seq _ seqs hq h2 =>
      have hp := List.pairwise_cons.1 h3
      obtain ⟨emitted, e1, e2, e3⟩ := ih seqs h2 hp.2
      by_cases ha : acc seq = true
      · refine ⟨(r.1, r.2, seq) :: emitted, ?_, ?_, ?_⟩
        · intro e he
          rcases List.mem_cons.1 he with rfl | he
          · exact ⟨List.mem_cons_self _ _, seg, hr, hq⟩
          · exact ⟨List.mem_cons_of_mem _ (e1 e he).1, (e1 e he).2⟩
        · refine List.pairwise_cons.2 ⟨?_, e2⟩
          intro e he
          exact hp.1 _ (e1 e he).1
        · simp [List.filter_cons, ha, e3]
      · refine ⟨emitted, ?_, e2, ?_⟩
        · intro e he
          exact ⟨List.mem_cons_of_mem _ (e1 e he).1, (e1 e he).2⟩
        · simp [List.filter_cons, ha, e3]

theorem split_eq_some (D : Dbl) (traj : Trajectory) (args : split_args D) (out : List Point)
    (h : split D traj args = some out) :
    ∃ s1, split.loop D args { seqs := [], buffer := [], t0 := 0 } traj = some s1 ∧
      s1.seqs = out := by
  unfold split at h
  cases hl : split.loop D args { seqs := [], buffer := [], t0 := 0 } traj with
  | none => simp [hl] at h
  | some s1 =>
    simp only [hl, Option.some.injEq] at h
    exact ⟨s1, rfl, h⟩

/-- Characterisation of the result of `split` by its completed segments. -/
theorem split_segments (D : Dbl) (traj : Trajectory) (args : split_args D) (out : List Point)
    (h : split D traj args = some out) :
    ∃ seqs, List.Forall₂
        (fun seg seq => interpolate D seg (uadd args.seq_length 1) args.dti = some seq)
        (split.segments D args [] 0 traj) seqs ∧
      out = (seqs.filter (split.accepted D args)).flatten := by
  obtain ⟨s1, h1, h2⟩ := split_eq_some D traj args out h
  obtain ⟨seqs, h3, h4⟩ := split.loop_segments D args traj _ s1 h1
  exact ⟨seqs, h3, by simpa [h2] using h4⟩

theorem interpolate_loop_length (D : Dbl) (t0 dt N : Nat) (k : Nat) (sfx : List Position)
    (pts : List Point) (h : interpolate.loop D t0 dt N k sfx = some pts) : pts.length = k := by
  induction k generalizing sfx pts with
  | zero =>
    simp only [interpolate.loop, Option.some.injEq] at h
    subst h
    rfl
  | succ k ih =>
    rw [interpolate.loop] at h
    simp only at h
    split at h
    · rename_i pj pj1 rest _
      split at h
      · rename_i seq hseq
        simp only [Option.some.injEq] at h
        subst h
        simp [ih _ _ hseq]
      · simp at h
    · simp at h

theorem interpolate_length (D : Dbl) (trajectory : Trajectory) (N dt : Nat) (pts : List Point)
    (h : interpolate D trajectory N dt = some pts) : pts.length = N := by
  unfold interpolate at h
  cases trajectory with
  | nil => simp at h
  | cons a tail => exact interpolate_loop_length D a.t dt N N _ pts h

theorem interpolate_grid (D : Dbl) (trajectory : Trajectory) (front last : Position)
    (N dt : Nat) (hlen : 2 ≤ trajectory.length) (hfront : trajectory.head? = some front)
    (hlast : trajectory.getLast? = some last)
    (hsorted : trajectory.Pairwise (fun a b => a.t ≤ b.t))
    (hU : ∀ p ∈ trajectory, p.t < U32) (hcover : front.t + (N - 1) * dt ≤ last.t) :
    ∃ pts, interpolate D trajectory N dt = some pts ∧ pts.length = N ∧
      ∀ i < N, ∃ pt, pts[i]? = some pt ∧
        IsGridPoint D trajectory (front.t + i * dt) pt := by
  cases trajectory with
  | nil => simp at hlen
  | cons a tail =>
    simp only [List.head?_cons, Option.some.injEq] at hfront
    subst hfront
    have hgrid : ∀ i < N, a.t + i * dt ≤ last.t := by
      intro i hi
      have : i * dt ≤ (N - 1) * dt := Nat.mul_le_mul_right _ (by omega)
      omega
    obtain ⟨pts, h1, h2, h3⟩ := interpolate_loop_spec D a tail last N dt
      hsorted hU hgrid N [] (a :: tail) rfl hlen hlast (le_refl _) (by simp)
    refine ⟨pts, h1, h2, ?_⟩
    intro i hi
    obtain ⟨pt, hp1, hp2⟩ := h3 i hi
    simp only [Nat.sub_self, Nat.zero_add] at hp2
    exact ⟨pt, hp1, hp2⟩

theorem forall₂_mem_right {α β : Type} (R : α → β → Prop) (xs : List α) (ys : List β)
    (h : List.Forall₂ R xs ys) : ∀ y ∈ ys, ∃ x ∈ xs, R x y := by
  induction h with
  | nil => simp
  | cons hr _ ih =>
    intro y hy
    rcases List.mem_cons.1 hy with rfl | hy
    · exact ⟨_, List.mem_cons_self _ _, hr⟩
    · obtain ⟨x, hx, hxy⟩ := ih y hy
      exact ⟨x, List.mem_cons_of_mem _ hx, hxy⟩

theorem forall₂_total_left {α β : Type} (R : α → β → Prop) (xs : List α)
    (h : ∀ x ∈ xs, ∃ y, R x y) : ∃ ys, List.Forall₂ R xs ys := by
  induction xs with
  | nil => exact ⟨[], List.Forall₂.nil⟩
  | cons a rest ih =>
    obtain ⟨y, hy⟩ := h a (List.mem_cons_self _ _)
    obtain ⟨ys, hys⟩ := ih (fun x hx => h x (List.mem_cons_of_mem _ hx))
    exact ⟨y :: ys, List.Forall₂.cons hy hys⟩

theorem IsRun.sublist {D : Dbl} {args : split_args D} {traj : Trajectory} {a b : Nat}
    {run : Trajectory} (h : IsRun D args traj a b run) : run.Sublist traj := by
  rw [h.positions]
  exact (List.take_sublist _ _).trans (List.drop_sublist _ _)

theorem IsRun.length {D : Dbl} {args : split_args D} {traj : Trajectory} {a b : Nat}
    {run : Trajectory} (h : IsRun D args traj a b run) : run.length = b + 1 - a := by
  rw [h.positions, List.length_take, List.length_drop]
  have := h.lt
  have := h.bound
  omega

theorem head_le_last (xs : Trajectory) (pa pb : Position)
    (hs : xs.Pairwise (fun a b => a.t ≤ b.t)) (ha : xs.head? = some pa)
    (hb : xs.getLast? = some pb) : pa.t ≤ pb.t := by
  cases xs with
  | nil => simp at ha
  | cons a rest =>
    simp only [List.head?_cons, Option.some.injEq] at ha
    subst ha
    cases rest with
    | nil =>
      simp at hb
      subst hb
      exact le_refl _
    | cons c rest =>
      rw [List.getLast?_cons_cons] at hb
      exact (List.pairwise_cons.1 hs).1 pb (List.mem_of_getLast?_eq_some hb)

/-- Every call of `interpolate` made by `split` succeeds when the timestamps
are non-decreasing 32-bit values and `seq_length * dti` does not overflow. -/
theorem split.segments_defined (D : Dbl) (traj : Trajectory) (args : split_args D)
    (hsorted : traj.Pairwise (fun a b => a.t ≤ b.t)) (hU : ∀ p ∈ traj, p.t < U32)
    (hdur : args.seq_length * args.dti < U32) :
    ∀ seg ∈ split.segments D args [] 0 traj,
      ∃ seq, interpolate D seg (uadd args.seq_length 1) args.dti = some seq := by
  intro seg hseg
  obtain ⟨runs, r1, _, _⟩ := split.segments_runs D args traj traj [] 0 []
    (by simp) (split.BufInv.empty D args 0)
  obtain ⟨r, _, hr⟩ := forall₂_mem_right _ _ _ r1 seg hseg
  obtain ⟨pa, pb, hpa, hpb, hreach⟩ := hr.reach
  have hsub := hr.sublist
  have hs2 : seg.Pairwise (fun a b => a.t ≤ b.t) := hsorted.sublist hsub
  have hU2 : ∀ p ∈ seg, p.t < U32 := fun p hp => hU p (hsub.subset hp)
  have hle := head_le_last seg pa pb hs2 hpa hpb
  have hpbU : pb.t < U32 := hU2 pb (List.mem_of_getLast?_eq_some hpb)
  rw [usub_eq _ _ hle hpbU, umul_eq _ _ hdur] at hreach
  have hN : uadd args.seq_length 1 - 1 ≤ args.seq_length := by
    unfold uadd
    have := Nat.mod_le (args.seq_length + 1) U32
    omega
  have hcover : pa.t + (uadd args.seq_length 1 - 1) * args.dti ≤ pb.t := by
    have := Nat.mul_le_mul_right args.dti hN
    omega
  have hlen : 2 ≤ seg.length := by
    rw [hr.length]
    have := hr.lt
    omega
  obtain ⟨pts, h1, _, _⟩ := interpolate_grid D seg pa pb _ args.dti hlen hpa hpb hs2 hU2 hcover
  exact ⟨pts, h1⟩

theorem split_defined (D : Dbl) (traj : Trajectory) (args : split_args D)
    (hsorted : traj.Pairwise (fun a b => a.t ≤ b.t)) (hU : ∀ p ∈ traj, p.t < U32)
    (hdur : args.seq_length * args.dti < U32) :
    ∃ out, split D traj args = some out := by
  obtain ⟨s1, h1⟩ := split.loop_defined D args traj { seqs := [], buffer := [], t0 := 0 }
    (split.segments_defined D traj args hsorted hU hdur)
  exact ⟨s1.seqs, by simp [split, h1]⟩

theorem length_flatten_const {α : Type} (xss : List (List α)) (n : Nat)
    (h : ∀ xs ∈ xss, xs.length = n) : xss.flatten.length = xss.length * n := by
  induction xss with
  | nil => simp
  | cons a rest ih =>
    simp only [List.flatten_cons, List.length_append, List.length_cons]
    rw [ih (fun xs hx => h xs (List.mem_cons_of_mem _ hx)), h a (List.mem_cons_self _ _)]
    ring

/-! ### The orchestrator -/

theorem Sequencer.run_cons {σ : Type} (D : Dbl) (args : split_args D)
    (sort : Trajectory → Trajectory) (process : σ → Int → Trajectory → Option σ)
    (lpf : Bool) (mmsi : Int) (raw : Trajectory) (rest : List (Int × Trajectory)) (st : σ) :
    Sequencer.run D args sort process lpf ((mmsi, raw) :: rest) st =
      if Sequencer.gate D args (Sequencer.clean D args lpf (sort raw)) = true then
        match process st mmsi (Sequencer.clean D args lpf (sort raw)) with
        | none => none
        | some st1 => Sequencer.run D args sort process lpf rest st1
      else Sequencer.run D args sort process lpf rest st := by
  rfl

theorem emplace_mem {ν : Type} (m : List (Int × ν)) (k : Int) (v : ν) (e : Int × ν) :
    e ∈ emplace m k v ↔ e ∈ m ∨ (e = (k, v) ∧ ∀ x ∈ m, x.1 ≠ k) := by
  unfold emplace
  by_cases h : m.any (fun e => e.1 == k) = true
  · simp only [h, if_true]
    constructor
    · exact Or.inl
    · rintro (h1 | ⟨_, h2⟩)
      · exact h1
      · simp only [List.any_eq_true, beq_iff_eq] at h
        obtain ⟨x, hx, hxk⟩ := h
        exact absurd hxk (h2 x hx)
  · simp only [h, Bool.false_eq_true, if_false, List.mem_append, List.mem_singleton]
    simp only [List.any_eq_true, beq_iff_eq, not_exists, not_and] at h
    constructor
    · rintro (h1 | h1)
      · exact Or.inl h1
      · exact Or.inr ⟨h1, h⟩
    · rintro (h1 | ⟨h1, _⟩)
      · exact Or.inl h1
      · exact Or.inr h1

theorem emplace_keys_nodup {ν : Type} (m : List (Int × ν)) (k : Int) (v : ν)
    (h : (m.map Prod.fst).Nodup) : ((emplace m k v).map Prod.fst).Nodup := by
  unfold emplace
  by_cases hk : m.any (fun e => e.1 == k) = true
  · simpa [hk] using h
  · simp only [hk, Bool.false_eq_true, if_false, List.map_append, List.map_cons, List.map_nil]
    simp only [List.any_eq_true, beq_iff_eq, not_exists, not_and] at hk
    rw [List.nodup_append]
    refine ⟨h, List.nodup_singleton _, ?_⟩
    intro a ha hb
    simp only [List.mem_singleton] at hb
    subst hb
    obtain ⟨x, hx, hxa⟩ := List.mem_map.1 ha
    exact hk x hx hxa

/-- Membership in the result of `SequenceMaker::run`, started from the handler
state `seqs0`. -/
theorem SequenceMaker.run_mem (D : Dbl) (args : split_args D) (sort : Trajectory → Trajectory)
    (lpf : Bool) (store : List (Int × Trajectory)) (seqs0 out : List (Int × List Point))
    (hstore : (store.map Prod.fst).Nodup)
    (h : Sequencer.run D args sort (SequenceMaker.process D args) lpf store seqs0 = some out) :
    ∀ mmsi seq, (mmsi, seq) ∈ out ↔ ((mmsi, seq) ∈ seqs0 ∨
      ((∀ x ∈ seqs0, x.1 ≠ mmsi) ∧ ∃ raw, (mmsi, raw) ∈ store ∧
        Sequencer.gate D args (Sequencer.clean D args lpf (sort raw)) = true ∧
        split D (Sequencer.clean D args lpf (sort raw)) args = some seq ∧ seq ≠ [])) := by
  induction store generalizing seqs0 with
  | nil =>
    simp only [Sequencer.run, Option.some.injEq] at h
    subst h
    simp
  | cons entry rest ih =>
    obtain ⟨k, raw⟩ := entry
    rw [Sequencer.run_cons] at h
    simp only [List.map_cons, List.nodup_cons] at hstore
    have hk : ∀ raw2, (k, raw2) ∉ rest := by
      intro raw2 hmem
      exact hstore.1 (List.mem_map.2 ⟨(k, raw2), hmem, rfl⟩)
    intro mmsi seq
    by_cases hg : Sequencer.gate D args (Sequencer.clean D args lpf (sort raw)) = true
    · simp only [hg, if_true] at h
      unfold SequenceMaker.process at h
      cases hs : split D (Sequencer.clean D args lpf (sort raw)) args with
      | none => simp [hs] at h
      | some sq =>
        simp only [hs] at h
        by_cases hne : sq ≠ []
        · rw [if_pos hne] at h
          rw [ih _ hstore.2 h mmsi seq, emplace_mem]
          constructor
          · rintro (h1 | ⟨h1, raw2, h2, h3, h4, h5⟩)
            · rcases h1 with h1 | ⟨h1, h2⟩
              · exact Or.inl h1
              · simp only [Prod.mk.injEq] at h1
                obtain ⟨rfl, rfl⟩ := h1
                exact Or.inr ⟨h2, raw, List.mem_cons_self _ _, hg, hs, hne⟩
            · refine Or.inr ⟨?_, raw2, List.mem_cons_of_mem _ h2, h3, h4, h5⟩
              intro x hx
              exact h1 x ((emplace_mem _ _ _ _).2 (Or.inl hx))
          · rintro (h1 | ⟨h1, raw2, h2, h3, h4, h5⟩)
            · exact Or.inl (Or.inl h1)
            · rcases List.mem_cons.1 h2 with h2 | h2
              · simp only [Prod.mk.injEq] at h2
                obtain ⟨rfl, rfl⟩ := h2
                rw [hs] at h4
                simp only [Option.some.injEq] at h4
                subst h4
                exact Or.inl (Or.inr ⟨rfl, h1⟩)
              · refine Or.inr ⟨?_, raw2, h2, h3, h4, h5⟩
                intro x hx
                rcases (emplace_mem _ _ _ _).1 hx with hx | ⟨hx, _⟩
                · exact h1 x hx
                · subst hx
                  intro hkm
                  simp only at hkm
                  subst hkm
                  exact hk raw2 h2
        · rw [if_neg hne] at h
          rw [ih _ hstore.2 h mmsi seq]
          constructor
          · rintro (h1 | ⟨h1, raw2, h2, h3, h4, h5⟩)
            · exact Or.inl h1
            · exact Or.inr ⟨h1, raw2, List.mem_cons_of_mem _ h2, h3, h4, h5⟩
          · rintro (h1 | ⟨h1, raw2, h2, h3, h4, h5⟩)
            · exact Or.inl h1
            · rcases List.mem_cons.1 h2 with h2 | h2
              · simp only [Prod.mk.injEq] at h2
                obtain ⟨rfl, rfl⟩ := h2
                rw [hs] at h4
                simp only [Option.some.injEq] at h4
                subst h4
                exact absurd h5 hne
              · exact Or.inr ⟨h1, raw2, h2, h3, h4, h5⟩
    · simp only [hg, Bool.false_eq_true, if_false] at h
      rw [ih _ hstore.2 h mmsi seq]
      constructor
      · rintro (h1 | ⟨h1, raw2, h2, h3, h4, h5⟩)
        · exact Or.inl h1
        · exact Or.inr ⟨h1, raw2, List.mem_cons_of_mem _ h2, h3, h4, h5⟩
      · rintro (h1 | ⟨h1, raw2, h2, h3, h4, h5⟩)
        · exact Or.inl h1
        · rcases List.mem_cons.1 h2 with h2 | h2
          · simp only [Prod.mk.injEq] at h2
            obtain ⟨rfl, rfl⟩ := h2
            exact absurd h3 hg
          · exact Or.inr ⟨h1, raw2, h2, h3, h4, h5⟩

theorem SequenceMaker.run_keys_nodup (D : Dbl) (args : split_args D)
    (sort : Trajectory → Trajectory) (lpf : Bool) (store : List (Int × Trajectory))
    (seqs0 out : List (Int × List Point)) (h0 : (seqs0.map Prod.fst).Nodup)
    (h : Sequencer.run D args sort (SequenceMaker.process D args) lpf store seqs0 = some out) :
    (out.map Prod.fst).Nodup := by
  induction store generalizing seqs0 with
  | nil =>
    simp only [Sequencer.run, Option.some.injEq] at h
    subst h
    exact h0
  | cons entry rest ih =>
    obtain ⟨k, raw⟩ := entry
    rw [Sequencer.run_cons] at h
    by_cases hg : Sequencer.gate D args (Sequencer.clean D args lpf (sort raw)) = true
    · simp only [hg, if_true] at h
      unfold SequenceMaker.process at h
      cases hs : split D (Sequencer.clean D args lpf (sort raw)) args with
      | none => simp [hs] at h
      | some sq =>
        simp only [hs] at h
        by_cases hne : sq ≠ []
        · rw [if_pos hne] at h
          exact ih _ (emplace_keys_nodup _ _ _ h0) h
        · rw [if_neg hne] at h
          exact ih _ h0 h
    · simp only [hg, Bool.false_eq_true, if_false] at h
      exact ih _ h0 h

theorem SequenceMaker.run_defined (D : Dbl) (args : split_args D)
    (sort : Trajectory → Trajectory) (lpf : Bool) (store : List (Int × Trajectory))
    (seqs0 : List (Int × List Point))
    (h : ∀ e ∈ store, Sequencer.gate D args (Sequencer.clean D args lpf (sort e.2)) = true →
      ∃ seq, split D (Sequencer.clean D args lpf (sort e.2)) args = some seq) :
    ∃ out, Sequencer.run D args sort (SequenceMaker.process D args) lpf store seqs0
      = some out := by
  induction store generalizing seqs0 with
  | nil => exact ⟨seqs0, rfl⟩
  | cons entry rest ih =>
    obtain ⟨k, raw⟩ := entry
    rw [Sequencer.run_cons]
    have hrest : ∀ e ∈ rest,
        Sequencer.gate D args (Sequencer.clean D args lpf (sort e.2)) = true →
        ∃ seq, split D (Sequencer.clean D args lpf (sort e.2)) args = some seq :=
      fun e he => h e (List.mem_cons_of_mem _ he)
    by_cases hg : Sequencer.gate D args (Sequencer.clean D args lpf (sort raw)) = true
    · simp only [hg, if_true]
      obtain ⟨sq, hs⟩ := h (k, raw) (List.mem_cons_self _ _) hg
      unfold SequenceMaker.process
      simp only [hs]
      by_cases hne : sq ≠ []
      · rw [if_pos hne]
        exact ih _ hrest
      · rw [if_neg hne]
        exact ih _ hrest
    · simp only [hg, Bool.false_eq_true, if_false]
      exact ih _ hrest

/-! ### Independence of the input order -/

theorem sorted_eq_of_distinct (raw raw2 s1 s2 : Trajectory)
    (hd : (raw.map (fun p => p.t)).Nodup) (hp : raw2.Perm raw)
    (h1 : IsSortedByTime raw s1) (h2 : IsSortedByTime raw2 s2) : s2 = s1 := by
  have hperm : s2.Perm s1 := (h2.1.trans hp).trans h1.1.symm
  have hd1 : (s1.map (fun p => p.t)).Nodup := (h1.1.map _).nodup_iff.2 hd
  have hd2 : (s2.map (fun p => p.t)).Nodup := (hperm.map _).nodup_iff.2 hd1
  have strict : ∀ s : Trajectory, (s.map (fun p => p.t)).Nodup →
      s.Pairwise (fun a b => a.t ≤ b.t) → s.Pairwise (fun a b => a.t < b.t) := by
    intro s hn hs
    rw [List.Nodup, List.pairwise_map] at hn
    exact (hn.and hs).imp (fun h => lt_of_le_of_ne h.2 h.1)
  haveI : IsAntisymm Position (fun a b => a.t < b.t) :=
    ⟨fun a b hab hba => absurd hab (Nat.lt_asymm hba)⟩
  exact List.eq_of_perm_of_sorted hperm (strict s2 hd2 h2.2) (strict s1 hd1 h1.2)

theorem Sequencer.run_congr {σ : Type} (D : Dbl) (args : split_args D)
    (sort : Trajectory → Trajectory) (process : σ → Int → Trajectory → Option σ)
    (lpf : Bool) (store1 store2 : List (Int × Trajectory))
    (h : List.Forall₂ (fun e f => e.1 = f.1 ∧ sort e.2 = sort f.2) store1 store2) (st : σ) :
    Sequencer.run D args sort process lpf store1 st =
      Sequencer.run D args sort process lpf store2 st := by
  induction h generalizing st with
  | nil => rfl
  | @cons e f rest1 rest2 hef _ ih =>
    obtain ⟨k1, raw1⟩ := e
    obtain ⟨k2, raw2⟩ := f
    simp only at hef
    obtain ⟨rfl, hs⟩ := hef
    rw [Sequencer.run_cons, Sequencer.run_cons, hs]
    split
    · cases process st k1 (Sequencer.clean D args lpf (sort raw2)) with
      | none => rfl
      | some st1 => exact ih st1
    · exact ih st

theorem forall₂_refl_of {α : Type} (R : α → α → Prop) (h : ∀ a, R a a) (xs : List α) :
    List.Forall₂ R xs xs := by
  induction xs with
  | nil => exact List.Forall₂.nil
  | cons a rest ih => exact List.Forall₂.cons (h a) ih

theorem insert_or_assign_congr (sort : Trajectory → Trajectory)
    (store : List (Int × Trajectory)) (mmsi : Int) (raw raw2 : Trajectory)
    (hs : sort raw2 = sort raw) :
    List.Forall₂ (fun e f => e.1 = f.1 ∧ sort e.2 = sort f.2)
      (insert_or_assign store mmsi raw2) (insert_or_assign store mmsi raw) := by
  unfold insert_or_assign
  split
  · rw [List.forall₂_map_left_iff, List.forall₂_map_right_iff]
    apply forall₂_refl_of
    intro e
    split
    · exact ⟨rfl, hs⟩
    · exact ⟨rfl, rfl⟩
  · apply List.rel_append (forall₂_refl_of _ (fun e => ⟨rfl, rfl⟩) store)
    exact List.Forall₂.cons ⟨rfl, hs⟩ List.Forall₂.nil

/-- C9: for a trajectory with pairwise distinct timestamps every permutation
sorts to the same buffer, whatever conforming sorting function is used, and so
the result of `SequenceMaker::run`, with or without the spike filter, is the
same for every permutation passed to `add_trajectory`. -/
theorem run_independent_of_input_order (D : Dbl) (args : split_args D)
    (sort sort2 : Trajectory → Trajectory) (lpf : Bool) (store : List (Int × Trajectory))
    (mmsi : Int) (raw raw2 : Trajectory) (hsort : SortSpec sort) (hsort2 : SortSpec sort2)
    (hperm : raw2.Perm raw) (hdistinct : (raw.map (fun p => p.t)).Nodup) :
    sort2 raw2 = sort raw ∧
    SequenceMaker.run D args sort lpf (Sequencer.add_trajectory store mmsi raw2) =
      SequenceMaker.run D args sort lpf (Sequencer.add_trajectory store mmsi raw) := by
  refine ⟨sorted_eq_of_distinct raw raw2 _ _ hdistinct hperm (hsort raw) (hsort2 raw2), ?_⟩
  have hs : sort raw2 = sort raw :=
    sorted_eq_of_distinct raw raw2 _ _ hdistinct hperm (hsort raw) (hsort raw2)
  exact Sequencer.run_congr D args sort _ lpf _ _
    (insert_or_assign_congr sort store mmsi raw raw2 hs) []

/-- Witness of C9 on the equator trajectory and its reversal. -/
theorem run_independent_of_input_order_witness :
    SortSpec sort_by_time ∧ equator_trajectory.reverse.Perm equator_trajectory ∧
      (equator_trajectory.map (fun p => p.t)).Nodup ∧
      SequenceMaker.run (ieee.model ieee.cos_zero) (test_args (ieee.model ieee.cos_zero))
          sort_by_time true (Sequencer.add_trajectory [] 200000000 equator_trajectory.reverse) =
        SequenceMaker.run (ieee.model ieee.cos_zero) (test_args (ieee.model ieee.cos_zero))
          sort_by_time true (Sequencer.add_trajectory [] 200000000 equator_trajectory) :=
  ⟨sort_by_time_spec, List.reverse_perm _, by decide,
    (run_independent_of_input_order (ieee.model ieee.cos_zero)
      (test_args (ieee.model ieee.cos_zero)) sort_by_time sort_by_time true [] 200000000
      equator_trajectory equator_trajectory.reverse sort_by_time_spec sort_by_time_spec
      (List.reverse_perm _) (by decide)).2⟩

/-! ### The gate -/

theorem Sequencer.clean_sublist (D : Dbl) (args : split_args D) (lpf : Bool)
    (sorted : Trajectory) : (Sequencer.clean D args lpf sorted).Sublist sorted := by
  unfold Sequencer.clean
  cases lpf
  · simpa using std_unique_sublist _ _
  · simp only [if_true]
    exact (utility.low_pass_filter_sublist _ _).trans (std_unique_sublist _ _)

theorem Sequencer.clean_increasing (D : Dbl) (args : split_args D) (lpf : Bool)
    (sorted : Trajectory) (hs : sorted.Pairwise (fun a b => a.t ≤ b.t)) :
    (Sequencer.clean D args lpf sorted).Pairwise (fun a b => a.t < b.t) := by
  have hinc := std_unique_increasing sorted hs
  unfold Sequencer.clean
  cases lpf
  · simpa using hinc
  · simp only [if_true]
    exact hinc.sublist (utility.low_pass_filter_sublist _ _)

theorem GateCondition_plain (D : Dbl) (args : split_args D) (C : Trajectory)
    (hinc : C.Pairwise (fun a b => a.t < b.t)) (hU : ∀ p ∈ C, p.t < U32)
    (hdur : args.seq_length * args.dti < U32) (hsize : C.length * args.dt_max < U64) :
    GateCondition D args C ↔
      (C ≠ [] ∧ C.length * args.dt_max ≥ args.seq_length * args.dti ∧
        ∃ first last, C.head? = some first ∧ C.getLast? = some last ∧
          last.t - first.t ≥ args.seq_length * args.dti) := by
  unfold GateCondition
  rw [umul_eq _ _ hdur, Nat.mod_eq_of_lt hsize]
  constructor
  · rintro ⟨h1, h2, first, last, h3, h4, h5⟩
    refine ⟨h1, h2, first, last, h3, h4, ?_⟩
    rw [usub_eq _ _ (head_le_last C first last (hinc.imp (fun h => Nat.le_of_lt h)) h3 h4)
      (hU last (List.mem_of_getLast?_eq_some h4))] at h5
    exact h5
  · rintro ⟨h1, h2, first, last, h3, h4, h5⟩
    refine ⟨h1, h2, first, last, h3, h4, ?_⟩
    rw [usub_eq _ _ (head_le_last C first last (hinc.imp (fun h => Nat.le_of_lt h)) h3 h4)
      (hU last (List.mem_of_getLast?_eq_some h4))]
    exact h5

/-- C7: for every vessel `Sequencer::run` calls `process` on the cleaned buffer
exactly when the buffer is non-empty, `size * dt_max >= seq_length * dti` and
`last.t - first.t >= seq_length * dti` (in the machine arithmetic of the
sources, which is plain arithmetic when nothing overflows); otherwise the run
continues with the next vessel and an unchanged handler state, and the output
of the sequence handler has no entry for the vessel. -/
theorem run_dispatches_iff_gate :
    (∀ (σ : Type) (D : Dbl) (args : split_args D) (sort : Trajectory → Trajectory)
      (process : σ → Int → Trajectory → Option σ) (lpf : Bool) (mmsi : Int) (raw : Trajectory)
      (rest : List (Int × Trajectory)) (st : σ),
      (GateCondition D args (Sequencer.clean D args lpf (sort raw)) →
        Sequencer.run D args sort process lpf ((mmsi, raw) :: rest) st =
          match process st mmsi (Sequencer.clean D args lpf (sort raw)) with
          | none => none
          | some st1 => Sequencer.run D args sort process lpf rest st1) ∧
      (¬ GateCondition D args (Sequencer.clean D args lpf (sort raw)) →
        Sequencer.run D args sort process lpf ((mmsi, raw) :: rest) st =
          Sequencer.run D args sort process lpf rest st)) ∧
    (∀ (D : Dbl) (args : split_args D) (sort : Trajectory → Trajectory) (lpf : Bool)
      (raw : Trajectory), SortSpec sort → (∀ p ∈ raw, p.t < U32) →
      args.seq_length * args.dti < U32 → raw.length * args.dt_max < U64 →
      (GateCondition D args (Sequencer.clean D args lpf (sort raw)) ↔
        (Sequencer.clean D args lpf (sort raw) ≠ [] ∧
          (Sequencer.clean D args lpf (sort raw)).length * args.dt_max
            ≥ args.seq_length * args.dti ∧
          ∃ first last, (Sequencer.clean D args lpf (sort raw)).head? = some first ∧
            (Sequencer.clean D args lpf (sort raw)).getLast? = some last ∧
            last.t - first.t ≥ args.seq_length * args.dti))) ∧
    (∀ (D : Dbl) (args : split_args D) (sort : Trajectory → Trajectory) (lpf : Bool)
      (store : List (Int × Trajectory)) (out : List (Int × List Point)) (mmsi : Int)
      (raw : Trajectory), (store.map Prod.fst).Nodup →
      SequenceMaker.run D args sort lpf store = some out → (mmsi, raw) ∈ store →
      ¬ GateCondition D args (Sequencer.clean D args lpf (sort raw)) →
      ∀ seq, (mmsi, seq) ∉ out) := by
  refine ⟨?_, ?_, ?_⟩
  · intro σ D args sort process lpf mmsi raw rest st
    rw [Sequencer.run_cons]
    constructor
    · intro hg
      simp only [if_pos ((Sequencer.gate_iff D args _).2 hg)]
    · intro hg
      rw [if_neg (fun h => hg ((Sequencer.gate_iff D args _).1 h))]
  · intro D args sort lpf raw hsort hU hdur hsize
    have hsub := Sequencer.clean_sublist D args lpf (sort raw)
    apply GateCondition_plain D args _
      (Sequencer.clean_increasing D args lpf (sort raw) (hsort raw).2)
    · intro p hp
      exact hU p ((hsort raw).1.subset (hsub.subset hp))
    · exact hdur
    · have h1 := hsub.length_le
      have h2 := (hsort raw).1.length_eq
      have : (Sequencer.clean D args lpf (sort raw)).length * args.dt_max
          ≤ raw.length * args.dt_max := Nat.mul_le_mul_right _ (by omega)
      omega
  · intro D args sort lpf store out mmsi raw hnodup hrun hmem hg seq hseq
    have := (SequenceMaker.run_mem D args sort lpf store [] out hnodup hrun mmsi seq).1 hseq
    rcases this with h | ⟨_, raw2, h2, h3, _, _⟩
    · simp at h
    · have hraw : raw2 = raw := by
        by_contra hne
        have hpair : (store.map Prod.fst).Nodup := hnodup
        rw [List.Nodup, List.pairwise_map] at hpair
        have := List.Pairwise.forall_of_forall (l := store)
          (R := fun a b => a.1 = b.1 → a = b)
          (fun x y h hxy => (h hxy.symm).symm) (fun x _ _ => rfl)
          (hpair.imp (fun h heq => absurd heq h)) h2 hmem rfl
        simp only [Prod.mk.injEq, true_and] at this
        exact hne this
      subst hraw
      exact hg ((Sequencer.gate_iff D args _).1 h3)

set_option maxRecDepth 100000 in
set_option exponentiation.threshold 4000 in
/-- Witness of C7: the equator trajectory passes the gate and is dispatched. -/
theorem run_dispatches_iff_gate_witness :
    GateCondition (ieee.model ieee.cos_zero) (test_args (ieee.model ieee.cos_zero))
        (Sequencer.clean (ieee.model ieee.cos_zero) (test_args (ieee.model ieee.cos_zero)) false
          (sort_by_time equator_trajectory)) ∧
      Sequencer.run (ieee.model ieee.cos_zero) (test_args (ieee.model ieee.cos_zero))
          sort_by_time
          (SequenceMaker.process (ieee.model ieee.cos_zero)
            (test_args (ieee.model ieee.cos_zero)))
          false [(200000000, equator_trajectory)] [] =
        match SequenceMaker.process (ieee.model ieee.cos_zero)
            (test_args (ieee.model ieee.cos_zero)) [] 200000000
            (Sequencer.clean (ieee.model ieee.cos_zero)
              (test_args (ieee.model ieee.cos_zero)) false
              (sort_by_time equator_trajectory)) with
        | none => none
        | some st1 =>
          Sequencer.run (ieee.model ieee.cos_zero) (test_args (ieee.model ieee.cos_zero))
            sort_by_time
            (SequenceMaker.process (ieee.model ieee.cos_zero)
              (test_args (ieee.model ieee.cos_zero)))
            false [] st1 :=
  ⟨(Sequencer.gate_iff _ _ _).1 (by decide),
    (run_dispatches_iff_gate.1 _ (ieee.model ieee.cos_zero)
      (test_args (ieee.model ieee.cos_zero)) sort_by_time
      (SequenceMaker.process (ieee.model ieee.cos_zero) (test_args (ieee.model ieee.cos_zero)))
      false 200000000 equator_trajectory [] []).1 ((Sequencer.gate_iff _ _ _).1 (by decide))⟩

/-! ### Rounding in the binary64 model -/

namespace ieee

theorem blen_bisect_spec (n k r : Nat) (h1 : 2 ^ r ≤ n) (h2 : n < 2 ^ (r + 2 ^ k)) :
    2 ^ (blen.bisect n k r) ≤ n ∧ n < 2 ^ (blen.bisect n k r + 1) := by
  induction k generalizing r with
  | zero =>
    rw [blen.bisect]
    exact ⟨h1, by simpa using h2⟩
  | succ k ih =>
    rw [blen.bisect]
    by_cases h : 2 ^ (r + 2 ^ k) ≤ n
    · rw [if_pos h]
      refine ih (r + 2 ^ k) h ?_
      have e : r + 2 ^ k + 2 ^ k = r + 2 ^ (k + 1) := by
        rw [pow_succ]
        omega
      rw [e]
      exact h2
    · rw [if_neg h]
      exact ih r h1 (by omega)

theorem blen_go_spec (f n : Nat) (h : n ≤ f) :
    (n = 0 → blen.go f n = 0) ∧
      (0 < n → 0 < blen.go f n ∧ 2 ^ (blen.go f n - 1) ≤ n ∧ n < 2 ^ (blen.go f n)) := by
  induction f generalizing n with
  | zero =>
    have : n = 0 := by omega
    subst this
    exact ⟨fun _ => rfl, fun h0 => absurd h0 (by omega)⟩
  | succ f ih =>
    rw [blen.go]
    by_cases hn : n = 0
    · simp [hn]
    · rw [if_neg hn]
      refine ⟨fun h0 => absurd h0 hn, fun _ => ?_⟩
      by_cases hs : n < 2 ^ 64
      · rw [if_pos hs]
        obtain ⟨g1, g2⟩ := blen_bisect_spec n 6 0 (by simpa using Nat.pos_of_ne_zero hn)
          (by simpa using hs)
        exact ⟨Nat.succ_pos _, by simpa using g1, g2⟩
      · rw [if_neg hs]
        have hq : 0 < n / 2 ^ 64 := Nat.div_pos (by omega) (by norm_num)
        have hle : n / 2 ^ 64 ≤ f := by
          have : n / 2 ^ 64 < n := Nat.div_lt_self (by omega) (by norm_num)
          omega
        obtain ⟨g0, g1, g2⟩ := (ih (n / 2 ^ 64) hle).2 hq
        refine ⟨by omega, ?_, ?_⟩
        · have e : blen.go f (n / 2 ^ 64) + 64 - 1 = (blen.go f (n / 2 ^ 64) - 1) + 64 := by omega
          rw [e, pow_add]
          calc 2 ^ (blen.go f (n / 2 ^ 64) - 1) * 2 ^ 64 ≤ n / 2 ^ 64 * 2 ^ 64 :=
                Nat.mul_le_mul_right _ g1
            _ ≤ n := Nat.div_mul_le_self n (2 ^ 64)
        · rw [pow_add]
          exact (Nat.div_lt_iff_lt_mul (by norm_num)).1 g2

theorem blen_pos (n : Nat) (h : 0 < n) : 0 < blen n :=
  ((blen_go_spec n n (le_refl _)).2 h).1

theorem blen_lower (n : Nat) (h : 0 < n) : 2 ^ (blen n - 1) ≤ n :=
  ((blen_go_spec n n (le_refl _)).2 h).2.1

theorem blen_upper (n : Nat) : n < 2 ^ (blen n) := by
  by_cases h : n = 0
  · subst h
    simp
  · exact ((blen_go_spec n n (le_refl _)).2 (by omega)).2.2

/-! ### Powers of two in `ℚ` -/

theorem two_zpow_pos (e : Int) : (0 : ℚ) < (2 : ℚ) ^ e := zpow_pos (by norm_num) e

theorem two_zpow_mono {e f : Int} (h : e ≤ f) : (2 : ℚ) ^ e ≤ (2 : ℚ) ^ f :=
  zpow_le_zpow_right₀ (by norm_num) h

theorem two_zpow_add (e f : Int) : (2 : ℚ) ^ (e + f) = (2 : ℚ) ^ e * (2 : ℚ) ^ f :=
  zpow_add₀ (by norm_num) e f

theorem two_zpow_sub (e f : Int) : (2 : ℚ) ^ (e - f) = (2 : ℚ) ^ e / (2 : ℚ) ^ f :=
  zpow_sub₀ (by norm_num) e f

theorem two_zpow_toNat (e : Int) (h : 0 ≤ e) : (2 : ℚ) ^ e = ((2 ^ e.toNat : Nat) : ℚ) := by
  have : e = (e.toNat : Int) := (Int.toNat_of_nonneg h).symm
  conv_lhs => rw [this]
  rw [zpow_natCast]
  push_cast
  rfl

theorem two_zpow_succ (e : Int) : (2 : ℚ) ^ (e + 1) = 2 * (2 : ℚ) ^ e := by
  rw [two_zpow_add]
  simp [mul_comm]

/-- The scaled fraction of `expo` and `rnd` is `n / d / 2^e`. -/
theorem scale_ratio (n d : Nat) (e : Int) (hd : 0 < d) :
    ((scaleN n e : Nat) : ℚ) / ((scaleD d e : Nat) : ℚ) = (n : ℚ) / d / (2 : ℚ) ^ e := by
  have hd' : (d : ℚ) ≠ 0 := by exact_mod_cast (Nat.pos_iff_ne_zero.1 hd)
  unfold scaleN scaleD
  by_cases he : e < 0
  · simp only [he, if_true]
    have h2 : (2 : ℚ) ^ e = (((2 ^ (-e).toNat : Nat) : ℚ))⁻¹ := by
      rw [← two_zpow_toNat (-e) (by omega), zpow_neg, inv_inv]
    rw [h2]
    push_cast
    field_simp
  · simp only [he, if_false]
    rw [two_zpow_toNat e (by omega)]
    push_cast
    field_simp

theorem scaleD_pos (d : Nat) (e : Int) (hd : 0 < d) : 0 < scaleD d e := by
  unfold scaleD
  split
  · exact hd
  · exact Nat.mul_pos hd (pow_pos (by norm_num) _)

/-- Natural-number division is the floor of the rational quotient. -/
theorem nat_div_floor (N D : Nat) (hD : 0 < D) :
    ((N / D : Nat) : ℚ) ≤ (N : ℚ) / D ∧ (N : ℚ) / D < ((N / D : Nat) : ℚ) + 1 := by
  have hD' : (0 : ℚ) < D := by exact_mod_cast hD
  constructor
  · rw [le_div_iff₀ hD']
    exact_mod_cast Nat.div_mul_le_self N D
  · rw [div_lt_iff₀ hD']
    have : N < (N / D + 1) * D := by
      have h1 := Nat.div_add_mod N D
      have h2 := Nat.mod_lt N hD
      have h3 : (N / D + 1) * D = D * (N / D) + D := by ring
      omega
    exact_mod_cast this


theorem blen_lower_q (n : Nat) (h : 0 < n) : (2 : ℚ) ^ ((blen n : Int) - 1) ≤ (n : ℚ) := by
  have h1 := blen_lower n h
  have h2 := blen_pos n h
  have : ((blen n : Int) - 1) = ((blen n - 1 : Nat) : Int) := by omega
  rw [this, zpow_natCast]
  exact_mod_cast h1

theorem blen_upper_q (n : Nat) : (n : ℚ) < (2 : ℚ) ^ (blen n : Int) := by
  rw [zpow_natCast]
  exact_mod_cast blen_upper n

/-- The exponent chosen by `expo` brackets the rational `n / d`. -/
theorem expo_spec (n d : Nat) (hn : 0 < n) (hd : 0 < d) :
    -1074 ≤ expo n d ∧ (n : ℚ) / d < (2 : ℚ) ^ (expo n d + 53) ∧
      (expo n d = -1074 ∨ (2 : ℚ) ^ (expo n d + 52) ≤ (n : ℚ) / d) := by
  have hd' : (0 : ℚ) < d := by exact_mod_cast hd
  have hn' : (0 : ℚ) < n := by exact_mod_cast hn
  have hn1 := blen_lower_q n hn
  have hn2 := blen_upper_q n
  have hd1 := blen_lower_q d hd
  have hd2 := blen_upper_q d
  -- bounds of x in terms of e1
  have hlo : (2 : ℚ) ^ ((blen n : Int) - (blen d : Int) - 53 + 52) < (n : ℚ) / d := by
    have e : ((blen n : Int) - (blen d : Int) - 53 + 52) = ((blen n : Int) - 1) - (blen d : Int) := by
      ring
    rw [e, two_zpow_sub, div_lt_div_iff (two_zpow_pos _) hd']
    calc (2 : ℚ) ^ ((blen n : Int) - 1) * d < (2 : ℚ) ^ ((blen n : Int) - 1) * (2 : ℚ) ^ (blen d : Int) :=
          mul_lt_mul_of_pos_left hd2 (two_zpow_pos _)
      _ ≤ n * (2 : ℚ) ^ (blen d : Int) := mul_le_mul_of_nonneg_right hn1 (le_of_lt (two_zpow_pos _))
  have hhi : (n : ℚ) / d < (2 : ℚ) ^ ((blen n : Int) - (blen d : Int) - 53 + 54) := by
    have e : ((blen n : Int) - (blen d : Int) - 53 + 54) = (blen n : Int) - ((blen d : Int) - 1) := by
      ring
    rw [e, two_zpow_sub, div_lt_div_iff hd' (two_zpow_pos _)]
    calc (n : ℚ) * (2 : ℚ) ^ ((blen d : Int) - 1) < (2 : ℚ) ^ (blen n : Int) * (2 : ℚ) ^ ((blen d : Int) - 1) :=
          mul_lt_mul_of_pos_right hn2 (two_zpow_pos _)
      _ ≤ (2 : ℚ) ^ (blen n : Int) * d := mul_le_mul_of_nonneg_left hd1 (le_of_lt (two_zpow_pos _))
  -- the test of `expo`
  have htest : ∀ e1 : Int, (scaleN n e1 / scaleD d e1 < 2 ^ 53 ↔
      (n : ℚ) / d < (2 : ℚ) ^ (e1 + 53)) := by
    intro e1
    have hfl := nat_div_floor (scaleN n e1) (scaleD d e1) (scaleD_pos d e1 hd)
    rw [scale_ratio n d e1 hd] at hfl
    rw [two_zpow_add, ← div_lt_iff₀' (two_zpow_pos e1)]
    have h53 : (2 : ℚ) ^ (53 : Int) = ((2 ^ 53 : Nat) : ℚ) := by norm_num
    rw [h53]
    constructor
    · intro h
      have : ((scaleN n e1 / scaleD d e1 : Nat) : ℚ) + 1 ≤ ((2 ^ 53 : Nat) : ℚ) := by
        exact_mod_cast h
      linarith [hfl.2]
    · intro h
      have : ((scaleN n e1 / scaleD d e1 : Nat) : ℚ) < ((2 ^ 53 : Nat) : ℚ) := by
        linarith [hfl.1]
      exact_mod_cast this
  unfold expo
  simp only
  generalize hE : ((blen n : Int) - (blen d : Int) - 53) = e1 at hlo hhi
  have hbr : ∀ e2 : Int, e2 = (if scaleN n e1 / scaleD d e1 < 2 ^ 53 then e1 else e1 + 1) →
      (2 : ℚ) ^ (e2 + 52) ≤ (n : ℚ) / d ∧ (n : ℚ) / d < (2 : ℚ) ^ (e2 + 53) := by
    intro e2 he2
    by_cases ht : scaleN n e1 / scaleD d e1 < 2 ^ 53
    · rw [if_pos ht] at he2
      subst he2
      exact ⟨le_of_lt hlo, (htest e2).1 ht⟩
    · rw [if_neg ht] at he2
      subst he2
      have h1 : ¬ ((n : ℚ) / d < (2 : ℚ) ^ (e1 + 53)) := fun h => ht ((htest e1).2 h)
      have e : e1 + 1 + 52 = e1 + 53 := by ring
      have e' : e1 + 1 + 53 = e1 + 54 := by ring
      rw [e, e']
      exact ⟨not_lt.1 h1, hhi⟩
  obtain ⟨hb1, hb2⟩ := hbr _ rfl
  generalize (if scaleN n e1 / scaleD d e1 < 2 ^ 53 then e1 else e1 + 1) = e2 at hb1 hb2
  by_cases hc : -1074 ≤ e2
  · rw [max_eq_left hc]
    exact ⟨hc, hb2, Or.inr hb1⟩
  · rw [max_eq_right (by omega)]
    refine ⟨le_refl _, ?_, Or.inl rfl⟩
    exact lt_of_lt_of_le hb2 (two_zpow_mono (by omega))



/-- The rounding step of `rnd`: `m` is `q` or `q + 1`, whichever is nearer to
`N / Dn`, and `q + 1` only when `N / Dn` is not the integer `q`. -/
theorem round_half_even (N Dn : Nat) (hD : 0 < Dn) (q r m : Nat) (hq : q = N / Dn)
    (hr : r = N % Dn)
    (hm : m = if 2 * r < Dn then q else if Dn < 2 * r then q + 1 else q + q % 2) :
    (m = q ∨ (m = q + 1 ∧ (q : ℚ) < (N : ℚ) / Dn)) ∧
      2 * |(m : ℚ) - (N : ℚ) / Dn| ≤ 1 ∧
      (2 * ((N : ℚ) / Dn - q) = 1 → m = q + q % 2) := by
  have hD' : (0 : ℚ) < Dn := by exact_mod_cast hD
  have hN : (N : ℚ) = (q : ℚ) * Dn + r := by
    have := Nat.div_add_mod N Dn
    have h2 : N = q * Dn + r := by
      rw [hq, hr, Nat.mul_comm]
      exact this.symm
    exact_mod_cast h2
  have hy : (N : ℚ) / Dn = q + (r : ℚ) / Dn := by
    rw [hN]
    field_simp
  have hr0 : (0 : ℚ) ≤ (r : ℚ) / Dn := div_nonneg (by exact_mod_cast Nat.zero_le r) (le_of_lt hD')
  have down : 2 * r ≤ Dn → 2 * |(q : ℚ) - (N : ℚ) / Dn| ≤ 1 := by
    intro h
    have h' : 2 * (r : ℚ) ≤ Dn := by exact_mod_cast h
    have : (r : ℚ) / Dn ≤ 1 / 2 := by
      rw [div_le_iff₀ hD']
      linarith
    rw [hy]
    have : |(q : ℚ) - (q + (r : ℚ) / Dn)| ≤ 1 / 2 := by
      rw [abs_le]
      constructor <;> linarith
    linarith
  have up : Dn ≤ 2 * r → ((q : ℚ) < (N : ℚ) / Dn) ∧
      2 * |((q + 1 : Nat) : ℚ) - (N : ℚ) / Dn| ≤ 1 := by
    intro h
    have h' : (Dn : ℚ) ≤ 2 * (r : ℚ) := by exact_mod_cast h
    have h1 : (1 : ℚ) / 2 ≤ (r : ℚ) / Dn := by
      rw [le_div_iff₀ hD']
      linarith
    have h2 : (r : ℚ) / Dn < 1 := by
      rw [div_lt_iff₀ hD']
      have : r < Dn := by
        rw [hr]
        exact Nat.mod_lt N hD
      simpa using (by exact_mod_cast this : (r : ℚ) < Dn)
    refine ⟨by rw [hy]; linarith, ?_⟩
    rw [hy]
    have : |((q + 1 : Nat) : ℚ) - (q + (r : ℚ) / Dn)| ≤ 1 / 2 := by
      rw [abs_le]
      push_cast
      constructor <;> linarith
    linarith
  have tie : 2 * ((N : ℚ) / Dn - q) = 1 → 2 * r = Dn := by
    intro h
    rw [hy] at h
    have h1 : 2 * ((r : ℚ) / Dn) = 1 := by linarith
    have h2 : 2 * (r : ℚ) = Dn := by
      field_simp at h1
      linarith
    exact_mod_cast h2
  by_cases h1 : 2 * r < Dn
  · rw [if_pos h1] at hm
    subst hm
    exact ⟨Or.inl rfl, down (le_of_lt h1), fun h => absurd (tie h) (by omega)⟩
  · rw [if_neg h1] at hm
    by_cases h2 : Dn < 2 * r
    · rw [if_pos h2] at hm
      subst hm
      obtain ⟨u1, u2⟩ := up (le_of_lt h2)
      exact ⟨Or.inr ⟨rfl, u1⟩, u2, fun h => absurd (tie h) (by omega)⟩
    · rw [if_neg h2] at hm
      rcases Nat.mod_two_eq_zero_or_one q with h3 | h3
      · have hm' := hm
        rw [h3] at hm
        subst hm
        exact ⟨Or.inl rfl, down (by omega), fun _ => by omega⟩
      · have hm' := hm
        rw [h3] at hm
        subst hm
        obtain ⟨u1, u2⟩ := up (by omega)
        exact ⟨Or.inr ⟨rfl, u1⟩, u2, fun _ => by omega⟩


/-- Specification of `rnd` for a positive rational `n / d`: the result is one of
the two neighbours `q * 2^E` and `(q + 1) * 2^E` of `n / d` on the binary64
grid, a nearest one, in canonical form, or infinity on overflow. -/
theorem rnd_spec (s : Bool) (n d : Nat) (hn : 0 < n) (hd : 0 < d) :
    ∃ (q : Nat) (E : Int) (m : Nat),
      -1074 ≤ E ∧ q < 2 ^ 53 ∧ (E = -1074 ∨ 2 ^ 52 ≤ q) ∧
      (q : ℚ) * (2 : ℚ) ^ E ≤ (n : ℚ) / d ∧ (n : ℚ) / d < ((q : ℚ) + 1) * (2 : ℚ) ^ E ∧
      (m = q ∨ (m = q + 1 ∧ (q : ℚ) * (2 : ℚ) ^ E < (n : ℚ) / d)) ∧
      2 * |(m : ℚ) * (2 : ℚ) ^ E - (n : ℚ) / d| ≤ (2 : ℚ) ^ E ∧
      (2 * ((n : ℚ) / d - (q : ℚ) * (2 : ℚ) ^ E) = (2 : ℚ) ^ E → m = q + q % 2) ∧
      ((rnd s n d = .inf s ∧ (2 : ℚ) ^ (1024 : Int) ≤ (m : ℚ) * (2 : ℚ) ^ E) ∨
        ∃ m3 e3, rnd s n d = .fin s m3 e3 ∧ Canon m3 e3 ∧
          (m3 : ℚ) * (2 : ℚ) ^ e3 = (m : ℚ) * (2 : ℚ) ^ E) := by
  obtain ⟨hE1, hE2, hE3⟩ := expo_spec n d hn hd
  have hDn := scaleD_pos d (expo n d) hd
  have hfl := nat_div_floor (scaleN n (expo n d)) (scaleD d (expo n d)) hDn
  have hrat := scale_ratio n d (expo n d) hd
  obtain ⟨hm1, hm2, hm4⟩ := round_half_even (scaleN n (expo n d)) (scaleD d (expo n d)) hDn
    _ _ _ rfl rfl rfl
  have hrnd : rnd s n d =
      (if (if (if 2 * (scaleN n (expo n d) % scaleD d (expo n d)) < scaleD d (expo n d)
              then scaleN n (expo n d) / scaleD d (expo n d)
              else if scaleD d (expo n d) < 2 * (scaleN n (expo n d) % scaleD d (expo n d))
                then scaleN n (expo n d) / scaleD d (expo n d) + 1
                else scaleN n (expo n d) / scaleD d (expo n d)
                  + scaleN n (expo n d) / scaleD d (expo n d) % 2) = 2 ^ 53
            then expo n d + 1 else expo n d) > 971 then B64.inf s
        else B64.fin s
          (if (if 2 * (scaleN n (expo n d) % scaleD d (expo n d)) < scaleD d (expo n d)
              then scaleN n (expo n d) / scaleD d (expo n d)
              else if scaleD d (expo n d) < 2 * (scaleN n (expo n d) % scaleD d (expo n d))
                then scaleN n (expo n d) / scaleD d (expo n d) + 1
                else scaleN n (expo n d) / scaleD d (expo n d)
                  + scaleN n (expo n d) / scaleD d (expo n d) % 2) = 2 ^ 53
            then 2 ^ 52
            else (if 2 * (scaleN n (expo n d) % scaleD d (expo n d)) < scaleD d (expo n d)
              then scaleN n (expo n d) / scaleD d (expo n d)
              else if scaleD d (expo n d) < 2 * (scaleN n (expo n d) % scaleD d (expo n d))
                then scaleN n (expo n d) / scaleD d (expo n d) + 1
                else scaleN n (expo n d) / scaleD d (expo n d)
                  + scaleN n (expo n d) / scaleD d (expo n d) % 2))
          (if (if 2 * (scaleN n (expo n d) % scaleD d (expo n d)) < scaleD d (expo n d)
              then scaleN n (expo n d) / scaleD d (expo n d)
              else if scaleD d (expo n d) < 2 * (scaleN n (expo n d) % scaleD d (expo n d))
                then scaleN n (expo n d) / scaleD d (expo n d) + 1
                else scaleN n (expo n d) / scaleD d (expo n d)
                  + scaleN n (expo n d) / scaleD d (expo n d) % 2) = 2 ^ 53
            then expo n d + 1 else expo n d)) := by
    unfold rnd
    rw [if_neg (Nat.pos_iff_ne_zero.1 hn)]
  rw [hrnd]
  generalize (if 2 * (scaleN n (expo n d) % scaleD d (expo n d)) < scaleD d (expo n d)
      then scaleN n (expo n d) / scaleD d (expo n d)
      else if scaleD d (expo n d) < 2 * (scaleN n (expo n d) % scaleD d (expo n d))
        then scaleN n (expo n d) / scaleD d (expo n d) + 1
        else scaleN n (expo n d) / scaleD d (expo n d)
          + scaleN n (expo n d) / scaleD d (expo n d) % 2) = m at hm1 hm2 hm4 ⊢
  rw [hrat] at hfl hm1 hm2 hm4
  generalize scaleN n (expo n d) / scaleD d (expo n d) = q at hfl hm1 hm2 hm4 ⊢
  generalize expo n d = E at hE1 hE2 hE3 hfl hm1 hm2 hm4 ⊢
  have hp := two_zpow_pos E
  have hx1 : (q : ℚ) * (2 : ℚ) ^ E ≤ (n : ℚ) / d := (le_div_iff₀ hp).1 hfl.1
  have hx2 : (n : ℚ) / d < ((q : ℚ) + 1) * (2 : ℚ) ^ E := (div_lt_iff₀ hp).1 hfl.2
  have h53 : (2 : ℚ) ^ (E + 53) = ((2 ^ 53 : Nat) : ℚ) * (2 : ℚ) ^ E := by
    rw [two_zpow_add, mul_comm]
    norm_num
  have h52 : (2 : ℚ) ^ (E + 52) = ((2 ^ 52 : Nat) : ℚ) * (2 : ℚ) ^ E := by
    rw [two_zpow_add, mul_comm]
    norm_num
  have hq53 : q < 2 ^ 53 := by
    have : (q : ℚ) * (2 : ℚ) ^ E < ((2 ^ 53 : Nat) : ℚ) * (2 : ℚ) ^ E := by
      rw [← h53]
      exact lt_of_le_of_lt hx1 hE2
    have := lt_of_mul_lt_mul_right this (le_of_lt hp)
    exact_mod_cast this
  have hq52 : E = -1074 ∨ 2 ^ 52 ≤ q := by
    rcases hE3 with h | h
    · exact Or.inl h
    · right
      rw [h52] at h
      have : ((2 ^ 52 : Nat) : ℚ) * (2 : ℚ) ^ E < ((q : ℚ) + 1) * (2 : ℚ) ^ E :=
        lt_of_le_of_lt h hx2
      have := lt_of_mul_lt_mul_right this (le_of_lt hp)
      have h3 : (2 ^ 52 : Nat) < q + 1 := by exact_mod_cast this
      omega
  have hmx : (m = q ∨ (m = q + 1 ∧ (q : ℚ) * (2 : ℚ) ^ E < (n : ℚ) / d)) := by
    rcases hm1 with h | ⟨h, h'⟩
    · exact Or.inl h
    · exact Or.inr ⟨h, (lt_div_iff₀ hp).1 h'⟩
  have hnear : 2 * |(m : ℚ) * (2 : ℚ) ^ E - (n : ℚ) / d| ≤ (2 : ℚ) ^ E := by
    have e1 : (m : ℚ) * (2 : ℚ) ^ E - (n : ℚ) / d
        = ((m : ℚ) - (n : ℚ) / d / (2 : ℚ) ^ E) * (2 : ℚ) ^ E := by
      rw [sub_mul, div_mul_cancel₀ _ (ne_of_gt hp)]
    rw [e1, abs_mul, abs_of_pos hp]
    nlinarith [abs_nonneg ((m : ℚ) - (n : ℚ) / d / (2 : ℚ) ^ E)]
  have hm53 : m ≤ 2 ^ 53 := by
    rcases hmx with h | ⟨h, _⟩ <;> omega
  have htie : 2 * ((n : ℚ) / d - (q : ℚ) * (2 : ℚ) ^ E) = (2 : ℚ) ^ E → m = q + q % 2 := by
    intro h
    apply hm4
    have e1 : (n : ℚ) / d / (2 : ℚ) ^ E - q
        = ((n : ℚ) / d - (q : ℚ) * (2 : ℚ) ^ E) / (2 : ℚ) ^ E := by
      rw [sub_div, mul_div_cancel_right₀ _ (ne_of_gt hp)]
    rw [e1, ← mul_div_assoc, h, div_self (ne_of_gt hp)]
  refine ⟨q, E, m, hE1, hq53, hq52, hx1, hx2, hmx, hnear, htie, ?_⟩
  have hqm : q ≤ m := by
    rcases hmx with h | ⟨h, _⟩ <;> omega
  -- value and canonical form of the normalised pair
  have hval : (((if m = 2 ^ 53 then 2 ^ 52 else m : Nat)) : ℚ)
      * (2 : ℚ) ^ (if m = 2 ^ 53 then E + 1 else E) = (m : ℚ) * (2 : ℚ) ^ E := by
    by_cases h : m = 2 ^ 53
    · rw [if_pos h, if_pos h, two_zpow_succ, h]
      push_cast
      ring
    · rw [if_neg h, if_neg h]
  have hnorm : (2 ^ 52 ≤ (if m = 2 ^ 53 then 2 ^ 52 else m)) ∨
      (if m = 2 ^ 53 then E + 1 else E) = -1074 := by
    by_cases h : m = 2 ^ 53
    · rw [if_pos h]
      exact Or.inl (le_refl _)
    · rw [if_neg h, if_neg h]
      rcases hq52 with h1 | h1
      · exact Or.inr h1
      · exact Or.inl (le_trans h1 hqm)
  have hm3 : (if m = 2 ^ 53 then 2 ^ 52 else m) < 2 ^ 53 := by
    by_cases h : m = 2 ^ 53
    · rw [if_pos h]
      norm_num
    · rw [if_neg h]
      omega
  have he3 : -1074 ≤ (if m = 2 ^ 53 then E + 1 else E) := by
    by_cases h : m = 2 ^ 53
    · rw [if_pos h]
      omega
    · rw [if_neg h]
      exact hE1
  rw [← hval]
  generalize (if m = 2 ^ 53 then 2 ^ 52 else m) = m3 at hnorm hm3 ⊢
  generalize (if m = 2 ^ 53 then E + 1 else E) = e3 at hnorm he3 ⊢
  by_cases hov : e3 > 971
  · rw [if_pos hov]
    left
    refine ⟨rfl, ?_⟩
    have hm52 : 2 ^ 52 ≤ m3 := by
      rcases hnorm with h | h
      · exact h
      · omega
    have h1 : (2 : ℚ) ^ (1024 : Int) ≤ ((2 ^ 52 : Nat) : ℚ) * (2 : ℚ) ^ e3 := by
      have : (2 : ℚ) ^ (1024 : Int) = ((2 ^ 52 : Nat) : ℚ) * (2 : ℚ) ^ (972 : Int) := by
        norm_num
      rw [this]
      exact mul_le_mul_of_nonneg_left (two_zpow_mono (by omega)) (by positivity)
    have h2 : ((2 ^ 52 : Nat) : ℚ) * (2 : ℚ) ^ e3 ≤ (m3 : ℚ) * (2 : ℚ) ^ e3 :=
      mul_le_mul_of_nonneg_right (by exact_mod_cast hm52) (le_of_lt (two_zpow_pos e3))
    exact le_trans h1 h2
  · rw [if_neg hov]
    right
    exact ⟨m3, e3, rfl, ⟨hm3, he3, by omega, hnorm⟩, rfl⟩


/-- A grid point `M * 2^F` with `M < 2^53` and `F ≥ -1074` that is not above a
rational `x` in the cell `[q * 2^E, (q + 1) * 2^E)` is not above `q * 2^E`. -/
theorem grid_below (x : ℚ) (q : Nat) (E : Int) (M : Nat) (F : Int)
    (hq : E = -1074 ∨ 2 ^ 52 ≤ q)
    (hx2 : x < ((q : ℚ) + 1) * (2 : ℚ) ^ E)
    (hM : M ≤ 2 ^ 53) (hF : -1074 ≤ F) (hle : (M : ℚ) * (2 : ℚ) ^ F ≤ x) :
    (M : ℚ) * (2 : ℚ) ^ F ≤ (q : ℚ) * (2 : ℚ) ^ E := by
  have hp := two_zpow_pos E
  by_cases hEF : E ≤ F
  · have e1 : (2 : ℚ) ^ F = ((2 ^ (F - E).toNat : Nat) : ℚ) * (2 : ℚ) ^ E := by
      rw [← two_zpow_toNat (F - E) (by omega), ← two_zpow_add]
      congr 1
      ring
    rw [e1, ← mul_assoc] at hle ⊢
    have h1 : (M : ℚ) * ((2 ^ (F - E).toNat : Nat) : ℚ) < (q : ℚ) + 1 :=
      lt_of_mul_lt_mul_right (lt_of_le_of_lt hle hx2) (le_of_lt hp)
    have h2 : M * 2 ^ (F - E).toNat < q + 1 := by exact_mod_cast h1
    have h3 : M * 2 ^ (F - E).toNat ≤ q := by omega
    exact mul_le_mul_of_nonneg_right (by exact_mod_cast h3) (le_of_lt hp)
  · have hq52 : 2 ^ 52 ≤ q := by
      rcases hq with h | h
      · omega
      · exact h
    have h1 : (M : ℚ) * (2 : ℚ) ^ F ≤ ((2 ^ 53 : Nat) : ℚ) * (2 : ℚ) ^ F :=
      mul_le_mul_of_nonneg_right (by exact_mod_cast hM) (le_of_lt (two_zpow_pos F))
    have h2 : ((2 ^ 53 : Nat) : ℚ) * (2 : ℚ) ^ F = ((2 ^ 52 : Nat) : ℚ) * (2 : ℚ) ^ (F + 1) := by
      rw [two_zpow_succ]
      push_cast
      ring
    have h3 : ((2 ^ 52 : Nat) : ℚ) * (2 : ℚ) ^ (F + 1) ≤ ((2 ^ 52 : Nat) : ℚ) * (2 : ℚ) ^ E :=
      mul_le_mul_of_nonneg_left (two_zpow_mono (by omega)) (by positivity)
    have h4 : ((2 ^ 52 : Nat) : ℚ) * (2 : ℚ) ^ E ≤ (q : ℚ) * (2 : ℚ) ^ E :=
      mul_le_mul_of_nonneg_right (by exact_mod_cast hq52) (le_of_lt hp)
    linarith

/-- A grid point `M * 2^F` with `M < 2^53` and `F ≥ -1074` that is not below a
rational `x` strictly inside the cell `(q * 2^E, (q + 1) * 2^E)` is not below
`(q + 1) * 2^E`. -/
theorem grid_above (x : ℚ) (q : Nat) (E : Int) (M : Nat) (F : Int)
    (hq : E = -1074 ∨ 2 ^ 52 ≤ q)
    (hx1 : (q : ℚ) * (2 : ℚ) ^ E < x)
    (hM : M ≤ 2 ^ 53) (hF : -1074 ≤ F) (hle : x ≤ (M : ℚ) * (2 : ℚ) ^ F) :
    ((q : ℚ) + 1) * (2 : ℚ) ^ E ≤ (M : ℚ) * (2 : ℚ) ^ F := by
  have hp := two_zpow_pos E
  by_cases hEF : E ≤ F
  · have e1 : (2 : ℚ) ^ F = ((2 ^ (F - E).toNat : Nat) : ℚ) * (2 : ℚ) ^ E := by
      rw [← two_zpow_toNat (F - E) (by omega), ← two_zpow_add]
      congr 1
      ring
    rw [e1, ← mul_assoc] at hle ⊢
    have h1 : (q : ℚ) < (M : ℚ) * ((2 ^ (F - E).toNat : Nat) : ℚ) :=
      lt_of_mul_lt_mul_right (lt_of_lt_of_le hx1 hle) (le_of_lt hp)
    have h2 : q < M * 2 ^ (F - E).toNat := by exact_mod_cast h1
    have h3 : q + 1 ≤ M * 2 ^ (F - E).toNat := by omega
    exact mul_le_mul_of_nonneg_right (by exact_mod_cast h3) (le_of_lt hp)
  · exfalso
    have hq52 : 2 ^ 52 ≤ q := by
      rcases hq with h | h
      · omega
      · exact h
    have h1 : (M : ℚ) * (2 : ℚ) ^ F ≤ ((2 ^ 53 : Nat) : ℚ) * (2 : ℚ) ^ F :=
      mul_le_mul_of_nonneg_right (by exact_mod_cast hM) (le_of_lt (two_zpow_pos F))
    have h2 : ((2 ^ 53 : Nat) : ℚ) * (2 : ℚ) ^ F = ((2 ^ 52 : Nat) : ℚ) * (2 : ℚ) ^ (F + 1) := by
      rw [two_zpow_succ]
      push_cast
      ring
    have h3 : ((2 ^ 52 : Nat) : ℚ) * (2 : ℚ) ^ (F + 1) ≤ ((2 ^ 52 : Nat) : ℚ) * (2 : ℚ) ^ E :=
      mul_le_mul_of_nonneg_left (two_zpow_mono (by omega)) (by positivity)
    have h4 : ((2 ^ 52 : Nat) : ℚ) * (2 : ℚ) ^ E ≤ (q : ℚ) * (2 : ℚ) ^ E :=
      mul_le_mul_of_nonneg_right (by exact_mod_cast hq52) (le_of_lt hp)
    linarith

/-- Rounding never crosses a grid point from below: a grid point not above
`n / d` is not above the rounded value. -/
theorem rnd_ge_grid (s : Bool) (n d : Nat) (hn : 0 < n) (hd : 0 < d) (M : Nat) (F : Int)
    (hM : M < 2 ^ 53) (hF : -1074 ≤ F) (hle : (M : ℚ) * (2 : ℚ) ^ F ≤ (n : ℚ) / d) :
    rnd s n d = .inf s ∨ ∃ m e, rnd s n d = .fin s m e ∧ Canon m e ∧
      (M : ℚ) * (2 : ℚ) ^ F ≤ (m : ℚ) * (2 : ℚ) ^ e := by
  obtain ⟨q, E, m, hE, _, hq, hx1, hx2, hm, _, _, hres⟩ := rnd_spec s n d hn hd
  have hb := grid_below _ q E M F hq hx2 (le_of_lt hM) hF hle
  rcases hres with ⟨h, _⟩ | ⟨m3, e3, h1, h2, h3⟩
  · exact Or.inl h
  · refine Or.inr ⟨m3, e3, h1, h2, ?_⟩
    rw [h3]
    have hqm : (q : ℚ) ≤ (m : ℚ) := by
      rcases hm with h | ⟨h, _⟩
      · rw [h]
      · rw [h]
        push_cast
        linarith
    exact le_trans hb (mul_le_mul_of_nonneg_right hqm (le_of_lt (two_zpow_pos E)))

/-- Rounding never crosses a grid point from above: the rounded value of a
rational not above a canonical grid point is finite and not above it. -/
theorem rnd_le_grid (s : Bool) (n d : Nat) (hn : 0 < n) (hd : 0 < d) (M : Nat) (F : Int)
    (hM : Canon M F) (hle : (n : ℚ) / d ≤ (M : ℚ) * (2 : ℚ) ^ F) :
    ∃ m e, rnd s n d = .fin s m e ∧ Canon m e ∧
      (m : ℚ) * (2 : ℚ) ^ e ≤ (M : ℚ) * (2 : ℚ) ^ F := by
  obtain ⟨q, E, m, hE, _, hq, hx1, hx2, hm, _, _, hres⟩ := rnd_spec s n d hn hd
  have hmle : (m : ℚ) * (2 : ℚ) ^ E ≤ (M : ℚ) * (2 : ℚ) ^ F := by
    rcases hm with h | ⟨h, h'⟩
    · rw [h]
      exact le_trans hx1 hle
    · rw [h]
      push_cast
      exact grid_above _ q E M F hq h' (le_of_lt hM.1) hM.2.1 hle
  rcases hres with ⟨_, h⟩ | ⟨m3, e3, h1, h2, h3⟩
  · exfalso
    have h1 : (M : ℚ) * (2 : ℚ) ^ F < (2 : ℚ) ^ (1024 : Int) := by
      have a1 : (M : ℚ) * (2 : ℚ) ^ F < ((2 ^ 53 : Nat) : ℚ) * (2 : ℚ) ^ F :=
        mul_lt_mul_of_pos_right (by exact_mod_cast hM.1) (two_zpow_pos F)
      have a2 : ((2 ^ 53 : Nat) : ℚ) * (2 : ℚ) ^ F ≤ ((2 ^ 53 : Nat) : ℚ) * (2 : ℚ) ^ (971 : Int) :=
        mul_le_mul_of_nonneg_left (two_zpow_mono hM.2.2.1) (by positivity)
      have a3 : ((2 ^ 53 : Nat) : ℚ) * (2 : ℚ) ^ (971 : Int) = (2 : ℚ) ^ (1024 : Int) := by
        norm_num
      linarith
    linarith
  · exact ⟨m3, e3, h1, h2, by rw [h3]; exact hmle⟩


/-- Monotonicity of round-to-nearest on two cells of the binary64 grid. -/
theorem cell_mono (x x' : ℚ) (q : Nat) (E : Int) (m : Nat) (q' : Nat) (E' : Int) (m' : Nat)
    (hE : -1074 ≤ E) (hq53 : q < 2 ^ 53) (hq : E = -1074 ∨ 2 ^ 52 ≤ q)
    (hx1 : (q : ℚ) * (2 : ℚ) ^ E ≤ x) (hx2 : x < ((q : ℚ) + 1) * (2 : ℚ) ^ E)
    (hm : m = q ∨ (m = q + 1 ∧ (q : ℚ) * (2 : ℚ) ^ E < x))
    (hnear : 2 * |(m : ℚ) * (2 : ℚ) ^ E - x| ≤ (2 : ℚ) ^ E)
    (htie : 2 * (x - (q : ℚ) * (2 : ℚ) ^ E) = (2 : ℚ) ^ E → m = q + q % 2)
    (hE' : -1074 ≤ E') (hq53' : q' < 2 ^ 53) (hq' : E' = -1074 ∨ 2 ^ 52 ≤ q')
    (hx1' : (q' : ℚ) * (2 : ℚ) ^ E' ≤ x') (hx2' : x' < ((q' : ℚ) + 1) * (2 : ℚ) ^ E')
    (hm' : m' = q' ∨ (m' = q' + 1 ∧ (q' : ℚ) * (2 : ℚ) ^ E' < x'))
    (hnear' : 2 * |(m' : ℚ) * (2 : ℚ) ^ E' - x'| ≤ (2 : ℚ) ^ E')
    (htie' : 2 * (x' - (q' : ℚ) * (2 : ℚ) ^ E') = (2 : ℚ) ^ E' → m' = q' + q' % 2)
    (hle : x ≤ x') :
    (m : ℚ) * (2 : ℚ) ^ E ≤ (m' : ℚ) * (2 : ℚ) ^ E' := by
  have hp := two_zpow_pos E
  have hp' := two_zpow_pos E'
  -- the lower neighbours are ordered
  have hLL : (q : ℚ) * (2 : ℚ) ^ E ≤ (q' : ℚ) * (2 : ℚ) ^ E' :=
    grid_below x' q' E' q E hq' hx2' (le_of_lt hq53) hE (le_trans hx1 hle)
  have hqm' : (q' : ℚ) * (2 : ℚ) ^ E' ≤ (m' : ℚ) * (2 : ℚ) ^ E' := by
    rcases hm' with h | ⟨h, _⟩
    · rw [h]
    · rw [h]
      push_cast
      nlinarith
  have hmH : (m : ℚ) * (2 : ℚ) ^ E ≤ ((q : ℚ) + 1) * (2 : ℚ) ^ E := by
    rcases hm with h | ⟨h, _⟩
    · rw [h]
      nlinarith
    · rw [h]
      push_cast
      exact le_refl _
  by_cases hH : ((q : ℚ) + 1) * (2 : ℚ) ^ E ≤ x'
  · -- the upper neighbour of `x` is a grid point below `x'`
    have h1 : (((q + 1 : Nat)) : ℚ) * (2 : ℚ) ^ E ≤ (q' : ℚ) * (2 : ℚ) ^ E' :=
      grid_below x' q' E' (q + 1) E hq' hx2' (by omega) hE (by push_cast; exact hH)
    push_cast at h1
    linarith
  · have hH' : x' < ((q : ℚ) + 1) * (2 : ℚ) ^ E := not_le.1 hH
    -- `x'` lies in the cell of `x`
    have hLL' : (q' : ℚ) * (2 : ℚ) ^ E' ≤ (q : ℚ) * (2 : ℚ) ^ E :=
      grid_below x' q E q' E' hq hH' (le_of_lt hq53') hE' hx1'
    have hL : (q : ℚ) * (2 : ℚ) ^ E = (q' : ℚ) * (2 : ℚ) ^ E' := le_antisymm hLL hLL'
    rcases hm with h | ⟨h, hlt⟩
    · rw [h, hL]
      exact hqm'
    · -- `x` is rounded up
      have hlt' : (q' : ℚ) * (2 : ℚ) ^ E' < x' := by
        rw [← hL]
        exact lt_of_lt_of_le hlt hle
      have hHH1 : ((q : ℚ) + 1) * (2 : ℚ) ^ E ≤ (((q' + 1 : Nat)) : ℚ) * (2 : ℚ) ^ E' :=
        grid_above x q E (q' + 1) E' hq hlt (by omega) hE'
          (by push_cast; exact le_of_lt (lt_of_le_of_lt hle hx2'))
      have hHH2 : ((q' : ℚ) + 1) * (2 : ℚ) ^ E' ≤ (((q + 1 : Nat)) : ℚ) * (2 : ℚ) ^ E :=
        grid_above x' q' E' (q + 1) E hq' hlt' (by omega) hE
          (by push_cast; exact le_of_lt hH')
      push_cast at hHH1 hHH2
      have hHeq : ((q : ℚ) + 1) * (2 : ℚ) ^ E = ((q' : ℚ) + 1) * (2 : ℚ) ^ E' :=
        le_antisymm hHH1 hHH2
      have hEE : (2 : ℚ) ^ E = (2 : ℚ) ^ E' := by linarith
      have hqq : q = q' := by
        rw [hEE] at hL
        have := mul_right_cancel₀ (ne_of_gt hp') hL
        exact_mod_cast this
      subst hqq
      rcases hm' with h' | ⟨h', _⟩
      · -- `x'` is rounded down: both are the midpoint
        have hmx : (m : ℚ) * (2 : ℚ) ^ E - x = ((q : ℚ) + 1) * (2 : ℚ) ^ E - x := by
          rw [h]
          push_cast
          ring
        have hmx' : (m' : ℚ) * (2 : ℚ) ^ E' - x' = -(x' - (q : ℚ) * (2 : ℚ) ^ E') := by
          rw [h']
          ring
        rw [hmx, abs_of_nonneg (by linarith)] at hnear
        rw [hmx', abs_neg, abs_of_nonneg (by linarith)] at hnear'
        have ht : 2 * (x - (q : ℚ) * (2 : ℚ) ^ E) = (2 : ℚ) ^ E := by linarith
        have ht' : 2 * (x' - (q : ℚ) * (2 : ℚ) ^ E') = (2 : ℚ) ^ E' := by linarith
        rw [htie ht, htie' ht', hEE]
      · rw [h, h', hEE]

/-- Monotonicity of `rnd` in the rational being rounded. -/
theorem rnd_mono (s : Bool) (n d n' d' : Nat) (hn : 0 < n) (hd : 0 < d) (hn' : 0 < n')
    (hd' : 0 < d') (hle : (n : ℚ) / d ≤ (n' : ℚ) / d') (m' : Nat) (e' : Int)
    (h' : rnd s n' d' = .fin s m' e') :
    Canon m' e' ∧ ∃ m e, rnd s n d = .fin s m e ∧ Canon m e ∧
      (m : ℚ) * (2 : ℚ) ^ e ≤ (m' : ℚ) * (2 : ℚ) ^ e' := by
  obtain ⟨q, E, m, hE, hq53, hq, hx1, hx2, hm, hnear, htie, hres⟩ := rnd_spec s n d hn hd
  obtain ⟨q', E', k', hE', hq53', hq', hx1', hx2', hm', hnear', htie', hres'⟩ :=
    rnd_spec s n' d' hn' hd'
  have hcell := cell_mono _ _ q E m q' E' k' hE hq53 hq hx1 hx2 hm hnear htie
    hE' hq53' hq' hx1' hx2' hm' hnear' htie' hle
  rcases hres' with ⟨h, _⟩ | ⟨m3', e3', g1, g2, g3⟩
  · rw [h] at h'
    cases h'
  · rw [g1] at h'
    simp only [B64.fin.injEq, true_and] at h'
    obtain ⟨rfl, rfl⟩ := h'
    refine ⟨g2, ?_⟩
    rcases hres with ⟨_, h⟩ | ⟨m3, e3, f1, f2, f3⟩
    · exfalso
      have a1 : (m3' : ℚ) * (2 : ℚ) ^ e3' < ((2 ^ 53 : Nat) : ℚ) * (2 : ℚ) ^ e3' :=
        mul_lt_mul_of_pos_right (by exact_mod_cast g2.1) (two_zpow_pos e3')
      have a2 : ((2 ^ 53 : Nat) : ℚ) * (2 : ℚ) ^ e3'
          ≤ ((2 ^ 53 : Nat) : ℚ) * (2 : ℚ) ^ (971 : Int) :=
        mul_le_mul_of_nonneg_left (two_zpow_mono g2.2.2.1) (by positivity)
      have a3 : ((2 ^ 53 : Nat) : ℚ) * (2 : ℚ) ^ (971 : Int) = (2 : ℚ) ^ (1024 : Int) := by
        norm_num
      linarith
    · exact ⟨m3, e3, f1, f2, by rw [f3, g3]; exact hcell⟩


/-! ### Values of the operations -/

theorem NN.fin0 {x : B64} (h : NN x) : Fin0 x := by
  obtain ⟨m, e, h1, _⟩ := h
  exact ⟨m, e, h1⟩

theorem val_fin_false (m : Nat) (e : Int) : val (.fin false m e) = (m : ℚ) * (2 : ℚ) ^ e := by
  simp [val]

theorem val_nonneg_of_fin0 {x : B64} (h : Fin0 x) : 0 ≤ val x := by
  obtain ⟨m, e, rfl⟩ := h
  rw [val_fin_false]
  exact mul_nonneg (by positivity) (le_of_lt (two_zpow_pos e))

theorem canon_zero : Canon 0 (-1074) := ⟨by norm_num, le_refl _, by norm_num, Or.inr rfl⟩

theorem rndZ_num_den (n : Nat) (g : Int) :
    (((if g < 0 then n else n * 2 ^ g.toNat : Nat)) : ℚ) /
        (((if g < 0 then 2 ^ (-g).toNat else 1 : Nat)) : ℚ) = (n : ℚ) * (2 : ℚ) ^ g := by
  by_cases hg : g < 0
  · rw [if_pos hg, if_pos hg]
    have h2 : (2 : ℚ) ^ g = (((2 ^ (-g).toNat : Nat) : ℚ))⁻¹ := by
      rw [← two_zpow_toNat (-g) (by omega), zpow_neg, inv_inv]
    rw [h2]
    rfl
  · rw [if_neg hg, if_neg hg, two_zpow_toNat g (by omega)]
    push_cast
    simp

theorem rndZ_den_pos (g : Int) : 0 < (if g < 0 then 2 ^ (-g).toNat else 1 : Nat) := by
  split
  · exact pow_pos (by norm_num) _
  · exact Nat.one_pos

theorem rndZ_num_pos (n : Nat) (g : Int) (h : 0 < n) :
    0 < (if g < 0 then n else n * 2 ^ g.toNat : Nat) := by
  split
  · exact h
  · exact Nat.mul_pos h (pow_pos (by norm_num) _)

theorem rndZ_zero (s : Bool) (g : Int) : rndZ s 0 g = .fin s 0 (-1074) := by
  unfold rndZ rnd
  split <;> simp

/-- Monotonicity of `rndZ` on non-negative arguments. -/
theorem rndZ_mono (n : Nat) (g : Int) (n' : Nat) (g' : Int)
    (hle : (n : ℚ) * (2 : ℚ) ^ g ≤ (n' : ℚ) * (2 : ℚ) ^ g') (hu : Fin0 (rndZ false n' g')) :
    NN (rndZ false n' g') ∧ NN (rndZ false n g) ∧
      val (rndZ false n g) ≤ val (rndZ false n' g') := by
  obtain ⟨M, F, hM⟩ := hu
  by_cases hn : n = 0
  · subst hn
    rw [rndZ_zero]
    have hNN' : NN (rndZ false n' g') := by
      by_cases hn' : n' = 0
      · subst hn'
        rw [rndZ_zero]
        exact ⟨0, -1074, rfl, canon_zero⟩
      · have := rnd_mono false _ _ _ _ (rndZ_num_pos n' g' (by omega)) (rndZ_den_pos g')
          (rndZ_num_pos n' g' (by omega)) (rndZ_den_pos g') (le_refl _) M F hM
        exact ⟨M, F, hM, this.1⟩
    refine ⟨hNN', ⟨0, -1074, rfl, canon_zero⟩, ?_⟩
    rw [val_fin_false]
    simp only [Nat.cast_zero, zero_mul]
    exact val_nonneg_of_fin0 hNN'.fin0
  · have hn0 : 0 < n := by omega
    have hn' : 0 < n' := by
      by_contra h
      have h0 : n' = 0 := by omega
      subst h0
      simp only [Nat.cast_zero, zero_mul] at hle
      have : (0 : ℚ) < (n : ℚ) * (2 : ℚ) ^ g :=
        mul_pos (by exact_mod_cast hn0) (two_zpow_pos g)
      linarith
    have hr := rnd_mono false _ _ _ _ (rndZ_num_pos n g hn0) (rndZ_den_pos g)
      (rndZ_num_pos n' g' hn') (rndZ_den_pos g')
      (by rw [rndZ_num_den, rndZ_num_den]; exact hle) M F hM
    obtain ⟨c', m, e, h1, h2, h3⟩ := hr
    refine ⟨⟨M, F, hM, c'⟩, ⟨m, e, h1, h2⟩, ?_⟩
    have e1 : rndZ false n g = .fin false m e := h1
    have e2 : rndZ false n' g' = .fin false M F := hM
    rw [e1, e2, val_fin_false, val_fin_false]
    exact h3

/-- Exact value of a product. -/
theorem mul_fin0 (m : Nat) (e : Int) (k : Nat) (f : Int) :
    mul (.fin false m e) (.fin false k f) = rndZ false (m * k) (e + f) := rfl

/-- Monotonicity of multiplication on non-negative values. -/
theorem mul_mono {a a' b b' : B64} (ha : Fin0 a) (ha' : Fin0 a') (hb : Fin0 b) (hb' : Fin0 b')
    (h1 : val a ≤ val a') (h2 : val b ≤ val b') (hu : Fin0 (mul a' b')) :
    NN (mul a' b') ∧ NN (mul a b) ∧ val (mul a b) ≤ val (mul a' b') := by
  obtain ⟨m, e, rfl⟩ := ha
  obtain ⟨m', e', rfl⟩ := ha'
  obtain ⟨k, f, rfl⟩ := hb
  obtain ⟨k', f', rfl⟩ := hb'
  rw [mul_fin0] at hu ⊢
  rw [mul_fin0]
  apply rndZ_mono _ _ _ _ _ hu
  rw [val_fin_false, val_fin_false] at h1 h2
  push_cast
  rw [two_zpow_add, two_zpow_add]
  have p1 : (0 : ℚ) ≤ (m : ℚ) * (2 : ℚ) ^ e :=
    mul_nonneg (by positivity) (le_of_lt (two_zpow_pos e))
  have p2 : (0 : ℚ) ≤ (k : ℚ) * (2 : ℚ) ^ f :=
    mul_nonneg (by positivity) (le_of_lt (two_zpow_pos f))
  have := mul_le_mul h1 h2 p2 (le_trans p1 h1)
  calc (m : ℚ) * k * ((2 : ℚ) ^ e * (2 : ℚ) ^ f)
      = (m : ℚ) * (2 : ℚ) ^ e * ((k : ℚ) * (2 : ℚ) ^ f) := by ring
    _ ≤ (m' : ℚ) * (2 : ℚ) ^ e' * ((k' : ℚ) * (2 : ℚ) ^ f') := this
    _ = (m' : ℚ) * k' * ((2 : ℚ) ^ e' * (2 : ℚ) ^ f') := by ring


theorem scaled_false (m : Nat) (e g : Int) :
    scaled false m e g = ((m * 2 ^ (e - g).toNat : Nat) : Int) := by
  simp [scaled]

theorem scaled_val (m : Nat) (e g : Int) (h : g ≤ e) :
    ((m * 2 ^ (e - g).toNat : Nat) : ℚ) * (2 : ℚ) ^ g = (m : ℚ) * (2 : ℚ) ^ e := by
  push_cast
  have : ((2 : ℚ) ^ (e - g).toNat) = (2 : ℚ) ^ (e - g) := by
    rw [two_zpow_toNat (e - g) (by omega)]
    push_cast
    rfl
  rw [this, mul_assoc, ← two_zpow_add]
  congr 2
  ring

/-- Exact value of a sum of non-negative values. -/
theorem add_fin0 (m : Nat) (e : Int) (k : Nat) (f : Int) :
    add (.fin false m e) (.fin false k f) =
      rndZ false (m * 2 ^ (e - min e f).toNat + k * 2 ^ (f - min e f).toNat) (min e f) := by
  unfold add
  simp only [scaled_false, Bool.and_self]
  have hc : (((m * 2 ^ (e - min e f).toNat : Nat) : Int) + ((k * 2 ^ (f - min e f).toNat : Nat) : Int))
      = (((m * 2 ^ (e - min e f).toNat + k * 2 ^ (f - min e f).toNat : Nat)) : Int) := by
    push_cast
    rfl
  rw [hc]
  by_cases h0 : (m * 2 ^ (e - min e f).toNat + k * 2 ^ (f - min e f).toNat) = 0
  · rw [h0]
    simp [rndZ_zero]
  · have h1 : ¬ (((m * 2 ^ (e - min e f).toNat + k * 2 ^ (f - min e f).toNat : Nat)) : Int) = 0 := by
      exact_mod_cast h0
    have h2 : ¬ (((m * 2 ^ (e - min e f).toNat + k * 2 ^ (f - min e f).toNat : Nat)) : Int) < 0 := by
      omega
    rw [if_neg h1]
    simp only [h2, decide_False, Int.natAbs_ofNat]

theorem add_val_exact (m : Nat) (e : Int) (k : Nat) (f : Int) :
    ((m * 2 ^ (e - min e f).toNat + k * 2 ^ (f - min e f).toNat : Nat) : ℚ) * (2 : ℚ) ^ (min e f)
      = (m : ℚ) * (2 : ℚ) ^ e + (k : ℚ) * (2 : ℚ) ^ f := by
  rw [Nat.cast_add, add_mul, scaled_val m e _ (min_le_left e f),
    scaled_val k f _ (min_le_right e f)]

/-- Monotonicity of addition on non-negative values. -/
theorem add_mono {a a' b b' : B64} (ha : Fin0 a) (ha' : Fin0 a') (hb : Fin0 b) (hb' : Fin0 b')
    (h1 : val a ≤ val a') (h2 : val b ≤ val b') (hu : Fin0 (add a' b')) :
    NN (add a' b') ∧ NN (add a b) ∧ val (add a b) ≤ val (add a' b') := by
  obtain ⟨m, e, rfl⟩ := ha
  obtain ⟨m', e', rfl⟩ := ha'
  obtain ⟨k, f, rfl⟩ := hb
  obtain ⟨k', f', rfl⟩ := hb'
  rw [add_fin0] at hu ⊢
  rw [add_fin0]
  apply rndZ_mono _ _ _ _ _ hu
  rw [val_fin_false, val_fin_false] at h1 h2
  rw [add_val_exact, add_val_exact]
  exact add_le_add h1 h2

/-- The comparison `le` on non-negative finite values is the comparison of the
values. -/
theorem le_fin0 {a b : B64} (ha : Fin0 a) (hb : Fin0 b) : le a b = true ↔ val a ≤ val b := by
  obtain ⟨m, e, rfl⟩ := ha
  obtain ⟨k, f, rfl⟩ := hb
  unfold le
  simp only [scaled_false, decide_eq_true_eq, val_fin_false]
  rw [← scaled_val m e _ (min_le_left e f), ← scaled_val k f _ (min_le_right e f)]
  rw [mul_le_mul_right (two_zpow_pos _)]
  constructor
  · intro h
    exact_mod_cast h
  · intro h
    exact_mod_cast h

/-- The comparison `lt` on non-negative finite values is the comparison of the
values. -/
theorem lt_fin0 {a b : B64} (ha : Fin0 a) (hb : Fin0 b) : lt a b = true ↔ val a < val b := by
  obtain ⟨m, e, rfl⟩ := ha
  obtain ⟨k, f, rfl⟩ := hb
  unfold lt
  simp only [scaled_false, decide_eq_true_eq, val_fin_false]
  rw [← scaled_val m e _ (min_le_left e f), ← scaled_val k f _ (min_le_right e f)]
  rw [mul_lt_mul_right (two_zpow_pos _)]
  constructor
  · intro h
    exact_mod_cast h
  · intro h
    exact_mod_cast h


/-- `rndZ` does not exceed a canonical grid point above its argument. -/
theorem rndZ_le_grid (n : Nat) (g : Int) (M : Nat) (F : Int) (hM : Canon M F)
    (hle : (n : ℚ) * (2 : ℚ) ^ g ≤ (M : ℚ) * (2 : ℚ) ^ F) :
    NN (rndZ false n g) ∧ val (rndZ false n g) ≤ (M : ℚ) * (2 : ℚ) ^ F := by
  by_cases hn : n = 0
  · subst hn
    rw [rndZ_zero]
    refine ⟨⟨0, -1074, rfl, canon_zero⟩, ?_⟩
    rw [val_fin_false]
    simp only [Nat.cast_zero, zero_mul]
    exact mul_nonneg (by positivity) (le_of_lt (two_zpow_pos F))
  · obtain ⟨m, e, h1, h2, h3⟩ := rnd_le_grid false _ _ (rndZ_num_pos n g (by omega))
      (rndZ_den_pos g) M F hM (by rw [rndZ_num_den]; exact hle)
    have e1 : rndZ false n g = .fin false m e := h1
    rw [e1, val_fin_false]
    exact ⟨⟨m, e, rfl, h2⟩, h3⟩

/-- `rndZ` is not below a grid point below its argument. -/
theorem rndZ_ge_grid (n : Nat) (g : Int) (M : Nat) (F : Int) (hM : M < 2 ^ 53)
    (hF : -1074 ≤ F) (hle : (M : ℚ) * (2 : ℚ) ^ F ≤ (n : ℚ) * (2 : ℚ) ^ g)
    (hfin : Fin0 (rndZ false n g)) :
    (M : ℚ) * (2 : ℚ) ^ F ≤ val (rndZ false n g) := by
  by_cases hn : n = 0
  · subst hn
    rw [rndZ_zero, val_fin_false]
    simpa using hle
  · obtain ⟨m0, e0, h0⟩ := hfin
    rcases rnd_ge_grid false _ _ (rndZ_num_pos n g (by omega)) (rndZ_den_pos g) M F hM hF
      (by rw [rndZ_num_den]; exact hle) with h | ⟨m, e, h1, _, h3⟩
    · have e1 : rndZ false n g = .inf false := h
      rw [e1] at h0
      cases h0
    · have e1 : rndZ false n g = .fin false m e := h1
      rw [e1, val_fin_false]
      exact h3

/-! ### Square root -/

theorem isqrt_go_spec (n : Nat) (k r : Nat) (h1 : r * r ≤ n)
    (h2 : n < (r + 2 ^ k) * (r + 2 ^ k)) :
    isqrt.go n k r * isqrt.go n k r ≤ n ∧ n < (isqrt.go n k r + 1) * (isqrt.go n k r + 1) := by
  induction k generalizing r with
  | zero =>
    simp only [isqrt.go]
    exact ⟨h1, by simpa using h2⟩
  | succ k ih =>
    rw [isqrt.go]
    split
    · rename_i hc
      apply ih _ hc
      have : r + 2 ^ k + 2 ^ k = r + 2 ^ (k + 1) := by
        rw [pow_succ]
        ring
      rw [this]
      exact h2
    · rename_i hc
      exact ih _ h1 (not_le.1 hc)

theorem isqrt_spec (n : Nat) :
    isqrt n * isqrt n ≤ n ∧ n < (isqrt n + 1) * (isqrt n + 1) := by
  unfold isqrt
  apply isqrt_go_spec
  · simp
  · have h1 := blen_upper n
    have h2 : 2 ^ (blen n) ≤ 2 ^ (blen n / 2 + 1) * 2 ^ (blen n / 2 + 1) := by
      rw [← pow_add]
      exact Nat.pow_le_pow_right (by norm_num) (by omega)
    simp only [Nat.zero_add]
    omega


/-- The shape of the computation of `sqrt` on a positive finite value: the
argument is `v * 2^(2 * t)` with `v ≥ 2^110`, `r` is the integer square root
of `v`, and the result is the rounding of `r * 2^t` (exact root) or of
`(r + 1/2) * 2^t`. -/
theorem sqrt_shape (m : Nat) (e : Int) (hm : m ≠ 0) :
    ∃ (t : Int) (v r : Nat), 2 ^ 110 ≤ v ∧ r * r ≤ v ∧ v < (r + 1) * (r + 1) ∧
      (v : ℚ) * ((2 : ℚ) ^ t * (2 : ℚ) ^ t) = (m : ℚ) * (2 : ℚ) ^ e ∧
      sqrt (.fin false m e) =
        (if r * r = v then rndZ false r t else rndZ false (2 * r + 1) (t - 1)) := by
  refine ⟨(if (e - 110) % 2 = 0 then (e - 110) / 2 else (e - 110 - 1) / 2),
    m * 2 ^ (e - 2 * (if (e - 110) % 2 = 0 then (e - 110) / 2 else (e - 110 - 1) / 2)).toNat,
    isqrt (m * 2 ^ (e - 2 * (if (e - 110) % 2 = 0 then (e - 110) / 2
      else (e - 110 - 1) / 2)).toNat), ?_, (isqrt_spec _).1, (isqrt_spec _).2, ?_, ?_⟩
  · have ht : 110 ≤ (e - 2 * (if (e - 110) % 2 = 0 then (e - 110) / 2
        else (e - 110 - 1) / 2)).toNat := by
      split <;> omega
    have h1 : 2 ^ 110 ≤ 2 ^ (e - 2 * (if (e - 110) % 2 = 0 then (e - 110) / 2
        else (e - 110 - 1) / 2)).toNat := Nat.pow_le_pow_right (by norm_num) ht
    have h2 : 1 ≤ m := by omega
    calc 2 ^ 110 = 1 * 2 ^ 110 := by ring
      _ ≤ m * 2 ^ _ := Nat.mul_le_mul h2 h1
  · generalize ht : (if (e - 110) % 2 = 0 then (e - 110) / 2 else (e - 110 - 1) / 2) = t
    have hle : 2 * t ≤ e := by
      rw [← ht]
      split <;> omega
    rw [← two_zpow_add, ← scaled_val m e (2 * t) hle]
    congr 2
    ring
  · unfold sqrt
    simp only [hm, if_false, Bool.false_eq_true]

theorem sq_le_sq_of_nonneg {a b : ℚ} (ha : 0 ≤ a) (hb : 0 ≤ b) (h : a * a ≤ b * b) : a ≤ b :=
  (mul_self_le_mul_self_iff ha hb).2 h

/-- A canonical grid point whose exponent is at least `t`, written as an
integer multiple of `2^t`. -/
theorem grid_multiple (M : Nat) (F t : Int) (h : t ≤ F) :
    (M : ℚ) * (2 : ℚ) ^ F = ((M * 2 ^ (F - t).toNat : Nat) : ℚ) * (2 : ℚ) ^ t :=
  (scaled_val M F t h).symm

/-- A grid point above `r * 2^t` with `r ≥ 2^55` has an exponent of at least `t`. -/
theorem grid_exponent_ge (M : Nat) (F : Int) (r : Nat) (t : Int) (hM : M < 2 ^ 53)
    (hr : 2 ^ 55 ≤ r) (h : (r : ℚ) * (2 : ℚ) ^ t < (M : ℚ) * (2 : ℚ) ^ F) : t ≤ F := by
  by_contra hc
  have hFt : F + 1 ≤ t := by omega
  have a1 : (M : ℚ) * (2 : ℚ) ^ F ≤ ((2 ^ 53 : Nat) : ℚ) * (2 : ℚ) ^ F :=
    mul_le_mul_of_nonneg_right (by exact_mod_cast (le_of_lt hM)) (le_of_lt (two_zpow_pos F))
  have a2 : ((2 ^ 53 : Nat) : ℚ) * (2 : ℚ) ^ F = ((2 ^ 52 : Nat) : ℚ) * (2 : ℚ) ^ (F + 1) := by
    rw [two_zpow_succ]
    push_cast
    ring
  have a3 : ((2 ^ 52 : Nat) : ℚ) * (2 : ℚ) ^ (F + 1) ≤ ((2 ^ 52 : Nat) : ℚ) * (2 : ℚ) ^ t :=
    mul_le_mul_of_nonneg_left (two_zpow_mono hFt) (by positivity)
  have a4 : ((2 ^ 52 : Nat) : ℚ) * (2 : ℚ) ^ t ≤ (r : ℚ) * (2 : ℚ) ^ t :=
    mul_le_mul_of_nonneg_right (by exact_mod_cast (le_trans (by norm_num) hr))
      (le_of_lt (two_zpow_pos t))
  linarith

theorem isqrt_large (v r : Nat) (hv : 2 ^ 110 ≤ v) (h : v < (r + 1) * (r + 1)) :
    2 ^ 55 ≤ r := by
  by_contra hc
  have h1 : r + 1 ≤ 2 ^ 55 := by omega
  have h2 : (r + 1) * (r + 1) ≤ 2 ^ 55 * 2 ^ 55 := Nat.mul_le_mul h1 h1
  have h3 : (2 : Nat) ^ 55 * 2 ^ 55 = 2 ^ 110 := by norm_num
  omega

/-- A grid point `Y = M * 2^F` strictly above `r * 2^t` is at least
`(r + 1) * 2^t`, when `r ≥ 2^55`. -/
theorem grid_next (M : Nat) (F : Int) (r : Nat) (t : Int) (hM : M < 2 ^ 53)
    (hr : 2 ^ 55 ≤ r) (h : (r : ℚ) * (2 : ℚ) ^ t < (M : ℚ) * (2 : ℚ) ^ F) :
    ((r : ℚ) + 1) * (2 : ℚ) ^ t ≤ (M : ℚ) * (2 : ℚ) ^ F := by
  have hFt := grid_exponent_ge M F r t hM hr h
  rw [grid_multiple M F t hFt] at h ⊢
  have h1 := lt_of_mul_lt_mul_right h (le_of_lt (two_zpow_pos t))
  have h2 : r < M * 2 ^ (F - t).toNat := by exact_mod_cast h1
  have h3 : r + 1 ≤ M * 2 ^ (F - t).toNat := by omega
  exact mul_le_mul_of_nonneg_right (by exact_mod_cast h3) (le_of_lt (two_zpow_pos t))

theorem half_step (r : Nat) (t : Int) :
    ((2 * r + 1 : Nat) : ℚ) * (2 : ℚ) ^ (t - 1) = ((r : ℚ) + 1 / 2) * (2 : ℚ) ^ t := by
  have : (2 : ℚ) ^ t = 2 * (2 : ℚ) ^ (t - 1) := by
    rw [← two_zpow_succ]
    congr 1
    ring
  rw [this]
  push_cast
  ring

/-- The square root does not exceed a canonical grid point whose square is at
least the argument. -/
theorem sqrt_le_grid {a : B64} (ha : Fin0 a) (M : Nat) (F : Int) (hM : Canon M F)
    (hle : val a ≤ ((M : ℚ) * (2 : ℚ) ^ F) * ((M : ℚ) * (2 : ℚ) ^ F)) :
    NN (sqrt a) ∧ val (sqrt a) ≤ (M : ℚ) * (2 : ℚ) ^ F := by
  obtain ⟨m, e, rfl⟩ := ha
  have hY : (0 : ℚ) ≤ (M : ℚ) * (2 : ℚ) ^ F :=
    mul_nonneg (by positivity) (le_of_lt (two_zpow_pos F))
  by_cases hm : m = 0
  · subst hm
    have : sqrt (.fin false 0 e) = .fin false 0 (-1074) := by simp [sqrt]
    rw [this, val_fin_false]
    exact ⟨⟨0, -1074, rfl, canon_zero⟩, by simpa using hY⟩
  · obtain ⟨t, v, r, hv, hr1, hr2, hval, hs⟩ := sqrt_shape m e hm
    rw [val_fin_false, ← hval] at hle
    have hT := two_zpow_pos t
    have hr1' : (r : ℚ) * (r : ℚ) ≤ (v : ℚ) := by exact_mod_cast hr1
    have hrT : (0 : ℚ) ≤ (r : ℚ) * (2 : ℚ) ^ t := mul_nonneg (by positivity) (le_of_lt hT)
    rw [hs]
    by_cases hex : r * r = v
    · rw [if_pos hex]
      apply rndZ_le_grid r t M F hM
      apply sq_le_sq_of_nonneg hrT hY
      have : (r : ℚ) * (r : ℚ) = (v : ℚ) := by exact_mod_cast hex
      calc (r : ℚ) * (2 : ℚ) ^ t * ((r : ℚ) * (2 : ℚ) ^ t)
          = (r : ℚ) * (r : ℚ) * ((2 : ℚ) ^ t * (2 : ℚ) ^ t) := by ring
        _ = (v : ℚ) * ((2 : ℚ) ^ t * (2 : ℚ) ^ t) := by rw [this]
        _ ≤ _ := hle
    · rw [if_neg hex]
      apply rndZ_le_grid (2 * r + 1) (t - 1) M F hM
      rw [half_step]
      have hlt : (r : ℚ) * (r : ℚ) < (v : ℚ) := by
        have : r * r < v := lt_of_le_of_ne hr1 hex
        exact_mod_cast this
      have hYr : (r : ℚ) * (2 : ℚ) ^ t < (M : ℚ) * (2 : ℚ) ^ F := by
        by_contra hc
        have hc' := not_lt.1 hc
        have := mul_le_mul hc' hc' hY hrT
        have e1 : (r : ℚ) * (2 : ℚ) ^ t * ((r : ℚ) * (2 : ℚ) ^ t)
            = (r : ℚ) * (r : ℚ) * ((2 : ℚ) ^ t * (2 : ℚ) ^ t) := by ring
        have e2 : (r : ℚ) * (r : ℚ) * ((2 : ℚ) ^ t * (2 : ℚ) ^ t)
            < (v : ℚ) * ((2 : ℚ) ^ t * (2 : ℚ) ^ t) :=
          mul_lt_mul_of_pos_right hlt (mul_pos hT hT)
        linarith
      have hnext := grid_next M F r t hM.1 (isqrt_large v r hv hr2) hYr
      have hhalf : ((r : ℚ) + 1 / 2) * (2 : ℚ) ^ t ≤ ((r : ℚ) + 1) * (2 : ℚ) ^ t :=
        mul_le_mul_of_nonneg_right (by linarith) (le_of_lt hT)
      exact le_trans hhalf hnext

/-- The square root is not below a grid point whose square is at most the
argument. -/
theorem sqrt_ge_grid {a : B64} (ha : Fin0 a) (M : Nat) (F : Int) (hM : M < 2 ^ 53)
    (hF : -1074 ≤ F)
    (hle : ((M : ℚ) * (2 : ℚ) ^ F) * ((M : ℚ) * (2 : ℚ) ^ F) ≤ val a)
    (hfin : Fin0 (sqrt a)) :
    (M : ℚ) * (2 : ℚ) ^ F ≤ val (sqrt a) := by
  obtain ⟨m, e, rfl⟩ := ha
  have hY : (0 : ℚ) ≤ (M : ℚ) * (2 : ℚ) ^ F :=
    mul_nonneg (by positivity) (le_of_lt (two_zpow_pos F))
  by_cases hm : m = 0
  · subst hm
    have : sqrt (.fin false 0 e) = .fin false 0 (-1074) := by simp [sqrt]
    rw [this, val_fin_false]
    rw [val_fin_false] at hle
    simp only [Nat.cast_zero, zero_mul] at hle ⊢
    by_contra hc
    have hpos : 0 < (M : ℚ) * (2 : ℚ) ^ F := not_le.1 hc
    have := mul_pos hpos hpos
    linarith
  · obtain ⟨t, v, r, hv, hr1, hr2, hval, hs⟩ := sqrt_shape m e hm
    rw [val_fin_false, ← hval] at hle
    have hT := two_zpow_pos t
    have hr2' : (v : ℚ) < ((r : ℚ) + 1) * ((r : ℚ) + 1) := by exact_mod_cast hr2
    have hrT : (0 : ℚ) ≤ (r : ℚ) * (2 : ℚ) ^ t := mul_nonneg (by positivity) (le_of_lt hT)
    rw [hs] at hfin ⊢
    have hYr : (M : ℚ) * (2 : ℚ) ^ F ≤ (r : ℚ) * (2 : ℚ) ^ t := by
      by_contra hc
      have hc' := not_le.1 hc
      have hn := grid_next M F r t hM (isqrt_large v r hv hr2) hc'
      have hr1T : (0 : ℚ) ≤ ((r : ℚ) + 1) * (2 : ℚ) ^ t :=
        mul_nonneg (by positivity) (le_of_lt hT)
      have := mul_le_mul hn hn hr1T hY
      have e2 : (v : ℚ) * ((2 : ℚ) ^ t * (2 : ℚ) ^ t)
          < ((r : ℚ) + 1) * ((r : ℚ) + 1) * ((2 : ℚ) ^ t * (2 : ℚ) ^ t) :=
        mul_lt_mul_of_pos_right hr2' (mul_pos hT hT)
      have e1 : ((r : ℚ) + 1) * (2 : ℚ) ^ t * (((r : ℚ) + 1) * (2 : ℚ) ^ t)
          = ((r : ℚ) + 1) * ((r : ℚ) + 1) * ((2 : ℚ) ^ t * (2 : ℚ) ^ t) := by ring
      linarith
    by_cases hex : r * r = v
    · rw [if_pos hex] at hfin ⊢
      exact rndZ_ge_grid r t M F hM hF hYr hfin
    · rw [if_neg hex] at hfin ⊢
      apply rndZ_ge_grid (2 * r + 1) (t - 1) M F hM hF _ hfin
      rw [half_step]
      have hhalf : (r : ℚ) * (2 : ℚ) ^ t ≤ ((r : ℚ) + 1 / 2) * (2 : ℚ) ^ t :=
        mul_le_mul_of_nonneg_right (by linarith) (le_of_lt hT)
      exact le_trans hYr hhalf


/-! ### Signs -/

theorem rnd_withSign (s : Bool) (n d : Nat) : rnd s n d = withSign s (rnd false n d) := by
  unfold rnd
  simp only
  split_ifs <;> rfl

theorem rndZ_withSign (s : Bool) (n : Nat) (g : Int) :
    rndZ s n g = withSign s (rndZ false n g) := by
  unfold rndZ
  exact rnd_withSign s _ _

/-- `rnd` never produces NaN. -/
theorem rnd_cases (s : Bool) (n d : Nat) :
    rnd s n d = .inf s ∨ ∃ m e, rnd s n d = .fin s m e := by
  unfold rnd
  simp only
  split_ifs <;> first | exact Or.inl rfl | exact Or.inr ⟨_, _, rfl⟩

theorem rndZ_cases (s : Bool) (n : Nat) (g : Int) :
    rndZ s n g = .inf s ∨ ∃ m e, rndZ s n g = .fin s m e := by
  unfold rndZ
  exact rnd_cases s _ _

/-- An infinite result of `rnd` comes from a non-zero numerator. -/
theorem rnd_inf_num (s t : Bool) (n d : Nat) (h : rnd s n d = .inf t) : n ≠ 0 := by
  intro h0
  subst h0
  unfold rnd at h
  simp at h

theorem rndZ_inf_num (s t : Bool) (n : Nat) (g : Int) (h : rndZ s n g = .inf t) : n ≠ 0 := by
  intro h0
  subst h0
  rw [rndZ_zero] at h
  cases h

/-- The product `(u * d) * d` of a non-negative `u` with a finite `d` of either
sign is the product with the absolute value of `d`. -/
theorem mul_mul_abs (u : B64) (hu : Fin0 u) (t : Bool) (k : Nat) (f : Int) :
    mul (mul u (.fin t k f)) (.fin t k f) = mul (mul u (.fin false k f)) (.fin false k f) := by
  obtain ⟨m, e, rfl⟩ := hu
  have h1 : mul (.fin false m e) (.fin t k f) = withSign t (rndZ false (m * k) (e + f)) := by
    show rndZ (xor false t) (m * k) (e + f) = _
    rw [Bool.false_xor, rndZ_withSign]
  rw [h1, mul_fin0]
  rcases rndZ_cases false (m * k) (e + f) with h | ⟨m2, e2, h⟩
  · have hk : k ≠ 0 := by
      have := rndZ_inf_num false false (m * k) (e + f) h
      intro h0
      subst h0
      simp at this
    rw [h]
    simp [withSign, mul, hk]
  · rw [h]
    simp only [withSign]
    show rndZ (xor t t) (m2 * k) (e2 + f) = rndZ (xor false false) (m2 * k) (e2 + f)
    simp

/-- The square of a finite value is the square of its absolute value. -/
theorem mul_self_abs (t : Bool) (k : Nat) (f : Int) :
    mul (.fin t k f) (.fin t k f) = mul (.fin false k f) (.fin false k f) := by
  show rndZ (xor t t) (k * k) (f + f) = rndZ (xor false false) (k * k) (f + f)
  simp

end ieee

/-! ### Bounds, signs and the distance in the binary64 model -/

namespace ieee

theorem canon_pow (j : Int) (h1 : -1022 ≤ j) (h2 : j ≤ 1023) :
    Canon (2 ^ 52) (j - 52) ∧ (((2 ^ 52 : Nat)) : ℚ) * (2 : ℚ) ^ (j - 52) = (2 : ℚ) ^ j := by
  refine ⟨⟨by norm_num, by omega, by omega, Or.inl (le_refl _)⟩, ?_⟩
  rw [two_zpow_sub]
  have : ((2 ^ 52 : Nat) : ℚ) = (2 : ℚ) ^ (52 : Int) := by norm_num
  rw [this, mul_div_cancel₀ _ (ne_of_gt (two_zpow_pos 52))]

theorem Bnd.mono {i j : Int} {x : B64} (h : Bnd i x) (hij : i ≤ j) : Bnd j x := by
  obtain ⟨s, m, e, hx, hv⟩ := h
  exact ⟨s, m, e, hx, le_trans hv (two_zpow_mono hij)⟩

theorem rnd_bnd (s : Bool) (n d : Nat) (hd : 0 < d) (j : Int) (h1 : -1022 ≤ j)
    (h2 : j ≤ 1023) (h : (n : ℚ) / d ≤ (2 : ℚ) ^ j) : Bnd j (rnd s n d) := by
  by_cases hn : n = 0
  · subst hn
    refine ⟨s, 0, -1074, by simp [rnd], ?_⟩
    simp only [Nat.cast_zero, zero_mul]
    exact le_of_lt (two_zpow_pos j)
  · obtain ⟨hc, hv⟩ := canon_pow j h1 h2
    obtain ⟨m, e, hr, _, hle⟩ := rnd_le_grid s n d (Nat.pos_of_ne_zero hn) hd _ _ hc
      (by rw [hv]; exact h)
    exact ⟨s, m, e, hr, by rw [← hv]; exact hle⟩

theorem rndZ_bnd (s : Bool) (n : Nat) (g : Int) (j : Int) (h1 : -1022 ≤ j)
    (h2 : j ≤ 1023) (h : (n : ℚ) * (2 : ℚ) ^ g ≤ (2 : ℚ) ^ j) : Bnd j (rndZ s n g) := by
  unfold rndZ
  exact rnd_bnd s _ _ (rndZ_den_pos g) j h1 h2 (by rw [rndZ_num_den]; exact h)

/-- A finite result of `rndZ false` is non-negative. -/
theorem rndZ_fin0 (n : Nat) (g : Int) (j : Int) (h : Bnd j (rndZ false n g)) :
    Fin0 (rndZ false n g) := by
  obtain ⟨s, m, e, hx, _⟩ := h
  rcases rndZ_cases false n g with h | ⟨m2, e2, h⟩
  · rw [h] at hx
    cases hx
  · exact ⟨m2, e2, h⟩

theorem mul_bnd {x y : B64} {i j : Int} (hx : Bnd i x) (hy : Bnd j y) (h1 : -1022 ≤ i + j)
    (h2 : i + j ≤ 1023) : Bnd (i + j) (mul x y) := by
  obtain ⟨s, m, e, rfl, hv⟩ := hx
  obtain ⟨t, k, f, rfl, hw⟩ := hy
  show Bnd (i + j) (rndZ (xor s t) (m * k) (e + f))
  refine rndZ_bnd _ _ _ _ h1 h2 ?_
  rw [two_zpow_add, two_zpow_add, Nat.cast_mul]
  have e1 : (m : ℚ) * (k : ℚ) * ((2 : ℚ) ^ e * (2 : ℚ) ^ f) =
      ((m : ℚ) * (2 : ℚ) ^ e) * ((k : ℚ) * (2 : ℚ) ^ f) := by ring
  rw [e1]
  exact mul_le_mul hv hw (mul_nonneg (Nat.cast_nonneg _) (le_of_lt (two_zpow_pos _)))
    (le_of_lt (two_zpow_pos _))

/-- Division by a finite value of magnitude at least one keeps a bound. -/
theorem div_bnd {x : B64} {i : Int} (hx : Bnd i x) (t : Bool) (k : Nat) (f : Int)
    (hk : (1 : ℚ) ≤ (k : ℚ) * (2 : ℚ) ^ f) (h1 : -1022 ≤ i) (h2 : i ≤ 1023) :
    Bnd i (div x (.fin t k f)) := by
  obtain ⟨s, m, e, rfl, hv⟩ := hx
  have hk0 : k ≠ 0 := by
    intro h0
    subst h0
    simp at hk
    linarith
  have hkpos : 0 < k := Nat.pos_of_ne_zero hk0
  show Bnd i (if k = 0 then (if m = 0 then .nan else .inf (xor s t))
    else rnd (xor s t) (scaleN m (f - e)) (scaleD k (f - e)))
  rw [if_neg hk0]
  refine rnd_bnd _ _ _ (scaleD_pos k _ hkpos) i h1 h2 ?_
  rw [scale_ratio m k (f - e) hkpos, two_zpow_sub]
  have hkq : (0 : ℚ) < k := by exact_mod_cast hkpos
  have e1 : (m : ℚ) / k / ((2 : ℚ) ^ f / (2 : ℚ) ^ e) =
      ((m : ℚ) * (2 : ℚ) ^ e) / ((k : ℚ) * (2 : ℚ) ^ f) := by
    field_simp
  rw [e1]
  have hpos : (0 : ℚ) < (k : ℚ) * (2 : ℚ) ^ f := by linarith
  rw [div_le_iff₀ hpos]
  have hj : (0 : ℚ) ≤ (2 : ℚ) ^ i := le_of_lt (two_zpow_pos i)
  calc (m : ℚ) * (2 : ℚ) ^ e ≤ (2 : ℚ) ^ i := hv
    _ = (2 : ℚ) ^ i * 1 := (mul_one _).symm
    _ ≤ (2 : ℚ) ^ i * ((k : ℚ) * (2 : ℚ) ^ f) := mul_le_mul_of_nonneg_left hk hj

theorem ofInt_bnd (z : Int) (j : Nat) (hj : j ≤ 1023) (h : z.natAbs ≤ 2 ^ j) :
    Bnd (j : Int) (rndZ (decide (z < 0)) z.natAbs 0) := by
  refine rndZ_bnd _ _ _ _ (by omega) (by omega) ?_
  simp only [zpow_zero, mul_one, zpow_natCast]
  exact_mod_cast h

theorem ofNat_bnd (n : Nat) (j : Nat) (hj : j ≤ 1023) (h : n ≤ 2 ^ j) :
    Bnd (j : Int) (rndZ false n 0) := by
  refine rndZ_bnd _ _ _ _ (by omega) (by omega) ?_
  simp only [zpow_zero, mul_one, zpow_natCast]
  exact_mod_cast h

theorem bnd_val {x : B64} {j : Int} (hx : Fin0 x) (h : Bnd j x) : val x ≤ (2 : ℚ) ^ j := by
  obtain ⟨m, e, rfl⟩ := hx
  obtain ⟨s, m2, e2, h1, h2⟩ := h
  cases h1
  rw [val_fin_false]
  exact h2

theorem bnd_of_val {x : B64} {j : Int} (hx : Fin0 x) (h : val x ≤ (2 : ℚ) ^ j) : Bnd j x := by
  obtain ⟨m, e, rfl⟩ := hx
  rw [val_fin_false] at h
  exact ⟨false, m, e, rfl, h⟩

theorem mul_fin0_bnd {x y : B64} {i j : Int} (hx : Fin0 x) (hy : Fin0 y) (bx : Bnd i x)
    (by1 : Bnd j y) (h1 : -1022 ≤ i + j) (h2 : i + j ≤ 1023) :
    Fin0 (mul x y) ∧ Bnd (i + j) (mul x y) := by
  have hb := mul_bnd bx by1 h1 h2
  refine ⟨?_, hb⟩
  obtain ⟨m, e, rfl⟩ := hx
  obtain ⟨k, f, rfl⟩ := hy
  rw [mul_fin0] at hb ⊢
  exact rndZ_fin0 _ _ _ hb

theorem add_fin0_bnd {x y : B64} {i : Int} (hx : Fin0 x) (hy : Fin0 y) (bx : Bnd i x)
    (by1 : Bnd i y) (h1 : -1022 ≤ i + 1) (h2 : i + 1 ≤ 1023) :
    Fin0 (add x y) ∧ Bnd (i + 1) (add x y) := by
  have vx := bnd_val hx bx
  have vy := bnd_val hy by1
  obtain ⟨m, e, rfl⟩ := hx
  obtain ⟨k, f, rfl⟩ := hy
  rw [val_fin_false] at vx vy
  rw [add_fin0]
  have hb : Bnd (i + 1) (rndZ false (m * 2 ^ (e - min e f).toNat + k * 2 ^ (f - min e f).toNat)
      (min e f)) := by
    refine rndZ_bnd _ _ _ _ h1 h2 ?_
    rw [add_val_exact, two_zpow_succ]
    linarith
  exact ⟨rndZ_fin0 _ _ _ hb, hb⟩

theorem sqrt_bnd {x : B64} {j : Int} (hx : Fin0 x) (bx : Bnd (j + j) x) (h1 : -1022 ≤ j)
    (h2 : j ≤ 1023) : Fin0 (sqrt x) ∧ Bnd j (sqrt x) := by
  obtain ⟨hc, hv⟩ := canon_pow j h1 h2
  have vx := bnd_val hx bx
  have := sqrt_le_grid hx _ _ hc (by rw [hv, ← two_zpow_add]; exact vx)
  rw [hv] at this
  exact ⟨this.1.fin0, bnd_of_val this.1.fin0 this.2⟩

set_option maxRecDepth 100000 in
theorem dist_nm_model (cos : B64 → B64) (p q : Point) :
    Point.dist_nm (model cos) p q = dist_of (cos (cos_arg p q)) p q := rfl

set_option maxRecDepth 100000 in
set_option exponentiation.threshold 4000 in
theorem lit_600000 : rnd false 600000 1 = .fin false 5153960755200000 (-33) := by decide

set_option maxRecDepth 100000 in
set_option exponentiation.threshold 4000 in
theorem lit_180 : rnd false 180 1 = .fin false 6333186975989760 (-45) := by decide

set_option maxRecDepth 100000 in
set_option exponentiation.threshold 4000 in
theorem lit_2 : rnd false 2 1 = .fin false 4503599627370496 (-51) := by decide

set_option maxRecDepth 100000 in
set_option exponentiation.threshold 4000 in
theorem lit_60 : rnd false 60 1 = .fin false 8444249301319680 (-47) := by decide

set_option maxRecDepth 100000 in
set_option exponentiation.threshold 4000 in
theorem lit_pi : rnd false 314159265358979323846 (10 ^ 20) =
    .fin false 7074237752028440 (-51) := by decide

set_option maxRecDepth 100000 in
set_option exponentiation.threshold 4000 in
theorem lit_0 : rnd false 0 1 = .fin false 0 (-1074) := by decide

set_option maxRecDepth 100000 in
set_option exponentiation.threshold 4000 in
theorem lit_1 : rnd false 1 1 = .fin false 4503599627370496 (-52) := by decide

theorem ais2deg_bnd (a : Int) (h : a.natAbs ≤ 2 ^ 33) : Bnd 33 (ais2deg a) := by
  unfold ais2deg
  rw [lit_600000]
  exact div_bnd (ofInt_bnd a 33 (by norm_num) h) _ _ _ (by norm_num) (by norm_num)
    (by norm_num)

theorem cos_arg_fin (p q : Point) (hp : InRange p) (hq : InRange q) :
    ∃ s m e, cos_arg p q = .fin s m e := by
  have h1 : Bnd 33 (ais2deg (p.latitude + q.latitude)) := by
    apply ais2deg_bnd
    have := hp.1
    have := hp.2.1
    have := hq.1
    have := hq.2.1
    omega
  have h2 := div_bnd h1 false 4503599627370496 (-51) (by norm_num) (by norm_num) (by norm_num)
  have h3 := div_bnd h2 false 6333186975989760 (-45) (by norm_num) (by norm_num) (by norm_num)
  have h4 : Bnd 2 (.fin false 7074237752028440 (-51)) :=
    ⟨false, _, _, rfl, by norm_num⟩
  have h5 := mul_bnd h3 h4 (by norm_num) (by norm_num)
  obtain ⟨s, m, e, h, _⟩ := h5
  refine ⟨s, m, e, ?_⟩
  unfold cos_arg
  rw [lit_2, lit_180, lit_pi]
  exact h

/-- The distance between two points with `int32_t` coordinates is finite and
non-negative when `std::cos` is finite of magnitude at most one. -/
theorem dist_of_fin0 (c : B64) (hc : Bnd 0 c) (p q : Point) (hp : InRange p)
    (hq : InRange q) : Fin0 (dist_of c p q) := by
  have hlat : Bnd 33 (ais2deg (p.latitude - q.latitude)) := by
    apply ais2deg_bnd
    have := hp.1
    have := hp.2.1
    have := hq.1
    have := hq.2.1
    omega
  have hlon : Bnd 33 (ais2deg (p.longitude - q.longitude)) := by
    apply ais2deg_bnd
    have := hp.2.2.1
    have := hp.2.2.2
    have := hq.2.2.1
    have := hq.2.2.2
    omega
  unfold dist_of S_of
  generalize ais2deg (p.latitude - q.latitude) = dlat at hlat ⊢
  generalize ais2deg (p.longitude - q.longitude) = dlon at hlon ⊢
  obtain ⟨s1, m1, e1, rfl, v1⟩ := hlat
  obtain ⟨s2, m2, e2, rfl, v2⟩ := hlon
  obtain ⟨s0, m0, e0, rfl, v0⟩ := hc
  have b1 : Bnd 33 (.fin false m1 e1) := ⟨_, _, _, rfl, v1⟩
  have b2 : Bnd 33 (.fin false m2 e2) := ⟨_, _, _, rfl, v2⟩
  have b0 : Bnd 0 (.fin false m0 e0) := ⟨_, _, _, rfl, v0⟩
  have f1 : Fin0 (.fin false m1 e1) := ⟨_, _, rfl⟩
  have f2 : Fin0 (.fin false m2 e2) := ⟨_, _, rfl⟩
  have f0 : Fin0 (.fin false m0 e0) := ⟨_, _, rfl⟩
  rw [mul_self_abs s1, mul_self_abs s0]
  have hu := mul_fin0_bnd f0 f0 b0 b0 (by norm_num) (by norm_num)
  rw [mul_mul_abs _ hu.1]
  have hA := mul_fin0_bnd f1 f1 b1 b1 (by norm_num) (by norm_num)
  have hv := mul_fin0_bnd hu.1 f2 hu.2 b2 (by norm_num) (by norm_num)
  have hB := mul_fin0_bnd hv.1 f2 hv.2 b2 (by norm_num) (by norm_num)
  have hS := add_fin0_bnd hA.1 hB.1 hA.2 (hB.2.mono (by norm_num)) (by norm_num) (by norm_num)
  have hR := sqrt_bnd (j := 34) hS.1 (hS.2.mono (by norm_num)) (by norm_num) (by norm_num)
  have h60 : Bnd 6 (.fin false 8444249301319680 (-47)) := ⟨false, _, _, rfl, by norm_num⟩
  rw [lit_60]
  exact (mul_fin0_bnd hR.1 ⟨_, _, rfl⟩ hR.2 h60 (by norm_num) (by norm_num)).1

theorem add_nonneg {a b : B64} (ha : NonNeg a) (hb : NonNeg b) : NonNeg (add a b) := by
  rcases ha with rfl | ⟨m, e, rfl⟩ <;> rcases hb with rfl | ⟨k, f, rfl⟩
  · exact Or.inl rfl
  · exact Or.inl rfl
  · exact Or.inl rfl
  · rw [add_fin0]
    rcases rndZ_cases false (m * 2 ^ (e - min e f).toNat + k * 2 ^ (f - min e f).toNat)
      (min e f) with h | ⟨m2, e2, h⟩
    · exact Or.inl h
    · exact Or.inr ⟨m2, e2, h⟩

theorem foldl_add_nonneg (l : List B64) (init : B64) (hi : NonNeg init)
    (hl : ∀ d ∈ l, NonNeg d) : NonNeg (l.foldl add init) := by
  induction l generalizing init with
  | nil => exact hi
  | cons d l ih =>
    rw [List.foldl_cons]
    exact ih _ (add_nonneg hi (hl d (List.mem_cons_self _ _)))
      (fun x hx => hl x (List.mem_cons_of_mem _ hx))

/-- A zero of either sign is `<=` every value that is neither NaN nor negative. -/
theorem le_zero_nonneg (s : Bool) (e : Int) {x : B64} (hx : NonNeg x) :
    le (.fin s 0 e) x = true := by
  rcases hx with rfl | ⟨m, f, rfl⟩
  · rfl
  · show decide (scaled s 0 e (min e f) ≤ scaled false m f (min e f)) = true
    rw [decide_eq_true_eq, scaled_false]
    unfold scaled
    simp only [zero_mul, Nat.cast_zero, mul_zero]
    exact Int.ofNat_nonneg _

theorem mul_zero_left (s : Bool) (e : Int) {y : B64} (hy : Fin0 y) :
    mul (.fin s 0 e) y = .fin s 0 (-1074) := by
  obtain ⟨k, f, rfl⟩ := hy
  show rndZ (xor s false) (0 * k) (e + f) = _
  rw [Nat.zero_mul, rndZ_zero, Bool.xor_false]

theorem ofNat_fin0 (n : Nat) (h : n < U32) : Fin0 (rndZ false n 0) := by
  have : n ≤ 2 ^ 32 := by
    unfold U32 at h
    omega
  exact rndZ_fin0 _ _ _ (ofNat_bnd n 32 (by norm_num) this)

set_option maxRecDepth 100000 in
set_option exponentiation.threshold 4000 in
theorem nm_per_s_value : div (rnd false 1 1) (rnd false 3600 1) =
    .fin false 5124095576030431 (-64) := by decide

end ieee

set_option maxRecDepth 100000 in
/-- With `v_min` a zero, `d_min` is a zero. -/
theorem d_min_zero (cos : ieee.B64 → ieee.B64) (args : split_args (ieee.model cos))
    (s : Bool) (e : Int) (hv : args.v_min = ieee.B64.fin s 0 e)
    (h1 : args.seq_length < U32) (h2 : args.dti < U32) :
    d_min (ieee.model cos) args = ieee.B64.fin s 0 (-1074) := by
  show ieee.mul (ieee.mul (ieee.mul args.v_min
    (ieee.div (ieee.rnd false 1 (10 ^ 0)) (ieee.rnd false 3600 (10 ^ 0))))
    (ieee.rndZ false args.seq_length 0)) (ieee.rndZ false args.dti 0) = _
  rw [hv, pow_zero, ieee.nm_per_s_value, ieee.mul_zero_left s e ⟨_, _, rfl⟩,
    ieee.mul_zero_left s _ (ieee.ofNat_fin0 _ h1), ieee.mul_zero_left s _ (ieee.ofNat_fin0 _ h2)]

theorem adjacent_diff_loop_forall {α β : Type} (op : α → α → β) (Q : β → Prop)
    (xs ys : List α) (h : ∀ a ∈ xs, ∀ b ∈ ys, Q (op a b)) :
    ∀ d ∈ utility.adjacent_diff.loop op xs ys, Q d := by
  induction xs generalizing ys with
  | nil =>
    intro d hd
    simp [utility.adjacent_diff.loop] at hd
  | cons a as ih =>
    cases ys with
    | nil =>
      intro d hd
      simp [utility.adjacent_diff.loop] at hd
    | cons b bs =>
      intro d hd
      rw [utility.adjacent_diff.loop] at hd
      rcases List.mem_cons.1 hd with rfl | hd
      · exact h a (List.mem_cons_self _ _) b (List.mem_cons_self _ _)
      · exact ih bs (fun x hx y hy => h x (List.mem_cons_of_mem _ hx) y
          (List.mem_cons_of_mem _ hy)) d hd

/-- The accumulated distance of points with `int32_t` coordinates is neither NaN
nor negative. -/
theorem acc_dist_nm_nonneg (cos : ieee.B64 → ieee.B64)
    (hcos : ∀ s m e, ieee.Bnd 0 (cos (.fin s m e))) (seq : List Point)
    (hseq : ∀ p ∈ seq, ieee.InRange p) : ieee.NonNeg (acc_dist_nm (ieee.model cos) seq) := by
  have h0 : ieee.NonNeg (ieee.rnd false 0 (10 ^ 0)) := by
    rw [pow_zero, ieee.lit_0]
    exact Or.inr ⟨_, _, rfl⟩
  unfold acc_dist_nm
  by_cases hlen : seq.length > 1
  · rw [if_pos hlen]
    refine ieee.foldl_add_nonneg _ _ h0 ?_
    rw [utility.adjacent_diff, if_pos hlen]
    apply adjacent_diff_loop_forall
    intro a ha b hb
    rw [ieee.dist_nm_model]
    obtain ⟨s, m, e, hc⟩ := ieee.cos_arg_fin a b (hseq a ha) (hseq b (List.mem_of_mem_drop hb))
    rw [hc]
    exact Or.inr (ieee.dist_of_fin0 _ (hcos s m e) a b (hseq a ha)
      (hseq b (List.mem_of_mem_drop hb)))
  · rw [if_neg hlen]
    exact h0

theorem ieee.toInt_range (x : ieee.B64) : -2 ^ 31 ≤ ieee.toInt x ∧ ieee.toInt x < 2 ^ 31 := by
  cases x with
  | nan => exact ⟨le_refl _, by norm_num [ieee.toInt]⟩
  | inf s => exact ⟨le_refl _, by norm_num [ieee.toInt]⟩
  | fin s m e =>
    unfold ieee.toInt
    simp only
    generalize (if s = true then
      -((if e < 0 then m / 2 ^ (-e).toNat else m * 2 ^ e.toNat : Nat) : Int)
      else ((if e < 0 then m / 2 ^ (-e).toNat else m * 2 ^ e.toNat : Nat) : Int)) = z
    by_cases hz : -2 ^ 31 ≤ z ∧ z < 2 ^ 31
    · rw [if_pos hz]
      exact hz
    · rw [if_neg hz]
      exact ⟨le_refl _, by norm_num⟩

theorem Point.interpolate_int32 (cos : ieee.B64 → ieee.B64) (p q : Point) (w : ieee.B64) :
    ieee.InRange (p.interpolate (ieee.model cos) q w) :=
  ⟨(ieee.toInt_range _).1, (ieee.toInt_range _).2, (ieee.toInt_range _).1,
    (ieee.toInt_range _).2⟩

theorem interpolate_loop_forall (D : Dbl) (Q : Point → Prop)
    (hQ : ∀ (p q : Point) (w : D.F), Q (p.interpolate D q w)) (t0 dt N : Nat) (k : Nat)
    (sfx : List Position) (pts : List Point)
    (h : interpolate.loop D t0 dt N k sfx = some pts) : ∀ p ∈ pts, Q p := by
  induction k generalizing sfx pts with
  | zero =>
    simp only [interpolate.loop, Option.some.injEq] at h
    subst h
    intro p hp
    cases hp
  | succ k ih =>
    rw [interpolate.loop] at h
    simp only at h
    split at h
    · rename_i pj pj1 rest _
      split at h
      · rename_i seq hs
        simp only [Option.some.injEq] at h
        subst h
        intro p hp
        rcases List.mem_cons.1 hp with rfl | hp
        · exact hQ _ _ _
        · exact ih _ _ hs p hp
      · cases h
    · cases h

theorem interpolate_inrange (cos : ieee.B64 → ieee.B64) (traj : Trajectory) (n dt : Nat)
    (pts : List Point) (h : interpolate (ieee.model cos) traj n dt = some pts) :
    ∀ p ∈ pts, ieee.InRange p := by
  unfold interpolate at h
  cases traj with
  | nil => cases h
  | cons front rest =>
    exact interpolate_loop_forall _ _ (Point.interpolate_int32 cos) _ _ _ _ _ _ h

/-- With `v_min` a zero, every resampled sequence passes the admission test. -/
theorem accepted_of_zero (cos : ieee.B64 → ieee.B64)
    (hcos : ∀ s m e, ieee.Bnd 0 (cos (.fin s m e))) (args : split_args (ieee.model cos))
    (s : Bool) (e : Int) (hv : args.v_min = ieee.B64.fin s 0 e)
    (h1 : args.seq_length < U32) (h2 : args.dti < U32) (traj : Trajectory) (n dt : Nat)
    (pts : List Point) (h : interpolate (ieee.model cos) traj n dt = some pts) :
    split.accepted (ieee.model cos) args pts = true := by
  unfold split.accepted
  rw [d_min_zero cos args s e hv h1 h2]
  exact ieee.le_zero_nonneg s _
    (acc_dist_nm_nonneg cos hcos pts (interpolate_inrange cos traj n dt pts h))

theorem drop_rate.step_bound (D : Dbl) (args : split_args D) (s : drop_rate.State)
    (pos : Position) (n : Nat) (h : s.total + s.i ≤ n) :
    (drop_rate.step D args s pos).total + (drop_rate.step D args s pos).i ≤ n + 1 := by
  have h1 : uadd s.i 1 ≤ s.i + 1 := Nat.mod_le _ _
  have h2 : uadd s.total (uadd s.i 1) ≤ s.total + uadd s.i 1 := Nat.mod_le _ _
  unfold drop_rate.step
  simp only
  split_ifs <;> simp only <;> omega

theorem drop_rate.foldl_bound (D : Dbl) (args : split_args D) (traj : Trajectory)
    (s : drop_rate.State) (n : Nat) (h : s.total + s.i ≤ n) :
    (traj.foldl (drop_rate.step D args) s).total +
      (traj.foldl (drop_rate.step D args) s).i ≤ n + traj.length := by
  induction traj generalizing s n with
  | nil => simpa using h
  | cons pos rest ih =>
    rw [List.foldl_cons, List.length_cons]
    have := ih _ (n + 1) (drop_rate.step_bound D args s pos n h)
    omega

/-- The counter `total` of `drop_rate` never exceeds the number of positions. -/
theorem drop_rate.total_le (D : Dbl) (traj : Trajectory) (args : split_args D) :
    drop_rate.total D traj args ≤ traj.length := by
  unfold drop_rate.total
  have := drop_rate.foldl_bound D args traj
    { total := 0, i := 0, last_pos := { t := 0, x := { latitude := 0, longitude := 0 } },
      t0 := 0 } 0 (le_refl _)
  omega

namespace ieee

theorem rnd_false_fin (n d : Nat) (j : Int) (h : Bnd j (rnd false n d)) :
    Fin0 (rnd false n d) := by
  obtain ⟨s, m, e, hx, _⟩ := h
  rcases rnd_cases false n d with h | ⟨m2, e2, h⟩
  · rw [h] at hx
    cases hx
  · exact ⟨m2, e2, h⟩

/-- A quotient of non-negative values with numerator at most the denominator is
in `[0, 1]`. -/
theorem div_unit {a b : B64} (ha : Fin0 a) (hb : Fin0 b) (hab : val a ≤ val b)
    (hpos : 0 < val b) : Fin0 (div a b) ∧ val (div a b) ≤ 1 := by
  obtain ⟨m, e, rfl⟩ := ha
  obtain ⟨k, f, rfl⟩ := hb
  rw [val_fin_false] at hab hpos
  rw [val_fin_false] at hab
  have hk0 : k ≠ 0 := by
    intro h0
    subst h0
    simp at hpos
  have hkpos : 0 < k := Nat.pos_of_ne_zero hk0
  have hd : div (.fin false m e) (.fin false k f) =
      rnd false (scaleN m (f - e)) (scaleD k (f - e)) := by
    show (if k = 0 then (if m = 0 then B64.nan else .inf (xor false false))
      else rnd (xor false false) (scaleN m (f - e)) (scaleD k (f - e))) = _
    rw [if_neg hk0]
    rfl
  have hb : Bnd 0 (rnd false (scaleN m (f - e)) (scaleD k (f - e))) := by
    refine rnd_bnd _ _ _ (scaleD_pos k _ hkpos) 0 (by norm_num) (by norm_num) ?_
    rw [scale_ratio m k (f - e) hkpos, two_zpow_sub]
    have hkq : (0 : ℚ) < k := by exact_mod_cast hkpos
    have e1 : (m : ℚ) / k / ((2 : ℚ) ^ f / (2 : ℚ) ^ e) =
        ((m : ℚ) * (2 : ℚ) ^ e) / ((k : ℚ) * (2 : ℚ) ^ f) := by
      field_simp
    rw [e1, zpow_zero, div_le_one hpos]
    exact hab
  rw [hd]
  have hf := rnd_false_fin _ _ _ hb
  exact ⟨hf, by simpa using bnd_val hf hb⟩

/-- For `0 ≤ q ≤ 1` the difference `1 - q` is in `[0, 1]`. -/
theorem one_sub_range {q : B64} (hq : Fin0 q) (hle : val q ≤ 1) :
    Fin0 (sub (.fin false (2 ^ 52) (-52)) q) ∧ val (sub (.fin false (2 ^ 52) (-52)) q) ≤ 1 := by
  obtain ⟨k, f, rfl⟩ := hq
  rw [val_fin_false] at hle
  have hadd : sub (.fin false (2 ^ 52) (-52)) (.fin false k f) =
      (if scaled false (2 ^ 52) (-52) (min (-52) f) + scaled true k f (min (-52) f) = 0
        then .fin (false && true) 0 (-1074)
        else rndZ (decide (scaled false (2 ^ 52) (-52) (min (-52) f) +
          scaled true k f (min (-52) f) < 0))
          (scaled false (2 ^ 52) (-52) (min (-52) f) +
            scaled true k f (min (-52) f)).natAbs (min (-52) f)) := rfl
  rw [hadd]
  have hg1 : min (-52 : Int) f ≤ -52 := min_le_left _ _
  have hg2 : min (-52 : Int) f ≤ f := min_le_right _ _
  generalize min (-52 : Int) f = g at hg1 hg2 ⊢
  have hA := scaled_val (2 ^ 52) (-52) g hg1
  have hB := scaled_val k f g hg2
  have hA1 : ((2 ^ 52 : Nat) : ℚ) * (2 : ℚ) ^ (-52 : Int) = 1 := by norm_num
  rw [hA1] at hA
  have hgpos := two_zpow_pos g
  have hBA : k * 2 ^ (f - g).toNat ≤ 2 ^ 52 * 2 ^ (-52 - g).toNat := by
    have : ((k * 2 ^ (f - g).toNat : Nat) : ℚ) * (2 : ℚ) ^ g ≤
        ((2 ^ 52 * 2 ^ (-52 - g).toNat : Nat) : ℚ) * (2 : ℚ) ^ g := by
      rw [hA, hB]
      exact hle
    have := le_of_mul_le_mul_right this hgpos
    exact_mod_cast this
  have hc : scaled false (2 ^ 52) (-52) g + scaled true k f g =
      ((2 ^ 52 * 2 ^ (-52 - g).toNat - k * 2 ^ (f - g).toNat : Nat) : Int) := by
    rw [scaled_false]
    unfold scaled
    simp only [if_true]
    omega
  rw [hc]
  generalize hn : 2 ^ 52 * 2 ^ (-52 - g).toNat - k * 2 ^ (f - g).toNat = n
  by_cases h0 : (n : Int) = 0
  · rw [if_pos h0]
    exact ⟨⟨_, _, rfl⟩, by simp [val]⟩
  · rw [if_neg h0]
    have hneg : decide ((n : Int) < 0) = false := by
      rw [decide_eq_false_iff_not]
      omega
    rw [hneg, Int.natAbs_ofNat]
    have hb : Bnd 0 (rndZ false n g) := by
      refine rndZ_bnd _ _ _ _ (by norm_num) (by norm_num) ?_
      have hnq : (n : ℚ) ≤ ((2 ^ 52 * 2 ^ (-52 - g).toNat : Nat) : ℚ) := by
        have : n ≤ 2 ^ 52 * 2 ^ (-52 - g).toNat := by omega
        exact_mod_cast this
      rw [zpow_zero, ← hA]
      exact mul_le_mul_of_nonneg_right hnq (le_of_lt hgpos)
    have hf := rndZ_fin0 _ _ _ hb
    exact ⟨hf, by simpa using bnd_val hf hb⟩

/-- The conversion of a positive `size_t` value is finite and at least one. -/
theorem ofNat_pos (n : Nat) (h0 : 0 < n) (h : n < U64) :
    Fin0 (rndZ false n 0) ∧ 1 ≤ val (rndZ false n 0) := by
  have hle : n ≤ 2 ^ 64 := by
    unfold U64 at h
    omega
  have hf := rndZ_fin0 _ _ _ (ofNat_bnd n 64 (by norm_num) hle)
  refine ⟨hf, ?_⟩
  have := rndZ_ge_grid n 0 1 0 (by norm_num) (by norm_num) (by
    simp only [zpow_zero, mul_one, Nat.cast_one]
    exact_mod_cast h0) hf
  simpa using this

end ieee

/-- In the binary64 model the drop rate of a non-empty trajectory is in `[0, 1]`. -/
theorem drop_rate_range (cos : ieee.B64 → ieee.B64) (traj : Trajectory)
    (args : split_args (ieee.model cos)) (hne : traj ≠ []) (hlen : traj.length < U64) :
    ieee.le (ieee.B64.fin false 0 (-1074)) (drop_rate (ieee.model cos) traj args) = true ∧
      ieee.le (drop_rate (ieee.model cos) traj args) (ieee.B64.fin false (2 ^ 52) (-52)) = true := by
  have hpos : 0 < traj.length := List.length_pos.2 hne
  obtain ⟨hb, hb1⟩ := ieee.ofNat_pos traj.length hpos hlen
  have hmono := ieee.rndZ_mono (drop_rate.total (ieee.model cos) traj args) 0 traj.length 0
    (by
      simp only [zpow_zero, mul_one]
      exact_mod_cast drop_rate.total_le (ieee.model cos) traj args) hb
  obtain ⟨hq, hq1⟩ := ieee.div_unit hmono.2.1.fin0 hb hmono.2.2 (by linarith)
  obtain ⟨hr, hr1⟩ := ieee.one_sub_range hq hq1
  have e1 : drop_rate (ieee.model cos) traj args =
      ieee.sub (ieee.B64.fin false (2 ^ 52) (-52))
        (ieee.div (ieee.rndZ false (drop_rate.total (ieee.model cos) traj args) 0)
          (ieee.rndZ false traj.length 0)) := by
    show ieee.sub (ieee.rnd false 1 (10 ^ 0)) _ = _
    rw [pow_zero, ieee.lit_1]
    rfl
  rw [e1]
  refine ⟨ieee.le_zero_nonneg false _ (Or.inr hr), ?_⟩
  rw [ieee.le_fin0 hr ⟨_, _, rfl⟩, ieee.val_fin_false]
  norm_num
  exact hr1

namespace ieee

theorem isFin0_iff {x : B64} (h : isFin0 x = true) : Fin0 x := by
  cases x with
  | nan => cases h
  | inf s => cases h
  | fin s m e =>
    cases s with
    | false => exact ⟨m, e, rfl⟩
    | true => cases h

theorem chain_ok_spec {c a b : B64} (hok : chain_ok c a b = true) : ChainFin c a b := by
  unfold chain_ok at hok
  simp only [Bool.and_eq_true] at hok
  obtain ⟨⟨⟨⟨k1, k2⟩, k3⟩, k4⟩, k5⟩ := hok
  exact ⟨isFin0_iff k1, isFin0_iff k2, isFin0_iff k3, isFin0_iff k4, isFin0_iff k5⟩

/-- `S_of` is monotone in the cosine, for non-negative arguments. -/
theorem S_of_mono {c c1 a b : B64} (hc : Fin0 c) (hc1 : Fin0 c1) (hcc : val c ≤ val c1)
    (hb : Fin0 b) (hok : ChainFin c1 a b) :
    ChainFin c a b ∧ val (S_of c a b) ≤ val (S_of c1 a b) := by
  obtain ⟨k1, k2, k3, k4, k5⟩ := hok
  have h1 := mul_mono hc hc1 hc hc1 hcc hcc k1
  have h2 := mul_mono h1.2.1.fin0 h1.1.fin0 hb hb h1.2.2 (le_refl _) k2
  have h3 := mul_mono h2.2.1.fin0 h2.1.fin0 hb hb h2.2.2 (le_refl _) k3
  have h4 := add_mono k4 k4 h3.2.1.fin0 h3.1.fin0 (le_refl _) h3.2.2 k5
  exact ⟨⟨h1.2.1.fin0, h2.2.1.fin0, h3.2.1.fin0, k4, h4.2.1.fin0⟩, h4.2.2⟩

/-- `S_of` only depends on the magnitudes of its arguments. -/
theorem S_of_abs (c : B64) (hu : Fin0 (mul c c)) (t1 : Bool) (k1 : Nat) (f1 : Int) (t2 : Bool)
    (k2 : Nat) (f2 : Int) :
    S_of c (.fin t1 k1 f1) (.fin t2 k2 f2) = S_of c (.fin false k1 f1) (.fin false k2 f2) := by
  unfold S_of
  rw [mul_self_abs t1, mul_mul_abs _ hu t2]

theorem mul_self_fin0 {c : B64} (hc : Fin0 c) (hc1 : val c ≤ 1) : Fin0 (mul c c) := by
  have hb : Bnd 0 c := bnd_of_val hc (by simpa using hc1)
  exact (mul_fin0_bnd hc hc hb hb (by norm_num) (by norm_num)).1

theorem val_one : val one = 1 := by
  unfold one
  rw [val_fin_false]
  norm_num

theorem val_half : val half = 1 / 2 := by
  unfold half
  rw [val_fin_false]
  norm_num

set_option maxRecDepth 100000 in
set_option exponentiation.threshold 4000 in
theorem mul_Ynear_sixty : mul Ynear sixty = .fin false 8444249301319680 (-64) := by decide

set_option maxRecDepth 100000 in
set_option exponentiation.threshold 4000 in
theorem mul_Yfar_sixty : mul Yfar sixty = .fin false 5277655813324800 (-63) := by decide

set_option maxRecDepth 100000 in
set_option exponentiation.threshold 4000 in
theorem mul_one_sixty : mul one sixty = sixty := by decide

theorem dist_near (c : B64) (hc : Fin0 c) (hc1 : val c ≤ 1) (p q : Point)
    (h : near_chk p q = true) :
    Fin0 (dist_of c p q) ∧ val (dist_of c p q) ≤ val (mul Ynear sixty) := by
  unfold near_chk at h
  split at h
  · rename_i t1 k1 f1 t2 k2 f2 e1 e2
    simp only [Bool.and_eq_true] at h
    obtain ⟨hok, hle⟩ := h
    unfold dist_of
    rw [e1, e2, S_of_abs c (mul_self_fin0 hc hc1), lit_60]
    have fo : Fin0 one := ⟨_, _, rfl⟩
    have hok1 := chain_ok_spec hok
    have hS := S_of_mono hc fo (by rw [val_one]; exact hc1) ⟨k2, f2, rfl⟩ hok1
    rw [le_fin0 hok1.2.2.2.2 ⟨_, _, rfl⟩, val_fin_false] at hle
    have hc2 : Canon (2 ^ 52) (-69) := ⟨by norm_num, by norm_num, by norm_num, Or.inl (le_refl _)⟩
    have hsq := sqrt_le_grid hS.1.2.2.2.2 _ _ hc2 (by
      refine le_trans hS.2 (le_trans hle (le_of_eq ?_))
      norm_num)
    have hm := @mul_mono _ _ sixty sixty hsq.1.fin0 (⟨_, _, rfl⟩ : Fin0 Ynear)
      ⟨_, _, rfl⟩ ⟨_, _, rfl⟩
      (by
        unfold Ynear
        rw [val_fin_false]
        exact hsq.2) (le_refl _) (by rw [mul_Ynear_sixty]; exact ⟨_, _, rfl⟩)
    exact ⟨hm.2.1.fin0, hm.2.2⟩
  · cases h

theorem dist_far (c : B64) (hc : Fin0 c) (hc1 : val c ≤ 1) (hc2 : 1 / 2 ≤ val c) (p q : Point)
    (h : far_chk p q = true) :
    Fin0 (dist_of c p q) ∧ val (mul Yfar sixty) ≤ val (dist_of c p q) := by
  unfold far_chk at h
  split at h
  · rename_i t1 k1 f1 t2 k2 f2 e1 e2
    simp only [Bool.and_eq_true] at h
    obtain ⟨⟨hok, hle1⟩, hle2⟩ := h
    unfold dist_of
    rw [e1, e2, S_of_abs c (mul_self_fin0 hc hc1), lit_60]
    have fo : Fin0 one := ⟨_, _, rfl⟩
    have fh : Fin0 half := ⟨_, _, rfl⟩
    have hok1 := chain_ok_spec hok
    have hS := S_of_mono hc fo (by rw [val_one]; exact hc1) ⟨k2, f2, rfl⟩ hok1
    have hSh := S_of_mono fh hc (by rw [val_half]; exact hc2) ⟨k2, f2, rfl⟩ hS.1
    rw [le_fin0 hok1.2.2.2.2 fo, val_one] at hle1
    rw [le_fin0 ⟨_, _, rfl⟩ hSh.1.2.2.2.2, val_fin_false] at hle2
    have hcan : Canon (2 ^ 52) (-52) := ⟨by norm_num, by norm_num, by norm_num, Or.inl (le_refl _)⟩
    have hsq := sqrt_le_grid hS.1.2.2.2.2 _ _ hcan (by
      refine le_trans hS.2 (le_trans hle1 (le_of_eq ?_))
      norm_num)
    have hge := sqrt_ge_grid hS.1.2.2.2.2 (5 * 2 ^ 50) (-69) (by norm_num) (by norm_num) (by
      refine le_trans (le_of_eq ?_) (le_trans hle2 hSh.2)
      norm_num) hsq.1.fin0
    have hup := @mul_mono _ _ sixty sixty hsq.1.fin0 fo
      ⟨_, _, rfl⟩ ⟨_, _, rfl⟩
      (by
        unfold one
        rw [val_fin_false]
        exact hsq.2) (le_refl _) (by rw [mul_one_sixty]; exact ⟨_, _, rfl⟩)
    have hm := @mul_mono _ _ sixty sixty (⟨_, _, rfl⟩ : Fin0 Yfar) hsq.1.fin0
      ⟨_, _, rfl⟩ ⟨_, _, rfl⟩
      (by
        unfold Yfar
        rw [val_fin_false]
        exact hge) (le_refl _) hup.2.1.fin0
    exact ⟨hup.2.1.fin0, hm.2.2⟩
  · cases h

theorem CosSpec.value {cos : B64 → B64} (h : CosSpec cos) (x : B64)
    (hx : le (abs x) (.fin false (2 ^ 52) (-62)) = true) :
    Fin0 (cos x) ∧ 1 / 2 ≤ val (cos x) ∧ val (cos x) ≤ 1 := by
  obtain ⟨m, e, hm, hv⟩ := h.near_zero x hx
  cases x with
  | nan => simp [abs, withSign, le] at hx
  | inf s => simp [abs, withSign, le] at hx
  | fin s m2 e2 =>
    have hb := h.bounded s m2 e2
    rw [hm] at hb ⊢
    have hf : Fin0 (.fin false m e) := ⟨m, e, rfl⟩
    exact ⟨hf, by rw [val_fin_false]; exact hv, by simpa using bnd_val hf hb⟩

set_option maxRecDepth 100000 in
set_option exponentiation.threshold 4000 in
theorem ds_test_value : div (rnd false 5 (10 ^ 0))
    (div (rnd false 600000 (10 ^ 0)) (rnd false 60 (10 ^ 0))) = ds_test := by decide

set_option maxRecDepth 100000 in
set_option exponentiation.threshold 4000 in
theorem near_ds : le (mul Ynear sixty) ds_test = true := by decide

set_option maxRecDepth 100000 in
set_option exponentiation.threshold 4000 in
theorem far_ds : lt ds_test (mul Yfar sixty) = true := by decide

theorem near_class (c : B64) (hc : Fin0 c) (hc1 : val c ≤ 1) (p q : Point)
    (h : near_chk p q = true) :
    lt ds_test (dist_of c p q) = false ∧ le (dist_of c p q) ds_test = true := by
  obtain ⟨hf, hv⟩ := dist_near c hc hc1 p q h
  have hds : Fin0 ds_test := ⟨_, _, rfl⟩
  have hY : Fin0 (mul Ynear sixty) := by
    rw [mul_Ynear_sixty]
    exact ⟨_, _, rfl⟩
  have h1 := (le_fin0 hY hds).1 near_ds
  have hle : val (dist_of c p q) ≤ val ds_test := le_trans hv h1
  refine ⟨?_, (le_fin0 hf hds).2 hle⟩
  rw [Bool.eq_false_iff]
  intro hlt
  have := (lt_fin0 hds hf).1 hlt
  linarith

theorem far_class (c : B64) (hc : Fin0 c) (hc1 : val c ≤ 1) (hc2 : 1 / 2 ≤ val c)
    (p q : Point) (h : far_chk p q = true) :
    lt ds_test (dist_of c p q) = true ∧ le (dist_of c p q) ds_test = false := by
  obtain ⟨hf, hv⟩ := dist_far c hc hc1 hc2 p q h
  have hds : Fin0 ds_test := ⟨_, _, rfl⟩
  have hY : Fin0 (mul Yfar sixty) := by
    rw [mul_Yfar_sixty]
    exact ⟨_, _, rfl⟩
  have h1 := (lt_fin0 hds hY).1 far_ds
  have hlt : val ds_test < val (dist_of c p q) := lt_of_lt_of_le h1 hv
  refine ⟨(lt_fin0 hds hf).2 hlt, ?_⟩
  rw [Bool.eq_false_iff]
  intro hle
  have := (le_fin0 hf hds).1 hle
  linarith

/-- For a classified pair the comparisons of the distance with the `ds_max` of
the tests do not depend on the implementation of `std::cos`. -/
theorem classified_spec (cos cos1 : B64 → B64) (h : CosSpec cos) (h1 : CosSpec cos1)
    (p q : Point) (hc : classified p q = true) :
    lt ds_test (Point.dist_nm (model cos) p q) = lt ds_test (Point.dist_nm (model cos1) p q) ∧
      le (Point.dist_nm (model cos) p q) ds_test =
        le (Point.dist_nm (model cos1) p q) ds_test := by
  unfold classified at hc
  simp only [Bool.and_eq_true, Bool.or_eq_true] at hc
  obtain ⟨harg, hnf⟩ := hc
  obtain ⟨a1, a2, a3⟩ := h.value _ harg
  obtain ⟨b1, b2, b3⟩ := h1.value _ harg
  rw [dist_nm_model, dist_nm_model]
  rcases hnf with hn | hf
  · have x := near_class _ a1 a3 p q hn
    have y := near_class _ b1 b3 p q hn
    rw [x.1, x.2, y.1, y.2]
    exact ⟨rfl, rfl⟩
  · have x := far_class _ a1 a3 a2 p q hf
    have y := far_class _ b1 b3 b2 p q hf
    rw [x.1, x.2, y.1, y.2]
    exact ⟨rfl, rfl⟩

theorem cos_unit_spec : CosSpec cos_unit :=
  ⟨fun _ _ _ => ⟨false, _, _, rfl, by norm_num⟩, fun _ _ => ⟨_, _, rfl, by norm_num⟩⟩

end ieee

theorem test_args_ds (cos : ieee.B64 → ieee.B64) :
    (test_args (ieee.model cos)).ds_max = ieee.ds_test := ieee.ds_test_value

theorem is_gap_test_congr (cos cos1 : ieee.B64 → ieee.B64) (h : ieee.CosSpec cos)
    (h1 : ieee.CosSpec cos1) (pos last : Position)
    (hc : ieee.classified pos.x last.x = true) :
    is_gap (ieee.model cos) (test_args (ieee.model cos)) pos last =
      is_gap (ieee.model cos1) (test_args (ieee.model cos1)) pos last := by
  unfold is_gap
  rw [test_args_ds, test_args_ds]
  show (decide (usub pos.t last.t > 15) || ieee.lt ieee.ds_test _) =
    (decide (usub pos.t last.t > 15) || ieee.lt ieee.ds_test _)
  rw [(ieee.classified_spec cos cos1 h h1 pos.x last.x hc).1]

theorem is_valid_test_congr (cos cos1 : ieee.B64 → ieee.B64) (h : ieee.CosSpec cos)
    (h1 : ieee.CosSpec cos1) (a b : Position) (hc : ieee.classified a.x b.x = true) :
    (ieee.model cos).le (a.x.dist_nm (ieee.model cos) b.x) (test_args (ieee.model cos)).ds_max =
      (ieee.model cos1).le (a.x.dist_nm (ieee.model cos1) b.x)
        (test_args (ieee.model cos1)).ds_max := by
  rw [test_args_ds, test_args_ds]
  exact (ieee.classified_spec cos cos1 h h1 a.x b.x hc).2

/-- The completed segments only depend on the gap test on consecutive positions. -/
theorem split.segments_congr (D D1 : Dbl) (args : split_args D) (args1 : split_args D1)
    (hs : args.seq_length = args1.seq_length) (hd : args.dti = args1.dti)
    (rest : List Position) (buffer : Trajectory) (t0 : Nat)
    (hch : rest.Chain' (fun l pos => is_gap D args pos l = is_gap D1 args1 pos l))
    (hb : ∀ l pos, buffer.getLast? = some l → rest.head? = some pos →
      is_gap D args pos l = is_gap D1 args1 pos l) :
    split.segments D args buffer t0 rest = split.segments D1 args1 buffer t0 rest := by
  induction rest generalizing buffer t0 with
  | nil => simp [split.segments]
  | cons pos rest ih =>
    have hch2 : rest.Chain' (fun l pos => is_gap D args pos l = is_gap D1 args1 pos l) :=
      hch.tail
    have hnext : ∀ (b : Trajectory) l p, (b ++ [pos]).getLast? = some l → rest.head? = some p →
        is_gap D args p l = is_gap D1 args1 p l := by
      intro b l p hl hp
      simp at hl
      subst hl
      cases rest with
      | nil => cases hp
      | cons q rest =>
        simp only [List.head?_cons, Option.some.injEq] at hp
        subst hp
        exact (List.chain'_cons.1 hch).1
    rw [split.segments, split.segments]
    cases hl : buffer.getLast? with
    | none =>
      simp only
      exact ih [pos] pos.t hch2 (hnext [])
    | some last_pos =>
      simp only
      rw [← hb last_pos pos hl rfl, ← hs, ← hd]
      split
      · exact ih [pos] pos.t hch2 (hnext [])
      · split
        · rw [ih [] t0 hch2 (by intro l p hl; simp at hl)]
        · exact ih (buffer ++ [pos]) t0 hch2 (hnext buffer)

theorem low_pass_filter_loop_congr {α : Type} (op op1 : α → α → Bool) (xs : List α)
    (acc : Nat) (h : xs.Chain' (fun a b => op a b = op1 a b)) :
    utility.low_pass_filter.loop op acc xs = utility.low_pass_filter.loop op1 acc xs := by
  induction xs generalizing acc with
  | nil => simp [utility.low_pass_filter.loop]
  | cons a rest ih =>
    cases rest with
    | nil => simp [utility.low_pass_filter.loop]
    | cons b rest =>
      have hab := (List.chain'_cons.1 h).1
      have ht := (List.chain'_cons.1 h).2
      rw [utility.low_pass_filter.loop, utility.low_pass_filter.loop]
      simp only [hab, ih _ ht]

/-- The spike filter only depends on the predicate on adjacent elements. -/
theorem low_pass_filter_congr {α : Type} (op op1 : α → α → Bool) (xs : List α)
    (h : xs.Chain' (fun a b => op a b = op1 a b)) :
    utility.low_pass_filter xs op = utility.low_pass_filter xs op1 := by
  unfold utility.low_pass_filter
  rw [low_pass_filter_loop_congr op op1 xs 1 h]

theorem forall₂_functional {α β : Type} (f : α → Option β) (xs : List α) (ys zs : List β)
    (h1 : List.Forall₂ (fun a b => f a = some b) xs ys)
    (h2 : List.Forall₂ (fun a b => f a = some b) xs zs) : ys = zs := by
  induction h1 generalizing zs with
  | nil =>
    cases h2
    rfl
  | cons hab _ ih =>
    cases h2 with
    | cons hac h2 =>
      rw [hab] at hac
      cases hac
      rw [ih _ h2]

theorem forall₂_mem_left {α β : Type} (R : α → β → Prop) (xs : List α) (ys : List β)
    (h : List.Forall₂ R xs ys) : ∀ x ∈ xs, ∃ y ∈ ys, R x y := by
  induction h with
  | nil =>
    intro x hx
    cases hx
  | @cons a b as bs hab _ ih =>
    intro x hx
    rcases List.mem_cons.1 hx with rfl | hx
    · exact ⟨b, List.mem_cons_self _ _, hab⟩
    · obtain ⟨y, hy, hr⟩ := ih x hx
      exact ⟨y, List.mem_cons_of_mem _ hy, hr⟩

/-- The result of `split` from the resampled completed segments. -/
theorem split_of_segments (D : Dbl) (traj : Trajectory) (args : split_args D)
    (seqs : List (List Point))
    (h : List.Forall₂
      (fun seg seq => interpolate D seg (uadd args.seq_length 1) args.dti = some seq)
      (split.segments D args [] 0 traj) seqs) :
    split D traj args = some ((seqs.filter (split.accepted D args)).flatten) := by
  have hdef : ∀ seg ∈ split.segments D args [] 0 traj,
      ∃ seq, interpolate D seg (uadd args.seq_length 1) args.dti = some seq := by
    intro seg hseg
    obtain ⟨seq, _, hs⟩ := forall₂_mem_left _ _ _ h seg hseg
    exact ⟨seq, hs⟩
  obtain ⟨s1, hs1⟩ := split.loop_defined D args traj { seqs := [], buffer := [], t0 := 0 } hdef
  have hout : split D traj args = some s1.seqs := by simp [split, hs1]
  obtain ⟨seqs2, h2, h3⟩ := split_segments D traj args s1.seqs hout
  rw [hout, h3, forall₂_functional _ _ _ _ h2 h]

theorem classified_gaps_chain (traj : Trajectory) (h : classified_gaps traj = true) :
    traj.Chain' (fun l pos => ieee.classified pos.x l.x = true) := by
  induction traj with
  | nil => exact List.chain'_nil
  | cons l rest ih =>
    cases rest with
    | nil => exact List.chain'_singleton _
    | cons pos rest =>
      rw [classified_gaps, Bool.and_eq_true] at h
      exact List.chain'_cons.2 ⟨h.1, ih h.2⟩

/-- On a trajectory with classified consecutive positions the completed
segments for the parameters of the tests do not depend on `std::cos`. -/
theorem test_segments_congr (cos cos1 : ieee.B64 → ieee.B64) (h : ieee.CosSpec cos)
    (h1 : ieee.CosSpec cos1) (traj : Trajectory) (hc : classified_gaps traj = true) :
    split.segments (ieee.model cos) (test_args (ieee.model cos)) [] 0 traj =
      split.segments (ieee.model cos1) (test_args (ieee.model cos1)) [] 0 traj := by
  refine split.segments_congr (ieee.model cos) (ieee.model cos1) (test_args (ieee.model cos))
    (test_args (ieee.model cos1)) rfl rfl traj [] 0 ?_ (by intro l p hl; simp at hl)
  exact List.Chain'.imp (fun l pos hlp => is_gap_test_congr cos cos1 h h1 pos l hlp)
    (classified_gaps_chain traj hc)

theorem test_accepted (cos : ieee.B64 → ieee.B64) (h : ieee.CosSpec cos) (seg : Trajectory)
    (n dt : Nat) (seq : List Point) (hi : interpolate (ieee.model cos) seg n dt = some seq) :
    split.accepted (ieee.model cos) (test_args (ieee.model cos)) seq = true :=
  accepted_of_zero cos h.bounded (test_args (ieee.model cos)) false (-1074)
    (by
      show ieee.rnd false 0 (10 ^ 0) = _
      rw [pow_zero, ieee.lit_0])
    (show (5 : Nat) < U32 by decide) (show (5 : Nat) < U32 by decide) seg n dt seq hi

set_option maxRecDepth 100000 in
set_option exponentiation.threshold 4000 in
/-- The classification of the consecutive positions of the test case `Test split`
is evaluated in stages of three pairs: each stage reduces the check on a prefix
to the check on the rest. -/
theorem test_split_gaps_stage_1 (rest : Trajectory) :
    classified_gaps
      (⟨0, ⟨0, 0⟩⟩ :: ⟨10, ⟨4, 2⟩⟩ :: ⟨20, ⟨8, 4⟩⟩ :: ⟨30, ⟨12, 6⟩⟩ :: rest) =
    classified_gaps (⟨30, ⟨12, 6⟩⟩ :: rest) :=
  rfl

set_option maxRecDepth 100000 in
set_option exponentiation.threshold 4000 in
theorem test_split_gaps_stage_2 (rest : Trajectory) :
    classified_gaps
      (⟨30, ⟨12, 6⟩⟩ :: ⟨40, ⟨16, 8⟩⟩ :: ⟨50, ⟨20, 10⟩⟩ :: ⟨60, ⟨24, 12⟩⟩ :: rest) =
    classified_gaps (⟨60, ⟨24, 12⟩⟩ :: rest) :=
  rfl

set_option maxRecDepth 100000 in
set_option exponentiation.threshold 4000 in
theorem test_split_gaps_stage_3 (rest : Trajectory) :
    classified_gaps
      (⟨60, ⟨24, 12⟩⟩ :: ⟨70, ⟨28, 14⟩⟩ :: ⟨999, ⟨32, 16⟩⟩ :: ⟨90, ⟨36, 18⟩⟩ :: rest) =
    classified_gaps (⟨90, ⟨36, 18⟩⟩ :: rest) :=
  rfl

set_option maxRecDepth 100000 in
set_option exponentiation.threshold 4000 in
theorem test_split_gaps_stage_4 (rest : Trajectory) :
    classified_gaps
      (⟨90, ⟨36, 18⟩⟩ :: ⟨100, ⟨40, 20⟩⟩ :: ⟨110, ⟨44, 22⟩⟩ :: ⟨120, ⟨48, 24⟩⟩ :: rest) =
    classified_gaps (⟨120, ⟨48, 24⟩⟩ :: rest) :=
  rfl

set_option maxRecDepth 100000 in
set_option exponentiation.threshold 4000 in
theorem test_split_gaps_stage_5 (rest : Trajectory) :
    classified_gaps
      (⟨120, ⟨48, 24⟩⟩ :: ⟨130, ⟨52, 26⟩⟩ :: ⟨140, ⟨60, 28⟩⟩ :: ⟨150, ⟨60, 30⟩⟩ :: rest) =
    classified_gaps (⟨150, ⟨60, 30⟩⟩ :: rest) :=
  rfl

/-- All consecutive positions of the test case `Test split` are classified. -/
theorem test_split_classified : classified_gaps test_split_trajectory = true := by
  unfold test_split_trajectory
  rw [test_split_gaps_stage_1, test_split_gaps_stage_2, test_split_gaps_stage_3,
    test_split_gaps_stage_4, test_split_gaps_stage_5]
  rfl

set_option maxRecDepth 100000 in
set_option exponentiation.threshold 4000 in
/-- The completed segments of the test case `Test split` are evaluated in stages:
each stage runs the loop of `split` over a few positions, from the buffer and
anchor the previous stage ends with. -/
theorem test_split_segments_stage_1 (rest : Trajectory) :
    split.segments (ieee.model ieee.cos_unit) (test_args (ieee.model ieee.cos_unit))
      [] 0
      (⟨0, ⟨0, 0⟩⟩ :: ⟨10, ⟨4, 2⟩⟩ :: ⟨20, ⟨8, 4⟩⟩ :: ⟨30, ⟨12, 6⟩⟩ :: ⟨40, ⟨16, 8⟩⟩ :: rest) =
    [⟨0, ⟨0, 0⟩⟩, ⟨10, ⟨4, 2⟩⟩, ⟨20, ⟨8, 4⟩⟩, ⟨30, ⟨12, 6⟩⟩] ::
    split.segments (ieee.model ieee.cos_unit) (test_args (ieee.model ieee.cos_unit))
      [⟨40, ⟨16, 8⟩⟩] 40 rest :=
  rfl

set_option maxRecDepth 100000 in
set_option exponentiation.threshold 4000 in
theorem test_split_segments_stage_2 (rest : Trajectory) :
    split.segments (ieee.model ieee.cos_unit) (test_args (ieee.model ieee.cos_unit))
      [⟨40, ⟨16, 8⟩⟩] 40
      (⟨50, ⟨20, 10⟩⟩ :: ⟨60, ⟨24, 12⟩⟩ :: ⟨70, ⟨28, 14⟩⟩ :: ⟨999, ⟨32, 16⟩⟩ :: ⟨90, ⟨36, 18⟩⟩ ::
        rest) =
    [⟨40, ⟨16, 8⟩⟩, ⟨50, ⟨20, 10⟩⟩, ⟨60, ⟨24, 12⟩⟩, ⟨70, ⟨28, 14⟩⟩] ::
    split.segments (ieee.model ieee.cos_unit) (test_args (ieee.model ieee.cos_unit))
      [⟨90, ⟨36, 18⟩⟩] 90 rest :=
  rfl

set_option maxRecDepth 100000 in
set_option exponentiation.threshold 4000 in
theorem test_split_segments_stage_3 (rest : Trajectory) :
    split.segments (ieee.model ieee.cos_unit) (test_args (ieee.model ieee.cos_unit))
      [⟨90, ⟨36, 18⟩⟩] 90
      (⟨100, ⟨40, 20⟩⟩ :: ⟨110, ⟨44, 22⟩⟩ :: ⟨120, ⟨48, 24⟩⟩ :: ⟨130, ⟨52, 26⟩⟩ :: rest) =
    [⟨90, ⟨36, 18⟩⟩, ⟨100, ⟨40, 20⟩⟩, ⟨110, ⟨44, 22⟩⟩, ⟨120, ⟨48, 24⟩⟩] ::
    split.segments (ieee.model ieee.cos_unit) (test_args (ieee.model ieee.cos_unit))
      [⟨130, ⟨52, 26⟩⟩] 130 rest :=
  rfl

set_option maxRecDepth 100000 in
set_option exponentiation.threshold 4000 in
theorem test_split_segments_stage_4 (rest : Trajectory) :
    split.segments (ieee.model ieee.cos_unit) (test_args (ieee.model ieee.cos_unit))
      [⟨130, ⟨52, 26⟩⟩] 130
      (⟨140, ⟨60, 28⟩⟩ :: ⟨150, ⟨60, 30⟩⟩ :: rest) =
    split.segments (ieee.model ieee.cos_unit) (test_args (ieee.model ieee.cos_unit))
      [⟨140, ⟨60, 28⟩⟩, ⟨150, ⟨60, 30⟩⟩] 140 rest :=
  rfl

/-- The completed segments of the test case `Test split` when `std::cos` is the
constant 1. -/
theorem test_split_segments_unit :
    split.segments (ieee.model ieee.cos_unit) (test_args (ieee.model ieee.cos_unit)) [] 0
      test_split_trajectory =
    [[⟨0, ⟨0, 0⟩⟩, ⟨10, ⟨4, 2⟩⟩, ⟨20, ⟨8, 4⟩⟩, ⟨30, ⟨12, 6⟩⟩],
     [⟨40, ⟨16, 8⟩⟩, ⟨50, ⟨20, 10⟩⟩, ⟨60, ⟨24, 12⟩⟩, ⟨70, ⟨28, 14⟩⟩],
     [⟨90, ⟨36, 18⟩⟩, ⟨100, ⟨40, 20⟩⟩, ⟨110, ⟨44, 22⟩⟩, ⟨120, ⟨48, 24⟩⟩]] := by
  unfold test_split_trajectory
  rw [test_split_segments_stage_1, test_split_segments_stage_2, test_split_segments_stage_3,
    test_split_segments_stage_4]
  rfl

theorem classified_steps_chain (traj : Trajectory) (h : classified_steps traj = true) :
    traj.Chain' (fun a b => ieee.classified a.x b.x = true) := by
  induction traj with
  | nil => exact List.chain'_nil
  | cons l rest ih =>
    cases rest with
    | nil => exact List.chain'_singleton _
    | cons pos rest =>
      rw [classified_steps, Bool.and_eq_true] at h
      exact List.chain'_cons.2 ⟨h.1, ih h.2⟩

set_option maxRecDepth 100000 in
set_option exponentiation.threshold 4000 in
theorem test_split_interp1 (cos : ieee.B64 → ieee.B64) :
    interpolate (ieee.model cos) [⟨0, ⟨0, 0⟩⟩, ⟨10, ⟨4, 2⟩⟩, ⟨20, ⟨8, 4⟩⟩, ⟨30, ⟨12, 6⟩⟩] 6 5 =
      some [⟨0, 0⟩, ⟨2, 1⟩, ⟨4, 2⟩, ⟨6, 3⟩, ⟨8, 4⟩, ⟨10, 5⟩] := rfl

set_option maxRecDepth 100000 in
set_option exponentiation.threshold 4000 in
theorem test_split_interp2 (cos : ieee.B64 → ieee.B64) :
    interpolate (ieee.model cos)
      [⟨40, ⟨16, 8⟩⟩, ⟨50, ⟨20, 10⟩⟩, ⟨60, ⟨24, 12⟩⟩, ⟨70, ⟨28, 14⟩⟩] 6 5 =
      some [⟨16, 8⟩, ⟨18, 9⟩, ⟨20, 10⟩, ⟨22, 11⟩, ⟨24, 12⟩, ⟨26, 13⟩] := rfl

set_option maxRecDepth 100000 in
set_option exponentiation.threshold 4000 in
theorem test_split_interp3 (cos : ieee.B64 → ieee.B64) :
    interpolate (ieee.model cos)
      [⟨90, ⟨36, 18⟩⟩, ⟨100, ⟨40, 20⟩⟩, ⟨110, ⟨44, 22⟩⟩, ⟨120, ⟨48, 24⟩⟩] 6 5 =
      some [⟨36, 18⟩, ⟨38, 19⟩, ⟨40, 20⟩, ⟨42, 21⟩, ⟨44, 22⟩, ⟨46, 23⟩] := rfl

/-- The result of `split` for the parameters of the tests from the resampled
completed segments: with `v_min = 0` every sequence is accepted. -/
theorem test_split_of_segments (cos : ieee.B64 → ieee.B64) (h : ieee.CosSpec cos)
    (traj : Trajectory) (seqs : List (List Point))
    (hF : List.Forall₂ (fun seg seq => interpolate (ieee.model cos) seg 6 5 = some seq)
      (split.segments (ieee.model cos) (test_args (ieee.model cos)) [] 0 traj) seqs) :
    split (ieee.model cos) traj (test_args (ieee.model cos)) = some seqs.flatten := by
  have hF2 : List.Forall₂
      (fun seg seq => interpolate (ieee.model cos) seg
        (uadd (test_args (ieee.model cos)).seq_length 1) (test_args (ieee.model cos)).dti =
          some seq)
      (split.segments (ieee.model cos) (test_args (ieee.model cos)) [] 0 traj) seqs := hF
  rw [split_of_segments _ _ _ _ hF2]
  have hacc : ∀ seq ∈ seqs,
      split.accepted (ieee.model cos) (test_args (ieee.model cos)) seq = true := by
    intro seq hseq
    obtain ⟨seg, _, hi⟩ := forall₂_mem_right _ _ _ hF seq hseq
    exact test_accepted cos h seg _ _ seq hi
  rw [List.filter_eq_self.2 hacc]

/-- The test case `Test split` in the binary64 model, for every `std::cos`
meeting `CosSpec`. -/
theorem test_split_value (cos : ieee.B64 → ieee.B64) (h : ieee.CosSpec cos) :
    split (ieee.model cos) test_split_trajectory (test_args (ieee.model cos)) =
      some test_split_expected := by
  have hseg := (test_segments_congr cos ieee.cos_unit h ieee.cos_unit_spec _
    test_split_classified).trans test_split_segments_unit
  rw [test_split_of_segments cos h test_split_trajectory
    [[⟨0, 0⟩, ⟨2, 1⟩, ⟨4, 2⟩, ⟨6, 3⟩, ⟨8, 4⟩, ⟨10, 5⟩],
     [⟨16, 8⟩, ⟨18, 9⟩, ⟨20, 10⟩, ⟨22, 11⟩, ⟨24, 12⟩, ⟨26, 13⟩],
     [⟨36, 18⟩, ⟨38, 19⟩, ⟨40, 20⟩, ⟨42, 21⟩, ⟨44, 22⟩, ⟨46, 23⟩]]
    (by
      rw [hseg]
      exact List.Forall₂.cons (test_split_interp1 cos) (List.Forall₂.cons
        (test_split_interp2 cos) (List.Forall₂.cons (test_split_interp3 cos)
          List.Forall₂.nil)))]
  rfl

theorem test_lpf_sorted (sort : Trajectory → Trajectory) (hs : SortSpec sort)
    (raw : Trajectory) (hp : raw.Perm test_lpf_trajectory) :
    sort raw = sort_by_time test_lpf_trajectory :=
  sorted_eq_of_distinct test_lpf_trajectory raw (sort_by_time test_lpf_trajectory) (sort raw)
    (by decide) hp (sort_by_time_spec _) (hs raw)

/-- The buffer of the test case `Test seqmaker with LPF` after sorting and
de-duplication: all 26 timestamps differ. -/
theorem test_lpf_unique :
    std_unique (fun (a b : Position) => decide (a.t = b.t)) (sort_by_time test_lpf_trajectory) =
      [⟨0, ⟨0, 0⟩⟩, ⟨10, ⟨4, 2⟩⟩, ⟨11, ⟨99, 4⟩⟩, ⟨20, ⟨8, 4⟩⟩, ⟨30, ⟨12, 6⟩⟩, ⟨31, ⟨16, 8⟩⟩,
       ⟨40, ⟨16, 8⟩⟩, ⟨41, ⟨20, 99⟩⟩, ⟨42, ⟨20, 99⟩⟩, ⟨50, ⟨20, 10⟩⟩, ⟨60, ⟨24, 12⟩⟩,
       ⟨70, ⟨28, 14⟩⟩, ⟨80, ⟨32, 16⟩⟩, ⟨90, ⟨36, 18⟩⟩, ⟨100, ⟨40, 20⟩⟩, ⟨110, ⟨44, 22⟩⟩,
       ⟨120, ⟨48, 24⟩⟩, ⟨130, ⟨52, 26⟩⟩, ⟨140, ⟨56, 28⟩⟩, ⟨150, ⟨60, 30⟩⟩, ⟨160, ⟨64, 32⟩⟩,
       ⟨161, ⟨64, 99⟩⟩, ⟨170, ⟨68, 34⟩⟩, ⟨180, ⟨72, 36⟩⟩, ⟨190, ⟨76, 38⟩⟩, ⟨999, ⟨36, 18⟩⟩] := by
  decide

set_option maxRecDepth 100000 in
set_option exponentiation.threshold 4000 in
/-- The classification of the consecutive positions of the sorted buffer of the
test case `Test seqmaker with LPF` is evaluated in stages of three pairs. -/
theorem test_lpf_steps_stage_1 (rest : Trajectory) :
    classified_steps
      (⟨0, ⟨0, 0⟩⟩ :: ⟨10, ⟨4, 2⟩⟩ :: ⟨11, ⟨99, 4⟩⟩ :: ⟨20, ⟨8, 4⟩⟩ :: rest) =
    classified_steps (⟨20, ⟨8, 4⟩⟩ :: rest) :=
  rfl

set_option maxRecDepth 100000 in
set_option exponentiation.threshold 4000 in
theorem test_lpf_steps_stage_2 (rest : Trajectory) :
    classified_steps
      (⟨20, ⟨8, 4⟩⟩ :: ⟨30, ⟨12, 6⟩⟩ :: ⟨31, ⟨16, 8⟩⟩ :: ⟨40, ⟨16, 8⟩⟩ :: rest) =
    classified_steps (⟨40, ⟨16, 8⟩⟩ :: rest) :=
  rfl

set_option maxRecDepth 100000 in
set_option exponentiation.threshold 4000 in
theorem test_lpf_steps_stage_3 (rest : Trajectory) :
    classified_steps
      (⟨40, ⟨16, 8⟩⟩ :: ⟨41, ⟨20, 99⟩⟩ :: ⟨42, ⟨20, 99⟩⟩ :: ⟨50, ⟨20, 10⟩⟩ :: rest) =
    classified_steps (⟨50, ⟨20, 10⟩⟩ :: rest) :=
  rfl

set_option maxRecDepth 100000 in
set_option exponentiation.threshold 4000 in
theorem test_lpf_steps_stage_4 (rest : Trajectory) :
    classified_steps
      (⟨50, ⟨20, 10⟩⟩ :: ⟨60, ⟨24, 12⟩⟩ :: ⟨70, ⟨28, 14⟩⟩ :: ⟨80, ⟨32, 16⟩⟩ :: rest) =
    classified_steps (⟨80, ⟨32, 16⟩⟩ :: rest) :=
  rfl

set_option maxRecDepth 100000 in
set_option exponentiation.threshold 4000 in
theorem test_lpf_steps_stage_5 (rest : Trajectory) :
    classified_steps
      (⟨80, ⟨32, 16⟩⟩ :: ⟨90, ⟨36, 18⟩⟩ :: ⟨100, ⟨40, 20⟩⟩ :: ⟨110, ⟨44, 22⟩⟩ :: rest) =
    classified_steps (⟨110, ⟨44, 22⟩⟩ :: rest) :=
  rfl

set_option maxRecDepth 100000 in
set_option exponentiation.threshold 4000 in
theorem test_lpf_steps_stage_6 (rest : Trajectory) :
    classified_steps
      (⟨110, ⟨44, 22⟩⟩ :: ⟨120, ⟨48, 24⟩⟩ :: ⟨130, ⟨52, 26⟩⟩ :: ⟨140, ⟨56, 28⟩⟩ :: rest) =
    classified_steps (⟨140, ⟨56, 28⟩⟩ :: rest) :=
  rfl

set_option maxRecDepth 100000 in
set_option exponentiation.threshold 4000 in
theorem test_lpf_steps_stage_7 (rest : Trajectory) :
    classified_steps
      (⟨140, ⟨56, 28⟩⟩ :: ⟨150, ⟨60, 30⟩⟩ :: ⟨160, ⟨64, 32⟩⟩ :: ⟨161, ⟨64, 99⟩⟩ :: rest) =
    classified_steps (⟨161, ⟨64, 99⟩⟩ :: rest) :=
  rfl

set_option maxRecDepth 100000 in
set_option exponentiation.threshold 4000 in
theorem test_lpf_steps_stage_8 (rest : Trajectory) :
    classified_steps
      (⟨161, ⟨64, 99⟩⟩ :: ⟨170, ⟨68, 34⟩⟩ :: ⟨180, ⟨72, 36⟩⟩ :: ⟨190, ⟨76, 38⟩⟩ :: rest) =
    classified_steps (⟨190, ⟨76, 38⟩⟩ :: rest) :=
  rfl

set_option maxRecDepth 100000 in
set_option exponentiation.threshold 4000 in
theorem test_lpf_steps_stage_9 (rest : Trajectory) :
    classified_steps
      (⟨190, ⟨76, 38⟩⟩ :: ⟨999, ⟨36, 18⟩⟩ :: rest) =
    classified_steps (⟨999, ⟨36, 18⟩⟩ :: rest) :=
  rfl

/-- All consecutive positions of the sorted buffer of the test case `Test
seqmaker with LPF` are classified. -/
theorem test_lpf_steps_classified :
    classified_steps (std_unique (fun (a b : Position) => decide (a.t = b.t))
      (sort_by_time test_lpf_trajectory)) = true := by
  rw [test_lpf_unique, test_lpf_steps_stage_1, test_lpf_steps_stage_2, test_lpf_steps_stage_3,
    test_lpf_steps_stage_4, test_lpf_steps_stage_5, test_lpf_steps_stage_6,
    test_lpf_steps_stage_7, test_lpf_steps_stage_8, test_lpf_steps_stage_9]
  rfl

set_option maxRecDepth 100000 in
set_option exponentiation.threshold 4000 in
/-- The spike filter on the sorted buffer of the test case `Test seqmaker with
LPF` is evaluated in stages of three transitions: each stage gives the elements
kept so far and the run counter the next stage starts with. -/
theorem test_lpf_filter_stage_1 (rest : Trajectory) :
    utility.low_pass_filter.loop
      (fun (a b : Position) =>
        (ieee.model ieee.cos_unit).le (a.x.dist_nm (ieee.model ieee.cos_unit) b.x)
          (test_args (ieee.model ieee.cos_unit)).ds_max)
      1 (⟨0, ⟨0, 0⟩⟩ :: ⟨10, ⟨4, 2⟩⟩ :: ⟨11, ⟨99, 4⟩⟩ :: ⟨20, ⟨8, 4⟩⟩ :: rest) =
    ⟨0, ⟨0, 0⟩⟩ :: ⟨10, ⟨4, 2⟩⟩ ::
    utility.low_pass_filter.loop
      (fun (a b : Position) =>
        (ieee.model ieee.cos_unit).le (a.x.dist_nm (ieee.model ieee.cos_unit) b.x)
          (test_args (ieee.model ieee.cos_unit)).ds_max)
      2 (⟨20, ⟨8, 4⟩⟩ :: rest) :=
  rfl

set_option maxRecDepth 100000 in
set_option exponentiation.threshold 4000 in
theorem test_lpf_filter_stage_2 (rest : Trajectory) :
    utility.low_pass_filter.loop
      (fun (a b : Position) =>
        (ieee.model ieee.cos_unit).le (a.x.dist_nm (ieee.model ieee.cos_unit) b.x)
          (test_args (ieee.model ieee.cos_unit)).ds_max)
      2 (⟨20, ⟨8, 4⟩⟩ :: ⟨30, ⟨12, 6⟩⟩ :: ⟨31, ⟨16, 8⟩⟩ :: ⟨40, ⟨16, 8⟩⟩ :: rest) =
    ⟨20, ⟨8, 4⟩⟩ :: ⟨30, ⟨12, 6⟩⟩ :: ⟨31, ⟨16, 8⟩⟩ ::
    utility.low_pass_filter.loop
      (fun (a b : Position) =>
        (ieee.model ieee.cos_unit).le (a.x.dist_nm (ieee.model ieee.cos_unit) b.x)
          (test_args (ieee.model ieee.cos_unit)).ds_max)
      0 (⟨40, ⟨16, 8⟩⟩ :: rest) :=
  rfl

set_option maxRecDepth 100000 in
set_option exponentiation.threshold 4000 in
theorem test_lpf_filter_stage_3 (rest : Trajectory) :
    utility.low_pass_filter.loop
      (fun (a b : Position) =>
        (ieee.model ieee.cos_unit).le (a.x.dist_nm (ieee.model ieee.cos_unit) b.x)
          (test_args (ieee.model ieee.cos_unit)).ds_max)
      0 (⟨40, ⟨16, 8⟩⟩ :: ⟨41, ⟨20, 99⟩⟩ :: ⟨42, ⟨20, 99⟩⟩ :: ⟨50, ⟨20, 10⟩⟩ :: rest) =
    ⟨40, ⟨16, 8⟩⟩ :: ⟨41, ⟨20, 99⟩⟩ :: ⟨42, ⟨20, 99⟩⟩ ::
    utility.low_pass_filter.loop
      (fun (a b : Position) =>
        (ieee.model ieee.cos_unit).le (a.x.dist_nm (ieee.model ieee.cos_unit) b.x)
          (test_args (ieee.model ieee.cos_unit)).ds_max)
      1 (⟨50, ⟨20, 10⟩⟩ :: rest) :=
  rfl

set_option maxRecDepth 100000 in
set_option exponentiation.threshold 4000 in
theorem test_lpf_filter_stage_4 (rest : Trajectory) :
    utility.low_pass_filter.loop
      (fun (a b : Position) =>
        (ieee.model ieee.cos_unit).le (a.x.dist_nm (ieee.model ieee.cos_unit) b.x)
          (test_args (ieee.model ieee.cos_unit)).ds_max)
      1 (⟨50, ⟨20, 10⟩⟩ :: ⟨60, ⟨24, 12⟩⟩ :: ⟨70, ⟨28, 14⟩⟩ :: ⟨80, ⟨32, 16⟩⟩ :: rest) =
    ⟨50, ⟨20, 10⟩⟩ :: ⟨60, ⟨24, 12⟩⟩ :: ⟨70, ⟨28, 14⟩⟩ ::
    utility.low_pass_filter.loop
      (fun (a b : Position) =>
        (ieee.model ieee.cos_unit).le (a.x.dist_nm (ieee.model ieee.cos_unit) b.x)
          (test_args (ieee.model ieee.cos_unit)).ds_max)
      0 (⟨80, ⟨32, 16⟩⟩ :: rest) :=
  rfl

set_option maxRecDepth 100000 in
set_option exponentiation.threshold 4000 in
theorem test_lpf_filter_stage_5 (rest : Trajectory) :
    utility.low_pass_filter.loop
      (fun (a b : Position) =>
        (ieee.model ieee.cos_unit).le (a.x.dist_nm (ieee.model ieee.cos_unit) b.x)
          (test_args (ieee.model ieee.cos_unit)).ds_max)
      0 (⟨80, ⟨32, 16⟩⟩ :: ⟨90, ⟨36, 18⟩⟩ :: ⟨100, ⟨40, 20⟩⟩ :: ⟨110, ⟨44, 22⟩⟩ :: rest) =
    ⟨80, ⟨32, 16⟩⟩ :: ⟨90, ⟨36, 18⟩⟩ :: ⟨100, ⟨40, 20⟩⟩ ::
    utility.low_pass_filter.loop
      (fun (a b : Position) =>
        (ieee.model ieee.cos_unit).le (a.x.dist_nm (ieee.model ieee.cos_unit) b.x)
          (test_args (ieee.model ieee.cos_unit)).ds_max)
      0 (⟨110, ⟨44, 22⟩⟩ :: rest) :=
  rfl

set_option maxRecDepth 100000 in
set_option exponentiation.threshold 4000 in
theorem test_lpf_filter_stage_6 (rest : Trajectory) :
    utility.low_pass_filter.loop
      (fun (a b : Position) =>
        (ieee.model ieee.cos_unit).le (a.x.dist_nm (ieee.model ieee.cos_unit) b.x)
          (test_args (ieee.model ieee.cos_unit)).ds_max)
      0 (⟨110, ⟨44, 22⟩⟩ :: ⟨120, ⟨48, 24⟩⟩ :: ⟨130, ⟨52, 26⟩⟩ :: ⟨140, ⟨56, 28⟩⟩ :: rest) =
    ⟨110, ⟨44, 22⟩⟩ :: ⟨120, ⟨48, 24⟩⟩ :: ⟨130, ⟨52, 26⟩⟩ ::
    utility.low_pass_filter.loop
      (fun (a b : Position) =>
        (ieee.model ieee.cos_unit).le (a.x.dist_nm (ieee.model ieee.cos_unit) b.x)
          (test_args (ieee.model ieee.cos_unit)).ds_max)
      0 (⟨140, ⟨56, 28⟩⟩ :: rest) :=
  rfl

set_option maxRecDepth 100000 in
set_option exponentiation.threshold 4000 in
theorem test_lpf_filter_stage_7 (rest : Trajectory) :
    utility.low_pass_filter.loop
      (fun (a b : Position) =>
        (ieee.model ieee.cos_unit).le (a.x.dist_nm (ieee.model ieee.cos_unit) b.x)
          (test_args (ieee.model ieee.cos_unit)).ds_max)
      0 (⟨140, ⟨56, 28⟩⟩ :: ⟨150, ⟨60, 30⟩⟩ :: ⟨160, ⟨64, 32⟩⟩ :: ⟨161, ⟨64, 99⟩⟩ :: rest) =
    ⟨140, ⟨56, 28⟩⟩ :: ⟨150, ⟨60, 30⟩⟩ :: ⟨160, ⟨64, 32⟩⟩ ::
    utility.low_pass_filter.loop
      (fun (a b : Position) =>
        (ieee.model ieee.cos_unit).le (a.x.dist_nm (ieee.model ieee.cos_unit) b.x)
          (test_args (ieee.model ieee.cos_unit)).ds_max)
      1 (⟨161, ⟨64, 99⟩⟩ :: rest) :=
  rfl

set_option maxRecDepth 100000 in
set_option exponentiation.threshold 4000 in
theorem test_lpf_filter_stage_8 (rest : Trajectory) :
    utility.low_pass_filter.loop
      (fun (a b : Position) =>
        (ieee.model ieee.cos_unit).le (a.x.dist_nm (ieee.model ieee.cos_unit) b.x)
          (test_args (ieee.model ieee.cos_unit)).ds_max)
      1 (⟨161, ⟨64, 99⟩⟩ :: ⟨170, ⟨68, 34⟩⟩ :: ⟨180, ⟨72, 36⟩⟩ :: ⟨190, ⟨76, 38⟩⟩ :: rest) =
    ⟨170, ⟨68, 34⟩⟩ :: ⟨180, ⟨72, 36⟩⟩ ::
    utility.low_pass_filter.loop
      (fun (a b : Position) =>
        (ieee.model ieee.cos_unit).le (a.x.dist_nm (ieee.model ieee.cos_unit) b.x)
          (test_args (ieee.model ieee.cos_unit)).ds_max)
      0 (⟨190, ⟨76, 38⟩⟩ :: rest) :=
  rfl

set_option maxRecDepth 100000 in
set_option exponentiation.threshold 4000 in
theorem test_lpf_filter_stage_9 (rest : Trajectory) :
    utility.low_pass_filter.loop
      (fun (a b : Position) =>
        (ieee.model ieee.cos_unit).le (a.x.dist_nm (ieee.model ieee.cos_unit) b.x)
          (test_args (ieee.model ieee.cos_unit)).ds_max)
      0 (⟨190, ⟨76, 38⟩⟩ :: ⟨999, ⟨36, 18⟩⟩ :: rest) =
    ⟨190, ⟨76, 38⟩⟩ ::
    utility.low_pass_filter.loop
      (fun (a b : Position) =>
        (ieee.model ieee.cos_unit).le (a.x.dist_nm (ieee.model ieee.cos_unit) b.x)
          (test_args (ieee.model ieee.cos_unit)).ds_max)
      1 (⟨999, ⟨36, 18⟩⟩ :: rest) :=
  rfl

/-- With the spike filter requested, `Sequencer.clean` is `low_pass_filter` with
the predicate `is_valid` on the de-duplicated buffer. -/
theorem Sequencer.clean_true (D : Dbl) (args : split_args D) (sorted : Trajectory) :
    Sequencer.clean D args true sorted =
      utility.low_pass_filter (std_unique (fun (a b : Position) => decide (a.t = b.t)) sorted)
        (fun a b => D.le (a.x.dist_nm D b.x) args.ds_max) := rfl

/-- The cleaned buffer of the test case `Test seqmaker with LPF` when `std::cos`
is the constant 1. -/
theorem test_lpf_clean_unit :
    Sequencer.clean (ieee.model ieee.cos_unit) (test_args (ieee.model ieee.cos_unit)) true
      (sort_by_time test_lpf_trajectory) = test_lpf_cleaned := by
  rw [Sequencer.clean_true, test_lpf_unique]
  unfold utility.low_pass_filter
  rw [if_pos (by decide), test_lpf_filter_stage_1, test_lpf_filter_stage_2, test_lpf_filter_stage_3,
    test_lpf_filter_stage_4, test_lpf_filter_stage_5, test_lpf_filter_stage_6,
    test_lpf_filter_stage_7, test_lpf_filter_stage_8, test_lpf_filter_stage_9]
  rfl

theorem test_lpf_clean (cos : ieee.B64 → ieee.B64) (h : ieee.CosSpec cos) :
    Sequencer.clean (ieee.model cos) (test_args (ieee.model cos)) true
      (sort_by_time test_lpf_trajectory) = test_lpf_cleaned := by
  refine Eq.trans ?_ test_lpf_clean_unit
  rw [Sequencer.clean_true, Sequencer.clean_true]
  exact low_pass_filter_congr _ _ _
    (List.Chain'.imp (fun a b hab => is_valid_test_congr cos ieee.cos_unit h
      ieee.cos_unit_spec a b hab) (classified_steps_chain _ test_lpf_steps_classified))

theorem test_lpf_gate (cos : ieee.B64 → ieee.B64) :
    Sequencer.gate (ieee.model cos) (test_args (ieee.model cos)) test_lpf_cleaned = true := rfl

set_option maxRecDepth 100000 in
set_option exponentiation.threshold 4000 in
/-- The classification of the consecutive positions of the cleaned buffer of the
test case `Test seqmaker with LPF` is evaluated in stages of three pairs. -/
theorem test_lpf_gaps_stage_1 (rest : Trajectory) :
    classified_gaps
      (⟨0, ⟨0, 0⟩⟩ :: ⟨10, ⟨4, 2⟩⟩ :: ⟨20, ⟨8, 4⟩⟩ :: ⟨30, ⟨12, 6⟩⟩ :: rest) =
    classified_gaps (⟨30, ⟨12, 6⟩⟩ :: rest) :=
  rfl

set_option maxRecDepth 100000 in
set_option exponentiation.threshold 4000 in
theorem test_lpf_gaps_stage_2 (rest : Trajectory) :
    classified_gaps
      (⟨30, ⟨12, 6⟩⟩ :: ⟨31, ⟨16, 8⟩⟩ :: ⟨40, ⟨16, 8⟩⟩ :: ⟨41, ⟨20, 99⟩⟩ :: rest) =
    classified_gaps (⟨41, ⟨20, 99⟩⟩ :: rest) :=
  rfl

set_option maxRecDepth 100000 in
set_option exponentiation.threshold 4000 in
theorem test_lpf_gaps_stage_3 (rest : Trajectory) :
    classified_gaps
      (⟨41, ⟨20, 99⟩⟩ :: ⟨42, ⟨20, 99⟩⟩ :: ⟨50, ⟨20, 10⟩⟩ :: ⟨60, ⟨24, 12⟩⟩ :: rest) =
    classified_gaps (⟨60, ⟨24, 12⟩⟩ :: rest) :=
  rfl

set_option maxRecDepth 100000 in
set_option exponentiation.threshold 4000 in
theorem test_lpf_gaps_stage_4 (rest : Trajectory) :
    classified_gaps
      (⟨60, ⟨24, 12⟩⟩ :: ⟨70, ⟨28, 14⟩⟩ :: ⟨80, ⟨32, 16⟩⟩ :: ⟨90, ⟨36, 18⟩⟩ :: rest) =
    classified_gaps (⟨90, ⟨36, 18⟩⟩ :: rest) :=
  rfl

set_option maxRecDepth 100000 in
set_option exponentiation.threshold 4000 in
theorem test_lpf_gaps_stage_5 (rest : Trajectory) :
    classified_gaps
      (⟨90, ⟨36, 18⟩⟩ :: ⟨100, ⟨40, 20⟩⟩ :: ⟨110, ⟨44, 22⟩⟩ :: ⟨120, ⟨48, 24⟩⟩ :: rest) =
    classified_gaps (⟨120, ⟨48, 24⟩⟩ :: rest) :=
  rfl

set_option maxRecDepth 100000 in
set_option exponentiation.threshold 4000 in
theorem test_lpf_gaps_stage_6 (rest : Trajectory) :
    classified_gaps
      (⟨120, ⟨48, 24⟩⟩ :: ⟨130, ⟨52, 26⟩⟩ :: ⟨140, ⟨56, 28⟩⟩ :: ⟨150, ⟨60, 30⟩⟩ :: rest) =
    classified_gaps (⟨150, ⟨60, 30⟩⟩ :: rest) :=
  rfl

set_option maxRecDepth 100000 in
set_option exponentiation.threshold 4000 in
theorem test_lpf_gaps_stage_7 (rest : Trajectory) :
    classified_gaps
      (⟨150, ⟨60, 30⟩⟩ :: ⟨160, ⟨64, 32⟩⟩ :: ⟨170, ⟨68, 34⟩⟩ :: ⟨180, ⟨72, 36⟩⟩ :: rest) =
    classified_gaps (⟨180, ⟨72, 36⟩⟩ :: rest) :=
  rfl

set_option maxRecDepth 100000 in
set_option exponentiation.threshold 4000 in
theorem test_lpf_gaps_stage_8 (rest : Trajectory) :
    classified_gaps
      (⟨180, ⟨72, 36⟩⟩ :: ⟨190, ⟨76, 38⟩⟩ :: rest) =
    classified_gaps (⟨190, ⟨76, 38⟩⟩ :: rest) :=
  rfl

/-- All consecutive positions of the cleaned buffer of the test case `Test
seqmaker with LPF` are classified. -/
theorem test_lpf_classified : classified_gaps test_lpf_cleaned = true := by
  unfold test_lpf_cleaned
  rw [test_lpf_gaps_stage_1, test_lpf_gaps_stage_2, test_lpf_gaps_stage_3,
    test_lpf_gaps_stage_4, test_lpf_gaps_stage_5, test_lpf_gaps_stage_6,
    test_lpf_gaps_stage_7, test_lpf_gaps_stage_8]
  rfl

set_option maxRecDepth 100000 in
set_option exponentiation.threshold 4000 in
/-- The completed segments of the cleaned buffer of the test case `Test seqmaker
with LPF` are evaluated in stages, as for `Test split`. -/
theorem test_lpf_segments_stage_1 (rest : Trajectory) :
    split.segments (ieee.model ieee.cos_unit) (test_args (ieee.model ieee.cos_unit))
      [] 0
      (⟨0, ⟨0, 0⟩⟩ :: ⟨10, ⟨4, 2⟩⟩ :: ⟨20, ⟨8, 4⟩⟩ :: ⟨30, ⟨12, 6⟩⟩ :: ⟨31, ⟨16, 8⟩⟩ :: rest) =
    [⟨0, ⟨0, 0⟩⟩, ⟨10, ⟨4, 2⟩⟩, ⟨20, ⟨8, 4⟩⟩, ⟨30, ⟨12, 6⟩⟩] ::
    split.segments (ieee.model ieee.cos_unit) (test_args (ieee.model ieee.cos_unit))
      [⟨31, ⟨16, 8⟩⟩] 31 rest :=
  rfl

set_option maxRecDepth 100000 in
set_option exponentiation.threshold 4000 in
theorem test_lpf_segments_stage_2 (rest : Trajectory) :
    split.segments (ieee.model ieee.cos_unit) (test_args (ieee.model ieee.cos_unit))
      [⟨31, ⟨16, 8⟩⟩] 31
      (⟨40, ⟨16, 8⟩⟩ :: ⟨41, ⟨20, 99⟩⟩ :: ⟨42, ⟨20, 99⟩⟩ :: rest) =
    split.segments (ieee.model ieee.cos_unit) (test_args (ieee.model ieee.cos_unit))
      [⟨41, ⟨20, 99⟩⟩, ⟨42, ⟨20, 99⟩⟩] 41 rest :=
  rfl

set_option maxRecDepth 100000 in
set_option exponentiation.threshold 4000 in
theorem test_lpf_segments_stage_3 (rest : Trajectory) :
    split.segments (ieee.model ieee.cos_unit) (test_args (ieee.model ieee.cos_unit))
      [⟨41, ⟨20, 99⟩⟩, ⟨42, ⟨20, 99⟩⟩] 41
      (⟨50, ⟨20, 10⟩⟩ :: ⟨60, ⟨24, 12⟩⟩ :: ⟨70, ⟨28, 14⟩⟩ :: rest) =
    split.segments (ieee.model ieee.cos_unit) (test_args (ieee.model ieee.cos_unit))
      [⟨50, ⟨20, 10⟩⟩, ⟨60, ⟨24, 12⟩⟩, ⟨70, ⟨28, 14⟩⟩] 50 rest :=
  rfl

set_option maxRecDepth 100000 in
set_option exponentiation.threshold 4000 in
theorem test_lpf_segments_stage_4 (rest : Trajectory) :
    split.segments (ieee.model ieee.cos_unit) (test_args (ieee.model ieee.cos_unit))
      [⟨50, ⟨20, 10⟩⟩, ⟨60, ⟨24, 12⟩⟩, ⟨70, ⟨28, 14⟩⟩] 50
      (⟨80, ⟨32, 16⟩⟩ :: ⟨90, ⟨36, 18⟩⟩ :: ⟨100, ⟨40, 20⟩⟩ :: ⟨110, ⟨44, 22⟩⟩ :: rest) =
    [⟨50, ⟨20, 10⟩⟩, ⟨60, ⟨24, 12⟩⟩, ⟨70, ⟨28, 14⟩⟩, ⟨80, ⟨32, 16⟩⟩] ::
    split.segments (ieee.model ieee.cos_unit) (test_args (ieee.model ieee.cos_unit))
      [⟨90, ⟨36, 18⟩⟩, ⟨100, ⟨40, 20⟩⟩, ⟨110, ⟨44, 22⟩⟩] 90 rest :=
  rfl

set_option maxRecDepth 100000 in
set_option exponentiation.threshold 4000 in
theorem test_lpf_segments_stage_5 (rest : Trajectory) :
    split.segments (ieee.model ieee.cos_unit) (test_args (ieee.model ieee.cos_unit))
      [⟨90, ⟨36, 18⟩⟩, ⟨100, ⟨40, 20⟩⟩, ⟨110, ⟨44, 22⟩⟩] 90
      (⟨120, ⟨48, 24⟩⟩ :: ⟨130, ⟨52, 26⟩⟩ :: ⟨140, ⟨56, 28⟩⟩ :: ⟨150, ⟨60, 30⟩⟩ :: rest) =
    [⟨90, ⟨36, 18⟩⟩, ⟨100, ⟨40, 20⟩⟩, ⟨110, ⟨44, 22⟩⟩, ⟨120, ⟨48, 24⟩⟩] ::
    split.segments (ieee.model ieee.cos_unit) (test_args (ieee.model ieee.cos_unit))
      [⟨130, ⟨52, 26⟩⟩, ⟨140, ⟨56, 28⟩⟩, ⟨150, ⟨60, 30⟩⟩] 130 rest :=
  rfl

set_option maxRecDepth 100000 in
set_option exponentiation.threshold 4000 in
theorem test_lpf_segments_stage_6 (rest : Trajectory) :
    split.segments (ieee.model ieee.cos_unit) (test_args (ieee.model ieee.cos_unit))
      [⟨130, ⟨52, 26⟩⟩, ⟨140, ⟨56, 28⟩⟩, ⟨150, ⟨60, 30⟩⟩] 130
      (⟨160, ⟨64, 32⟩⟩ :: ⟨170, ⟨68, 34⟩⟩ :: ⟨180, ⟨72, 36⟩⟩ :: ⟨190, ⟨76, 38⟩⟩ :: rest) =
    [⟨130, ⟨52, 26⟩⟩, ⟨140, ⟨56, 28⟩⟩, ⟨150, ⟨60, 30⟩⟩, ⟨160, ⟨64, 32⟩⟩] ::
    split.segments (ieee.model ieee.cos_unit) (test_args (ieee.model ieee.cos_unit))
      [⟨170, ⟨68, 34⟩⟩, ⟨180, ⟨72, 36⟩⟩, ⟨190, ⟨76, 38⟩⟩] 170 rest :=
  rfl

/-- The completed segments of the cleaned buffer of the test case `Test seqmaker
with LPF` when `std::cos` is the constant 1. -/
theorem test_lpf_segments_unit :
    split.segments (ieee.model ieee.cos_unit) (test_args (ieee.model ieee.cos_unit)) [] 0
      test_lpf_cleaned =
    [[⟨0, ⟨0, 0⟩⟩, ⟨10, ⟨4, 2⟩⟩, ⟨20, ⟨8, 4⟩⟩, ⟨30, ⟨12, 6⟩⟩],
     [⟨50, ⟨20, 10⟩⟩, ⟨60, ⟨24, 12⟩⟩, ⟨70, ⟨28, 14⟩⟩, ⟨80, ⟨32, 16⟩⟩],
     [⟨90, ⟨36, 18⟩⟩, ⟨100, ⟨40, 20⟩⟩, ⟨110, ⟨44, 22⟩⟩, ⟨120, ⟨48, 24⟩⟩],
     [⟨130, ⟨52, 26⟩⟩, ⟨140, ⟨56, 28⟩⟩, ⟨150, ⟨60, 30⟩⟩, ⟨160, ⟨64, 32⟩⟩]] := by
  unfold test_lpf_cleaned
  rw [test_lpf_segments_stage_1, test_lpf_segments_stage_2, test_lpf_segments_stage_3,
    test_lpf_segments_stage_4, test_lpf_segments_stage_5, test_lpf_segments_stage_6]
  rfl

set_option maxRecDepth 100000 in
set_option exponentiation.threshold 4000 in
theorem test_lpf_interp2 (cos : ieee.B64 → ieee.B64) :
    interpolate (ieee.model cos)
      [⟨50, ⟨20, 10⟩⟩, ⟨60, ⟨24, 12⟩⟩, ⟨70, ⟨28, 14⟩⟩, ⟨80, ⟨32, 16⟩⟩] 6 5 =
      some [⟨20, 10⟩, ⟨22, 11⟩, ⟨24, 12⟩, ⟨26, 13⟩, ⟨28, 14⟩, ⟨30, 15⟩] := rfl

set_option maxRecDepth 100000 in
set_option exponentiation.threshold 4000 in
theorem test_lpf_interp4 (cos : ieee.B64 → ieee.B64) :
    interpolate (ieee.model cos)
      [⟨130, ⟨52, 26⟩⟩, ⟨140, ⟨56, 28⟩⟩, ⟨150, ⟨60, 30⟩⟩, ⟨160, ⟨64, 32⟩⟩] 6 5 =
      some [⟨52, 26⟩, ⟨54, 27⟩, ⟨56, 28⟩, ⟨58, 29⟩, ⟨60, 30⟩, ⟨62, 31⟩] := rfl

theorem test_lpf_split (cos : ieee.B64 → ieee.B64) (h : ieee.CosSpec cos) :
    split (ieee.model cos) test_lpf_cleaned (test_args (ieee.model cos)) =
      some test_lpf_expected := by
  have hseg := (test_segments_congr cos ieee.cos_unit h ieee.cos_unit_spec _
    test_lpf_classified).trans test_lpf_segments_unit
  rw [test_split_of_segments cos h test_lpf_cleaned
    [[⟨0, 0⟩, ⟨2, 1⟩, ⟨4, 2⟩, ⟨6, 3⟩, ⟨8, 4⟩, ⟨10, 5⟩],
     [⟨20, 10⟩, ⟨22, 11⟩, ⟨24, 12⟩, ⟨26, 13⟩, ⟨28, 14⟩, ⟨30, 15⟩],
     [⟨36, 18⟩, ⟨38, 19⟩, ⟨40, 20⟩, ⟨42, 21⟩, ⟨44, 22⟩, ⟨46, 23⟩],
     [⟨52, 26⟩, ⟨54, 27⟩, ⟨56, 28⟩, ⟨58, 29⟩, ⟨60, 30⟩, ⟨62, 31⟩]]
    (by
      rw [hseg]
      exact List.Forall₂.cons (test_split_interp1 cos) (List.Forall₂.cons
        (test_lpf_interp2 cos) (List.Forall₂.cons (test_split_interp3 cos)
          (List.Forall₂.cons (test_lpf_interp4 cos) List.Forall₂.nil))))]
  rfl

/-- The test case `Test seqmaker with LPF` in the binary64 model: for every
`std::cos` meeting `CosSpec`, every result of `std::sort` and every order of the
26 positions the run yields the 24 expected points. -/
theorem test_lpf_value (cos : ieee.B64 → ieee.B64) (h : ieee.CosSpec cos)
    (sort : Trajectory → Trajectory) (hs : SortSpec sort) (raw : Trajectory)
    (hp : raw.Perm test_lpf_trajectory) (mmsi : Int) :
    SequenceMaker.run (ieee.model cos) (test_args (ieee.model cos)) sort true [(mmsi, raw)] =
      some [(mmsi, test_lpf_expected)] := by
  unfold SequenceMaker.run
  rw [Sequencer.run_cons, test_lpf_sorted sort hs raw hp, test_lpf_clean cos h,
    if_pos (test_lpf_gate cos)]
  unfold SequenceMaker.process
  rw [test_lpf_split cos h]
  rfl

/-! ### The admission test and the handler -/

theorem adjacent_diff_loop_zipWith {α β : Type} (op : α → α → β) (xs ys : List α) :
    utility.adjacent_diff.loop op xs ys = List.zipWith op xs ys := by
  induction xs generalizing ys with
  | nil => simp [utility.adjacent_diff.loop]
  | cons a as ih =>
    cases ys with
    | nil => simp [utility.adjacent_diff.loop]
    | cons b bs => simp [utility.adjacent_diff.loop, ih]

/-- `acc_dist_nm` is the sum, from the left and starting at `0.`, of the
distances between consecutive points. -/
theorem acc_dist_nm_eq (D : Dbl) (pts : List Point) :
    acc_dist_nm D pts =
      (List.zipWith (fun a b => a.dist_nm D b) pts pts.tail).foldl D.add (D.lit 0 0) := by
  unfold acc_dist_nm
  by_cases h : pts.length > 1
  · rw [if_pos h]
    simp only
    rw [utility.adjacent_diff, if_pos h, adjacent_diff_loop_zipWith, List.drop_one]
  · rw [if_neg h]
    cases pts with
    | nil => rfl
    | cons a rest =>
      cases rest with
      | nil => rfl
      | cons b rest =>
        simp at h

/-! ### Evaluations on the equator, in stages -/

set_option maxRecDepth 100000 in
set_option exponentiation.threshold 4000 in
/-- The four equator positions form one completed segment. -/
theorem equator_segments :
    split.segments (ieee.model ieee.cos_zero) (test_args (ieee.model ieee.cos_zero)) [] 0
      equator_trajectory = [equator_trajectory] := by
  decide

set_option maxRecDepth 100000 in
set_option exponentiation.threshold 4000 in
/-- The resampled equator positions. -/
theorem equator_interp :
    interpolate (ieee.model ieee.cos_zero) equator_trajectory 6 5 =
      some [⟨0, 0⟩, ⟨0, 1⟩, ⟨0, 2⟩, ⟨0, 3⟩, ⟨0, 4⟩, ⟨0, 5⟩] :=
  rfl

set_option maxRecDepth 100000 in
set_option exponentiation.threshold 4000 in
/-- The accumulated distance of the resampled equator positions: the first
three distances. -/
theorem equator_acc_stage_1 (r1 r2 : List Point) :
    List.foldl (ieee.model ieee.cos_zero).add ((ieee.model ieee.cos_zero).lit 0 0)
      (List.zipWith (fun a b => a.dist_nm (ieee.model ieee.cos_zero) b)
        (⟨0, 0⟩ :: ⟨0, 1⟩ :: ⟨0, 2⟩ :: r1) (⟨0, 1⟩ :: ⟨0, 2⟩ :: ⟨0, 3⟩ :: r2)) =
    List.foldl (ieee.model ieee.cos_zero).add (ieee.B64.fin false 5534023222112866 (-64))
      (List.zipWith (fun a b => a.dist_nm (ieee.model ieee.cos_zero) b) r1 r2) :=
  rfl

set_option maxRecDepth 100000 in
set_option exponentiation.threshold 4000 in
/-- The accumulated distance of the resampled equator positions: the last two
distances. -/
theorem equator_acc_stage_2 (r1 r2 : List Point) :
    List.foldl (ieee.model ieee.cos_zero).add (ieee.B64.fin false 5534023222112866 (-64))
      (List.zipWith (fun a b => a.dist_nm (ieee.model ieee.cos_zero) b)
        (⟨0, 3⟩ :: ⟨0, 4⟩ :: r1) (⟨0, 4⟩ :: ⟨0, 5⟩ :: r2)) =
    List.foldl (ieee.model ieee.cos_zero).add (ieee.B64.fin false 4611686018427388 (-63))
      (List.zipWith (fun a b => a.dist_nm (ieee.model ieee.cos_zero) b) r1 r2) :=
  rfl

/-- The resampled equator positions pass the admission test. -/
theorem equator_accepted :
    split.accepted (ieee.model ieee.cos_zero) (test_args (ieee.model ieee.cos_zero))
      [⟨0, 0⟩, ⟨0, 1⟩, ⟨0, 2⟩, ⟨0, 3⟩, ⟨0, 4⟩, ⟨0, 5⟩] = true := by
  rw [split.accepted, acc_dist_nm_eq, List.tail_cons, equator_acc_stage_1, equator_acc_stage_2]
  rfl

/-- The sequence `split` emits for the four equator positions. -/
theorem equator_split :
    split (ieee.model ieee.cos_zero) equator_trajectory (test_args (ieee.model ieee.cos_zero)) =
      some [⟨0, 0⟩, ⟨0, 1⟩, ⟨0, 2⟩, ⟨0, 3⟩, ⟨0, 4⟩, ⟨0, 5⟩] := by
  rw [split_of_segments (ieee.model ieee.cos_zero) equator_trajectory
    (test_args (ieee.model ieee.cos_zero)) [[⟨0, 0⟩, ⟨0, 1⟩, ⟨0, 2⟩, ⟨0, 3⟩, ⟨0, 4⟩, ⟨0, 5⟩]]
    (by
      rw [equator_segments]
      exact List.Forall₂.cons equator_interp List.Forall₂.nil),
    List.filter_cons_of_pos equator_accepted]
  rfl

/-- With `v_min` a zero the output of `split` is the concatenation of all
resampled completed segments. -/
theorem split_zero_v_min (cos : ieee.B64 → ieee.B64)
    (hcos : ∀ s m e, ieee.Bnd 0 (cos (.fin s m e))) (args : split_args (ieee.model cos))
    (s : Bool) (e : Int) (hv : args.v_min = ieee.B64.fin s 0 e)
    (h1 : args.seq_length < U32) (h2 : args.dti < U32) (traj : Trajectory) (out : List Point)
    (h : split (ieee.model cos) traj args = some out) :
    ∃ seqs : List (List Point),
      List.Forall₂ (fun seg seq => interpolate (ieee.model cos) seg
          (uadd args.seq_length 1) args.dti = some seq)
        (split.segments (ieee.model cos) args [] 0 traj) seqs ∧
      out = seqs.flatten := by
  obtain ⟨seqs, hF, hout⟩ := split_segments (ieee.model cos) traj args out h
  refine ⟨seqs, hF, ?_⟩
  have hacc : ∀ seq ∈ seqs, split.accepted (ieee.model cos) args seq = true := by
    intro seq hseq
    obtain ⟨seg, _, hi⟩ := forall₂_mem_right _ _ _ hF seq hseq
    exact accepted_of_zero cos hcos args s e hv h1 h2 seg _ _ seq hi
  rw [hout, List.filter_eq_self.2 hacc]

/-- `SequenceMaker::run` returns whenever the timestamps are 32-bit values and
`seq_length * dti` does not overflow. -/
theorem SequenceMaker.run_total (D : Dbl) (args : split_args D)
    (sort : Trajectory → Trajectory) (lpf : Bool) (store : List (Int × Trajectory))
    (hs : SortSpec sort) (hU : ∀ e ∈ store, ∀ p ∈ e.2, p.t < U32)
    (hdur : args.seq_length * args.dti < U32) :
    ∃ out, SequenceMaker.run D args sort lpf store = some out := by
  unfold SequenceMaker.run
  apply SequenceMaker.run_defined
  intro e he _
  have hinc := Sequencer.clean_increasing D args lpf (sort e.2) (hs e.2).2
  have hsub := Sequencer.clean_sublist D args lpf (sort e.2)
  refine split_defined D _ args (hinc.imp (fun h => le_of_lt h)) ?_ hdur
  intro p hp
  exact hU e he p ((hs e.2).1.subset (hsub.subset hp))

/-! ### The claims -/

/-- C1: whenever `split` returns, its output is the concatenation of resampled
sequences `interpolate(run, seq_length + 1, dti)`, one for each entry of a list
`emitted` of index pairs `(a, b)`; each `run` consists of the consecutive input
positions `a..b` with `a < b`, has no gap between adjacent positions (timestamp
difference at most `dt_max`, distance not above `ds_max`), reaches the duration
`seq_length * dti` at `b` and at no position strictly between `a` and `b`; the
runs are pairwise disjoint and in input order.  `split` returns whenever the
timestamps are non-decreasing 32-bit values and `seq_length * dti` does not
overflow. -/
theorem split_emits_completed_runs :
    (∀ (D : Dbl) (trajectory : Trajectory) (args : split_args D) (out : List Point),
      split D trajectory args = some out →
      ∃ emitted : List (Nat × Nat × List Point),
        (∀ e ∈ emitted, ∃ run, IsRun D args trajectory e.1 e.2.1 run ∧
          interpolate D run (uadd args.seq_length 1) args.dti = some e.2.2) ∧
        emitted.Pairwise (fun e f => e.2.1 < f.1) ∧
        out = (emitted.map (fun e => e.2.2)).flatten) ∧
    (∀ (D : Dbl) (trajectory : Trajectory) (args : split_args D),
      trajectory.Pairwise (fun a b => a.t ≤ b.t) → (∀ p ∈ trajectory, p.t < U32) →
      args.seq_length * args.dti < U32 → ∃ out, split D trajectory args = some out) := by
  refine ⟨?_, fun D trajectory args h1 h2 h3 => split_defined D trajectory args h1 h2 h3⟩
  intro D trajectory args out h
  obtain ⟨seqs, h1, h2⟩ := split_segments D trajectory args out h
  obtain ⟨runs, r1, _, r3⟩ := split.segments_runs D args trajectory trajectory [] 0 []
    (by simp) (split.BufInv.empty D args 0)
  obtain ⟨emitted, e1, e2, e3⟩ :=
    split.emitted_of_segments D args trajectory (split.accepted D args) runs _ seqs r1 h1 r3
  exact ⟨emitted, fun e he => (e1 e he).2, e2, by rw [h2, e3]⟩

/-- Witness of C1 on four positions on the equator. -/
theorem split_emits_completed_runs_witness :
    split (ieee.model ieee.cos_zero) equator_trajectory (test_args (ieee.model ieee.cos_zero)) =
        some [⟨0, 0⟩, ⟨0, 1⟩, ⟨0, 2⟩, ⟨0, 3⟩, ⟨0, 4⟩, ⟨0, 5⟩] ∧
      ∃ emitted : List (Nat × Nat × List Point),
        (∀ e ∈ emitted, ∃ run,
          IsRun (ieee.model ieee.cos_zero) (test_args (ieee.model ieee.cos_zero))
            equator_trajectory e.1 e.2.1 run ∧
          interpolate (ieee.model ieee.cos_zero) run 6 5 = some e.2.2) ∧
        emitted.Pairwise (fun e f => e.2.1 < f.1) ∧
        [⟨0, 0⟩, ⟨0, 1⟩, ⟨0, 2⟩, ⟨0, 3⟩, ⟨0, 4⟩, ⟨0, 5⟩] =
          (emitted.map (fun e => e.2.2)).flatten :=
  ⟨equator_split, split_emits_completed_runs.1 _ _ _ _ equator_split⟩

set_option maxRecDepth 100000 in
set_option exponentiation.threshold 4000 in
/-- C4: for a trajectory with at least two positions, strictly increasing
32-bit timestamps and last timestamp at least `t0 + (N - 1) * dt`, `interpolate`
returns exactly `N` points and the `i`-th one is the blend of the consecutive
pair `(p_j, p_j+1)` with the smallest `j` such that `p_j+1.t >= t0 + i * dt`,
with weight `(t0 + i * dt - p_j.t) / (p_j+1.t - p_j.t)`; in binary64 arithmetic
the trajectory of the interpolation test gives exactly the six expected
points. -/
theorem interpolate_grid_points :
    (∀ (D : Dbl) (trajectory : Trajectory) (front last : Position) (N dt : Nat),
      2 ≤ trajectory.length → trajectory.head? = some front →
      trajectory.getLast? = some last →
      trajectory.Pairwise (fun a b => a.t < b.t) → (∀ p ∈ trajectory, p.t < U32) →
      front.t + (N - 1) * dt ≤ last.t →
      ∃ pts, interpolate D trajectory N dt = some pts ∧ pts.length = N ∧
        ∀ i < N, ∃ pt, pts[i]? = some pt ∧
          IsGridPoint D trajectory (front.t + i * dt) pt) ∧
    (∀ cos, interpolate (ieee.model cos) test_interpolation_trajectory 6 10 =
      some [⟨0, 0⟩, ⟨2, 1⟩, ⟨4, 2⟩, ⟨6, 3⟩, ⟨8, 4⟩, ⟨10, 5⟩]) := by
  refine ⟨?_, ?_⟩
  · intro D trajectory front last N dt hlen hfront hlast hinc hU hcover
    exact interpolate_grid D trajectory front last N dt hlen hfront hlast
      (hinc.imp (fun h => Nat.le_of_lt h)) hU hcover
  · intro cos
    rfl

/-- Witness of C4 on the trajectory of the interpolation test. -/
theorem interpolate_grid_points_witness :
    ∃ pts, interpolate (ieee.model ieee.cos_zero) test_interpolation_trajectory 6 10
        = some pts ∧ pts.length = 6 ∧
      ∀ i < 6, ∃ pt, pts[i]? = some pt ∧
        IsGridPoint (ieee.model ieee.cos_zero) test_interpolation_trajectory (0 + i * 10) pt :=
  interpolate_grid_points.1 (ieee.model ieee.cos_zero) test_interpolation_trajectory
    ⟨0, ⟨0, 0⟩⟩ ⟨50, ⟨10, 5⟩⟩ 6 10 (by decide) rfl rfl (by decide) (by decide) (by decide)

/-- C5: `low_pass_filter` outputs, in the original order, exactly the elements
that have a valid transition with the element immediately before or after
them (a missing neighbour counts as invalid); inputs of length 0 or 1 give an
empty output, and the five sequences of the test give the stated results. -/
theorem low_pass_filter_keeps_valid_neighbours :
    (∀ (α : Type) (valid : α → α → Bool) (xs : List α),
      utility.low_pass_filter xs valid =
        ((List.range xs.length).filter (utility.has_valid_neighbour valid xs)).filterMap
          (fun k => xs[k]?)) ∧
    (∀ (α : Type) (valid : α → α → Bool), utility.low_pass_filter [] valid = []) ∧
    (∀ (α : Type) (valid : α → α → Bool) (a : α), utility.low_pass_filter [a] valid = []) ∧
    utility.low_pass_filter [1, 2, 3, 99, 5, 6, 7] test_abs_diff_lt_2 = [1, 2, 3, 5, 6, 7] ∧
    utility.low_pass_filter [99, 2, 3, 4, 5, 6, 99] test_abs_diff_lt_2 = [2, 3, 4, 5, 6] ∧
    utility.low_pass_filter [1, 2, 99, 99, 5, 6, 7] test_abs_diff_lt_2
      = [1, 2, 99, 99, 5, 6, 7] ∧
    utility.low_pass_filter [1, 2, 99, 4, 99, 6, 7] test_abs_diff_lt_2 = [1, 2, 6, 7] ∧
    utility.low_pass_filter [1, 2, 99, 55, 5, 6, 7] test_abs_diff_lt_2 = [1, 2, 5, 6, 7] := by
  refine ⟨?_, ?_, ?_, by decide, by decide, by decide, by decide, by decide⟩
  · intro α valid xs
    unfold utility.low_pass_filter
    split
    · have := utility.low_pass_filter_loop_spec valid xs [] 1 (by simp)
      simpa [List.range_eq_range'] using this
    · rename_i h
      match xs, h with
      | [], _ => simp
      | [a], _ => simp [utility.has_valid_neighbour, utility.valid_at, List.range_succ]
      | a :: b :: rest, h => simp at h
  · intro α valid
    rfl
  · intro α valid a
    rfl

/-- C6: after the sort and the deduplication of `Sequencer::run` the timestamps
of the buffer are strictly increasing, they are exactly the timestamps of the
raw buffer, each once, and every position comes from the raw buffer; hence
`a.t < b.t` holds for every adjacent pair the spike filter examines, and the
buffer handed to the handler, filtered or not, has strictly increasing
timestamps. -/
theorem run_sort_unique_strictly_increasing (D : Dbl) (args : split_args D)
    (raw sorted : Trajectory) (hsort : IsSortedByTime raw sorted) :
    (std_unique (fun a b => decide (a.t = b.t)) sorted).Pairwise (fun a b => a.t < b.t) ∧
    ((std_unique (fun a b => decide (a.t = b.t)) sorted).map (fun p => p.t)).Nodup ∧
    (∀ τ, τ ∈ (std_unique (fun a b => decide (a.t = b.t)) sorted).map (fun p => p.t) ↔
      τ ∈ raw.map (fun p => p.t)) ∧
    (∀ p ∈ std_unique (fun a b => decide (a.t = b.t)) sorted, p ∈ raw) ∧
    (std_unique (fun a b => decide (a.t = b.t)) sorted).Chain' (fun a b => a.t < b.t) ∧
    ∀ apply_low_pass_filter,
      (Sequencer.clean D args apply_low_pass_filter sorted).Pairwise (fun a b => a.t < b.t) := by
  have hinc := std_unique_increasing sorted hsort.2
  have hsub := std_unique_sublist (fun (a b : Position) => decide (a.t = b.t)) sorted
  have hmem : ∀ p ∈ std_unique (fun a b => decide (a.t = b.t)) sorted, p ∈ raw :=
    fun p hp => hsort.1.subset (hsub.subset hp)
  refine ⟨hinc, ?_, ?_, hmem, List.Pairwise.chain' hinc, ?_⟩
  · rw [List.Nodup, List.pairwise_map]
    exact hinc.imp (fun h => Nat.ne_of_lt h)
  · intro τ
    simp only [List.mem_map]
    constructor
    · rintro ⟨p, hp, rfl⟩
      exact ⟨p, hmem p hp, rfl⟩
    · rintro ⟨p, hp, rfl⟩
      obtain ⟨y, hy, hyt⟩ := std_unique_times sorted p (hsort.1.symm.subset hp)
      exact ⟨y, hy, hyt⟩
  · intro lpf
    unfold Sequencer.clean
    cases lpf
    · simpa using hinc
    · simp only [if_true]
      exact hinc.sublist (utility.low_pass_filter_sublist _ _)

/-- Witness of C6 on a raw buffer with a repeated timestamp. -/
theorem run_sort_unique_strictly_increasing_witness :
    IsSortedByTime [⟨20, ⟨8, 4⟩⟩, ⟨0, ⟨0, 0⟩⟩, ⟨20, ⟨9, 9⟩⟩, ⟨10, ⟨4, 2⟩⟩]
        (sort_by_time [⟨20, ⟨8, 4⟩⟩, ⟨0, ⟨0, 0⟩⟩, ⟨20, ⟨9, 9⟩⟩, ⟨10, ⟨4, 2⟩⟩]) ∧
      (std_unique (fun a b => decide (a.t = b.t))
        (sort_by_time [⟨20, ⟨8, 4⟩⟩, ⟨0, ⟨0, 0⟩⟩, ⟨20, ⟨9, 9⟩⟩, ⟨10, ⟨4, 2⟩⟩])).Pairwise
          (fun a b => a.t < b.t) :=
  ⟨sort_by_time_spec _,
    (run_sort_unique_strictly_increasing (ieee.model ieee.cos_zero)
      (test_args (ieee.model ieee.cos_zero)) _ _ (sort_by_time_spec _)).1⟩

/-- C2: whenever `split` returns, its output is the in-order concatenation of
the accepted ones among the resampled sequences of its completed segments; every
resampled sequence has exactly `seq_length + 1` points (computed, as in the
sources, in 32-bit unsigned arithmetic, which is the plain `seq_length + 1`
unless `seq_length = 2^32 - 1`), so the output length is the number of accepted
sequences times `seq_length + 1` and a multiple of `seq_length + 1`.  `split`
returns whenever the timestamps are non-decreasing 32-bit values and
`seq_length * dti` does not overflow.  For the input of the test case
`Test split` (`seq_length = 5`) the output is the expected list of
`18 = 3 * 6` points, for every `std::cos` meeting `CosSpec`. -/
theorem split_output_is_concatenation :
    (∀ (D : Dbl) (trajectory : Trajectory) (args : split_args D) (out : List Point),
      split D trajectory args = some out →
      ∃ seqs : List (List Point),
        List.Forall₂
          (fun seg seq => interpolate D seg (uadd args.seq_length 1) args.dti = some seq)
          (split.segments D args [] 0 trajectory) seqs ∧
        out = (seqs.filter (split.accepted D args)).flatten ∧
        (∀ seq ∈ seqs, seq.length = uadd args.seq_length 1 ∧
          (args.seq_length + 1 < U32 → seq.length = args.seq_length + 1)) ∧
        out.length = (seqs.filter (split.accepted D args)).length * uadd args.seq_length 1 ∧
        (args.seq_length < U32 → (args.seq_length + 1) ∣ out.length)) ∧
    (∀ (D : Dbl) (trajectory : Trajectory) (args : split_args D),
      trajectory.Pairwise (fun a b => a.t ≤ b.t) → (∀ p ∈ trajectory, p.t < U32) →
      args.seq_length * args.dti < U32 → ∃ out, split D trajectory args = some out) ∧
    (∀ cos : ieee.B64 → ieee.B64, ieee.CosSpec cos →
      split (ieee.model cos) test_split_trajectory (test_args (ieee.model cos)) =
        some test_split_expected) ∧
    test_split_expected.length = 3 * (5 + 1) := by
  refine ⟨?_, fun D trajectory args h1 h2 h3 => split_defined D trajectory args h1 h2 h3,
    test_split_value, rfl⟩
  intro D trajectory args out h
  obtain ⟨seqs, h1, h2⟩ := split_segments D trajectory args out h
  have hlen : ∀ seq ∈ seqs, seq.length = uadd args.seq_length 1 := by
    intro seq hseq
    obtain ⟨seg, _, hi⟩ := forall₂_mem_right _ _ _ h1 seq hseq
    exact interpolate_length D seg _ _ seq hi
  have hout : out.length =
      (seqs.filter (split.accepted D args)).length * uadd args.seq_length 1 := by
    rw [h2]
    exact length_flatten_const _ _ (fun xs hxs => hlen xs (List.mem_of_mem_filter hxs))
  refine ⟨seqs, h1, h2, ?_, hout, ?_⟩
  · intro seq hseq
    refine ⟨hlen seq hseq, fun hlt => ?_⟩
    rw [hlen seq hseq]
    exact Nat.mod_eq_of_lt hlt
  · intro hU
    rw [hout]
    by_cases hlt : args.seq_length + 1 < U32
    · have : uadd args.seq_length 1 = args.seq_length + 1 := Nat.mod_eq_of_lt hlt
      rw [this]
      exact dvd_mul_left _ _
    · have : args.seq_length + 1 = U32 := by omega
      have h0 : uadd args.seq_length 1 = 0 := by
        unfold uadd
        rw [this]
        exact Nat.mod_self _
      rw [h0, Nat.mul_zero]
      exact dvd_zero _

/-- Witness of C2: the test case `Test split` with the constant cosine 1. -/
theorem split_output_is_concatenation_witness :
    split (ieee.model ieee.cos_unit) test_split_trajectory
        (test_args (ieee.model ieee.cos_unit)) = some test_split_expected ∧
      ∃ seqs : List (List Point),
        List.Forall₂
          (fun seg seq => interpolate (ieee.model ieee.cos_unit) seg
            (uadd (test_args (ieee.model ieee.cos_unit)).seq_length 1)
            (test_args (ieee.model ieee.cos_unit)).dti = some seq)
          (split.segments (ieee.model ieee.cos_unit) (test_args (ieee.model ieee.cos_unit))
            [] 0 test_split_trajectory) seqs ∧
        test_split_expected = (seqs.filter (split.accepted (ieee.model ieee.cos_unit)
          (test_args (ieee.model ieee.cos_unit)))).flatten ∧
        (∀ seq ∈ seqs, seq.length = uadd (test_args (ieee.model ieee.cos_unit)).seq_length 1 ∧
          ((test_args (ieee.model ieee.cos_unit)).seq_length + 1 < U32 →
            seq.length = (test_args (ieee.model ieee.cos_unit)).seq_length + 1)) ∧
        test_split_expected.length =
          (seqs.filter (split.accepted (ieee.model ieee.cos_unit)
            (test_args (ieee.model ieee.cos_unit)))).length *
            uadd (test_args (ieee.model ieee.cos_unit)).seq_length 1 ∧
        ((test_args (ieee.model ieee.cos_unit)).seq_length < U32 →
          ((test_args (ieee.model ieee.cos_unit)).seq_length + 1) ∣
            test_split_expected.length) :=
  ⟨split_output_is_concatenation.2.2.1 ieee.cos_unit ieee.cos_unit_spec,
    split_output_is_concatenation.1 _ _ _ _
      (split_output_is_concatenation.2.2.1 ieee.cos_unit ieee.cos_unit_spec)⟩

/-- C8: for a store with one buffer per vessel, `SequenceMaker::run` returns a
map with one entry per key whose entries are exactly the pairs
`(mmsi, split(C, args))` for the vessels of the store whose cleaned buffer `C`
passes the gate and has a non-empty `split(C, args)`; `C` is the sorted raw
buffer after `std::unique` by timestamp and, only when the filter is requested,
after `low_pass_filter` with the predicate `a.dist_nm(b) <= ds_max`.  The run
returns whenever the timestamps are 32-bit values and `seq_length * dti` does
not overflow.  In the binary64 model, for every `std::cos` meeting `CosSpec` and
every result of `std::sort`, every ordering of the 26 positions of the test case
`Test seqmaker with LPF` yields the 24 expected points. -/
theorem run_maps_vessels_to_split_of_cleaned :
    (∀ (D : Dbl) (args : split_args D) (sort : Trajectory → Trajectory) (lpf : Bool)
      (store : List (Int × Trajectory)) (out : List (Int × List Point)),
      (store.map Prod.fst).Nodup → SequenceMaker.run D args sort lpf store = some out →
      (out.map Prod.fst).Nodup ∧
        ∀ mmsi seq, (mmsi, seq) ∈ out ↔ ∃ raw, (mmsi, raw) ∈ store ∧
          Sequencer.gate D args (Sequencer.clean D args lpf (sort raw)) = true ∧
          split D (Sequencer.clean D args lpf (sort raw)) args = some seq ∧ seq ≠ []) ∧
    (∀ (D : Dbl) (args : split_args D) (sorted : Trajectory),
      Sequencer.clean D args false sorted =
          std_unique (fun (a b : Position) => decide (a.t = b.t)) sorted ∧
        Sequencer.clean D args true sorted =
          utility.low_pass_filter
            (std_unique (fun (a b : Position) => decide (a.t = b.t)) sorted)
            (fun a b => D.le (a.x.dist_nm D b.x) args.ds_max)) ∧
    (∀ (D : Dbl) (args : split_args D) (sort : Trajectory → Trajectory) (lpf : Bool)
      (store : List (Int × Trajectory)),
      SortSpec sort → (∀ e ∈ store, ∀ p ∈ e.2, p.t < U32) →
      args.seq_length * args.dti < U32 →
      ∃ out, SequenceMaker.run D args sort lpf store = some out) ∧
    (∀ (cos : ieee.B64 → ieee.B64), ieee.CosSpec cos →
      ∀ (sort : Trajectory → Trajectory), SortSpec sort →
      ∀ (raw : Trajectory), raw.Perm test_lpf_trajectory → ∀ (mmsi : Int),
      SequenceMaker.run (ieee.model cos) (test_args (ieee.model cos)) sort true
        [(mmsi, raw)] = some [(mmsi, test_lpf_expected)]) ∧
    test_lpf_trajectory.length = 26 ∧ test_lpf_expected.length = 24 := by
  refine ⟨?_, fun D args sorted => ⟨rfl, rfl⟩, ?_, ?_, rfl, rfl⟩
  · intro D args sort lpf store out hnd h
    unfold SequenceMaker.run at h
    refine ⟨SequenceMaker.run_keys_nodup D args sort lpf store [] out (by simp) h, ?_⟩
    intro mmsi seq
    rw [SequenceMaker.run_mem D args sort lpf store [] out hnd h mmsi seq]
    simp
  · intro D args sort lpf store hs hU hdur
    exact SequenceMaker.run_total D args sort lpf store hs hU hdur
  · intro cos hcos sort hs raw hp mmsi
    exact test_lpf_value cos hcos sort hs raw hp mmsi

/-- Witness of C8: the test case `Test seqmaker with LPF` with the positions in
the order of the sources before shuffling, insertion sort and the constant
cosine 1. -/
theorem run_maps_vessels_to_split_of_cleaned_witness :
    SequenceMaker.run (ieee.model ieee.cos_unit) (test_args (ieee.model ieee.cos_unit))
        sort_by_time true [(0, test_lpf_trajectory)] = some [(0, test_lpf_expected)] :=
  run_maps_vessels_to_split_of_cleaned.2.2.2.1 ieee.cos_unit ieee.cos_unit_spec
    sort_by_time sort_by_time_spec test_lpf_trajectory (List.Perm.refl _) 0

/-- C10: `drop_rate` returns `1. - total / size` for the final value of its
counter `total`; after any number `n` of processed positions `total + i ≤ n`
(each position is counted in `total` at most once), so `total ≤ size`.  In the
binary64 model the value returned for a non-empty trajectory (of a size below
`2^64`) satisfies `0 <= drop_rate` and `drop_rate <= 1`. -/
theorem drop_rate_in_unit_interval :
    (∀ (D : Dbl) (trajectory : Trajectory) (args : split_args D),
      drop_rate D trajectory args =
          D.sub (D.lit 1 0)
            (D.div (D.ofNat (drop_rate.total D trajectory args)) (D.ofNat trajectory.length)) ∧
        drop_rate.total D trajectory args ≤ trajectory.length ∧
        ∀ n, ((trajectory.take n).foldl (drop_rate.step D args)
              { total := 0, i := 0,
                last_pos := { t := 0, x := { latitude := 0, longitude := 0 } }, t0 := 0 }).total +
            ((trajectory.take n).foldl (drop_rate.step D args)
              { total := 0, i := 0,
                last_pos := { t := 0, x := { latitude := 0, longitude := 0 } }, t0 := 0 }).i
              ≤ n) ∧
    (∀ (cos : ieee.B64 → ieee.B64) (trajectory : Trajectory)
      (args : split_args (ieee.model cos)),
      trajectory ≠ [] → trajectory.length < U64 →
      ieee.le ((ieee.model cos).lit 0 0) (drop_rate (ieee.model cos) trajectory args) = true ∧
        ieee.le (drop_rate (ieee.model cos) trajectory args) ((ieee.model cos).lit 1 0) =
          true) := by
  refine ⟨fun D trajectory args => ⟨rfl, drop_rate.total_le D trajectory args, fun n => ?_⟩,
    fun cos trajectory args hne hlen => ?_⟩
  · have := drop_rate.foldl_bound D args (trajectory.take n)
      { total := 0, i := 0, last_pos := { t := 0, x := { latitude := 0, longitude := 0 } },
        t0 := 0 } 0 (le_refl _)
    have hl : (trajectory.take n).length ≤ n := by
      rw [List.length_take]
      exact Nat.min_le_left _ _
    omega
  · have h := drop_rate_range cos trajectory args hne hlen
    have e0 : (ieee.model cos).lit 0 0 = ieee.B64.fin false 0 (-1074) := by
      show ieee.rnd false 0 (10 ^ 0) = _
      rw [pow_zero, ieee.lit_0]
    have e1 : (ieee.model cos).lit 1 0 = ieee.B64.fin false (2 ^ 52) (-52) := by
      show ieee.rnd false 1 (10 ^ 0) = _
      rw [pow_zero, ieee.lit_1]
      rfl
    rw [e0, e1]
    exact h

/-- Witness of C10: the trajectory of the test case `Test split`. -/
theorem drop_rate_in_unit_interval_witness :
    test_split_trajectory ≠ [] ∧ test_split_trajectory.length < U64 ∧
      ieee.le ((ieee.model ieee.cos_unit).lit 0 0)
        (drop_rate (ieee.model ieee.cos_unit) test_split_trajectory
          (test_args (ieee.model ieee.cos_unit))) = true ∧
      ieee.le (drop_rate (ieee.model ieee.cos_unit) test_split_trajectory
          (test_args (ieee.model ieee.cos_unit))) ((ieee.model ieee.cos_unit).lit 1 0) = true :=
  ⟨by decide, by decide,
    drop_rate_in_unit_interval.2 ieee.cos_unit test_split_trajectory
      (test_args (ieee.model ieee.cos_unit)) (by decide) (by decide)⟩

/-! ### Input validation, `adjacent_diff` and `time_recorded` -/

/-- C15: `is_valid_mmsi(m)` holds exactly for `200000000 <= m <= 799999999`;
the two bounds are valid, their outer neighbours are not, the other values of
the test are classified as the test requires, and every valid value has exactly
nine decimal digits. -/
theorem is_valid_mmsi_iff_range :
    (∀ m : Int, is_valid_mmsi m = true ↔ 200000000 ≤ m ∧ m ≤ 799999999) ∧
    is_valid_mmsi 200000000 = true ∧ is_valid_mmsi 212345678 = true ∧
    is_valid_mmsi 799999999 = true ∧ is_valid_mmsi 199999999 = false ∧
    is_valid_mmsi 800000000 = false ∧ is_valid_mmsi 21234567 = false ∧
    is_valid_mmsi 2123456789 = false ∧ is_valid_mmsi 12345678 = false ∧
    is_valid_mmsi 112345678 = false ∧ is_valid_mmsi 812345678 = false ∧
    is_valid_mmsi 912345678 = false ∧
    (∀ m : Int, is_valid_mmsi m = true → 0 ≤ m ∧ (Nat.digits 10 m.toNat).length = 9) := by
  have hiff : ∀ m : Int, is_valid_mmsi m = true ↔ 200000000 ≤ m ∧ m ≤ 799999999 := by
    intro m
    unfold is_valid_mmsi
    simp only [Bool.and_eq_true, decide_eq_true_eq, ge_iff_le]
  refine ⟨hiff, by decide, by decide, by decide, by decide, by decide, by decide, by decide,
    by decide, by decide, by decide, by decide, ?_⟩
  intro m hm
  obtain ⟨h1, h2⟩ := (hiff m).1 hm
  refine ⟨by omega, ?_⟩
  have hn1 : 10 ^ 8 ≤ m.toNat := by omega
  have hn2 : m.toNat < 10 ^ 9 := by omega
  have hne : m.toNat ≠ 0 := by omega
  rw [Nat.digits_len 10 _ (by norm_num) hne]
  have : Nat.log 10 m.toNat = 8 := by
    rw [Nat.log_eq_iff (Or.inl (by norm_num))]
    exact ⟨hn1, hn2⟩
  rw [this]

/-- Witness of C15 at the smallest valid identifier. -/
theorem is_valid_mmsi_iff_range_witness :
    (0 : Int) ≤ 200000000 ∧ (Nat.digits 10 (200000000 : Int).toNat).length = 9 :=
  is_valid_mmsi_iff_range.2.2.2.2.2.2.2.2.2.2.2.2 200000000 (by decide)

theorem getElem?_zipWith_drop {α β : Type} (op : α → α → β) (xs : List α) (s i : Nat) :
    (List.zipWith op xs (xs.drop s))[i]? =
      match xs[i]?, xs[i + s]? with
      | some a, some b => some (op a b)
      | _, _ => none := by
  rw [List.getElem?_zipWith]
  rw [List.getElem?_drop]
  rw [Nat.add_comm s i]
  cases xs[i]? <;> cases xs[i + s]? <;> rfl

/-- C16: for a sequence of length `n > s`, `adjacent_diff` with stride `s` writes
`n - s` values, the `i`-th being `op(x[i], x[i + s])`; for `n <= s` it writes
nothing.  With stride 2 and `op(a, b) = b - a` the sequence `[4,8,15,16,23,42]`
gives `[11,8,8,26]`. -/
theorem adjacent_diff_values :
    (∀ (α β : Type) (x : List α) (op : α → α → β) (s : Nat), x.length > s →
      (utility.adjacent_diff x op s).length = x.length - s ∧
      ∀ i, i < x.length - s → ∃ a b, x[i]? = some a ∧ x[i + s]? = some b ∧
        (utility.adjacent_diff x op s)[i]? = some (op a b)) ∧
    (∀ (α β : Type) (x : List α) (op : α → α → β) (s : Nat), x.length ≤ s →
      utility.adjacent_diff x op s = []) ∧
    utility.adjacent_diff [4, 8, 15, 16, 23, 42] (fun (a b : Int) => b - a) 2 =
      [11, 8, 8, 26] := by
  refine ⟨?_, ?_, by decide⟩
  · intro α β x op s h
    have e : utility.adjacent_diff x op s = List.zipWith op x (x.drop s) := by
      rw [utility.adjacent_diff, if_pos h, adjacent_diff_loop_zipWith]
    rw [e]
    refine ⟨?_, ?_⟩
    · rw [List.length_zipWith, List.length_drop]
      omega
    · intro i hi
      have h1 : i < x.length := by omega
      have h2 : i + s < x.length := by omega
      refine ⟨x[i], x[i + s], List.getElem?_eq_getElem h1, List.getElem?_eq_getElem h2, ?_⟩
      rw [getElem?_zipWith_drop, List.getElem?_eq_getElem h1, List.getElem?_eq_getElem h2]
  · intro α β x op s h
    rw [utility.adjacent_diff, if_neg (by omega)]

/-- Witness of C16 on the sequence of the test. -/
theorem adjacent_diff_values_witness :
    (utility.adjacent_diff [4, 8, 15, 16, 23, 42] (fun (a b : Int) => b - a) 2).length
        = [(4 : Int), 8, 15, 16, 23, 42].length - 2 ∧
      ∀ i, i < [(4 : Int), 8, 15, 16, 23, 42].length - 2 → ∃ a b,
        [(4 : Int), 8, 15, 16, 23, 42][i]? = some a ∧
        [(4 : Int), 8, 15, 16, 23, 42][i + 2]? = some b ∧
        (utility.adjacent_diff [4, 8, 15, 16, 23, 42] (fun (a b : Int) => b - a) 2)[i]?
          = some ((fun (a b : Int) => b - a) a b) :=
  adjacent_diff_values.1 Int Int [4, 8, 15, 16, 23, 42] (fun (a b : Int) => b - a) 2
    (by decide)

namespace utility

theorem from_chars_u32_lt (s : List Char) (value : Nat) (h : value < U32) :
    from_chars_u32 s value < U32 := by
  unfold from_chars_u32
  split
  · exact h
  · split_ifs <;> assumption

theorem to_u32_no_digits (s : List Char) (fallback : Nat) (h : starts_with_uint s = false) :
    to_u32 s fallback = fallback := by
  unfold to_u32 from_chars_u32
  cases s with
  | nil => rfl
  | cons c cs =>
    simp only [starts_with_uint] at h
    simp [h]

theorem to_i32_no_digits (s : List Char) (fallback : Int) (h : starts_with_int s = false) :
    to_i32 s fallback = fallback := by
  unfold to_i32 from_chars_i32
  cases s with
  | nil => rfl
  | cons c cs =>
    simp only [starts_with_int] at h
    by_cases hc : c = '-'
    · simp only [hc, if_true] at h ⊢
      cases cs with
      | nil => rfl
      | cons d ds =>
        simp only [starts_with_uint] at h
        simp [h]
    · simp only [hc, if_false] at h ⊢
      simp [h]

/-- The digits stop at the first character that is not a digit. -/
theorem from_chars_digits_stop (ds : List Char) (c : Char) (rest : List Char) (acc : Nat)
    (hds : ∀ d ∈ ds, d.isDigit = true) (hc : c.isDigit = false) :
    from_chars.digits acc (ds ++ c :: rest) = from_chars.digits acc ds := by
  induction ds generalizing acc with
  | nil => simp [from_chars.digits, hc]
  | cons d ds ih =>
    have hd := hds d (List.mem_cons_self _ _)
    simp only [List.cons_append, from_chars.digits, hd, if_true]
    exact ih _ (fun x hx => hds x (List.mem_cons_of_mem _ hx))

/-- Characters after the leading digits do not matter to `to<std::uint32_t>`. -/
theorem to_u32_stop (ds : List Char) (c : Char) (rest : List Char) (fallback : Nat)
    (hds : ∀ d ∈ ds, d.isDigit = true) (hne : ds ≠ []) (hc : c.isDigit = false) :
    to_u32 (ds ++ c :: rest) fallback = to_u32 ds fallback := by
  cases ds with
  | nil => exact absurd rfl hne
  | cons d ds =>
    unfold to_u32 from_chars_u32
    simp only [List.cons_append]
    rw [← List.cons_append, from_chars_digits_stop (d :: ds) c rest 0 hds hc]

/-- The wrapped difference `sec - slot` of `time_recorded` for `sec < slot`. -/
theorem usub_sec_slot_wrap (sec slot : Nat) (hs : sec < slot) (h2 : slot ≤ 59) :
    usub sec slot = 4294967296 - (slot - sec) := by
  unfold usub U32
  omega

/-- Subtracting `-ONE_MINUTE` from the wrapped difference `sec - slot`. -/
theorem usub_minute_correction (d : Nat) (h1 : 0 < d) (h2 : d ≤ 59) :
    usub (4294967296 - d) (usub 0 60) = 60 - d := by
  unfold usub U32
  omega

/-- The value of `recv - dt` for `dt = sec - slot` with `slot ≤ sec ≤ recv`. -/
theorem usub_recv_dt (recv sec slot : Nat) (hr : recv < U32) (h1 : sec ≤ recv)
    (h2 : slot ≤ sec) : usub recv (usub (usub sec slot) 0) = recv - sec + slot := by
  have e1 : usub sec slot = sec - slot := usub_eq _ _ h2 (lt_of_le_of_lt h1 hr)
  have e2 : usub (sec - slot) 0 = sec - slot :=
    usub_eq _ _ (Nat.zero_le _) (lt_of_le_of_lt (le_trans (Nat.sub_le _ _) h1) hr)
  have e3 : usub recv (sec - slot) = recv - (sec - slot) :=
    usub_eq _ _ (le_trans (Nat.sub_le _ _) h1) hr
  rw [e1, e2, e3]
  omega

/-- The value of `time_recorded` in terms of the parsed reception time and slot. -/
theorem time_recorded_eq (recv_seconds slot_seconds : List Char) :
    time_recorded recv_seconds slot_seconds =
      if to_u32 recv_seconds 0 = 0 ∨ to_u32 slot_seconds 60 > 59 then none
      else if to_u32 recv_seconds 0 % 60 < to_u32 slot_seconds 60 then
        some (usub (to_u32 recv_seconds 0)
          (60 - (to_u32 slot_seconds 60 - to_u32 recv_seconds 0 % 60)))
      else some (to_u32 recv_seconds 0 - to_u32 recv_seconds 0 % 60 + to_u32 slot_seconds 60) := by
  have hr : to_u32 recv_seconds 0 < U32 := from_chars_u32_lt _ _ (by decide)
  have e60 : uadd 59 1 = 60 := by decide
  unfold time_recorded
  simp only [e60]
  generalize to_u32 recv_seconds 0 = recv at hr ⊢
  generalize to_u32 slot_seconds 60 = slot
  by_cases h : recv = 0 ∨ slot > 59
  · rw [if_pos h, if_pos h]
  · rw [if_neg h, if_neg h]
    have h2 : slot ≤ 59 := Nat.le_of_not_lt fun hc => h (Or.inr hc)
    by_cases hs : recv % 60 < slot
    · rw [if_pos hs, if_pos hs, usub_sec_slot_wrap _ _ hs h2,
        usub_minute_correction _ (Nat.sub_pos_of_lt hs) (le_trans (Nat.sub_le _ _) h2)]
    · rw [if_neg hs, if_neg hs,
        usub_recv_dt recv _ slot hr (Nat.mod_le _ _) (Nat.le_of_not_lt hs)]

end utility

/-- Counterexample to C12 as stated: for the reception text `3` and the slot text
`4` (`recv = 3 != 0`, `slot = 4 <= 59`, `sec = 3 < slot`) the function returns
`4294967240`, not `recv - sec + slot - 60 = -56`: the subtraction is done in
`std::uint32_t` and wraps. -/
theorem time_recorded_wraps_in_first_minute :
    utility.to_u32 ['3'] 0 = 3 ∧ utility.to_u32 ['4'] 60 = 4 ∧
    utility.to_u32 ['3'] 0 % 60 < utility.to_u32 ['4'] 60 ∧
    utility.time_recorded ['3'] ['4'] = some 4294967240 ∧
    ((4294967240 : Nat) : Int) ≠ (utility.to_u32 ['3'] 0 : Int) -
      (utility.to_u32 ['3'] 0 % 60 : Nat) + utility.to_u32 ['4'] 60 - 60 := by
  decide

/-- The wrapped result of `time_recorded` as a residue modulo `2^32`. -/
theorem recorded_residue (recv slot : Nat) (hr : recv < 4294967296) (h2 : slot ≤ 59)
    (h : recv % 60 < slot) :
    ((usub recv (60 - (slot - recv % 60)) : Nat) : Int) =
      ((recv : Int) - (recv % 60 : Nat) + slot - 60) % 2 ^ 32 := by
  have hU : U32 = 4294967296 := by norm_num [U32]
  simp only [usub, hU]
  omega

/-- The result of `time_recorded` does not wrap from the second minute on. -/
theorem recorded_plain (recv slot : Nat) (hr : recv < 4294967296) (h2 : slot ≤ 59)
    (h : recv % 60 < slot) (h60 : 60 ≤ recv) :
    ((usub recv (60 - (slot - recv % 60)) : Nat) : Int) =
      (recv : Int) - (recv % 60 : Nat) + slot - 60 := by
  have hU : U32 = 4294967296 := by norm_num [U32]
  simp only [usub, hU]
  omega

/-- C12 (amended): for a parsed reception time `recv != 0` and a parsed slot
`slot <= 59`, with `sec = recv mod 60`, `time_recorded` returns
`recv - sec + slot` when `sec >= slot` and `recv - sec + slot - 60` when
`sec < slot`; the latter is computed in unsigned 32-bit arithmetic, so it is the
residue modulo `2^32` and the plain difference whenever `recv >= 60`.  `recv` is
the value of the leading decimal digits of the text: what follows them (the
fractional part) is ignored. -/
theorem time_recorded_formula :
    (∀ (recv_seconds slot_seconds : List Char),
      utility.to_u32 recv_seconds 0 ≠ 0 → utility.to_u32 slot_seconds 60 ≤ 59 →
      (utility.to_u32 slot_seconds 60 ≤ utility.to_u32 recv_seconds 0 % 60 →
        utility.time_recorded recv_seconds slot_seconds =
          some (utility.to_u32 recv_seconds 0 - utility.to_u32 recv_seconds 0 % 60 +
            utility.to_u32 slot_seconds 60)) ∧
      (utility.to_u32 recv_seconds 0 % 60 < utility.to_u32 slot_seconds 60 →
        ∃ t, utility.time_recorded recv_seconds slot_seconds = some t ∧
          (t : Int) = ((utility.to_u32 recv_seconds 0 : Int) -
            (utility.to_u32 recv_seconds 0 % 60 : Nat) + utility.to_u32 slot_seconds 60 - 60)
              % 2 ^ 32 ∧
          (60 ≤ utility.to_u32 recv_seconds 0 →
            (t : Int) = (utility.to_u32 recv_seconds 0 : Int) -
              (utility.to_u32 recv_seconds 0 % 60 : Nat) + utility.to_u32 slot_seconds 60
                - 60))) ∧
    (∀ (ds : List Char) (c : Char) (rest : List Char) (fallback : Nat),
      (∀ d ∈ ds, d.isDigit = true) → ds ≠ [] → c.isDigit = false →
      utility.to_u32 (ds ++ c :: rest) fallback = utility.to_u32 ds fallback) ∧
    utility.to_u32 ['1', '2', '3', '.', '4'] 0 = 123 := by
  refine ⟨?_, utility.to_u32_stop, by decide⟩
  intro recv_seconds slot_seconds h1 h2
  have hr : utility.to_u32 recv_seconds 0 < U32 := utility.from_chars_u32_lt _ _ (by decide)
  have hU : U32 = 4294967296 := by norm_num [U32]
  rw [hU] at hr
  have hne : ¬(utility.to_u32 recv_seconds 0 = 0 ∨ utility.to_u32 slot_seconds 60 > 59) :=
    fun h => h.elim h1 (Nat.not_lt.2 h2)
  rw [utility.time_recorded_eq, if_neg hne]
  generalize utility.to_u32 recv_seconds 0 = recv at *
  generalize utility.to_u32 slot_seconds 60 = slot at *
  refine ⟨fun h => ?_, fun h => ?_⟩
  · rw [if_neg (Nat.not_lt.2 h)]
  · rw [if_pos h]
    exact ⟨_, rfl, recorded_residue recv slot hr h2 h, recorded_plain recv slot hr h2 h⟩

/-- Witness of C12 (amended): reception text `123.4` and slot text `50`. -/
theorem time_recorded_formula_witness :
    ∃ t, utility.time_recorded ['1', '2', '3', '.', '4'] ['5', '0'] = some t ∧
      (t : Int) = ((utility.to_u32 ['1', '2', '3', '.', '4'] 0 : Int) -
        (utility.to_u32 ['1', '2', '3', '.', '4'] 0 % 60 : Nat) +
          utility.to_u32 ['5', '0'] 60 - 60) % 2 ^ 32 ∧
      (60 ≤ utility.to_u32 ['1', '2', '3', '.', '4'] 0 →
        (t : Int) = (utility.to_u32 ['1', '2', '3', '.', '4'] 0 : Int) -
          (utility.to_u32 ['1', '2', '3', '.', '4'] 0 % 60 : Nat) +
            utility.to_u32 ['5', '0'] 60 - 60) :=
  (time_recorded_formula.1 ['1', '2', '3', '.', '4'] ['5', '0'] (by decide) (by decide)).2
    (by decide)

/-- C13: the values `time_recorded` returns for the eight cases of the test
`Test estimation of recorded time`.  The test asserts 122, 124, 110, 115 for the
reception text `123.4` and 182, 184, 170, 175 for `173.6`; the function returns
the latest time not after the reception time whose second of the minute is the
slot, which is 64 instead of 124, 122 instead of 182, 124 instead of 184 and 115
instead of 175. -/
theorem time_recorded_test_values :
    utility.time_recorded ['1', '2', '3', '.', '4'] ['2'] = some 122 ∧
    utility.time_recorded ['1', '2', '3', '.', '4'] ['4'] = some 64 ∧
    utility.time_recorded ['1', '2', '3', '.', '4'] ['5', '0'] = some 110 ∧
    utility.time_recorded ['1', '2', '3', '.', '4'] ['5', '5'] = some 115 ∧
    utility.time_recorded ['1', '7', '3', '.', '6'] ['2'] = some 122 ∧
    utility.time_recorded ['1', '7', '3', '.', '6'] ['4'] = some 124 ∧
    utility.time_recorded ['1', '7', '3', '.', '6'] ['5', '0'] = some 170 ∧
    utility.time_recorded ['1', '7', '3', '.', '6'] ['5', '5'] = some 115 := by
  decide

/-- C14: `time_recorded` returns `std::nullopt` exactly when the parsed reception
time is 0 or the parsed slot is greater than 59, and a value in every other
case; a reception text that does not start with a decimal digit parses as 0 and
such a slot text as 60. -/
theorem time_recorded_none_iff :
    (∀ (recv_seconds slot_seconds : List Char),
      utility.time_recorded recv_seconds slot_seconds = none ↔
        (utility.to_u32 recv_seconds 0 = 0 ∨ utility.to_u32 slot_seconds 60 > 59)) ∧
    (∀ (recv_seconds slot_seconds : List Char),
      ¬(utility.to_u32 recv_seconds 0 = 0 ∨ utility.to_u32 slot_seconds 60 > 59) →
      ∃ t, utility.time_recorded recv_seconds slot_seconds = some t) ∧
    (∀ recv_seconds : List Char, utility.starts_with_uint recv_seconds = false →
      utility.to_u32 recv_seconds 0 = 0) ∧
    (∀ slot_seconds : List Char, utility.starts_with_uint slot_seconds = false →
      utility.to_u32 slot_seconds 60 = 60) := by
  refine ⟨?_, ?_, fun r h => utility.to_u32_no_digits r 0 h,
    fun s h => utility.to_u32_no_digits s 60 h⟩
  · intro r s
    rw [utility.time_recorded_eq]
    constructor
    · intro h
      by_contra hc
      rw [if_neg hc] at h
      split at h <;> cases h
    · intro h
      rw [if_pos h]
  · intro r s h
    rw [utility.time_recorded_eq, if_neg h]
    split
    · exact ⟨_, rfl⟩
    · exact ⟨_, rfl⟩

/-- Witness of C14: the reception text `123.4` with the slot text `2`. -/
theorem time_recorded_none_iff_witness :
    ∃ t, utility.time_recorded ['1', '2', '3', '.', '4'] ['2'] = some t :=
  time_recorded_none_iff.2.1 ['1', '2', '3', '.', '4'] ['2'] (by decide)

theorem utility.to_u32_nil (fallback : Nat) : utility.to_u32 [] fallback = fallback := rfl

theorem utility.to_i32_nil (fallback : Int) : utility.to_i32 [] fallback = fallback := rfl

theorem utility.time_recorded_nil_left (slot_seconds : List Char) :
    utility.time_recorded [] slot_seconds = none := by
  rw [utility.time_recorded_eq, utility.to_u32_nil, if_pos (Or.inl rfl)]

theorem utility.time_recorded_nil_right (recv_seconds : List Char) :
    utility.time_recorded recv_seconds [] = none := by
  rw [utility.time_recorded_eq, utility.to_u32_nil, if_pos (Or.inr (by norm_num))]

theorem utility.time_recorded_no_digits_left (recv_seconds slot_seconds : List Char)
    (h : utility.starts_with_uint recv_seconds = false) :
    utility.time_recorded recv_seconds slot_seconds = none := by
  rw [utility.time_recorded_eq, utility.to_u32_no_digits _ _ h, if_pos (Or.inl rfl)]

theorem utility.time_recorded_no_digits_right (recv_seconds slot_seconds : List Char)
    (h : utility.starts_with_uint slot_seconds = false) :
    utility.time_recorded recv_seconds slot_seconds = none := by
  rw [utility.time_recorded_eq, utility.to_u32_no_digits _ _ h,
    if_pos (Or.inr (by norm_num))]

/-- The result of `process_ais_line` on non-empty columns. -/
theorem process_ais_line_eq (t_str mmsi_str slot_str lat_str lon_str : List Char)
    (rec : Int × Position) :
    process_ais_line t_str mmsi_str slot_str lat_str lon_str = .ok (some rec) ↔
      (t_str ≠ [] ∧ mmsi_str ≠ [] ∧ slot_str ≠ [] ∧ lat_str ≠ [] ∧ lon_str ≠ []) ∧
      (200000000 ≤ utility.to_i32 mmsi_str 0 ∧ utility.to_i32 mmsi_str 0 ≤ 799999999) ∧
      (∃ t, utility.time_recorded t_str slot_str = some t ∧
        rec = (utility.to_i32 mmsi_str 0,
          { t := t, x := { latitude := utility.to_i32 lat_str (2 ^ 31 - 1),
                           longitude := utility.to_i32 lon_str (2 ^ 31 - 1) } })) ∧
      (-108000000 ≤ utility.to_i32 lat_str (2 ^ 31 - 1) ∧
        utility.to_i32 lat_str (2 ^ 31 - 1) ≤ 108000000) ∧
      (-108000000 ≤ utility.to_i32 lon_str (2 ^ 31 - 1) ∧
        utility.to_i32 lon_str (2 ^ 31 - 1) ≤ 108000000) := by
  unfold process_ais_line
  by_cases he : (t_str.isEmpty || mmsi_str.isEmpty || slot_str.isEmpty || lat_str.isEmpty ||
      lon_str.isEmpty) = true
  · rw [if_pos he]
    constructor
    · intro h
      cases h
    · rintro ⟨⟨h1, h2, h3, h4, h5⟩, _⟩
      simp only [Bool.or_eq_true, List.isEmpty_iff] at he
      rcases he with (((h | h) | h) | h) | h <;> contradiction
  · rw [if_neg he]
    simp only [Bool.or_eq_true, List.isEmpty_iff, not_or] at he
    obtain ⟨⟨⟨⟨h1, h2⟩, h3⟩, h4⟩, h5⟩ := he
    simp only [is_valid_mmsi, Point.MIN_LATITUDE, Point.MAX_LATITUDE, Point.MIN_LONGITUDE,
      Point.MAX_LONGITUDE]
    cases ht : utility.time_recorded t_str slot_str with
    | none =>
      simp only
      constructor
      · intro h
        cases h
      · rintro ⟨_, _, ⟨t, h, _⟩, _⟩
        cases h
    | some tv =>
      simp only
      split
      · rename_i hv
        simp only [Bool.and_eq_true, decide_eq_true_eq, ge_iff_le] at hv
        constructor
        · intro h
          simp only [Except.ok.injEq, Option.some.injEq] at h
          refine ⟨⟨h1, h2, h3, h4, h5⟩, hv.1, ⟨tv, rfl, h.symm⟩, ?_, ?_⟩
          · constructor <;> omega
          · constructor <;> omega
        · rintro ⟨_, _, ⟨t, h, hrec⟩, _⟩
          simp only [Option.some.injEq] at h
          subst h
          rw [hrec]
      · rename_i hv
        simp only [Bool.and_eq_true, decide_eq_true_eq, ge_iff_le] at hv
        constructor
        · intro h
          cases h
        · rintro ⟨_, hm, _, hlat, hlon⟩
          exfalso
          apply hv
          refine ⟨hm, ⟨⟨?_, ?_⟩, ?_⟩, ?_⟩ <;> omega

/-- C20: `process_ais_line` accepts a record (returns a pair) exactly when the
parsed MMSI lies in `[200000000, 799999999]`, `time_recorded(time, slot)` returns
a value and the parsed latitude and longitude lie in `[-108000000, 108000000]`;
the pair is then the parsed MMSI with the position made of the recorded time and
the parsed, unclamped coordinates.  A column that does not start with an integer
parses as its fallback (0 for the MMSI, `2^31 - 1` for a coordinate, no value for
the time), which is outside the valid range, so the record is not accepted. -/
theorem process_ais_line_accepts_iff :
    (∀ (t_str mmsi_str slot_str lat_str lon_str : List Char),
      (∃ rec, process_ais_line t_str mmsi_str slot_str lat_str lon_str = .ok (some rec)) ↔
        ((200000000 ≤ utility.to_i32 mmsi_str 0 ∧ utility.to_i32 mmsi_str 0 ≤ 799999999) ∧
          (∃ t, utility.time_recorded t_str slot_str = some t) ∧
          (-108000000 ≤ utility.to_i32 lat_str (2 ^ 31 - 1) ∧
            utility.to_i32 lat_str (2 ^ 31 - 1) ≤ 108000000) ∧
          (-108000000 ≤ utility.to_i32 lon_str (2 ^ 31 - 1) ∧
            utility.to_i32 lon_str (2 ^ 31 - 1) ≤ 108000000))) ∧
    (∀ (t_str mmsi_str slot_str lat_str lon_str : List Char) (rec : Int × Position),
      process_ais_line t_str mmsi_str slot_str lat_str lon_str = .ok (some rec) →
      ∃ t, utility.time_recorded t_str slot_str = some t ∧
        rec = (utility.to_i32 mmsi_str 0,
          { t := t, x := { latitude := utility.to_i32 lat_str (2 ^ 31 - 1),
                           longitude := utility.to_i32 lon_str (2 ^ 31 - 1) } })) ∧
    (∀ (t_str mmsi_str slot_str lat_str lon_str : List Char),
      (utility.starts_with_uint t_str = false ∨ utility.starts_with_int mmsi_str = false ∨
        utility.starts_with_uint slot_str = false ∨ utility.starts_with_int lat_str = false ∨
        utility.starts_with_int lon_str = false) →
      ∀ rec, process_ais_line t_str mmsi_str slot_str lat_str lon_str ≠ .ok (some rec)) ∧
    (∀ s : List Char, utility.starts_with_int s = false →
      utility.to_i32 s 0 = 0 ∧ utility.to_i32 s (2 ^ 31 - 1) = 2 ^ 31 - 1) := by
  refine ⟨?_, ?_, ?_, fun s h => ⟨utility.to_i32_no_digits s 0 h,
    utility.to_i32_no_digits s _ h⟩⟩
  · intro t_str mmsi_str slot_str lat_str lon_str
    constructor
    · rintro ⟨rec, h⟩
      obtain ⟨_, hm, ⟨t, ht, _⟩, hlat, hlon⟩ := (process_ais_line_eq _ _ _ _ _ rec).1 h
      exact ⟨hm, ⟨t, ht⟩, hlat, hlon⟩
    · rintro ⟨hm, ⟨t, ht⟩, hlat, hlon⟩
      refine ⟨_, (process_ais_line_eq _ _ _ _ _ _).2
        ⟨⟨?_, ?_, ?_, ?_, ?_⟩, hm, ⟨t, ht, rfl⟩, hlat, hlon⟩⟩
      · rintro rfl
        rw [utility.time_recorded_nil_left] at ht
        cases ht
      · rintro rfl
        rw [utility.to_i32_nil] at hm
        omega
      · rintro rfl
        rw [utility.time_recorded_nil_right] at ht
        cases ht
      · rintro rfl
        rw [utility.to_i32_nil] at hlat
        omega
      · rintro rfl
        rw [utility.to_i32_nil] at hlon
        omega
  · intro t_str mmsi_str slot_str lat_str lon_str rec h
    exact ((process_ais_line_eq _ _ _ _ _ rec).1 h).2.2.1
  · intro t_str mmsi_str slot_str lat_str lon_str hbad rec h
    obtain ⟨_, hm, ⟨t, ht, _⟩, hlat, hlon⟩ := (process_ais_line_eq _ _ _ _ _ rec).1 h
    rcases hbad with hb | hb | hb | hb | hb
    · rw [utility.time_recorded_no_digits_left _ _ hb] at ht
      cases ht
    · rw [utility.to_i32_no_digits _ _ hb] at hm
      omega
    · rw [utility.time_recorded_no_digits_right _ _ hb] at ht
      cases ht
    · rw [utility.to_i32_no_digits _ _ hb] at hlat
      omega
    · rw [utility.to_i32_no_digits _ _ hb] at hlon
      omega

/-- Witness of C20: a record with the largest valid latitude is accepted, the
same record with a latitude column that does not start with an integer is
not. -/
theorem process_ais_line_accepts_iff_witness :
    process_ais_line ['1', '2', '3', '.', '4'] ['2', '1', '2', '3', '4', '5', '6', '7', '8']
        ['2'] ['1', '0', '8', '0', '0', '0', '0', '0', '0'] ['-', '7'] =
      .ok (some (212345678, { t := 122, x := { latitude := 108000000, longitude := -7 } })) ∧
    ∀ rec, process_ais_line ['1', '2', '3', '.', '4']
      ['2', '1', '2', '3', '4', '5', '6', '7', '8'] ['2'] ['x', '1'] ['-', '7'] ≠
        .ok (some rec) :=
  ⟨rfl,
    process_ais_line_accepts_iff.2.2.1 ['1', '2', '3', '.', '4']
      ['2', '1', '2', '3', '4', '5', '6', '7', '8'] ['2'] ['x', '1'] ['-', '7']
      (Or.inr (Or.inr (Or.inr (Or.inl (by decide)))))⟩

/-! ### The drop rate and the completed segments -/

/-- The counters of `drop_rate` follow the working buffer of `split`: `i` is the
size of the buffer, `t0` its anchor and `last_pos` its last element; `total`
grows by the size of every completed segment. -/
theorem drop_rate.foldl_segments (D : Dbl) (args : split_args D) (rest : List Position)
    (buffer : Trajectory) (t0 : Nat) (s : drop_rate.State)
    (hi : s.i = buffer.length) (ht : buffer ≠ [] → s.t0 = t0)
    (hl : ∀ l, buffer.getLast? = some l → s.last_pos = l)
    (hU : s.total + buffer.length + rest.length < U32) :
    (rest.foldl (drop_rate.step D args) s).total =
      s.total + ((split.segments D args buffer t0 rest).map List.length).sum := by
  induction rest generalizing buffer t0 s with
  | nil => simp [split.segments]
  | cons pos rest ih =>
    rw [List.foldl_cons, split.segments]
    simp only [List.length_cons] at hU
    have hi1 : uadd s.i 1 = buffer.length + 1 := by
      rw [hi]
      exact Nat.mod_eq_of_lt (by omega)
    cases hb : buffer.getLast? with
    | none =>
      have hnil : buffer = [] := List.getLast?_eq_none_iff.1 hb
      subst hnil
      have hstep : drop_rate.step D args s pos =
          { s with i := uadd s.i 1, t0 := pos.t, last_pos := pos } := by
        unfold drop_rate.step
        simp only
        rw [if_pos (by rw [hi1]; rfl)]
      rw [hstep]
      simp only
      rw [ih [pos] pos.t _ (by simp [hi1]) (fun _ => rfl) (by simp)
        (by simp only [List.length_singleton]; simp only [List.length_nil] at hU; omega)]
    | some last_pos =>
      have hne : buffer ≠ [] := by
        intro h
        rw [h] at hb
        cases hb
      have hlen : 0 < buffer.length := List.length_pos.2 hne
      have hlast := hl last_pos hb
      have hi2 : uadd s.i 1 ≠ 1 := by
        rw [hi1]
        omega
      simp only
      by_cases hg : is_gap D args pos last_pos = true
      · have hstep : drop_rate.step D args s pos =
            { s with i := 1, t0 := pos.t, last_pos := pos } := by
          unfold drop_rate.step
          simp only
          rw [if_neg hi2, hlast, if_pos hg]
        rw [hstep, if_pos hg]
        rw [ih [pos] pos.t _ rfl (fun _ => rfl) (by simp)
          (by simp only [List.length_singleton]; omega)]
      · rw [if_neg hg]
        by_cases hr : usub pos.t t0 ≥ umul args.seq_length args.dti
        · have hstep : drop_rate.step D args s pos =
              { s with total := uadd s.total (uadd s.i 1), i := 0, last_pos := pos } := by
            unfold drop_rate.step
            simp only
            rw [if_neg hi2, hlast, if_neg hg, ht hne, if_pos hr]
          rw [hstep, if_pos hr]
          have htot : uadd s.total (uadd s.i 1) = s.total + (buffer.length + 1) := by
            rw [hi1]
            exact Nat.mod_eq_of_lt (by omega)
          rw [ih [] t0 _ rfl (fun h => absurd rfl h) (by intro l h; simp at h)
            (by simp only [htot, List.length_nil]; omega)]
          simp only [htot, List.map_cons, List.sum_cons, List.length_append,
            List.length_singleton]
          omega
        · have hstep : drop_rate.step D args s pos =
              { s with i := uadd s.i 1, last_pos := pos } := by
            unfold drop_rate.step
            simp only
            rw [if_neg hi2, hlast, if_neg hg, ht hne, if_neg hr]
          rw [hstep, if_neg hr]
          have hnew := ih (buffer ++ [pos]) t0
            { s with i := uadd s.i 1, last_pos := pos } (by simp [hi1]) (fun _ => ht hne)
            (by
              intro l h
              simp at h
              subst h
              rfl)
            (by simp only [List.length_append, List.length_singleton]; omega)
          exact hnew

/-- `total` is the number of positions in the completed segments of `split`. -/
theorem drop_rate.total_eq_segments (D : Dbl) (traj : Trajectory) (args : split_args D)
    (h : traj.length < U32) :
    drop_rate.total D traj args =
      ((split.segments D args [] 0 traj).map List.length).sum := by
  unfold drop_rate.total
  rw [drop_rate.foldl_segments D args traj [] 0 _ rfl (fun h => absurd rfl h)
    (by intro l h; simp at h) (by simpa using h)]
  simp

namespace ieee

theorem scaleN_zero (e : Int) : scaleN 0 e = 0 := by
  unfold scaleN
  split <;> simp

theorem rnd_zero (s : Bool) (d : Nat) : rnd s 0 d = .fin s 0 (-1074) := by
  simp [rnd]

/-- A zero divided by a non-zero finite value is a zero. -/
theorem div_zero_num (e : Int) (k : Nat) (f : Int) (hk : k ≠ 0) :
    div (.fin false 0 e) (.fin false k f) = .fin false 0 (-1074) := by
  show (if k = 0 then (if (0 : Nat) = 0 then B64.nan else .inf (xor false false))
    else rnd (xor false false) (scaleN 0 (f - e)) (scaleD k (f - e))) = _
  rw [if_neg hk, scaleN_zero, rnd_zero]
  rfl

set_option maxRecDepth 100000 in
set_option exponentiation.threshold 4000 in
theorem sub_one_zero : sub (.fin false (2 ^ 52) (-52)) (.fin false 0 (-1074)) =
    .fin false (2 ^ 52) (-52) := by decide

/-- A lower grid bound for a quotient of positive values. -/
theorem div_ge_grid {a b : B64} (ha : Fin0 a) (hb : Fin0 b) (hpa : 0 < val a)
    (hpb : 0 < val b) (M : Nat) (F : Int) (hM : M < 2 ^ 53) (hF : -1074 ≤ F)
    (hle : (M : ℚ) * (2 : ℚ) ^ F ≤ val a / val b) (hfin : Fin0 (div a b)) :
    (M : ℚ) * (2 : ℚ) ^ F ≤ val (div a b) := by
  obtain ⟨m, e, rfl⟩ := ha
  obtain ⟨k, f, rfl⟩ := hb
  rw [val_fin_false] at hpa hpb hle
  rw [val_fin_false] at hle
  have hk0 : k ≠ 0 := by
    intro h0
    subst h0
    simp at hpb
  have hm0 : m ≠ 0 := by
    intro h0
    subst h0
    simp at hpa
  have hkpos : 0 < k := Nat.pos_of_ne_zero hk0
  have hmpos : 0 < m := Nat.pos_of_ne_zero hm0
  have hd : div (.fin false m e) (.fin false k f) =
      rnd false (scaleN m (f - e)) (scaleD k (f - e)) := by
    show (if k = 0 then (if m = 0 then B64.nan else .inf (xor false false))
      else rnd (xor false false) (scaleN m (f - e)) (scaleD k (f - e))) = _
    rw [if_neg hk0]
    rfl
  rw [hd] at hfin ⊢
  have hN : 0 < scaleN m (f - e) := by
    unfold scaleN
    split
    · exact Nat.mul_pos hmpos (pow_pos (by norm_num) _)
    · exact hmpos
  have hratio : ((scaleN m (f - e) : Nat) : ℚ) / ((scaleD k (f - e) : Nat) : ℚ) =
      ((m : ℚ) * (2 : ℚ) ^ e) / ((k : ℚ) * (2 : ℚ) ^ f) := by
    rw [scale_ratio m k (f - e) hkpos, two_zpow_sub]
    have hkq : (0 : ℚ) < k := by exact_mod_cast hkpos
    field_simp
  rcases rnd_ge_grid false _ _ hN (scaleD_pos k _ hkpos) M F hM hF
    (by rw [hratio]; exact hle) with h | ⟨m2, e2, h, _, hv⟩
  · obtain ⟨m3, e3, h3⟩ := hfin
    rw [h] at h3
    cases h3
  · rw [h, val_fin_false]
    exact hv

/-- An upper grid bound for `1 - q` with `0 ≤ q ≤ 1`. -/
theorem one_sub_le_grid {q : B64} (hq : Fin0 q) (hle : val q ≤ 1) (M : Nat) (F : Int)
    (hc : Canon M F) (hG : 1 - val q ≤ (M : ℚ) * (2 : ℚ) ^ F) :
    Fin0 (sub (.fin false (2 ^ 52) (-52)) q) ∧
      val (sub (.fin false (2 ^ 52) (-52)) q) ≤ (M : ℚ) * (2 : ℚ) ^ F := by
  obtain ⟨k, f, rfl⟩ := hq
  rw [val_fin_false] at hle hG
  have hadd : sub (.fin false (2 ^ 52) (-52)) (.fin false k f) =
      (if scaled false (2 ^ 52) (-52) (min (-52) f) + scaled true k f (min (-52) f) = 0
        then .fin (false && true) 0 (-1074)
        else rndZ (decide (scaled false (2 ^ 52) (-52) (min (-52) f) +
          scaled true k f (min (-52) f) < 0))
          (scaled false (2 ^ 52) (-52) (min (-52) f) +
            scaled true k f (min (-52) f)).natAbs (min (-52) f)) := rfl
  rw [hadd]
  have hg1 : min (-52 : Int) f ≤ -52 := min_le_left _ _
  have hg2 : min (-52 : Int) f ≤ f := min_le_right _ _
  generalize min (-52 : Int) f = g at hg1 hg2 ⊢
  have hA := scaled_val (2 ^ 52) (-52) g hg1
  have hB := scaled_val k f g hg2
  have hA1 : ((2 ^ 52 : Nat) : ℚ) * (2 : ℚ) ^ (-52 : Int) = 1 := by norm_num
  rw [hA1] at hA
  have hgpos := two_zpow_pos g
  have hBA : k * 2 ^ (f - g).toNat ≤ 2 ^ 52 * 2 ^ (-52 - g).toNat := by
    have : ((k * 2 ^ (f - g).toNat : Nat) : ℚ) * (2 : ℚ) ^ g ≤
        ((2 ^ 52 * 2 ^ (-52 - g).toNat : Nat) : ℚ) * (2 : ℚ) ^ g := by
      rw [hA, hB]
      exact hle
    have := le_of_mul_le_mul_right this hgpos
    exact_mod_cast this
  have hc2 : scaled false (2 ^ 52) (-52) g + scaled true k f g =
      ((2 ^ 52 * 2 ^ (-52 - g).toNat - k * 2 ^ (f - g).toNat : Nat) : Int) := by
    rw [scaled_false]
    unfold scaled
    simp only [if_true]
    omega
  rw [hc2]
  have hval : ((2 ^ 52 * 2 ^ (-52 - g).toNat - k * 2 ^ (f - g).toNat : Nat) : ℚ) *
      (2 : ℚ) ^ g = 1 - (k : ℚ) * (2 : ℚ) ^ f := by
    rw [Nat.cast_sub hBA, sub_mul, hA, hB]
  generalize 2 ^ 52 * 2 ^ (-52 - g).toNat - k * 2 ^ (f - g).toNat = n at hval ⊢
  have hnonneg : (0 : ℚ) ≤ (M : ℚ) * (2 : ℚ) ^ F :=
    mul_nonneg (Nat.cast_nonneg _) (le_of_lt (two_zpow_pos _))
  by_cases h0 : (n : Int) = 0
  · rw [if_pos h0]
    exact ⟨⟨_, _, rfl⟩, by simpa [val] using hnonneg⟩
  · rw [if_neg h0]
    have hneg : decide ((n : Int) < 0) = false := by
      rw [decide_eq_false_iff_not]
      omega
    rw [hneg, Int.natAbs_ofNat]
    have := rndZ_le_grid n g M F hc (by rw [hval]; exact hG)
    exact ⟨this.1.fin0, this.2⟩

end ieee

/-- In the binary64 model the drop rate of a non-empty trajectory of fewer than
`2^32` positions is below one exactly when `total` is positive. -/
theorem drop_rate_lt_one_iff (cos : ieee.B64 → ieee.B64) (traj : Trajectory)
    (args : split_args (ieee.model cos)) (hne : traj ≠ []) (hlen : traj.length < U32) :
    ieee.lt (drop_rate (ieee.model cos) traj args) (ieee.B64.fin false (2 ^ 52) (-52)) = true ↔
      0 < drop_rate.total (ieee.model cos) traj args := by
  have hpos : 0 < traj.length := List.length_pos.2 hne
  have hU : U32 = 4294967296 := by norm_num [U32]
  have h64 : traj.length < U64 := by
    unfold U64
    rw [hU] at hlen
    have : (4294967296 : Nat) < 2 ^ 64 := by norm_num
    omega
  obtain ⟨hb, hb1⟩ := ieee.ofNat_pos traj.length hpos h64
  have hb2 : ieee.val (ieee.rndZ false traj.length 0) ≤ (2 : ℚ) ^ (32 : Int) := by
    have hle : traj.length ≤ 2 ^ 32 := by
      rw [hU] at hlen
      norm_num
      omega
    exact ieee.bnd_val hb (ieee.ofNat_bnd traj.length 32 (by norm_num) hle)
  have e1 : drop_rate (ieee.model cos) traj args =
      ieee.sub (ieee.B64.fin false (2 ^ 52) (-52))
        (ieee.div (ieee.rndZ false (drop_rate.total (ieee.model cos) traj args) 0)
          (ieee.rndZ false traj.length 0)) := by
    show ieee.sub (ieee.rnd false 1 (10 ^ 0)) _ = _
    rw [pow_zero, ieee.lit_1]
    rfl
  have hone : ieee.Fin0 (ieee.B64.fin false (2 ^ 52) (-52)) := ⟨_, _, rfl⟩
  have hvone : ieee.val (ieee.B64.fin false (2 ^ 52) (-52)) = 1 := by
    rw [ieee.val_fin_false]
    norm_num
  rw [e1]
  have htl := drop_rate.total_le (ieee.model cos) traj args
  generalize drop_rate.total (ieee.model cos) traj args = total at htl ⊢
  by_cases h0 : total = 0
  · subst h0
    obtain ⟨k, f, hk⟩ := hb
    have hk0 : k ≠ 0 := by
      intro h
      rw [hk, h, ieee.val_fin_false] at hb1
      simp at hb1
      linarith
    rw [ieee.rndZ_zero, hk, ieee.div_zero_num _ _ _ hk0, ieee.sub_one_zero]
    constructor
    · intro h
      rw [ieee.lt_fin0 hone hone] at h
      exact absurd h (lt_irrefl _)
    · intro h
      exact absurd h (lt_irrefl _)
  · have htpos : 0 < total := Nat.pos_of_ne_zero h0
    have ht64 : total < U64 := lt_of_le_of_lt htl h64
    obtain ⟨ha, ha1⟩ := ieee.ofNat_pos total htpos ht64
    have hmono := ieee.rndZ_mono total 0 traj.length 0
      (by
        simp only [zpow_zero, mul_one]
        exact_mod_cast htl) hb
    obtain ⟨hq, hq1⟩ := ieee.div_unit ha hb hmono.2.2 (by linarith)
    have hqge : ((1 : Nat) : ℚ) * (2 : ℚ) ^ (-32 : Int) ≤
        ieee.val (ieee.div (ieee.rndZ false total 0) (ieee.rndZ false traj.length 0)) := by
      refine ieee.div_ge_grid ha hb (by linarith) (by linarith) 1 (-32) (by norm_num)
        (by norm_num) ?_ hq
      rw [le_div_iff₀ (by linarith)]
      calc ((1 : Nat) : ℚ) * (2 : ℚ) ^ (-32 : Int) *
            ieee.val (ieee.rndZ false traj.length 0)
          ≤ ((1 : Nat) : ℚ) * (2 : ℚ) ^ (-32 : Int) * (2 : ℚ) ^ (32 : Int) :=
            mul_le_mul_of_nonneg_left hb2 (by norm_num)
        _ = 1 := by norm_num
        _ ≤ ieee.val (ieee.rndZ false total 0) := ha1
    have hcan : ieee.Canon ((2 ^ 32 - 1) * 2 ^ 21) (-53) :=
      ⟨by norm_num, by norm_num, by norm_num, Or.inl (by norm_num)⟩
    obtain ⟨hr, hr1⟩ := ieee.one_sub_le_grid hq hq1 _ _ hcan (by
      have : (((2 ^ 32 - 1) * 2 ^ 21 : Nat) : ℚ) * (2 : ℚ) ^ (-53 : Int) =
          1 - (2 : ℚ) ^ (-32 : Int) := by norm_num
      rw [this]
      have : ((1 : Nat) : ℚ) * (2 : ℚ) ^ (-32 : Int) = (2 : ℚ) ^ (-32 : Int) := by norm_num
      rw [this] at hqge
      linarith)
    constructor
    · intro _
      exact htpos
    · intro _
      rw [ieee.lt_fin0 hr hone, hvone]
      refine lt_of_le_of_lt hr1 ?_
      norm_num

theorem sum_length_of_runs (D : Dbl) (args : split_args D) (traj : Trajectory)
    (runs : List (Nat × Nat)) (segs : List Trajectory)
    (h : List.Forall₂ (fun r seg => IsRun D args traj r.1 r.2 seg) runs segs) :
    (segs.map List.length).sum = (runs.map (fun r => r.2 - r.1 + 1)).sum := by
  induction h with
  | nil => rfl
  | @cons r seg runs segs hr _ ih =>
    simp only [List.map_cons, List.sum_cons, ih]
    have h1 := hr.length
    have h2 := hr.lt
    omega

theorem sum_length_pos_iff (segs : List Trajectory) (h : ∀ seg ∈ segs, seg ≠ []) :
    0 < (segs.map List.length).sum ↔ segs ≠ [] := by
  cases segs with
  | nil => simp
  | cons seg rest =>
    have := List.length_pos.2 (h seg (List.mem_cons_self _ _))
    simp only [List.map_cons, List.sum_cons, ne_eq, not_false_eq_true, iff_true]
    simp
    omega

theorem split.segments_ne_nil (D : Dbl) (args : split_args D) (traj : Trajectory) :
    ∀ seg ∈ split.segments D args [] 0 traj, seg ≠ [] := by
  intro seg hseg
  obtain ⟨runs, r1, _, _⟩ := split.segments_runs D args traj traj [] 0 []
    (by simp) (split.BufInv.empty D args 0)
  obtain ⟨r, _, hr⟩ := forall₂_mem_right _ _ _ r1 seg hseg
  intro h
  have h1 := hr.length
  have h2 := hr.lt
  rw [h] at h1
  simp at h1
  omega

theorem flatten_ne_nil_iff {α : Type} (xss : List (List α)) (h : ∀ xs ∈ xss, xs ≠ []) :
    xss.flatten ≠ [] ↔ xss ≠ [] := by
  cases xss with
  | nil => simp
  | cons xs rest =>
    have := h xs (List.mem_cons_self _ _)
    simp [this]

/-- With `v_min` a zero, the result of `split` is non-empty exactly when `total`
is positive. -/
theorem split_ne_nil_iff_total (cos : ieee.B64 → ieee.B64)
    (hcos : ∀ s m e, ieee.Bnd 0 (cos (.fin s m e))) (args : split_args (ieee.model cos))
    (s : Bool) (e : Int) (hv : args.v_min = ieee.B64.fin s 0 e)
    (h1 : args.seq_length + 1 < U32) (h2 : args.dti < U32) (traj : Trajectory)
    (hlen : traj.length < U32) (out : List Point)
    (h : split (ieee.model cos) traj args = some out) :
    out ≠ [] ↔ 0 < drop_rate.total (ieee.model cos) traj args := by
  obtain ⟨seqs, hF, hout⟩ :=
    split_zero_v_min cos hcos args s e hv (by omega) h2 traj out h
  rw [drop_rate.total_eq_segments _ _ _ hlen,
    sum_length_pos_iff _ (split.segments_ne_nil _ args traj), hout]
  have hne : ∀ seq ∈ seqs, seq ≠ [] := by
    intro seq hseq
    obtain ⟨seg, _, hi⟩ := forall₂_mem_right _ _ _ hF seq hseq
    have hl := interpolate_length _ seg _ _ seq hi
    rw [uadd_eq _ _ h1] at hl
    intro h0
    rw [h0] at hl
    simp at hl
  rw [flatten_ne_nil_iff _ hne]
  have hlen2 := hF.length_eq
  constructor
  · intro hs h0
    rw [h0] at hlen2
    exact hs (List.length_eq_zero.1 hlen2.symm)
  · intro hs h0
    rw [h0] at hlen2
    exact hs (List.length_eq_zero.1 hlen2)

/-- The counter `total` for the input of the test case `Test split`. -/
theorem test_split_total (cos : ieee.B64 → ieee.B64) (h : ieee.CosSpec cos) :
    drop_rate.total (ieee.model cos) test_split_trajectory (test_args (ieee.model cos)) =
      12 := by
  rw [drop_rate.total_eq_segments _ _ _ (by decide),
    (test_segments_congr cos ieee.cos_unit h ieee.cos_unit_spec _
      test_split_classified).trans test_split_segments_unit]
  rfl

/-- The expression returned by `drop_rate` in the binary64 model. -/
theorem drop_rate_model (cos : ieee.B64 → ieee.B64) (traj : Trajectory)
    (args : split_args (ieee.model cos)) :
    drop_rate (ieee.model cos) traj args =
      ieee.sub (ieee.B64.fin false (2 ^ 52) (-52))
        (ieee.div (ieee.rndZ false (drop_rate.total (ieee.model cos) traj args) 0)
          (ieee.rndZ false traj.length 0)) := by
  show ieee.sub (ieee.rnd false 1 (10 ^ 0)) _ = _
  rw [pow_zero, ieee.lit_1]
  rfl

set_option maxRecDepth 100000 in
set_option exponentiation.threshold 4000 in
theorem quarter_value :
    ieee.sub (ieee.B64.fin false (2 ^ 52) (-52))
        (ieee.div (ieee.rndZ false 12 0) (ieee.rndZ false 16 0))
      = ieee.B64.fin false (2 ^ 52) (-54) ∧
    ieee.div (ieee.rnd false 4 1) (ieee.rndZ false 16 0) =
      ieee.B64.fin false (2 ^ 52) (-54) := by decide

/-- The drop rate of the test case `Test split`. -/
theorem test_split_drop_rate (cos : ieee.B64 → ieee.B64) (h : ieee.CosSpec cos) :
    drop_rate (ieee.model cos) test_split_trajectory (test_args (ieee.model cos)) =
      ieee.B64.fin false (2 ^ 52) (-54) := by
  have hlen : test_split_trajectory.length = 16 := rfl
  rw [drop_rate_model, test_split_total cos h, hlen]
  exact quarter_value.1

/-- C11: for a trajectory `T` of fewer than `2^32` positions (the counters of
`drop_rate` are 32-bit), `drop_rate(T, args)` is `1. - P / |T|` where `P` is the
sum of `b - a + 1` over the runs `p_a..p_b` that are the completed segments of
`split` on the same input, whether or not their resampled sequences pass the
minimum-speed test.  In the binary64 model, with `v_min` a zero, `drop_rate < 1`
holds exactly when `split` returns a non-empty result.  For the input of the
test case `Test split`, `P = 12` and the rate is `4. / 16`. -/
theorem drop_rate_counts_completed_runs :
    (∀ (D : Dbl) (trajectory : Trajectory) (args : split_args D), trajectory.length < U32 →
      ∃ runs : List (Nat × Nat),
        List.Forall₂ (fun r seg => IsRun D args trajectory r.1 r.2 seg) runs
          (split.segments D args [] 0 trajectory) ∧
        runs.Pairwise (fun r s => r.2 < s.1) ∧
        drop_rate.total D trajectory args = (runs.map (fun r => r.2 - r.1 + 1)).sum ∧
        drop_rate D trajectory args = D.sub (D.lit 1 0)
          (D.div (D.ofNat ((runs.map (fun r => r.2 - r.1 + 1)).sum))
            (D.ofNat trajectory.length))) ∧
    (∀ (D : Dbl) (trajectory : Trajectory) (args : split_args D) (out : List Point),
      split D trajectory args = some out →
      ∃ seqs : List (List Point),
        List.Forall₂
          (fun seg seq => interpolate D seg (uadd args.seq_length 1) args.dti = some seq)
          (split.segments D args [] 0 trajectory) seqs ∧
        out = (seqs.filter (split.accepted D args)).flatten) ∧
    (∀ (cos : ieee.B64 → ieee.B64), (∀ s m e, ieee.Bnd 0 (cos (.fin s m e))) →
      ∀ (args : split_args (ieee.model cos)) (trajectory : Trajectory) (out : List Point)
        (s : Bool) (e : Int),
      args.v_min = ieee.B64.fin s 0 e → args.seq_length + 1 < U32 → args.dti < U32 →
      trajectory ≠ [] → trajectory.length < U32 →
      split (ieee.model cos) trajectory args = some out →
      (ieee.lt (drop_rate (ieee.model cos) trajectory args) ((ieee.model cos).lit 1 0) = true ↔
        out ≠ [])) ∧
    (∀ (cos : ieee.B64 → ieee.B64), ieee.CosSpec cos →
      drop_rate.total (ieee.model cos) test_split_trajectory (test_args (ieee.model cos)) = 12 ∧
      test_split_trajectory.length = 16 ∧
      drop_rate (ieee.model cos) test_split_trajectory (test_args (ieee.model cos)) =
        (ieee.model cos).div ((ieee.model cos).lit 4 0) ((ieee.model cos).ofNat 16)) := by
  refine ⟨?_, ?_, ?_, ?_⟩
  · intro D trajectory args hlen
    obtain ⟨runs, r1, _, r3⟩ := split.segments_runs D args trajectory trajectory [] 0 []
      (by simp) (split.BufInv.empty D args 0)
    have htot : drop_rate.total D trajectory args =
        (runs.map (fun r => r.2 - r.1 + 1)).sum := by
      rw [drop_rate.total_eq_segments D trajectory args hlen,
        sum_length_of_runs D args trajectory runs _ r1]
    refine ⟨runs, r1, r3, htot, ?_⟩
    rw [← htot]
    rfl
  · intro D trajectory args out h
    exact split_segments D trajectory args out h
  · intro cos hcos args trajectory out s e hv h1 h2 hne hlen h
    have e1 : (ieee.model cos).lit 1 0 = ieee.B64.fin false (2 ^ 52) (-52) := by
      show ieee.rnd false 1 (10 ^ 0) = _
      rw [pow_zero, ieee.lit_1]
      rfl
    rw [e1, drop_rate_lt_one_iff cos trajectory args hne hlen,
      split_ne_nil_iff_total cos hcos args s e hv h1 h2 trajectory hlen out h]
  · intro cos hcos
    refine ⟨test_split_total cos hcos, rfl, ?_⟩
    rw [test_split_drop_rate cos hcos]
    show _ = ieee.div (ieee.rnd false 4 (10 ^ 0)) (ieee.rndZ false 16 0)
    rw [pow_zero, quarter_value.2]

/-- Witness of C11: the test case `Test split` with the constant cosine 1. -/
theorem drop_rate_counts_completed_runs_witness :
    drop_rate.total (ieee.model ieee.cos_unit) test_split_trajectory
        (test_args (ieee.model ieee.cos_unit)) = 12 ∧
      test_split_trajectory.length = 16 ∧
      drop_rate (ieee.model ieee.cos_unit) test_split_trajectory
          (test_args (ieee.model ieee.cos_unit)) =
        (ieee.model ieee.cos_unit).div ((ieee.model ieee.cos_unit).lit 4 0)
          ((ieee.model ieee.cos_unit).ofNat 16) :=
  drop_rate_counts_completed_runs.2.2.2 ieee.cos_unit ieee.cos_unit_spec

/-! ### The distance formula over the reals -/

/-- C17: over the reals, i.e. for every interpretation of the `double`
operations as the exact operations on real numbers, `a.dist_nm(b)` is
`60 * sqrt(dlat^2 + cos(mlat)^2 * dlon^2)`, where `dlat` and `dlon` are the
differences of the coordinates divided by 600000 and `mlat` is the mean of the
two latitudes in degrees converted to radians with the constant
`3.14159265358979323846` of the sources; for the points (52°, 13°) and
(50°, 10°) this is `sqrt(4 + cos^2(51°) * 9) * 60`. -/
theorem dist_nm_formula :
    (∀ (D : Dbl) (r : D.F → ℝ), Dbl.Exact D r → ∀ a b : Point,
      r (a.dist_nm D b) =
        60 * Real.sqrt
          ((((a.latitude - b.latitude : Int) : ℝ) / 600000) ^ 2 +
            Real.cos ((((a.latitude + b.latitude : Int) : ℝ) / 600000 / 2) / 180 *
              (314159265358979323846 / 10 ^ 20)) ^ 2 *
              (((a.longitude - b.longitude : Int) : ℝ) / 600000) ^ 2)) ∧
    (∀ (D : Dbl) (r : D.F → ℝ), Dbl.Exact D r →
      r (Point.dist_nm D ⟨52 * 600000, 13 * 600000⟩ ⟨50 * 600000, 10 * 600000⟩) =
        Real.sqrt (4 + Real.cos (51 / 180 * (314159265358979323846 / 10 ^ 20)) ^ 2 * 9)
          * 60) := by
  have hgen : ∀ (D : Dbl) (r : D.F → ℝ), Dbl.Exact D r → ∀ a b : Point,
      r (a.dist_nm D b) =
        60 * Real.sqrt
          ((((a.latitude - b.latitude : Int) : ℝ) / 600000) ^ 2 +
            Real.cos ((((a.latitude + b.latitude : Int) : ℝ) / 600000 / 2) / 180 *
              (314159265358979323846 / 10 ^ 20)) ^ 2 *
              (((a.longitude - b.longitude : Int) : ℝ) / 600000) ^ 2) := by
    intro D r h a b
    unfold Point.dist_nm
    simp only [h.mul, h.sqrt, h.add, h.div, h.ofInt, h.lit, h.cos]
    rw [mul_comm]
    congr 1
    · norm_num
    · congr 1
      norm_num
      ring
  refine ⟨hgen, ?_⟩
  intro D r h
  rw [hgen D r h, mul_comm]
  congr 2
  norm_num

/-- Witness of C17: the arithmetic of the real numbers itself. -/
theorem dist_nm_formula_witness :
    ∃ (D : Dbl) (r : D.F → ℝ), Dbl.Exact D r ∧
      r (Point.dist_nm D ⟨52 * 600000, 13 * 600000⟩ ⟨50 * 600000, 10 * 600000⟩) =
        Real.sqrt (4 + Real.cos (51 / 180 * (314159265358979323846 / 10 ^ 20)) ^ 2 * 9)
          * 60 := by
  refine ⟨⟨ℝ, fun m k => (m : ℝ) / 10 ^ k, fun z => (z : ℝ), fun n => (n : ℝ), fun x => ⌊x⌋,
      fun a b => a + b, fun a b => a - b, fun a b => a * b, fun a b => a / b, Real.sqrt,
      Real.cos, fun x => x, fun a b => decide (a < b), fun a b => decide (a ≤ b)⟩,
    fun x => x, ?_⟩
  have hex : Dbl.Exact (⟨ℝ, fun m k => (m : ℝ) / 10 ^ k, fun z => (z : ℝ), fun n => (n : ℝ),
      fun x => ⌊x⌋, fun a b => a + b, fun a b => a - b, fun a b => a * b, fun a b => a / b,
      Real.sqrt, Real.cos, fun x => x, fun a b => decide (a < b),
      fun a b => decide (a ≤ b)⟩ : Dbl) (fun x => x) :=
    ⟨fun _ _ => rfl, fun _ => rfl, fun _ _ => rfl, fun _ _ => rfl, fun _ _ => rfl,
      fun _ => rfl, fun _ => rfl⟩
  exact ⟨hex, dist_nm_formula.2 _ _ hex⟩

/-! ### Exact operations of the binary64 model and the blend of `Point::interpolate` -/

namespace ieee

/-- Rounding a value of the binary64 grid returns that value. -/
theorem rnd_exact (s : Bool) (n d : Nat) (hn : 0 < n) (hd : 0 < d) (M : Nat) (F : Int)
    (hc : Canon M F) (h : (n : ℚ) / d = (M : ℚ) * (2 : ℚ) ^ F) :
    ∃ m e, rnd s n d = .fin s m e ∧ Canon m e ∧
      (m : ℚ) * (2 : ℚ) ^ e = (M : ℚ) * (2 : ℚ) ^ F := by
  obtain ⟨m, e, h1, h2, h3⟩ := rnd_le_grid s n d hn hd M F hc (le_of_eq h)
  rcases rnd_ge_grid s n d hn hd M F hc.1 hc.2.1 (le_of_eq h.symm) with h4 | ⟨m2, e2, h4, _, h5⟩
  · rw [h1] at h4
    cases h4
  · rw [h1] at h4
    cases h4
    exact ⟨m, e, h1, h2, le_antisymm h3 h5⟩

theorem rndZ_exact (s : Bool) (n : Nat) (g : Int) (M : Nat) (F : Int) (hc : Canon M F)
    (h : (n : ℚ) * (2 : ℚ) ^ g = (M : ℚ) * (2 : ℚ) ^ F) :
    ∃ m e, rndZ s n g = .fin s m e ∧ Canon m e ∧
      (m : ℚ) * (2 : ℚ) ^ e = (M : ℚ) * (2 : ℚ) ^ F := by
  by_cases hn : n = 0
  · subst hn
    refine ⟨0, -1074, rndZ_zero s g, canon_zero, ?_⟩
    rw [← h]
    simp
  · unfold rndZ
    exact rnd_exact s _ _ (rndZ_num_pos n g (Nat.pos_of_ne_zero hn)) (rndZ_den_pos g) M F hc
      (by rw [rndZ_num_den]; exact h)

/-- Every positive integer below `2^53` is a value of the binary64 grid. -/
theorem canon_of_nat (n : Nat) (h0 : 0 < n) (h : n < 2 ^ 53) :
    ∃ M F, Canon M F ∧ (M : ℚ) * (2 : ℚ) ^ F = (n : ℚ) := by
  have hb0 := blen_pos n h0
  have hlo := blen_lower n h0
  have hup := blen_upper n
  have hb53 : blen n ≤ 53 := by
    by_contra hc
    have : 2 ^ 53 ≤ 2 ^ (blen n - 1) := Nat.pow_le_pow_right (by norm_num) (by omega)
    omega
  refine ⟨n * 2 ^ (53 - blen n), (blen n : Int) - 53, ⟨?_, by omega, by omega, Or.inl ?_⟩, ?_⟩
  · have : n * 2 ^ (53 - blen n) < 2 ^ (blen n) * 2 ^ (53 - blen n) :=
      Nat.mul_lt_mul_of_pos_right hup (pow_pos (by norm_num) _)
    rw [← pow_add] at this
    have e : blen n + (53 - blen n) = 53 := by omega
    rw [e] at this
    exact this
  · have : 2 ^ (blen n - 1) * 2 ^ (53 - blen n) ≤ n * 2 ^ (53 - blen n) :=
      Nat.mul_le_mul_right _ hlo
    rw [← pow_add] at this
    have e : blen n - 1 + (53 - blen n) = 52 := by omega
    rw [e] at this
    exact this
  · rw [Nat.cast_mul, mul_assoc]
    have : ((2 ^ (53 - blen n) : Nat) : ℚ) * (2 : ℚ) ^ ((blen n : Int) - 53) = 1 := by
      rw [Nat.cast_pow, Nat.cast_ofNat, ← zpow_natCast, ← zpow_add₀ (by norm_num)]
      have e : ((53 - blen n : Nat) : Int) + ((blen n : Int) - 53) = 0 := by omega
      rw [e, zpow_zero]
    rw [this, mul_one]

/-- The conversion of an integer of magnitude below `2^53` is exact. -/
theorem ofInt_exact (z : Int) (h : z.natAbs < 2 ^ 53) :
    ∃ m e, rndZ (decide (z < 0)) z.natAbs 0 = .fin (decide (z < 0)) m e ∧ Canon m e ∧
      (m : ℚ) * (2 : ℚ) ^ e = (z.natAbs : ℚ) := by
  by_cases h0 : z.natAbs = 0
  · rw [h0]
    exact ⟨0, -1074, rndZ_zero _ _, canon_zero, by simp⟩
  · obtain ⟨M, F, hc, hv⟩ := canon_of_nat z.natAbs (Nat.pos_of_ne_zero h0) h
    obtain ⟨m, e, h1, h2, h3⟩ := rndZ_exact (decide (z < 0)) z.natAbs 0 M F hc
      (by rw [hv]; simp)
    exact ⟨m, e, h1, h2, by rw [h3, hv]⟩

/-- Multiplication by a value equal to one is exact. -/
theorem mul_unit_left (mu : Nat) (eu : Int) (hu : (mu : ℚ) * (2 : ℚ) ^ eu = 1) (s : Bool)
    (m : Nat) (e : Int) (hc : Canon m e) :
    ∃ m2 e2, mul (.fin false mu eu) (.fin s m e) = .fin s m2 e2 ∧ Canon m2 e2 ∧
      (m2 : ℚ) * (2 : ℚ) ^ e2 = (m : ℚ) * (2 : ℚ) ^ e := by
  have h : mul (.fin false mu eu) (.fin s m e) = rndZ s (mu * m) (eu + e) := by
    show rndZ (xor false s) (mu * m) (eu + e) = _
    rw [Bool.false_xor]
  rw [h]
  refine rndZ_exact s (mu * m) (eu + e) m e hc ?_
  rw [Nat.cast_mul, two_zpow_add]
  calc (mu : ℚ) * (m : ℚ) * ((2 : ℚ) ^ eu * (2 : ℚ) ^ e)
      = ((mu : ℚ) * (2 : ℚ) ^ eu) * ((m : ℚ) * (2 : ℚ) ^ e) := by ring
    _ = (m : ℚ) * (2 : ℚ) ^ e := by rw [hu, one_mul]

/-- A zero times a finite value is a zero. -/
theorem mul_zero_fin (e : Int) (t : Bool) (k : Nat) (f : Int) :
    mul (.fin false 0 e) (.fin t k f) = .fin t 0 (-1074) := by
  show rndZ (xor false t) (0 * k) (e + f) = _
  rw [Nat.zero_mul, rndZ_zero, Bool.false_xor]

/-- The truncation of a value that is an integer of `int32_t`. -/
theorem toInt_exact (s : Bool) (m : Nat) (e : Int) (n : Nat)
    (h : (m : ℚ) * (2 : ℚ) ^ e = (n : ℚ))
    (hr : -2 ^ 31 ≤ (if s then -(n : Int) else (n : Int)) ∧
      (if s then -(n : Int) else (n : Int)) < 2 ^ 31) :
    toInt (.fin s m e) = (if s then -(n : Int) else (n : Int)) := by
  have hv : (if e < 0 then m / 2 ^ (-e).toNat else m * 2 ^ e.toNat) = n := by
    by_cases he : e < 0
    · rw [if_pos he]
      have hm : m = n * 2 ^ (-e).toNat := by
        have h2 : (m : ℚ) = (n : ℚ) * (2 : ℚ) ^ (-e) := by
          rw [← h, mul_assoc, ← zpow_add₀ (by norm_num)]
          simp
        rw [two_zpow_toNat (-e) (by omega)] at h2
        exact_mod_cast h2
      rw [hm, Nat.mul_div_cancel _ (pow_pos (by norm_num) _)]
    · rw [if_neg he]
      have h2 : ((m * 2 ^ e.toNat : Nat) : ℚ) = (n : ℚ) := by
        rw [Nat.cast_mul, ← two_zpow_toNat e (by omega)]
        exact h
      exact_mod_cast h2
  unfold toInt
  simp only
  rw [hv]
  cases s with
  | false =>
    simp only [Bool.false_eq_true, if_false] at hr ⊢
    rw [if_pos hr]
  | true =>
    simp only [if_true] at hr ⊢
    rw [if_pos hr]

theorem toInt_zero (s : Bool) : toInt (.fin s 0 (-1074)) = 0 := by
  rw [toInt_exact s 0 (-1074) 0 (by simp) (by cases s <;> norm_num)]
  cases s <;> simp

theorem scaled_facts (s : Bool) (m : Nat) (e g : Int) (hm : m ≠ 0) :
    scaled s m e g ≠ 0 ∧ decide (scaled s m e g < 0) = s ∧
      (scaled s m e g).natAbs = m * 2 ^ (e - g).toNat := by
  have hpos : 0 < m * 2 ^ (e - g).toNat :=
    Nat.mul_pos (Nat.pos_of_ne_zero hm) (pow_pos (by norm_num) _)
  unfold scaled
  generalize m * 2 ^ (e - g).toNat = K at hpos
  have hK : (0 : Int) < (K : Int) := by exact_mod_cast hpos
  cases s with
  | false =>
    simp only [Bool.false_eq_true, if_false, one_mul]
    refine ⟨by omega, ?_, Int.natAbs_ofNat K⟩
    rw [decide_eq_false_iff_not]
    omega
  | true =>
    simp only [if_true, neg_one_mul]
    refine ⟨by omega, ?_, ?_⟩
    · rw [decide_eq_true_eq]
      omega
    · rw [Int.natAbs_neg, Int.natAbs_ofNat]

/-- Adding a zero on the right does not change the truncation. -/
theorem toInt_add_zero_right (s : Bool) (m : Nat) (e : Int) (hc : Canon m e) (t : Bool)
    (f : Int) (n : Nat) (h : (m : ℚ) * (2 : ℚ) ^ e = (n : ℚ))
    (hr : -2 ^ 31 ≤ (if s then -(n : Int) else (n : Int)) ∧
      (if s then -(n : Int) else (n : Int)) < 2 ^ 31) :
    toInt (add (.fin s m e) (.fin t 0 f)) = (if s then -(n : Int) else (n : Int)) := by
  have hadd : add (.fin s m e) (.fin t 0 f) =
      (if scaled s m e (min e f) + scaled t 0 f (min e f) = 0
        then .fin (s && t) 0 (-1074)
        else rndZ (decide (scaled s m e (min e f) + scaled t 0 f (min e f) < 0))
          (scaled s m e (min e f) + scaled t 0 f (min e f)).natAbs (min e f)) := rfl
  rw [hadd]
  have hg : min e f ≤ e := min_le_left _ _
  generalize min e f = g at hg ⊢
  have hz : scaled t 0 f g = 0 := by
    unfold scaled
    simp
  rw [hz, add_zero]
  have hsv := scaled_val m e g hg
  by_cases hm : m = 0
  · subst hm
    have hn : n = 0 := by
      simp at h
      exact_mod_cast h.symm
    subst hn
    have : scaled s 0 e g = 0 := by
      unfold scaled
      simp
    rw [if_pos this, toInt_zero]
    cases s <;> simp
  · obtain ⟨hne, hsign, habs⟩ := scaled_facts s m e g hm
    rw [if_neg hne, hsign, habs]
    obtain ⟨m2, e2, h1, _, h3⟩ := rndZ_exact s (m * 2 ^ (e - g).toNat) g m e hc hsv
    rw [h1]
    exact toInt_exact s m2 e2 n (by rw [h3, h]) hr

/-- Adding a zero on the left does not change the truncation. -/
theorem toInt_add_zero_left (s : Bool) (m : Nat) (e : Int) (hc : Canon m e) (t : Bool)
    (f : Int) (n : Nat) (h : (m : ℚ) * (2 : ℚ) ^ e = (n : ℚ))
    (hr : -2 ^ 31 ≤ (if s then -(n : Int) else (n : Int)) ∧
      (if s then -(n : Int) else (n : Int)) < 2 ^ 31) :
    toInt (add (.fin t 0 f) (.fin s m e)) = (if s then -(n : Int) else (n : Int)) := by
  have hadd : add (.fin t 0 f) (.fin s m e) =
      (if scaled t 0 f (min f e) + scaled s m e (min f e) = 0
        then .fin (t && s) 0 (-1074)
        else rndZ (decide (scaled t 0 f (min f e) + scaled s m e (min f e) < 0))
          (scaled t 0 f (min f e) + scaled s m e (min f e)).natAbs (min f e)) := rfl
  rw [hadd]
  have hg : min f e ≤ e := min_le_right _ _
  generalize min f e = g at hg ⊢
  have hz : scaled t 0 f g = 0 := by
    unfold scaled
    simp
  rw [hz, zero_add]
  have hsv := scaled_val m e g hg
  by_cases hm : m = 0
  · subst hm
    have hn : n = 0 := by
      simp at h
      exact_mod_cast h.symm
    subst hn
    have : scaled s 0 e g = 0 := by
      unfold scaled
      simp
    rw [if_pos this, toInt_zero]
    cases s <;> simp
  · obtain ⟨hne, hsign, habs⟩ := scaled_facts s m e g hm
    rw [if_neg hne, hsign, habs]
    obtain ⟨m2, e2, h1, _, h3⟩ := rndZ_exact s (m * 2 ^ (e - g).toNat) g m e hc hsv
    rw [h1]
    exact toInt_exact s m2 e2 n (by rw [h3, h]) hr

/-- The canonical form of a value is unique. -/
theorem canon_unique (m : Nat) (e : Int) (M : Nat) (F : Int) (h1 : Canon m e)
    (h2 : Canon M F) (h : (m : ℚ) * (2 : ℚ) ^ e = (M : ℚ) * (2 : ℚ) ^ F) : m = M ∧ e = F := by
  have key : ∀ (m : Nat) (e : Int) (M : Nat) (F : Int), Canon m e → Canon M F →
      (m : ℚ) * (2 : ℚ) ^ e = (M : ℚ) * (2 : ℚ) ^ F → ¬ e < F := by
    intro m e M F h1 h2 h hlt
    have hM : 2 ^ 52 ≤ M := by
      rcases h2.2.2.2 with h | h
      · exact h
      · have := h1.2.1
        omega
    have hpos := two_zpow_pos e
    have e1 : (2 : ℚ) ^ F = (2 : ℚ) ^ e * (2 : ℚ) ^ (F - e) := by
      rw [← two_zpow_add]
      congr 1
      omega
    have h2le : (2 : ℚ) ≤ (2 : ℚ) ^ (F - e) := by
      have := two_zpow_mono (show (1 : Int) ≤ F - e by omega)
      simpa using this
    have hm : (m : ℚ) = (M : ℚ) * (2 : ℚ) ^ (F - e) := by
      have : (m : ℚ) * (2 : ℚ) ^ e = ((M : ℚ) * (2 : ℚ) ^ (F - e)) * (2 : ℚ) ^ e := by
        rw [h, e1]
        ring
      exact mul_right_cancel₀ (ne_of_gt hpos) this
    have hMq : (4503599627370496 : ℚ) ≤ (M : ℚ) := by
      have := hM
      norm_num at this
      exact_mod_cast this
    have hmq : (m : ℚ) < (9007199254740992 : ℚ) := by
      have := h1.1
      norm_num at this
      exact_mod_cast this
    have : (M : ℚ) * 2 ≤ (M : ℚ) * (2 : ℚ) ^ (F - e) :=
      mul_le_mul_of_nonneg_left h2le (Nat.cast_nonneg _)
    linarith
  have he : e = F := by
    have a1 := key m e M F h1 h2 h
    have a2 := key M F m e h2 h1 h.symm
    omega
  subst he
  have := mul_right_cancel₀ (ne_of_gt (two_zpow_pos e)) h
  exact ⟨by exact_mod_cast this, rfl⟩

/-- Rounding a value of the binary64 grid returns its canonical form. -/
theorem rndZ_canon (s : Bool) (n : Nat) (g : Int) (M : Nat) (F : Int) (hc : Canon M F)
    (h : (n : ℚ) * (2 : ℚ) ^ g = (M : ℚ) * (2 : ℚ) ^ F) : rndZ s n g = .fin s M F := by
  obtain ⟨m, e, h1, h2, h3⟩ := rndZ_exact s n g M F hc h
  obtain ⟨rfl, rfl⟩ := canon_unique m e M F h2 hc h3
  exact h1

theorem rnd_canon (s : Bool) (n d : Nat) (hn : 0 < n) (hd : 0 < d) (M : Nat) (F : Int)
    (hc : Canon M F) (h : (n : ℚ) / d = (M : ℚ) * (2 : ℚ) ^ F) : rnd s n d = .fin s M F := by
  obtain ⟨m, e, h1, h2, h3⟩ := rnd_exact s n d hn hd M F hc h
  obtain ⟨rfl, rfl⟩ := canon_unique m e M F h2 hc h3
  exact h1

/-- One times a canonical value is that value. -/
theorem mul_one_left (s : Bool) (m : Nat) (e : Int) (hc : Canon m e) :
    mul (.fin false (2 ^ 52) (-52)) (.fin s m e) = .fin s m e := by
  obtain ⟨m2, e2, h1, h2, h3⟩ := mul_unit_left (2 ^ 52) (-52) (by norm_num) s m e hc
  obtain ⟨rfl, rfl⟩ := canon_unique m2 e2 m e h2 hc h3
  exact h1

/-- A non-zero canonical value divided by itself is one. -/
theorem div_self_one (k : Nat) (f : Int) (hk : k ≠ 0) :
    div (.fin false k f) (.fin false k f) = .fin false (2 ^ 52) (-52) := by
  have hkpos : 0 < k := Nat.pos_of_ne_zero hk
  have hd : div (.fin false k f) (.fin false k f) =
      rnd false (scaleN k (f - f)) (scaleD k (f - f)) := by
    show (if k = 0 then (if k = 0 then B64.nan else .inf (xor false false))
      else rnd (xor false false) (scaleN k (f - f)) (scaleD k (f - f))) = _
    rw [if_neg hk]
    rfl
  rw [hd]
  have hN : 0 < scaleN k (f - f) := by
    unfold scaleN
    split
    · exact Nat.mul_pos hkpos (pow_pos (by norm_num) _)
    · exact hkpos
  refine rnd_canon false _ _ hN (scaleD_pos k _ hkpos) _ _
    ⟨by norm_num, by norm_num, by norm_num, Or.inl (le_refl _)⟩ ?_
  rw [scale_ratio k k (f - f) hkpos, sub_self, zpow_zero, div_one]
  have hkq : (k : ℚ) ≠ 0 := by exact_mod_cast hk
  rw [div_self hkq]
  norm_num

set_option maxRecDepth 100000 in
set_option exponentiation.threshold 4000 in
theorem sub_one_one : sub (.fin false (2 ^ 52) (-52)) (.fin false (2 ^ 52) (-52)) =
    .fin false 0 (-1074) := by decide

theorem int_of_sign (z : Int) : (if decide (z < 0) = true then -(z.natAbs : Int)
    else (z.natAbs : Int)) = z := by
  by_cases h : z < 0
  · simp only [h, decide_True, if_true]
    omega
  · simp only [h, decide_False, Bool.false_eq_true, if_false]
    omega

/-- The blend `(1. - w) * a + w * b` of two `int32_t` values with `w = 0.`,
truncated, is `a`. -/
theorem blend_zero (a b : Int) (ha1 : -2 ^ 31 ≤ a) (ha2 : a < 2 ^ 31)
    (hb : b.natAbs < 2 ^ 53) :
    toInt (add (mul (sub (.fin false (2 ^ 52) (-52)) (.fin false 0 (-1074)))
        (rndZ (decide (a < 0)) a.natAbs 0))
      (mul (.fin false 0 (-1074)) (rndZ (decide (b < 0)) b.natAbs 0))) = a := by
  obtain ⟨m, e, h1, h2, h3⟩ := ofInt_exact a (by omega)
  obtain ⟨k, f, k1, _, _⟩ := ofInt_exact b hb
  rw [sub_one_zero, h1, k1, mul_one_left _ m e h2, mul_zero_fin]
  rw [toInt_add_zero_right _ m e h2 _ _ a.natAbs h3 (by rw [int_of_sign]; exact ⟨ha1, ha2⟩)]
  exact int_of_sign a

/-- The blend `(1. - w) * a + w * b` of two `int32_t` values with `w = 1.`,
truncated, is `b`. -/
theorem blend_one (a b : Int) (hb1 : -2 ^ 31 ≤ b) (hb2 : b < 2 ^ 31)
    (ha : a.natAbs < 2 ^ 53) :
    toInt (add (mul (sub (.fin false (2 ^ 52) (-52)) (.fin false (2 ^ 52) (-52)))
        (rndZ (decide (a < 0)) a.natAbs 0))
      (mul (.fin false (2 ^ 52) (-52)) (rndZ (decide (b < 0)) b.natAbs 0))) = b := by
  obtain ⟨m, e, h1, h2, h3⟩ := ofInt_exact b (by omega)
  obtain ⟨k, f, k1, _, _⟩ := ofInt_exact a ha
  rw [sub_one_one, h1, k1, mul_one_left _ m e h2, mul_zero_fin]
  rw [toInt_add_zero_left _ m e h2 _ _ b.natAbs h3 (by rw [int_of_sign]; exact ⟨hb1, hb2⟩)]
  exact int_of_sign b

end ieee

set_option maxRecDepth 100000 in
/-- `Point::interpolate` in the binary64 model. -/
theorem Point.interpolate_model (cos : ieee.B64 → ieee.B64) (a b : Point) (w : ieee.B64) :
    a.interpolate (ieee.model cos) b w =
      { latitude := ieee.toInt (ieee.add
          (ieee.mul (ieee.sub (ieee.B64.fin false (2 ^ 52) (-52)) w)
            (ieee.rndZ (decide (a.latitude < 0)) a.latitude.natAbs 0))
          (ieee.mul w (ieee.rndZ (decide (b.latitude < 0)) b.latitude.natAbs 0))),
        longitude := ieee.toInt (ieee.add
          (ieee.mul (ieee.sub (ieee.B64.fin false (2 ^ 52) (-52)) w)
            (ieee.rndZ (decide (a.longitude < 0)) a.longitude.natAbs 0))
          (ieee.mul w (ieee.rndZ (decide (b.longitude < 0)) b.longitude.natAbs 0))) } := by
  have e1 : ieee.rnd false 1 (10 ^ 0) = ieee.B64.fin false (2 ^ 52) (-52) := by
    rw [pow_zero, ieee.lit_1]
    rfl
  rw [← e1]
  rfl

/-- `Point::interpolate` with the weight `0.` returns the first point. -/
theorem Point.interpolate_zero (cos : ieee.B64 → ieee.B64) (a b : Point)
    (ha : ieee.InRange a) (hb : ieee.InRange b) :
    a.interpolate (ieee.model cos) b (ieee.B64.fin false 0 (-1074)) = a := by
  obtain ⟨a1, a2, a3, a4⟩ := ha
  obtain ⟨b1, b2, b3, b4⟩ := hb
  rw [Point.interpolate_model, ieee.blend_zero a.latitude b.latitude a1 a2 (by omega),
    ieee.blend_zero a.longitude b.longitude a3 a4 (by omega)]

/-- `Point::interpolate` with the weight `1.` returns the second point. -/
theorem Point.interpolate_one (cos : ieee.B64 → ieee.B64) (a b : Point)
    (ha : ieee.InRange a) (hb : ieee.InRange b) :
    a.interpolate (ieee.model cos) b (ieee.B64.fin false (2 ^ 52) (-52)) = b := by
  obtain ⟨a1, a2, a3, a4⟩ := ha
  obtain ⟨b1, b2, b3, b4⟩ := hb
  rw [Point.interpolate_model, ieee.blend_one a.latitude b.latitude b1 b2 (by omega),
    ieee.blend_one a.longitude b.longitude b3 b4 (by omega)]

namespace ieee

/-- The magnitude computed by `toInt` is the floor of the magnitude. -/
theorem toInt_magnitude (m : Nat) (e : Int) :
    (((if e < 0 then m / 2 ^ (-e).toNat else m * 2 ^ e.toNat : Nat)) : Int) =
      ⌊(m : ℚ) * (2 : ℚ) ^ e⌋ := by
  symm
  rw [Int.floor_eq_iff]
  by_cases he : e < 0
  · rw [if_pos he]
    have h := nat_div_floor m (2 ^ (-e).toNat) (pow_pos (by norm_num) _)
    have e1 : (m : ℚ) * (2 : ℚ) ^ e = (m : ℚ) / ((2 ^ (-e).toNat : Nat) : ℚ) := by
      rw [← two_zpow_toNat (-e) (by omega), zpow_neg, div_eq_mul_inv, inv_inv]
    rw [e1]
    simp only [Int.cast_natCast]
    exact h
  · rw [if_neg he]
    have e1 : (m : ℚ) * (2 : ℚ) ^ e = ((m * 2 ^ e.toNat : Nat) : ℚ) := by
      rw [Nat.cast_mul, ← two_zpow_toNat e (by omega)]
    rw [e1]
    simp only [Int.cast_natCast]
    constructor
    · exact le_refl _
    · linarith

/-- `toInt` is the truncation toward zero of the value, when that is in the
range of `std::int32_t`. -/
theorem toInt_trunc (s : Bool) (m : Nat) (e : Int)
    (hr : -2 ^ 31 ≤ trunc (val (.fin s m e)) ∧ trunc (val (.fin s m e)) < 2 ^ 31) :
    toInt (.fin s m e) = trunc (val (.fin s m e)) := by
  have hmag := toInt_magnitude m e
  have hnn : (0 : ℚ) ≤ (m : ℚ) * (2 : ℚ) ^ e :=
    mul_nonneg (Nat.cast_nonneg _) (le_of_lt (two_zpow_pos e))
  have htr : trunc (val (.fin s m e)) =
      (if s then -(⌊(m : ℚ) * (2 : ℚ) ^ e⌋) else ⌊(m : ℚ) * (2 : ℚ) ^ e⌋) := by
    unfold trunc val
    cases s with
    | false =>
      simp only [Bool.false_eq_true, if_false, one_mul]
      rw [if_pos hnn]
    | true =>
      simp only [if_true, neg_one_mul]
      by_cases h0 : (m : ℚ) * (2 : ℚ) ^ e = 0
      · rw [h0]
        simp
      · have hpos : (0 : ℚ) < (m : ℚ) * (2 : ℚ) ^ e := lt_of_le_of_ne hnn (Ne.symm h0)
        rw [if_neg (by linarith), Int.ceil_neg]
  rw [htr] at hr ⊢
  unfold toInt
  simp only
  rw [hmag]
  rw [if_pos hr]

end ieee

theorem blend_trunc_third :
    blend_trunc 0 3 (ieee.val (.fin false 6004799503160661 (-54))) = 0 ∧
    blend_trunc 4 10 (ieee.val (.fin false 6004799503160661 (-54))) = 5 ∧
    blend_trunc (-3) 0 (ieee.val (.fin false (2 ^ 52) (-53))) = -1 := by
  refine ⟨?_, ?_, ?_⟩
  · unfold blend_trunc ieee.trunc
    rw [ieee.val_fin_false]
    norm_num
  · unfold blend_trunc ieee.trunc
    rw [ieee.val_fin_false]
    norm_num
  · unfold blend_trunc ieee.trunc
    rw [ieee.val_fin_false]
    norm_num
    rw [Int.ceil_eq_iff]
    norm_num

set_option maxRecDepth 100000 in
set_option exponentiation.threshold 4000 in
/-- Counterexample to C18 as stated: for `a = 0`, `b = 3` and the weight
`w = 6004799503160661 * 2^-54` (the `double` nearest to 1/3, which lies in
`[0, 1]`) `interpolate` returns 1 in each coordinate, while `a + w * (b - a)`
is `1 - 2^-54` and truncates to 0.  The same weight is the one the test
`Test interpolation` produces as `10. / 30.`: there `interpolate` returns 6 for
`a = 4`, `b = 10`, while the exact blend truncates to 5. -/
theorem interpolate_rounds_before_truncation :
    ieee.le (.fin false 0 (-1074)) (.fin false 6004799503160661 (-54)) = true ∧
    ieee.le (.fin false 6004799503160661 (-54)) (.fin false (2 ^ 52) (-52)) = true ∧
    Point.interpolate (ieee.model ieee.cos_unit) ⟨0, 0⟩ ⟨3, 3⟩
      (.fin false 6004799503160661 (-54)) = ⟨1, 1⟩ ∧
    blend_trunc 0 3 (ieee.val (.fin false 6004799503160661 (-54))) = 0 ∧
    (Point.interpolate (ieee.model ieee.cos_unit) ⟨0, 0⟩ ⟨3, 3⟩
      (.fin false 6004799503160661 (-54))).latitude ≠
        blend_trunc 0 3 (ieee.val (.fin false 6004799503160661 (-54))) ∧
    ieee.div (ieee.rndZ false 10 0) (ieee.rndZ false 30 0) =
      .fin false 6004799503160661 (-54) ∧
    Point.interpolate (ieee.model ieee.cos_unit) ⟨4, 2⟩ ⟨10, 5⟩
      (.fin false 6004799503160661 (-54)) = ⟨6, 3⟩ ∧
    blend_trunc 4 10 (ieee.val (.fin false 6004799503160661 (-54))) = 5 := by
  have h1 : Point.interpolate (ieee.model ieee.cos_unit) ⟨0, 0⟩ ⟨3, 3⟩
      (.fin false 6004799503160661 (-54)) = ⟨1, 1⟩ := by decide
  refine ⟨by decide, by decide, h1, blend_trunc_third.1, ?_, by decide, by decide,
    blend_trunc_third.2.1⟩
  rw [h1, blend_trunc_third.1]
  decide

/-! ### `split` on its own gridded output -/

theorem grid_stamp_length (dti : Nat) (t : Nat) (xs : List Point) :
    (grid_stamp dti t xs).length = xs.length := by
  induction xs generalizing t with
  | nil => rfl
  | cons x xs ih => simp [grid_stamp, ih]

theorem grid_stamp_append (dti : Nat) (t : Nat) (xs ys : List Point) :
    grid_stamp dti t (xs ++ ys) =
      grid_stamp dti t xs ++ grid_stamp dti (t + xs.length * dti) ys := by
  induction xs generalizing t with
  | nil => simp [grid_stamp]
  | cons x xs ih =>
    have e : t + dti + xs.length * dti = t + (xs.length + 1) * dti := by ring
    show { t := t, x := x } :: grid_stamp dti (t + dti) (xs ++ ys) =
      { t := t, x := x } :: grid_stamp dti (t + dti) xs ++
        grid_stamp dti (t + (xs.length + 1) * dti) ys
    rw [ih, e]
    rfl

theorem grid_stamp_getElem? (dti : Nat) (t : Nat) (xs : List Point) (j : Nat) :
    (grid_stamp dti t xs)[j]? = xs[j]?.map (fun x => { t := t + j * dti, x := x }) := by
  induction xs generalizing t j with
  | nil => simp [grid_stamp]
  | cons x xs ih =>
    cases j with
    | zero => simp [grid_stamp]
    | succ j =>
      simp only [grid_stamp, List.getElem?_cons_succ, ih]
      congr 1
      funext y
      congr 1
      ring

theorem grid_stamp_mem (dti : Nat) (t : Nat) (xs : List Point) (p : Position)
    (h : p ∈ grid_stamp dti t xs) : ∃ j, j < xs.length ∧ p.t = t + j * dti ∧ xs[j]? = some p.x := by
  obtain ⟨j, hj⟩ := List.mem_iff_getElem?.1 h
  rw [grid_stamp_getElem?] at hj
  cases hx : xs[j]? with
  | none => simp [hx] at hj
  | some x =>
    simp only [hx, Option.map_some', Option.some.injEq] at hj
    subst hj
    have hlt : j < xs.length := by
      by_contra hc
      rw [List.getElem?_eq_none (by omega)] at hx
      cases hx
    exact ⟨j, hlt, rfl, hx⟩

theorem grid_stamp_sorted (dti : Nat) (t : Nat) (xs : List Point) :
    (grid_stamp dti t xs).Pairwise (fun a b => a.t ≤ b.t) := by
  induction xs generalizing t with
  | nil => simp [grid_stamp]
  | cons x xs ih =>
    simp only [grid_stamp, List.pairwise_cons]
    refine ⟨?_, ih _⟩
    intro p hp
    obtain ⟨j, _, hj, _⟩ := grid_stamp_mem dti _ xs p hp
    show t ≤ p.t
    omega

theorem grid_stamp_getLast? (dti : Nat) (t : Nat) (xs : List Point) (x : Point) :
    (grid_stamp dti t (xs ++ [x])).getLast? = some { t := t + xs.length * dti, x := x } := by
  rw [grid_stamp_append]
  simp [grid_stamp]

namespace ieee

theorem ofNat_zero_fin : rndZ false 0 0 = .fin false 0 (-1074) := by
  simp [rndZ, rnd]

theorem ofNat_nonzero (n : Nat) (h0 : 0 < n) (h : n < U32) :
    ∃ k f, rndZ false n 0 = .fin false k f ∧ k ≠ 0 := by
  have hU : n < U64 := by
    unfold U32 at h
    unfold U64
    omega
  obtain ⟨⟨k, f, hk⟩, hv⟩ := ofNat_pos n h0 hU
  refine ⟨k, f, hk, ?_⟩
  rintro rfl
  rw [hk, val_fin_false] at hv
  norm_num at hv

/-- The weight of a grid time that coincides with the earlier position. -/
theorem weight_zero (n : Nat) (h0 : 0 < n) (h : n < U32) :
    div (rndZ false 0 0) (rndZ false n 0) = .fin false 0 (-1074) := by
  obtain ⟨k, f, hk, hk0⟩ := ofNat_nonzero n h0 h
  rw [hk, ofNat_zero_fin, div_zero_num _ _ _ hk0]

/-- The weight of a grid time that coincides with the later position. -/
theorem weight_one (n : Nat) (h0 : 0 < n) (h : n < U32) :
    div (rndZ false n 0) (rndZ false n 0) = .fin false (2 ^ 52) (-52) := by
  obtain ⟨k, f, hk, hk0⟩ := ofNat_nonzero n h0 h
  rw [hk, div_self_one _ _ hk0]

end ieee

/-- On a trajectory whose positions lie on the grid, the value `interpolate`
computes for the `i`-th grid time is the `i`-th point. -/
theorem grid_point_stamped (cos : ieee.B64 → ieee.B64) (dti t : Nat) (sq : List Point)
    (hdti : 0 < dti) (hU : dti < U32) (hin : ∀ p ∈ sq, ieee.InRange p) (i : Nat) (pt : Point)
    (hi : i < sq.length)
    (h : IsGridPoint (ieee.model cos) (grid_stamp dti t sq) (t + i * dti) pt) :
    sq[i]? = some pt := by
  obtain ⟨j, pj, pj1, h1, h2, h3, h4, h5⟩ := h
  rw [grid_stamp_getElem?] at h1 h2
  cases hx : sq[j]? with
  | none => simp [hx] at h1
  | some x =>
    cases hy : sq[j + 1]? with
    | none => simp [hy] at h2
    | some y =>
      simp only [hx, hy, Option.map_some', Option.some.injEq] at h1 h2
      subst h1
      subst h2
      simp only at h3 h5
      have hxin : ieee.InRange x := hin x (List.mem_iff_getElem?.2 ⟨j, hx⟩)
      have hyin : ieee.InRange y := hin y (List.mem_iff_getElem?.2 ⟨j + 1, hy⟩)
      have hij : i ≤ j + 1 := by
        by_contra hc
        have : (j + 1 + 1) * dti ≤ i * dti := Nat.mul_le_mul_right _ (by omega)
        have e : (j + 1 + 1) * dti = (j + 1) * dti + dti := by ring
        omega
      have hden : t + (j + 1) * dti - (t + j * dti) = dti := by
        have e : (j + 1) * dti = j * dti + dti := by ring
        omega
      rw [hden] at h5
      by_cases hlast : i = j + 1
      · -- the grid time is the time of the later position
        have hnum : t + i * dti - (t + j * dti) = dti := by
          rw [hlast]
          exact hden
        rw [hnum] at h5
        have hw : (ieee.model cos).div ((ieee.model cos).ofNat dti) ((ieee.model cos).ofNat dti) =
            ieee.B64.fin false (2 ^ 52) (-52) := ieee.weight_one dti hdti hU
        rw [hw, Point.interpolate_one cos x y hxin hyin] at h5
        rw [hlast, hy, h5]
      · -- otherwise the pair is the first one and the grid time is its start
        have hj0 : j = 0 := by
          by_contra hc
          have hq := h4 (j - 1) (by omega) { t := t + j * dti, x := x } (by
            rw [grid_stamp_getElem?]
            have e : j - 1 + 1 = j := by omega
            rw [e, hx]
            rfl)
          simp only at hq
          have : i * dti ≤ j * dti := Nat.mul_le_mul_right _ (by omega)
          omega
        subst hj0
        have hi0 : i = 0 := by omega
        subst hi0
        have hnum : t + 0 * dti - (t + 0 * dti) = 0 := by omega
        rw [hnum] at h5
        have hw : (ieee.model cos).div ((ieee.model cos).ofNat 0) ((ieee.model cos).ofNat dti) =
            ieee.B64.fin false 0 (-1074) := ieee.weight_zero dti hdti hU
        rw [hw, Point.interpolate_zero cos x y hxin hyin] at h5
        rw [hx, h5]

/-- Resampling a sequence that is stamped with the grid times returns the
sequence. -/
theorem interpolate_stamped (cos : ieee.B64 → ieee.B64) (dti t : Nat) (sq : List Point)
    (hdti : 0 < dti) (hlen : 2 ≤ sq.length) (hin : ∀ p ∈ sq, ieee.InRange p)
    (hU : t + (sq.length - 1) * dti < U32) :
    interpolate (ieee.model cos) (grid_stamp dti t sq) sq.length dti = some sq := by
  have hdU : dti < U32 := by
    have : 1 * dti ≤ (sq.length - 1) * dti := Nat.mul_le_mul_right _ (by omega)
    omega
  obtain ⟨x, rest, rfl⟩ : ∃ x rest, sq = x :: rest := by
    cases sq with
    | nil => simp at hlen
    | cons x rest => exact ⟨x, rest, rfl⟩
  obtain ⟨init, z, hz⟩ : ∃ init z, x :: rest = init ++ [z] :=
    ⟨(x :: rest).dropLast, (x :: rest).getLast (by simp),
      (List.dropLast_append_getLast (by simp)).symm⟩
  have hlen2 : (x :: rest).length = init.length + 1 := by rw [hz]; simp
  have hlast : (grid_stamp dti t (x :: rest)).getLast? =
      some { t := t + init.length * dti, x := z } := by
    rw [hz, grid_stamp_getLast?]
  obtain ⟨pts, h1, h2, h3⟩ := interpolate_grid (ieee.model cos) (grid_stamp dti t (x :: rest))
    { t := t, x := x } { t := t + init.length * dti, x := z } (x :: rest).length dti
    (by rw [grid_stamp_length]; exact hlen) rfl hlast (grid_stamp_sorted dti t _)
    (by
      intro p hp
      obtain ⟨j, hj, hjt, _⟩ := grid_stamp_mem dti t _ p hp
      have : j * dti ≤ ((x :: rest).length - 1) * dti := Nat.mul_le_mul_right _ (by omega)
      omega)
    (by
      show t + ((x :: rest).length - 1) * dti ≤ t + init.length * dti
      rw [hlen2]
      simp)
  rw [h1]
  congr 1
  apply List.ext_getElem?
  intro i
  by_cases hi : i < (x :: rest).length
  · obtain ⟨pt, hp1, hp2⟩ := h3 i hi
    rw [hp1, grid_point_stamped cos dti t (x :: rest) hdti hdU hin i pt hi hp2]
  · rw [List.getElem?_eq_none (by omega), List.getElem?_eq_none (by omega)]

/-- The completed segments of a gap-free trajectory on the grid: once the buffer
holds the first points of a sequence of `seq_length + 1` points, the segment
completes with the last of them. -/
theorem split.segments_stamped_aux (D : Dbl) (args : split_args D) (t : Nat)
    (rest : List Position) (hdti : 0 < args.dti)
    (hU : t + args.seq_length * args.dti < U32) (suf pre : List Point)
    (hpre : pre ≠ []) (hsuf : suf ≠ [])
    (hlen : pre.length + suf.length = args.seq_length + 1)
    (hgap : (grid_stamp args.dti t (pre ++ suf)).Chain'
      (fun p q => is_gap D args q p = false)) :
    split.segments D args (grid_stamp args.dti t pre) t
        (grid_stamp args.dti (t + pre.length * args.dti) suf ++ rest) =
      grid_stamp args.dti t (pre ++ suf) :: split.segments D args [] t rest := by
  induction suf generalizing pre with
  | nil => exact absurd rfl hsuf
  | cons x suf ih =>
    obtain ⟨init, z, hz⟩ : ∃ init z, pre = init ++ [z] :=
      ⟨pre.dropLast, pre.getLast hpre, (List.dropLast_append_getLast hpre).symm⟩
    have hlast : (grid_stamp args.dti t pre).getLast? =
        some { t := t + init.length * args.dti, x := z } := by
      rw [hz, grid_stamp_getLast?]
    have hsplit : grid_stamp args.dti t (pre ++ x :: suf) =
        grid_stamp args.dti t pre ++
          { t := t + pre.length * args.dti, x := x } ::
            grid_stamp args.dti (t + pre.length * args.dti + args.dti) suf := by
      rw [grid_stamp_append]
      rfl
    have hng : is_gap D args { t := t + pre.length * args.dti, x := x }
        { t := t + init.length * args.dti, x := z } = false := by
      rw [hsplit, List.chain'_append] at hgap
      exact hgap.2.2 _ hlast _ rfl
    have hmul : umul args.seq_length args.dti = args.seq_length * args.dti :=
      umul_eq _ _ (by omega)
    have hk : pre.length * args.dti ≤ args.seq_length * args.dti :=
      Nat.mul_le_mul_right _ (by simp only [List.length_cons] at hlen; omega)
    have hsub : usub (t + pre.length * args.dti) t = pre.length * args.dti := by
      rw [usub_eq _ _ (by omega) (by omega)]
      omega
    have hone : grid_stamp args.dti t pre ++ [{ t := t + pre.length * args.dti, x := x }] =
        grid_stamp args.dti t (pre ++ [x]) := by
      rw [grid_stamp_append]
      rfl
    show split.segments D args (grid_stamp args.dti t pre) t
        ({ t := t + pre.length * args.dti, x := x } ::
          (grid_stamp args.dti (t + pre.length * args.dti + args.dti) suf ++ rest)) = _
    rw [split.segments]
    simp only [hlast, hng, Bool.false_eq_true, if_false, hsub, hmul]
    cases suf with
    | nil =>
      have hkL : pre.length = args.seq_length := by
        simp only [List.length_cons, List.length_nil] at hlen
        omega
      rw [if_pos (by rw [hkL]), hone]
      rfl
    | cons y suf =>
      have hkL : pre.length < args.seq_length := by
        simp only [List.length_cons] at hlen
        omega
      have hlt : pre.length * args.dti < args.seq_length * args.dti :=
        Nat.mul_lt_mul_of_pos_right hkL hdti
      rw [if_neg (by omega), hone]
      have e : t + pre.length * args.dti + args.dti = t + (pre ++ [x]).length * args.dti := by
        rw [List.length_append, List.length_singleton]
        ring
      rw [e]
      have hlen2 : (pre ++ [x]).length + (y :: suf).length = args.seq_length + 1 := by
        rw [List.length_append, List.length_singleton]
        rw [List.length_cons] at hlen
        omega
      have hgap2 : (grid_stamp args.dti t ((pre ++ [x]) ++ y :: suf)).Chain'
          (fun p q => is_gap D args q p = false) := by
        rw [List.append_assoc]
        exact hgap
      have hih := ih (pre ++ [x]) (by simp) (by simp) hlen2 hgap2
      rw [hih]
      simp

/-- The first position of a sequence on the grid opens a new buffer. -/
theorem split.segments_stamped (D : Dbl) (args : split_args D) (t t0 : Nat)
    (rest : List Position) (hdti : 0 < args.dti) (hL : 1 ≤ args.seq_length)
    (hU : t + args.seq_length * args.dti < U32) (sq : List Point)
    (hlen : sq.length = args.seq_length + 1)
    (hgap : (grid_stamp args.dti t sq).Chain' (fun p q => is_gap D args q p = false)) :
    split.segments D args [] t0 (grid_stamp args.dti t sq ++ rest) =
      grid_stamp args.dti t sq :: split.segments D args [] t rest := by
  cases sq with
  | nil => simp at hlen
  | cons x suf =>
    have hsuf : suf ≠ [] := by
      rintro rfl
      simp at hlen
      omega
    have h := split.segments_stamped_aux D args t rest hdti hU suf [x] (by simp) hsuf
      (by simpa [Nat.add_comm] using hlen) hgap
    show split.segments D args [] t0
      ({ t := t, x := x } :: (grid_stamp args.dti (t + args.dti) suf ++ rest)) = _
    rw [split.segments]
    simp only [List.getLast?_nil]
    have e : t + [x].length * args.dti = t + args.dti := by simp
    rw [e] at h
    exact h

/-- The completed segments of a gap-free trajectory on the grid that consists of
sequences of `seq_length + 1` points are these sequences, and resampling each of
them returns its points. -/
theorem split.segments_of_chunks (cos : ieee.B64 → ieee.B64)
    (args : split_args (ieee.model cos)) (hdti : 0 < args.dti) (hL : 1 ≤ args.seq_length)
    (chunks : List (List Point)) (t t0 : Nat)
    (hlen : ∀ sq ∈ chunks, sq.length = args.seq_length + 1)
    (hin : ∀ sq ∈ chunks, ∀ p ∈ sq, ieee.InRange p)
    (hU : ∀ p ∈ grid_stamp args.dti t chunks.flatten, p.t < U32)
    (hgap : (grid_stamp args.dti t chunks.flatten).Chain'
      (fun p q => is_gap (ieee.model cos) args q p = false)) :
    List.Forall₂
      (fun seg seq => interpolate (ieee.model cos) seg (args.seq_length + 1) args.dti = some seq)
      (split.segments (ieee.model cos) args [] t0 (grid_stamp args.dti t chunks.flatten))
      chunks := by
  induction chunks generalizing t t0 with
  | nil =>
    simp only [List.flatten_nil, grid_stamp, split.segments]
    exact List.Forall₂.nil
  | cons sq chunks ih =>
    have hsq : sq.length = args.seq_length + 1 := hlen sq (List.mem_cons_self _ _)
    have happ : grid_stamp args.dti t (sq :: chunks).flatten =
        grid_stamp args.dti t sq ++
          grid_stamp args.dti (t + sq.length * args.dti) chunks.flatten := by
      rw [List.flatten_cons, grid_stamp_append]
    rw [happ] at hU hgap ⊢
    rw [List.chain'_append] at hgap
    have hUL : t + args.seq_length * args.dti < U32 := by
      obtain ⟨z, hz⟩ : ∃ z, sq[args.seq_length]? = some z := by
        have : args.seq_length < sq.length := by omega
        exact ⟨sq[args.seq_length], List.getElem?_eq_getElem this⟩
      have hm : ({ t := t + args.seq_length * args.dti, x := z } : Position) ∈
          grid_stamp args.dti t sq := by
        apply List.mem_iff_getElem?.2
        refine ⟨args.seq_length, ?_⟩
        rw [grid_stamp_getElem?, hz]
        rfl
      exact hU _ (List.mem_append_left _ hm)
    rw [split.segments_stamped (ieee.model cos) args t t0 _ hdti hL hUL sq hsq hgap.1]
    refine List.Forall₂.cons ?_ ?_
    · have h := interpolate_stamped cos args.dti t sq hdti (by omega)
        (hin sq (List.mem_cons_self _ _)) (by rw [hsq]; simpa using hUL)
      rw [hsq] at h
      exact h
    · exact ih _ _ (fun s hs => hlen s (List.mem_cons_of_mem _ hs))
        (fun s hs => hin s (List.mem_cons_of_mem _ hs))
        (fun p hp => hU p (List.mem_append_right _ hp)) hgap.2.1

theorem split_nil (D : Dbl) (args : split_args D) : split D [] args = some [] := rfl

set_option maxRecDepth 100000 in
set_option exponentiation.threshold 4000 in
/-- The first three pairs of the stamped equator output are no gap. -/
theorem equator_stamped_nogap_1 :
    is_gap (ieee.model ieee.cos_zero) (test_args (ieee.model ieee.cos_zero))
      ⟨5, ⟨0, 1⟩⟩ ⟨0, ⟨0, 0⟩⟩ = false ∧
    is_gap (ieee.model ieee.cos_zero) (test_args (ieee.model ieee.cos_zero))
      ⟨10, ⟨0, 2⟩⟩ ⟨5, ⟨0, 1⟩⟩ = false ∧
    is_gap (ieee.model ieee.cos_zero) (test_args (ieee.model ieee.cos_zero))
      ⟨15, ⟨0, 3⟩⟩ ⟨10, ⟨0, 2⟩⟩ = false := by
  decide

set_option maxRecDepth 100000 in
set_option exponentiation.threshold 4000 in
/-- The last two pairs of the stamped equator output are no gap. -/
theorem equator_stamped_nogap_2 :
    is_gap (ieee.model ieee.cos_zero) (test_args (ieee.model ieee.cos_zero))
      ⟨20, ⟨0, 4⟩⟩ ⟨15, ⟨0, 3⟩⟩ = false ∧
    is_gap (ieee.model ieee.cos_zero) (test_args (ieee.model ieee.cos_zero))
      ⟨25, ⟨0, 5⟩⟩ ⟨20, ⟨0, 4⟩⟩ = false := by
  decide

/-- The gap test on the positions of the stamped output of the test
`equator_trajectory`. -/
theorem equator_stamped_nogap :
    (grid_stamp 5 0 [⟨0, 0⟩, ⟨0, 1⟩, ⟨0, 2⟩, ⟨0, 3⟩, ⟨0, 4⟩, ⟨0, 5⟩]).Chain'
      (fun p q => is_gap (ieee.model ieee.cos_zero) (test_args (ieee.model ieee.cos_zero)) q p =
        false) := by
  simp only [grid_stamp, List.chain'_cons, List.chain'_singleton, and_true]
  exact ⟨equator_stamped_nogap_1.1, equator_stamped_nogap_1.2.1, equator_stamped_nogap_1.2.2,
    equator_stamped_nogap_2.1, equator_stamped_nogap_2.2⟩

set_option maxRecDepth 100000 in
set_option exponentiation.threshold 4000 in
/-- With `seq_length = 0` the four equator positions give two points. -/
theorem equator_zero_length_split :
    split (ieee.model ieee.cos_zero) equator_trajectory
      { test_args (ieee.model ieee.cos_zero) with seq_length := 0 } =
        some [⟨0, 0⟩, ⟨0, 4⟩] := by
  decide

set_option maxRecDepth 100000 in
set_option exponentiation.threshold 4000 in
/-- The two stamped points are no gap. -/
theorem equator_zero_length_nogap :
    ieee.le (Point.dist_nm (ieee.model ieee.cos_zero) ⟨0, 4⟩ ⟨0, 0⟩)
      ({ test_args (ieee.model ieee.cos_zero) with seq_length := 0 } :
        split_args (ieee.model ieee.cos_zero)).ds_max = true ∧
    is_gap (ieee.model ieee.cos_zero)
      { test_args (ieee.model ieee.cos_zero) with seq_length := 0 }
      ⟨5, ⟨0, 4⟩⟩ ⟨0, ⟨0, 0⟩⟩ = false := by
  decide

set_option maxRecDepth 100000 in
set_option exponentiation.threshold 4000 in
/-- With `seq_length = 0` the two stamped points give one point. -/
theorem equator_zero_length_again :
    split (ieee.model ieee.cos_zero) (grid_stamp 5 0 [⟨0, 0⟩, ⟨0, 4⟩])
      { test_args (ieee.model ieee.cos_zero) with seq_length := 0 } = some [⟨0, 0⟩] := by
  decide

/-- Counterexample to C19 as stated: with `seq_length = 0` (and `dti = 5 > 0`,
the other parameters those of the tests) `split` of the four equator positions
is `S = [(0, 0), (0, 4)]`; stamped with the grid times 0 and 5 the two positions
form neither a temporal gap (`5 <= dt_max = 15`) nor a spatial gap (the distance
is `<= ds_max`), yet `split` of the stamped trajectory is `[(0, 0)]`, not `S`. -/
theorem split_not_idempotent_for_zero_length :
    0 < ({ test_args (ieee.model ieee.cos_zero) with seq_length := 0 } :
      split_args (ieee.model ieee.cos_zero)).dti ∧
    split (ieee.model ieee.cos_zero) equator_trajectory
      { test_args (ieee.model ieee.cos_zero) with seq_length := 0 } =
        some [⟨0, 0⟩, ⟨0, 4⟩] ∧
    grid_stamp 5 0 [⟨0, 0⟩, ⟨0, 4⟩] = [⟨0, ⟨0, 0⟩⟩, ⟨5, ⟨0, 4⟩⟩] ∧
    (5 : Nat) ≤ ({ test_args (ieee.model ieee.cos_zero) with seq_length := 0 } :
      split_args (ieee.model ieee.cos_zero)).dt_max ∧
    ieee.le (Point.dist_nm (ieee.model ieee.cos_zero) ⟨0, 4⟩ ⟨0, 0⟩)
      ({ test_args (ieee.model ieee.cos_zero) with seq_length := 0 } :
        split_args (ieee.model ieee.cos_zero)).ds_max = true ∧
    is_gap (ieee.model ieee.cos_zero)
      { test_args (ieee.model ieee.cos_zero) with seq_length := 0 }
      ⟨5, ⟨0, 4⟩⟩ ⟨0, ⟨0, 0⟩⟩ = false ∧
    split (ieee.model ieee.cos_zero) (grid_stamp 5 0 [⟨0, 0⟩, ⟨0, 4⟩])
      { test_args (ieee.model ieee.cos_zero) with seq_length := 0 } = some [⟨0, 0⟩] ∧
    split (ieee.model ieee.cos_zero) (grid_stamp 5 0 [⟨0, 0⟩, ⟨0, 4⟩])
      { test_args (ieee.model ieee.cos_zero) with seq_length := 0 } ≠
        some [⟨0, 0⟩, ⟨0, 4⟩] := by
  refine ⟨by decide, equator_zero_length_split, rfl, by decide, equator_zero_length_nogap.1,
    equator_zero_length_nogap.2, equator_zero_length_again, ?_⟩
  rw [equator_zero_length_again]
  decide

/-- C19 (amended): in the binary64 model, for every trajectory `T` and parameter
set with `dti > 0` and `seq_length >= 1`, let `S = split(T, args)` and let `T'` be
the points of `S` stamped with the grid times 0, `dti`, `2 * dti`, ..., all of
them 32-bit values; if no two consecutive positions of `T'` form a gap under
`args`, then `split(T', args) = S`. -/
theorem split_idempotent_on_gridded_output (cos : ieee.B64 → ieee.B64)
    (args : split_args (ieee.model cos)) (T : Trajectory) (S : List Point)
    (hdti : 0 < args.dti) (hlen : 1 ≤ args.seq_length) (h32 : args.seq_length < U32)
    (hS : split (ieee.model cos) T args = some S)
    (htime : ∀ p ∈ grid_stamp args.dti 0 S, p.t < U32)
    (hgap : (grid_stamp args.dti 0 S).Chain'
      (fun p q => is_gap (ieee.model cos) args q p = false)) :
    split (ieee.model cos) (grid_stamp args.dti 0 S) args = some S := by
  obtain ⟨seqs, hF, hout⟩ := split_segments (ieee.model cos) T args S hS
  have hchunk : ∀ sq ∈ seqs.filter (split.accepted (ieee.model cos) args),
      sq.length = uadd args.seq_length 1 ∧ ∀ p ∈ sq, ieee.InRange p := by
    intro sq hsq
    obtain ⟨seg, _, hi⟩ := forall₂_mem_right _ _ _ hF sq (List.mem_filter.1 hsq).1
    exact ⟨interpolate_length _ _ _ _ _ hi, interpolate_inrange cos _ _ _ _ hi⟩
  have hfilter : (seqs.filter (split.accepted (ieee.model cos) args)).filter
      (split.accepted (ieee.model cos) args) =
        seqs.filter (split.accepted (ieee.model cos) args) :=
    List.filter_eq_self.2 (fun sq hsq => (List.mem_filter.1 hsq).2)
  by_cases hwrap : args.seq_length + 1 < U32
  · have hN : uadd args.seq_length 1 = args.seq_length + 1 := uadd_eq _ _ hwrap
    rw [hN] at hchunk
    have hF2 := split.segments_of_chunks cos args hdti hlen
      (seqs.filter (split.accepted (ieee.model cos) args)) 0 0
      (fun sq hsq => (hchunk sq hsq).1) (fun sq hsq => (hchunk sq hsq).2)
      (by rw [← hout]; exact htime) (by rw [← hout]; exact hgap)
    rw [← hN, ← hout] at hF2
    rw [split_of_segments (ieee.model cos) _ args _ hF2, hfilter, hout]
  · have hN : uadd args.seq_length 1 = 0 := by
      have e : args.seq_length + 1 = U32 := by omega
      unfold uadd
      rw [e, Nat.mod_self]
    have hnil : S = [] := by
      rw [hout]
      apply List.flatten_eq_nil_iff.2
      intro sq hsq
      have := (hchunk sq hsq).1
      rw [hN] at this
      exact List.length_eq_zero.1 this
    rw [hnil]
    rfl

set_option maxRecDepth 100000 in
set_option exponentiation.threshold 4000 in
/-- Witness of C19 (amended): the output of `split` on the equator positions with
the parameters of the tests. -/
theorem split_idempotent_on_gridded_output_witness :
    split (ieee.model ieee.cos_zero)
        (grid_stamp (test_args (ieee.model ieee.cos_zero)).dti 0
          [⟨0, 0⟩, ⟨0, 1⟩, ⟨0, 2⟩, ⟨0, 3⟩, ⟨0, 4⟩, ⟨0, 5⟩])
        (test_args (ieee.model ieee.cos_zero)) =
      some [⟨0, 0⟩, ⟨0, 1⟩, ⟨0, 2⟩, ⟨0, 3⟩, ⟨0, 4⟩, ⟨0, 5⟩] :=
  split_idempotent_on_gridded_output ieee.cos_zero (test_args (ieee.model ieee.cos_zero))
    equator_trajectory [⟨0, 0⟩, ⟨0, 1⟩, ⟨0, 2⟩, ⟨0, 3⟩, ⟨0, 4⟩, ⟨0, 5⟩]
    (by decide) (by decide) (by decide) equator_split
    (by
      intro p hp
      simp only [grid_stamp, test_args, List.mem_cons, List.mem_singleton,
        List.not_mem_nil, or_false] at hp
      rcases hp with rfl | rfl | rfl | rfl | rfl | rfl <;> decide)
    equator_stamped_nogap

/-! ### The range of the blend of `Point::interpolate` -/

namespace ieee

/-- The absolute error of rounding a value of magnitude at most `2^K` is at most
`2^(K - 53)`, and the result is finite. -/
theorem rndZ_err (s : Bool) (n : Nat) (g : Int) (K : Int) (hK1 : -1021 ≤ K) (hK2 : K ≤ 1023)
    (hx : (n : ℚ) * (2 : ℚ) ^ g ≤ (2 : ℚ) ^ K) :
    ∃ m e, rndZ s n g = .fin s m e ∧ Canon m e ∧
      |(m : ℚ) * (2 : ℚ) ^ e - (n : ℚ) * (2 : ℚ) ^ g| ≤ (2 : ℚ) ^ (K - 53) := by
  by_cases hn : n = 0
  · subst hn
    refine ⟨0, -1074, rndZ_zero _ _, canon_zero, ?_⟩
    simp only [Nat.cast_zero, zero_mul, sub_self, abs_zero]
    exact le_of_lt (two_zpow_pos _)
  · obtain ⟨q, E, m, hE, _, hq, hx1, _, _, herr, _, hres⟩ :=
      rnd_spec s _ _ (rndZ_num_pos n g (Nat.pos_of_ne_zero hn)) (rndZ_den_pos g)
    rw [rndZ_num_den] at hx1 herr
    have hstep : (2 : ℚ) ^ E ≤ (2 : ℚ) ^ (K - 52) := by
      rcases hq with h | h
      · rw [h]
        exact two_zpow_mono (by omega)
      · have hq52 : (2 : ℚ) ^ (52 : Int) ≤ (q : ℚ) := by
          have : ((2 ^ 52 : Nat) : ℚ) ≤ (q : ℚ) := by exact_mod_cast h
          rw [two_zpow_toNat 52 (by norm_num)]
          exact this
        have h1 : (2 : ℚ) ^ (52 : Int) * (2 : ℚ) ^ E ≤ (2 : ℚ) ^ K :=
          le_trans (le_trans (mul_le_mul_of_nonneg_right hq52 (le_of_lt (two_zpow_pos E))) hx1) hx
        have h2 : (2 : ℚ) ^ K = (2 : ℚ) ^ (52 : Int) * (2 : ℚ) ^ (K - 52) := by
          rw [← two_zpow_add]
          congr 1
          ring
        rw [h2] at h1
        exact le_of_mul_le_mul_left h1 (two_zpow_pos 52)
    have hhalf : (2 : ℚ) ^ (K - 52) = 2 * (2 : ℚ) ^ (K - 53) := by
      rw [← two_zpow_succ]
      congr 1
      ring
    have herr2 : |(m : ℚ) * (2 : ℚ) ^ E - (n : ℚ) * (2 : ℚ) ^ g| ≤ (2 : ℚ) ^ (K - 53) := by
      have : 2 * |(m : ℚ) * (2 : ℚ) ^ E - (n : ℚ) * (2 : ℚ) ^ g| ≤ 2 * (2 : ℚ) ^ (K - 53) := by
        rw [← hhalf]
        exact le_trans herr hstep
      linarith
    rcases hres with ⟨_, hbig⟩ | ⟨m3, e3, h1, h2, h3⟩
    · exfalso
      have hub : (m : ℚ) * (2 : ℚ) ^ E ≤ (2 : ℚ) ^ K + (2 : ℚ) ^ (K - 53) := by
        have := (abs_le.1 herr2).2
        linarith
      have h53 : (2 : ℚ) ^ (K - 53) ≤ (2 : ℚ) ^ K := two_zpow_mono (by omega)
      have hK : (2 : ℚ) ^ K + (2 : ℚ) ^ K = (2 : ℚ) ^ (K + 1) := by
        rw [two_zpow_succ]
        ring
      have hlt : (2 : ℚ) ^ (K + 1) ≤ (2 : ℚ) ^ (1024 : Int) := two_zpow_mono (by omega)
      have hpos := two_zpow_pos (K - 53)
      have hKK : (2 : ℚ) ^ (K - 53) < (2 : ℚ) ^ K := by
        have e : (2 : ℚ) ^ K = (2 : ℚ) ^ (K - 53) * (2 : ℚ) ^ (53 : Int) := by
          rw [← two_zpow_add]
          congr 1
          ring
        have e53 : (1 : ℚ) < (2 : ℚ) ^ (53 : Int) := by norm_num
        rw [e]
        nlinarith
      linarith
    · refine ⟨m3, e3, h1, h2, ?_⟩
      rw [h3]
      exact herr2

theorem val_fin_true (m : Nat) (e : Int) : val (.fin true m e) = -((m : ℚ) * (2 : ℚ) ^ e) := by
  simp [val]

theorem val_abs_fin (s : Bool) (m : Nat) (e : Int) :
    |val (.fin s m e)| = (m : ℚ) * (2 : ℚ) ^ e := by
  have h : (0 : ℚ) ≤ (m : ℚ) * (2 : ℚ) ^ e :=
    mul_nonneg (Nat.cast_nonneg _) (le_of_lt (two_zpow_pos e))
  cases s
  · rw [val_fin_false, abs_of_nonneg h]
  · rw [val_fin_true, abs_neg, abs_of_nonneg h]

/-- The scaled integer of a finite value represents its value. -/
theorem scaled_cast (s : Bool) (m : Nat) (e g : Int) (h : g ≤ e) :
    ((scaled s m e g : Int) : ℚ) * (2 : ℚ) ^ g = val (.fin s m e) := by
  have hv := scaled_val m e g h
  unfold scaled
  cases s
  · rw [val_fin_false, ← hv]
    simp
  · rw [val_fin_true, ← hv]
    simp

/-- Rounding with a sign: the result is finite with that sign, within the
rounding error of the argument, and not above a grid point above it. -/
theorem rndZ_signed (s : Bool) (n : Nat) (g : Int) (K : Int) (hK1 : -1021 ≤ K)
    (hK2 : K ≤ 1023) (hx : (n : ℚ) * (2 : ℚ) ^ g ≤ (2 : ℚ) ^ K) :
    ∃ m e, rndZ s n g = .fin s m e ∧ (n = 0 → m = 0) ∧
      |(m : ℚ) * (2 : ℚ) ^ e - (n : ℚ) * (2 : ℚ) ^ g| ≤ (2 : ℚ) ^ (K - 53) ∧
      ∀ (M : Nat) (F : Int), Canon M F → (n : ℚ) * (2 : ℚ) ^ g ≤ (M : ℚ) * (2 : ℚ) ^ F →
        (m : ℚ) * (2 : ℚ) ^ e ≤ (M : ℚ) * (2 : ℚ) ^ F := by
  obtain ⟨m, e, h1, _, h3⟩ := rndZ_err s n g K hK1 hK2 hx
  refine ⟨m, e, h1, ?_, h3, ?_⟩
  · intro h0
    subst h0
    rw [rndZ_zero] at h1
    injection h1 with _ hm _
    exact hm.symm
  · intro M F hM hle
    obtain ⟨⟨m2, e2, h4, _⟩, h5⟩ := rndZ_le_grid n g M F hM hle
    have h6 : rndZ s n g = .fin s m2 e2 := by
      rw [rndZ_withSign, h4]
      rfl
    rw [h1] at h6
    injection h6 with _ hm he
    rw [h4, val_fin_false] at h5
    rw [hm, he]
    exact h5

/-- The sum of two finite values of bounded magnitude: finite, with the sign of
the exact sum, within the rounding error, and not beyond a grid point that bounds
the exact sum. -/
theorem add_signed (s : Bool) (m : Nat) (e : Int) (t : Bool) (k : Nat) (f : Int) (K : Int)
    (hK1 : -1021 ≤ K) (hK2 : K ≤ 1023)
    (hV : |val (.fin s m e) + val (.fin t k f)| ≤ (2 : ℚ) ^ K) :
    ∃ s1 m1 e1, add (.fin s m e) (.fin t k f) = .fin s1 m1 e1 ∧
      (0 ≤ val (.fin s m e) + val (.fin t k f) → 0 ≤ val (.fin s1 m1 e1)) ∧
      (val (.fin s m e) + val (.fin t k f) ≤ 0 → val (.fin s1 m1 e1) ≤ 0) ∧
      (0 ≤ val (.fin s m e) + val (.fin t k f) → s = false → s1 = false) ∧
      |val (.fin s1 m1 e1) - (val (.fin s m e) + val (.fin t k f))| ≤ (2 : ℚ) ^ (K - 53) ∧
      ∀ (M : Nat) (F : Int), Canon M F →
        |val (.fin s m e) + val (.fin t k f)| ≤ (M : ℚ) * (2 : ℚ) ^ F →
        |val (.fin s1 m1 e1)| ≤ (M : ℚ) * (2 : ℚ) ^ F := by
  have hc : ((scaled s m e (min e f) + scaled t k f (min e f) : Int) : ℚ) * (2 : ℚ) ^ (min e f) =
      val (.fin s m e) + val (.fin t k f) := by
    rw [Int.cast_add, add_mul, scaled_cast _ _ _ _ (min_le_left e f),
      scaled_cast _ _ _ _ (min_le_right e f)]
  generalize val (.fin s m e) + val (.fin t k f) = V at hV hc ⊢
  have hadd : add (.fin s m e) (.fin t k f) =
      if scaled s m e (min e f) + scaled t k f (min e f) = 0 then .fin (s && t) 0 (-1074)
      else rndZ (decide (scaled s m e (min e f) + scaled t k f (min e f) < 0))
        (scaled s m e (min e f) + scaled t k f (min e f)).natAbs (min e f) := rfl
  generalize scaled s m e (min e f) + scaled t k f (min e f) = c at hc hadd
  have hg := two_zpow_pos (min e f)
  by_cases h0 : c = 0
  · rw [if_pos h0] at hadd
    subst h0
    have hV0 : V = 0 := by
      rw [← hc]
      simp
    subst hV0
    refine ⟨s && t, 0, -1074, hadd, ?_, ?_, ?_, ?_, ?_⟩
    · intro _
      simp [val]
    · intro _
      simp [val]
    · intro _ hs
      rw [hs]
      rfl
    · have : val (.fin (s && t) 0 (-1074)) = 0 := by simp [val]
      rw [this]
      simp only [sub_self, abs_zero]
      exact le_of_lt (two_zpow_pos _)
    · intro M F _ _
      rw [val_abs_fin]
      simp only [Nat.cast_zero, zero_mul]
      exact mul_nonneg (Nat.cast_nonneg _) (le_of_lt (two_zpow_pos F))
  · rw [if_neg h0] at hadd
    have habs : ((c.natAbs : Nat) : ℚ) * (2 : ℚ) ^ (min e f) = |V| := by
      rw [← hc, abs_mul, abs_of_pos hg]
      congr 1
      rw [Nat.cast_natAbs, Int.cast_abs]
    obtain ⟨m1, e1, h1, _, h3, h4⟩ := rndZ_signed (decide (c < 0)) c.natAbs (min e f) K hK1 hK2
      (by rw [habs]; exact hV)
    rw [habs] at h3 h4
    rw [h1] at hadd
    have hm1 : (0 : ℚ) ≤ (m1 : ℚ) * (2 : ℚ) ^ e1 :=
      mul_nonneg (Nat.cast_nonneg _) (le_of_lt (two_zpow_pos e1))
    by_cases hneg : c < 0
    · have hVneg : V < 0 := by
        rw [← hc]
        exact mul_neg_of_neg_of_pos (by exact_mod_cast hneg) hg
      have hd : decide (c < 0) = true := decide_eq_true hneg
      rw [hd] at hadd
      refine ⟨true, m1, e1, hadd, ?_, ?_, ?_, ?_, ?_⟩
      · intro h
        linarith
      · intro _
        rw [val_fin_true]
        linarith
      · intro h
        linarith
      · rw [val_fin_true]
        rw [abs_of_neg hVneg] at h3
        have e : -((m1 : ℚ) * (2 : ℚ) ^ e1) - V = -((m1 : ℚ) * (2 : ℚ) ^ e1 - -V) := by ring
        rw [e, abs_neg]
        exact h3
      · intro M F hM hle
        rw [val_abs_fin]
        exact h4 M F hM hle
    · have hpos : 0 < c := by omega
      have hVpos : 0 < V := by
        rw [← hc]
        exact mul_pos (by exact_mod_cast hpos) hg
      have hd : decide (c < 0) = false := decide_eq_false hneg
      rw [hd] at hadd
      refine ⟨false, m1, e1, hadd, ?_, ?_, ?_, ?_, ?_⟩
      · intro _
        rw [val_fin_false]
        exact hm1
      · intro h
        linarith
      · intro _ _
        rfl
      · rw [val_fin_false]
        rw [abs_of_pos hVpos] at h3
        exact h3
      · intro M F hM hle
        rw [val_abs_fin]
        exact h4 M F hM hle

/-- The comparison `le` on finite values is the comparison of the values. -/
theorem le_fin_val (s : Bool) (m : Nat) (e : Int) (t : Bool) (k : Nat) (f : Int) :
    le (.fin s m e) (.fin t k f) = true ↔ val (.fin s m e) ≤ val (.fin t k f) := by
  show decide (scaled s m e (min e f) ≤ scaled t k f (min e f)) = true ↔ _
  rw [decide_eq_true_iff, ← scaled_cast s m e (min e f) (min_le_left e f),
    ← scaled_cast t k f (min e f) (min_le_right e f)]
  have hg := two_zpow_pos (min e f)
  constructor
  · intro h
    exact mul_le_mul_of_nonneg_right (by exact_mod_cast h) (le_of_lt hg)
  · intro h
    have := le_of_mul_le_mul_right h hg
    exact_mod_cast this

/-- A weight in `[0, 1]` is finite, non-negative or a zero, and at most one. -/
theorem weight_unit (w : B64) (h0 : le (.fin false 0 (-1074)) w = true)
    (h1 : le w (.fin false (2 ^ 52) (-52)) = true) :
    ∃ sw mw ew, w = .fin sw mw ew ∧ (sw = false ∨ mw = 0) ∧
      (mw : ℚ) * (2 : ℚ) ^ ew ≤ 1 := by
  cases w with
  | nan => exact absurd h0 (by simp [le])
  | inf t =>
    cases t
    · exact absurd h1 (by simp [le])
    · exact absurd h0 (by simp [le])
  | fin sw mw ew =>
    rw [le_fin_val] at h0 h1
    have hone : val (.fin false (2 ^ 52) (-52)) = 1 := by
      rw [val_fin_false]
      norm_num
    have hzero : val (.fin false 0 (-1074)) = 0 := by
      rw [val_fin_false]
      simp
    rw [hone] at h1
    rw [hzero] at h0
    have hnn : (0 : ℚ) ≤ (mw : ℚ) * (2 : ℚ) ^ ew :=
      mul_nonneg (Nat.cast_nonneg _) (le_of_lt (two_zpow_pos ew))
    cases sw
    · rw [val_fin_false] at h1
      exact ⟨false, mw, ew, rfl, Or.inl rfl, h1⟩
    · rw [val_fin_true] at h0
      have hz : (mw : ℚ) * (2 : ℚ) ^ ew = 0 := le_antisymm (by linarith) hnn
      have hm : mw = 0 := by
        rcases mul_eq_zero.1 hz with h | h
        · exact_mod_cast h
        · exact absurd h (ne_of_gt (two_zpow_pos ew))
      refine ⟨true, mw, ew, rfl, Or.inr hm, ?_⟩
      rw [hz]
      norm_num

/-- The product of a weight in `[0, 1]` and a converted 32-bit integer: finite,
between zero and the integer, and within `2^-22` of the exact product. -/
theorem mul_int_val (sw : Bool) (mw : Nat) (ew : Int) (hw : sw = false ∨ mw = 0)
    (hw1 : (mw : ℚ) * (2 : ℚ) ^ ew ≤ 1) (z : Int) (hz : z.natAbs ≤ 2 ^ 31) :
    ∃ s m e, mul (.fin sw mw ew) (rndZ (decide (z < 0)) z.natAbs 0) = .fin s m e ∧
      |val (.fin s m e) - (mw : ℚ) * (2 : ℚ) ^ ew * (z : ℚ)| ≤ (2 : ℚ) ^ (-22 : Int) ∧
      (0 ≤ z → 0 ≤ val (.fin s m e) ∧ val (.fin s m e) ≤ (z : ℚ)) ∧
      (z ≤ 0 → (z : ℚ) ≤ val (.fin s m e) ∧ val (.fin s m e) ≤ 0) := by
  obtain ⟨k, f, hk1, hkc, hkv⟩ := ofInt_exact z (by
    have : (2 : Nat) ^ 31 < 2 ^ 53 := by norm_num
    omega)
  rw [hk1]
  have hmul : mul (.fin sw mw ew) (.fin (decide (z < 0)) k f) =
      rndZ (xor sw (decide (z < 0))) (mw * k) (ew + f) := rfl
  rw [hmul]
  have hWnn : (0 : ℚ) ≤ (mw : ℚ) * (2 : ℚ) ^ ew :=
    mul_nonneg (Nat.cast_nonneg _) (le_of_lt (two_zpow_pos ew))
  have hzabs : ((z.natAbs : Nat) : ℚ) = |(z : ℚ)| := by
    rw [Nat.cast_natAbs, Int.cast_abs]
  have hzle : |(z : ℚ)| ≤ (2 : ℚ) ^ (31 : Int) := by
    rw [← hzabs]
    have : ((z.natAbs : Nat) : ℚ) ≤ ((2 ^ 31 : Nat) : ℚ) := by exact_mod_cast hz
    rw [two_zpow_toNat 31 (by norm_num)]
    exact this
  have hP : ((mw * k : Nat) : ℚ) * (2 : ℚ) ^ (ew + f) =
      (mw : ℚ) * (2 : ℚ) ^ ew * |(z : ℚ)| := by
    rw [← hzabs, ← hkv, two_zpow_add]
    push_cast
    ring
  have hPle : (mw : ℚ) * (2 : ℚ) ^ ew * |(z : ℚ)| ≤ |(z : ℚ)| := by
    have := mul_le_mul_of_nonneg_right hw1 (abs_nonneg (z : ℚ))
    linarith
  obtain ⟨m, e, h1, hzero, herr, hgrid⟩ := rndZ_signed (xor sw (decide (z < 0))) (mw * k)
    (ew + f) 31 (by norm_num) (by norm_num) (by rw [hP]; exact le_trans hPle hzle)
  have hm : (m : ℚ) * (2 : ℚ) ^ e ≤ |(z : ℚ)| := by
    have := hgrid k f hkc (by rw [hP, hkv, hzabs]; exact hPle)
    rw [hkv, hzabs] at this
    exact this
  have hmnn : (0 : ℚ) ≤ (m : ℚ) * (2 : ℚ) ^ e :=
    mul_nonneg (Nat.cast_nonneg _) (le_of_lt (two_zpow_pos e))
  rw [hP] at herr
  have e22 : (31 : Int) - 53 = -22 := by norm_num
  rw [e22] at herr
  refine ⟨_, m, e, h1, ?_⟩
  by_cases hm0 : mw = 0
  · have hmz : m = 0 := hzero (by rw [hm0, Nat.zero_mul])
    have hv : val (.fin (xor sw (decide (z < 0))) m e) = 0 := by
      rw [hmz]
      simp [val]
    rw [hv, hm0]
    refine ⟨?_, ?_, ?_⟩
    · simp only [Nat.cast_zero, zero_mul, sub_self, abs_zero]
      exact le_of_lt (two_zpow_pos _)
    · intro h
      exact ⟨le_refl _, by exact_mod_cast h⟩
    · intro h
      exact ⟨by exact_mod_cast h, le_refl _⟩
  · have hsw : sw = false := by
      rcases hw with h | h
      · exact h
      · exact absurd h hm0
    subst hsw
    rw [Bool.false_xor]
    by_cases hneg : z < 0
    · have hq : (z : ℚ) < 0 := by exact_mod_cast hneg
      rw [decide_eq_true hneg, val_fin_true]
      rw [abs_of_neg hq] at herr hm
      refine ⟨?_, ?_, ?_⟩
      · have e : -((m : ℚ) * (2 : ℚ) ^ e) - (mw : ℚ) * (2 : ℚ) ^ ew * (z : ℚ) =
            -((m : ℚ) * (2 : ℚ) ^ e - (mw : ℚ) * (2 : ℚ) ^ ew * -(z : ℚ)) := by ring
        rw [e, abs_neg]
        exact herr
      · intro h
        omega
      · intro _
        exact ⟨by linarith, by linarith⟩
    · have hq : (0 : ℚ) ≤ (z : ℚ) := by
        have : 0 ≤ z := by omega
        exact_mod_cast this
      rw [decide_eq_false hneg, val_fin_false]
      rw [abs_of_nonneg hq] at herr hm
      refine ⟨herr, ?_, ?_⟩
      · intro _
        exact ⟨hmnn, hm⟩
      · intro h
        have : (z : ℚ) ≤ 0 := by exact_mod_cast h
        exact ⟨by linarith, by linarith⟩

/-- The value `1. - w` for a weight in `[0, 1]`: finite, not negative, at most
one and within `2^-53` of the exact difference. -/
theorem one_sub_signed (sw : Bool) (mw : Nat) (ew : Int) (hw : sw = false ∨ mw = 0)
    (hw1 : (mw : ℚ) * (2 : ℚ) ^ ew ≤ 1) :
    ∃ mu eu, sub (.fin false (2 ^ 52) (-52)) (.fin sw mw ew) = .fin false mu eu ∧
      (mu : ℚ) * (2 : ℚ) ^ eu ≤ 1 ∧
      |(mu : ℚ) * (2 : ℚ) ^ eu - (1 - (mw : ℚ) * (2 : ℚ) ^ ew)| ≤ (2 : ℚ) ^ (-53 : Int) := by
  have hWnn : (0 : ℚ) ≤ (mw : ℚ) * (2 : ℚ) ^ ew :=
    mul_nonneg (Nat.cast_nonneg _) (le_of_lt (two_zpow_pos ew))
  have hone : val (.fin false (2 ^ 52) (-52)) = 1 := by
    rw [val_fin_false]
    norm_num
  have hnegw : val (.fin (!sw) mw ew) = -((mw : ℚ) * (2 : ℚ) ^ ew) := by
    rcases hw with h | h
    · subst h
      exact val_fin_true mw ew
    · subst h
      simp [val]
  have hV : val (.fin false (2 ^ 52) (-52)) + val (.fin (!sw) mw ew) =
      1 - (mw : ℚ) * (2 : ℚ) ^ ew := by
    rw [hone, hnegw]
    ring
  have hV0 : (0 : ℚ) ≤ 1 - (mw : ℚ) * (2 : ℚ) ^ ew := by linarith
  have hV1 : 1 - (mw : ℚ) * (2 : ℚ) ^ ew ≤ 1 := by linarith
  obtain ⟨s1, m1, e1, h1, h2, _, h4, h5, h6⟩ := add_signed false (2 ^ 52) (-52) (!sw) mw ew 0
    (by norm_num) (by norm_num) (by
      rw [hV, abs_of_nonneg hV0]
      simpa using hV1)
  rw [hV] at h2 h4 h5 h6
  have hs1 : s1 = false := h4 hV0 rfl
  subst hs1
  have hgrid := h6 (2 ^ 52) (-52) ⟨by norm_num, by norm_num, by norm_num, Or.inl (le_refl _)⟩ (by
    rw [abs_of_nonneg hV0]
    have : ((2 ^ 52 : Nat) : ℚ) * (2 : ℚ) ^ (-52 : Int) = 1 := by norm_num
    rw [this]
    exact hV1)
  rw [val_abs_fin] at hgrid
  have e1n : ((2 ^ 52 : Nat) : ℚ) * (2 : ℚ) ^ (-52 : Int) = 1 := by norm_num
  rw [e1n] at hgrid
  rw [val_fin_false] at h5
  have e53 : (0 : Int) - 53 = -53 := by norm_num
  rw [e53] at h5
  exact ⟨m1, e1, h1, hgrid, h5⟩

/-- Truncation toward zero of a value between `-(2^31 + 1/2)` and `2^31 - 1/2`
is a value of `std::int32_t`. -/
theorem trunc_int32 (v : ℚ) (h1 : -(2 ^ 31 + 1 / 2 : ℚ) ≤ v) (h2 : v ≤ (2 ^ 31 - 1 / 2 : ℚ)) :
    -2 ^ 31 ≤ trunc v ∧ trunc v < 2 ^ 31 := by
  unfold trunc
  split
  · rename_i h0
    constructor
    · have : (0 : Int) ≤ ⌊v⌋ := Int.floor_nonneg.2 h0
      omega
    · rw [Int.floor_lt]
      push_cast
      linarith
  · rename_i h0
    have hneg : v < 0 := not_le.1 h0
    constructor
    · have : (-2 ^ 31 - 1 : Int) < ⌈v⌉ := by
        rw [Int.lt_ceil]
        push_cast
        linarith
      omega
    · have : ⌈v⌉ ≤ (0 : Int) := by
        rw [Int.ceil_le]
        push_cast
        linarith
      omega

/-- For coordinates of `std::int32_t` and a weight in `[0, 1]`, the `double`
value of `(1. - w) * a + w * b` is finite and its truncation toward zero is a
value of `std::int32_t`. -/
theorem blend_range (a b : Int) (ha1 : -2 ^ 31 ≤ a) (ha2 : a < 2 ^ 31) (hb1 : -2 ^ 31 ≤ b)
    (hb2 : b < 2 ^ 31) (w : B64) (h0 : le (.fin false 0 (-1074)) w = true)
    (h1 : le w (.fin false (2 ^ 52) (-52)) = true) :
    ∃ s m e, add (mul (sub (.fin false (2 ^ 52) (-52)) w)
        (rndZ (decide (a < 0)) a.natAbs 0)) (mul w (rndZ (decide (b < 0)) b.natAbs 0)) =
          .fin s m e ∧
      -2 ^ 31 ≤ trunc (val (.fin s m e)) ∧ trunc (val (.fin s m e)) < 2 ^ 31 := by
  obtain ⟨sw, mw, ew, rfl, hw, hw1⟩ := weight_unit w h0 h1
  obtain ⟨mu, eu, hu, hu1, huerr⟩ := one_sub_signed sw mw ew hw hw1
  rw [hu]
  obtain ⟨sx, mx, ex, hx, hxerr, hxp, hxn⟩ :=
    mul_int_val false mu eu (Or.inl rfl) hu1 a (by omega)
  obtain ⟨sy, my, ey, hy, hyerr, hyp, hyn⟩ := mul_int_val sw mw ew hw hw1 b (by omega)
  rw [hx, hy]
  generalize hX : val (.fin sx mx ex) = X at hxerr hxp hxn
  generalize hY : val (.fin sy my ey) = Y at hyerr hyp hyn
  have hW0 : (0 : ℚ) ≤ (mw : ℚ) * (2 : ℚ) ^ ew :=
    mul_nonneg (Nat.cast_nonneg _) (le_of_lt (two_zpow_pos ew))
  have hU0 : (0 : ℚ) ≤ (mu : ℚ) * (2 : ℚ) ^ eu :=
    mul_nonneg (Nat.cast_nonneg _) (le_of_lt (two_zpow_pos eu))
  generalize (mw : ℚ) * (2 : ℚ) ^ ew = W at hw1 huerr hyerr hW0
  generalize (mu : ℚ) * (2 : ℚ) ^ eu = U at hu1 huerr hxerr hU0
  have e22 : (2 : ℚ) ^ (-22 : Int) = 1 / 4194304 := by norm_num
  have e53 : (2 : ℚ) ^ (-53 : Int) = 1 / 9007199254740992 := by norm_num
  rw [e22] at hxerr hyerr
  rw [e53] at huerr
  have hA1 : (-2 ^ 31 : ℚ) ≤ (a : ℚ) := by exact_mod_cast ha1
  have hA2 : (a : ℚ) ≤ 2 ^ 31 - 1 := by
    have : a ≤ 2 ^ 31 - 1 := by omega
    exact_mod_cast this
  have hB1 : (-2 ^ 31 : ℚ) ≤ (b : ℚ) := by exact_mod_cast hb1
  have hB2 : (b : ℚ) ≤ 2 ^ 31 - 1 := by
    have : b ≤ 2 ^ 31 - 1 := by omega
    exact_mod_cast this
  have hxe := abs_le.1 hxerr
  have hye := abs_le.1 hyerr
  have hue := abs_le.1 huerr
  -- the exact sum of the two products lies between -(2^31 + 1/2) and 2^31 - 1/2
  have hup : X + Y ≤ (2 ^ 31 - 1 / 2 : ℚ) := by
    by_cases hapos : 0 ≤ a
    · by_cases hbpos : 0 ≤ b
      · have hA0 : (0 : ℚ) ≤ (a : ℚ) := by exact_mod_cast hapos
        have hB0 : (0 : ℚ) ≤ (b : ℚ) := by exact_mod_cast hbpos
        have p1 : U * (a : ℚ) ≤ U * (2 ^ 31 - 1) := mul_le_mul_of_nonneg_left hA2 hU0
        have p2 : W * (b : ℚ) ≤ W * (2 ^ 31 - 1) := mul_le_mul_of_nonneg_left hB2 hW0
        linarith [hxe.2, hye.2, hue.2]
      · have := (hyn (by omega)).2
        have := (hxp hapos).2
        linarith
    · have := (hxn (by omega)).2
      by_cases hbpos : 0 ≤ b
      · have := (hyp hbpos).2
        linarith
      · have := (hyn (by omega)).2
        linarith
  have hlo : -(2 ^ 31 + 1 / 2 : ℚ) ≤ X + Y := by
    by_cases haneg : a ≤ 0
    · by_cases hbneg : b ≤ 0
      · have p1 : U * (-2 ^ 31) ≤ U * (a : ℚ) := mul_le_mul_of_nonneg_left hA1 hU0
        have p2 : W * (-2 ^ 31) ≤ W * (b : ℚ) := mul_le_mul_of_nonneg_left hB1 hW0
        linarith [hxe.1, hye.1, hue.2]
      · have := (hyp (by omega)).1
        have := (hxn haneg).1
        linarith
    · have := (hxp (by omega)).1
      by_cases hbneg : b ≤ 0
      · have := (hyn hbneg).1
        linarith
      · have := (hyp (by omega)).1
        linarith
  have hVabs : |val (.fin sx mx ex) + val (.fin sy my ey)| ≤ (2 : ℚ) ^ (32 : Int) := by
    rw [hX, hY, abs_le]
    constructor
    · have : (2 : ℚ) ^ (32 : Int) = 4294967296 := by norm_num
      rw [this]
      linarith
    · have : (2 : ℚ) ^ (32 : Int) = 4294967296 := by norm_num
      rw [this]
      linarith
  obtain ⟨s1, m1, e1, hadd, hpos, hneg, _, _, hgrid⟩ :=
    add_signed sx mx ex sy my ey 32 (by norm_num) (by norm_num) hVabs
  rw [hX, hY] at hpos hneg hgrid
  refine ⟨s1, m1, e1, hadd, trunc_int32 _ ?_ ?_⟩
  · by_cases hs : 0 ≤ X + Y
    · have := hpos hs
      linarith
    · have hle : X + Y ≤ 0 := le_of_lt (not_le.1 hs)
      have hg := hgrid 4503599628419072 (-21)
        ⟨by norm_num, by norm_num, by norm_num, Or.inl (by norm_num)⟩ (by
          rw [abs_of_nonpos hle]
          have : ((4503599628419072 : Nat) : ℚ) * (2 : ℚ) ^ (-21 : Int) = 2 ^ 31 + 1 / 2 := by
            norm_num
          rw [this]
          linarith)
      have e : ((4503599628419072 : Nat) : ℚ) * (2 : ℚ) ^ (-21 : Int) = 2 ^ 31 + 1 / 2 := by
        norm_num
      rw [e] at hg
      have := (abs_le.1 hg).1
      linarith
  · by_cases hs : 0 ≤ X + Y
    · have hg := hgrid 9007199252643840 (-22)
        ⟨by norm_num, by norm_num, by norm_num, Or.inl (by norm_num)⟩ (by
          rw [abs_of_nonneg hs]
          have : ((9007199252643840 : Nat) : ℚ) * (2 : ℚ) ^ (-22 : Int) = 2 ^ 31 - 1 / 2 := by
            norm_num
          rw [this]
          exact hup)
      have e : ((9007199252643840 : Nat) : ℚ) * (2 : ℚ) ^ (-22 : Int) = 2 ^ 31 - 1 / 2 := by
        norm_num
      rw [e] at hg
      exact (abs_le.1 hg).2
    · have hle : X + Y ≤ 0 := le_of_lt (not_le.1 hs)
      have := hneg hle
      linarith

/-- For coordinates of `std::int32_t` and a weight in `[0, 1]`, the conversion of
the `double` value of `(1. - w) * a + w * b` is its truncation toward zero. -/
theorem blend_toInt (a b : Int) (ha1 : -2 ^ 31 ≤ a) (ha2 : a < 2 ^ 31) (hb1 : -2 ^ 31 ≤ b)
    (hb2 : b < 2 ^ 31) (w : B64) (h0 : le (.fin false 0 (-1074)) w = true)
    (h1 : le w (.fin false (2 ^ 52) (-52)) = true) :
    toInt (add (mul (sub (.fin false (2 ^ 52) (-52)) w)
        (rndZ (decide (a < 0)) a.natAbs 0)) (mul w (rndZ (decide (b < 0)) b.natAbs 0))) =
      trunc (val (add (mul (sub (.fin false (2 ^ 52) (-52)) w)
        (rndZ (decide (a < 0)) a.natAbs 0)) (mul w (rndZ (decide (b < 0)) b.natAbs 0)))) := by
  obtain ⟨s, m, e, h, hr1, hr2⟩ := blend_range a b ha1 ha2 hb1 hb2 w h0 h1
  rw [h]
  exact toInt_trunc s m e ⟨hr1, hr2⟩

end ieee

theorem Point.interpolate_blend (D : Dbl) (a b : Point) (w : D.F) :
    a.interpolate D b w =
      { latitude := D.toInt (Point.blend D a.latitude b.latitude w),
        longitude := D.toInt (Point.blend D a.longitude b.longitude w) } := rfl

set_option maxRecDepth 100000 in
set_option exponentiation.threshold 4000 in
theorem Point.blend_model (cos : ieee.B64 → ieee.B64) (a b : Int) (w : ieee.B64) :
    Point.blend (ieee.model cos) a b w =
      ieee.add (ieee.mul (ieee.sub (.fin false (2 ^ 52) (-52)) w)
        (ieee.rndZ (decide (a < 0)) a.natAbs 0))
        (ieee.mul w (ieee.rndZ (decide (b < 0)) b.natAbs 0)) := by
  have e1 : ieee.rnd false 1 (10 ^ 0) = ieee.B64.fin false (2 ^ 52) (-52) := by
    rw [pow_zero, ieee.lit_1]
    rfl
  rw [← e1]
  rfl

set_option maxRecDepth 100000 in
set_option exponentiation.threshold 4000 in
/-- C18 (amended): for all points `a`, `b` (coordinates of `std::int32_t`) and
every weight `w` in `[0, 1]`, `Point::interpolate` returns, in each coordinate,
the `double` value of `(1. - w) * a + w * b`, every operation rounded to nearest,
truncated toward zero (not rounded, not floored: `a = -3`, `b = 0`, `w = 1/2`
gives `-1`); in particular `w = 0` returns `a` and `w = 1` returns `b`
exactly. -/
theorem interpolate_truncates_double_blend :
    (∀ (cos : ieee.B64 → ieee.B64) (a b : Point) (w : ieee.B64),
      ieee.InRange a → ieee.InRange b →
      (ieee.model cos).le ((ieee.model cos).lit 0 0) w = true →
      (ieee.model cos).le w ((ieee.model cos).lit 1 0) = true →
      a.interpolate (ieee.model cos) b w =
        { latitude :=
            ieee.trunc (ieee.val (Point.blend (ieee.model cos) a.latitude b.latitude w)),
          longitude :=
            ieee.trunc (ieee.val (Point.blend (ieee.model cos) a.longitude b.longitude w)) }) ∧
    (∀ (cos : ieee.B64 → ieee.B64) (a b : Point), ieee.InRange a → ieee.InRange b →
      a.interpolate (ieee.model cos) b ((ieee.model cos).lit 0 0) = a ∧
      a.interpolate (ieee.model cos) b ((ieee.model cos).lit 1 0) = b) ∧
    (∀ cos : ieee.B64 → ieee.B64,
      Point.interpolate (ieee.model cos) ⟨-3, -3⟩ ⟨0, 0⟩ ((ieee.model cos).lit 5 1) =
        ⟨-1, -1⟩) := by
  have e0 : ∀ cos : ieee.B64 → ieee.B64,
      (ieee.model cos).lit 0 0 = ieee.B64.fin false 0 (-1074) := by
    intro cos
    show ieee.rnd false 0 (10 ^ 0) = _
    rw [pow_zero, ieee.lit_0]
  have e1 : ∀ cos : ieee.B64 → ieee.B64,
      (ieee.model cos).lit 1 0 = ieee.B64.fin false (2 ^ 52) (-52) := by
    intro cos
    show ieee.rnd false 1 (10 ^ 0) = _
    rw [pow_zero, ieee.lit_1]
    rfl
  refine ⟨?_, ?_, ?_⟩
  · intro cos a b w ha hb h0 h1
    rw [e0] at h0
    rw [e1] at h1
    obtain ⟨a1, a2, a3, a4⟩ := ha
    obtain ⟨b1, b2, b3, b4⟩ := hb
    rw [Point.interpolate_blend, Point.blend_model, Point.blend_model]
    show Point.mk (ieee.toInt _) (ieee.toInt _) = _
    rw [ieee.blend_toInt a.latitude b.latitude a1 a2 b1 b2 w h0 h1,
      ieee.blend_toInt a.longitude b.longitude a3 a4 b3 b4 w h0 h1]
  · intro cos a b ha hb
    rw [e0, e1]
    exact ⟨Point.interpolate_zero cos a b ha hb, Point.interpolate_one cos a b ha hb⟩
  · intro cos
    rfl

set_option maxRecDepth 100000 in
set_option exponentiation.threshold 4000 in
/-- Witness of C18 (amended): the points `(4, 2)` and `(10, 5)` and the weight
`10. / 30.` of the test `Test interpolation`. -/
theorem interpolate_truncates_double_blend_witness :
    Point.interpolate (ieee.model ieee.cos_unit) ⟨4, 2⟩ ⟨10, 5⟩
        (.fin false 6004799503160661 (-54)) =
      { latitude := ieee.trunc (ieee.val (Point.blend (ieee.model ieee.cos_unit) 4 10
          (.fin false 6004799503160661 (-54)))),
        longitude := ieee.trunc (ieee.val (Point.blend (ieee.model ieee.cos_unit) 2 5
          (.fin false 6004799503160661 (-54)))) } :=
  interpolate_truncates_double_blend.1 ieee.cos_unit ⟨4, 2⟩ ⟨10, 5⟩
    (.fin false 6004799503160661 (-54))
    (by unfold ieee.InRange; norm_num) (by unfold ieee.InRange; norm_num)
    (by decide) (by decide)

/-! ### The spike filter: stretches of invalid transitions and idempotence -/

namespace utility

theorem low_pass_filter_eq_loop {α : Type} (valid : α → α → Bool) (xs : List α) :
    low_pass_filter xs valid = low_pass_filter.loop valid 1 xs := by
  unfold low_pass_filter
  match xs with
  | [] => rfl
  | [a] => rfl
  | a :: b :: rest => simp

/-- The filter in terms of the indices of the input. -/
theorem low_pass_filter_spec {α : Type} (valid : α → α → Bool) (xs : List α) :
    low_pass_filter xs valid =
      ((List.range xs.length).filter (has_valid_neighbour valid xs)).filterMap
        (fun k => xs[k]?) := by
  unfold low_pass_filter
  split
  · have := low_pass_filter_loop_spec valid xs [] 1 (by simp)
    simpa [List.range_eq_range'] using this
  · rename_i h
    match xs, h with
    | [], _ => simp
    | [a], _ => simp [has_valid_neighbour, valid_at, List.range_succ]
    | a :: b :: rest, h => simp at h

/-- Only whether the counter is zero matters. -/
theorem low_pass_filter_loop_pos {α : Type} (valid : α → α → Bool) (xs : List α) (acc : Nat)
    (h : 1 ≤ acc) : low_pass_filter.loop valid acc xs = low_pass_filter.loop valid 1 xs := by
  induction xs generalizing acc with
  | nil => rfl
  | cons a rest ih =>
    cases rest with
    | nil =>
      simp only [low_pass_filter.loop]
      rw [if_neg (by omega), if_neg (by omega)]
    | cons b rest =>
      rw [low_pass_filter.loop, low_pass_filter.loop]
      cases hv : valid a b
      · simp only [Bool.false_eq_true, if_false]
        rw [if_neg (by omega), if_neg (by omega), ih (acc + 1) (by omega), ih (1 + 1) (by omega)]
      · simp only [if_true]

theorem low_pass_filter_loop_zero_cons {α : Type} (valid : α → α → Bool) (a b : α)
    (rest : List α) :
    low_pass_filter.loop valid 0 (a :: b :: rest) =
      a :: low_pass_filter.loop valid (if valid a b then 0 else 1) (b :: rest) := by
  rw [low_pass_filter.loop]
  cases hv : valid a b <;> simp

theorem low_pass_filter_loop_one_cons {α : Type} (valid : α → α → Bool) (a b : α)
    (rest : List α) :
    low_pass_filter.loop valid 1 (a :: b :: rest) =
      if valid a b then a :: low_pass_filter.loop valid 0 (b :: rest)
      else low_pass_filter.loop valid 1 (b :: rest) := by
  rw [low_pass_filter.loop]
  cases hv : valid a b
  · simp only [Bool.false_eq_true, if_false]
    rw [if_neg (by omega)]
    exact low_pass_filter_loop_pos valid _ _ (by omega)
  · simp

theorem low_pass_filter_loop_zero_head {α : Type} (valid : α → α → Bool) (b : α)
    (t : List α) : ∃ t1, low_pass_filter.loop valid 0 (b :: t) = b :: t1 := by
  cases t with
  | nil => exact ⟨[], by simp [low_pass_filter.loop]⟩
  | cons c r => exact ⟨_, low_pass_filter_loop_zero_cons valid b c r⟩

theorem low_pass_filter_loop_ne_cons {α : Type} (valid : α → α → Bool) (a : α) (t : List α)
    (acc : Nat) : low_pass_filter.loop valid acc t ≠ a :: t := by
  intro h
  have := (utility.low_pass_filter_loop_sublist valid t acc).length_le
  rw [h] at this
  simp at this

/-- A sequence the filter leaves unchanged is also unchanged when the filter
starts after a valid transition. -/
theorem low_pass_filter_loop_fixed {α : Type} (valid : α → α → Bool) (ys : List α)
    (h : low_pass_filter.loop valid 1 ys = ys) : low_pass_filter.loop valid 0 ys = ys := by
  match ys, h with
  | [], _ => rfl
  | [a], h => simp [low_pass_filter.loop] at h
  | a :: b :: rest, h =>
    rw [low_pass_filter_loop_one_cons] at h
    rw [low_pass_filter_loop_zero_cons]
    cases hv : valid a b
    · rw [hv] at h
      simp only [Bool.false_eq_true, if_false] at h
      exact absurd h (low_pass_filter_loop_ne_cons valid a (b :: rest) 1)
    · rw [hv] at h
      simp only [if_true, List.cons.injEq, true_and] at h
      simp only [if_true, h]

theorem low_pass_filter_loop_idem {α : Type} (valid : α → α → Bool) (xs : List α) (acc : Nat)
    (h : acc ≤ 1) :
    low_pass_filter.loop valid acc (low_pass_filter.loop valid acc xs) =
      low_pass_filter.loop valid acc xs := by
  induction xs generalizing acc with
  | nil => rfl
  | cons a rest ih =>
    cases rest with
    | nil =>
      have hc : acc = 0 ∨ acc = 1 := by omega
      rcases hc with rfl | rfl <;> simp [low_pass_filter.loop]
    | cons b rest =>
      have hc : acc = 0 ∨ acc = 1 := by omega
      rcases hc with rfl | rfl
      · rw [low_pass_filter_loop_zero_cons]
        cases hv : valid a b
        · simp only [Bool.false_eq_true, if_false]
          have ih1 := ih 1 (le_refl _)
          generalize low_pass_filter.loop valid 1 (b :: rest) = ys at ih1
          cases ys with
          | nil => simp [low_pass_filter.loop]
          | cons y ys1 =>
            rw [low_pass_filter_loop_zero_cons]
            cases hw : valid a y
            · simp only [Bool.false_eq_true, if_false, ih1]
            · simp only [if_true, low_pass_filter_loop_fixed valid _ ih1]
        · simp only [if_true]
          have ih0 := ih 0 (by omega)
          obtain ⟨t1, ht⟩ := low_pass_filter_loop_zero_head valid b rest
          rw [ht] at ih0 ⊢
          rw [low_pass_filter_loop_zero_cons, hv]
          simp only [if_true, ih0]
      · rw [low_pass_filter_loop_one_cons]
        cases hv : valid a b
        · simp only [Bool.false_eq_true, if_false]
          exact ih 1 (le_refl _)
        · simp only [if_true]
          have ih0 := ih 0 (by omega)
          obtain ⟨t1, ht⟩ := low_pass_filter_loop_zero_head valid b rest
          rw [ht] at ih0 ⊢
          rw [low_pass_filter_loop_one_cons, hv]
          simp only [if_true, ih0]

theorem low_pass_filter_idem {α : Type} (valid : α → α → Bool) (xs : List α) :
    low_pass_filter (low_pass_filter xs valid) valid = low_pass_filter xs valid := by
  rw [low_pass_filter_eq_loop, low_pass_filter_eq_loop]
  exact low_pass_filter_loop_idem valid xs 1 (le_refl _)

/-- In a sequence the filter leaves unchanged every element has a valid
transition with a neighbour. -/
theorem low_pass_filter_fixed_all {α : Type} (valid : α → α → Bool) (ys : List α)
    (h : low_pass_filter ys valid = ys) :
    ∀ k < ys.length, has_valid_neighbour valid ys k = true := by
  have hs := low_pass_filter_spec valid ys
  rw [h] at hs
  have hlen : (((List.range ys.length).filter (has_valid_neighbour valid ys)).filterMap
      (fun k => ys[k]?)).length =
        ((List.range ys.length).filter (has_valid_neighbour valid ys)).length := by
    have hall : ∀ l : List Nat, (∀ k ∈ l, k < ys.length) →
        (l.filterMap (fun k => ys[k]?)).length = l.length := by
      intro l
      induction l with
      | nil => intro _; rfl
      | cons k l ih =>
        intro hk
        have hk0 : k < ys.length := hk k (List.mem_cons_self _ _)
        rw [List.filterMap_cons, List.getElem?_eq_getElem hk0]
        simp only [List.length_cons]
        rw [ih (fun j hj => hk j (List.mem_cons_of_mem _ hj))]
    apply hall
    intro k hk
    exact List.mem_range.1 (List.mem_filter.1 hk).1
  have hfl : ((List.range ys.length).filter (has_valid_neighbour valid ys)).length =
      (List.range ys.length).length := by
    rw [← hlen, ← hs, List.length_range]
  have hall := List.filter_length_eq_length.1 hfl
  intro k hk
  exact hall k (List.mem_range.2 hk)

/-- Elements joined by valid transitions are all kept. -/
theorem low_pass_filter_loop_valid_run {α : Type} (valid : α → α → Bool) (pre : List α) (a : α)
    (tl : List α) (acc : Nat)
    (h : (pre ++ [a]).Chain' (fun x y => valid x y = true)) :
    low_pass_filter.loop valid acc (pre ++ a :: tl) =
      pre ++ low_pass_filter.loop valid (if pre.isEmpty then acc else 0) (a :: tl) := by
  induction pre generalizing acc with
  | nil => simp
  | cons p pre ih =>
    cases pre with
    | nil =>
      have hv : valid p a = true := by
        simpa using h
      show low_pass_filter.loop valid acc (p :: a :: tl) = _
      rw [low_pass_filter.loop]
      simp [hv]
    | cons q pre =>
      have hv : valid p q = true := (List.chain'_cons.1 h).1
      have ht : ((q :: pre) ++ [a]).Chain' (fun x y => valid x y = true) := List.Chain'.tail h
      show low_pass_filter.loop valid acc (p :: q :: (pre ++ a :: tl)) = _
      rw [low_pass_filter.loop]
      simp only [hv, if_true, Nat.zero_lt_two]
      have := ih 0 ht
      simp only [List.cons_append, List.isEmpty_cons, Bool.false_eq_true, if_false] at this
      rw [this]
      simp

/-- Of the elements joined by invalid transitions only the first can be kept,
and only when a valid transition leads into it. -/
theorem low_pass_filter_loop_invalid_run {α : Type} (valid : α → α → Bool) (mid : List α)
    (a b : α) (tl : List α) (acc : Nat)
    (h : (a :: mid ++ [b]).Chain' (fun x y => valid x y = false)) :
    low_pass_filter.loop valid acc (a :: mid ++ b :: tl) =
      (if acc = 0 then [a] else []) ++ low_pass_filter.loop valid 1 (b :: tl) := by
  induction mid generalizing a acc with
  | nil =>
    have hv : valid a b = false := by
      simpa using h
    show low_pass_filter.loop valid acc (a :: b :: tl) = _
    rw [low_pass_filter.loop]
    simp only [hv, Bool.false_eq_true, if_false]
    rw [low_pass_filter_loop_pos valid _ (acc + 1) (by omega)]
    by_cases h0 : acc = 0
    · subst h0
      simp
    · rw [if_neg (by omega), if_neg h0]
      rfl
  | cons m mid ih =>
    have hv : valid a m = false := (List.chain'_cons.1 h).1
    have ht : (m :: mid ++ [b]).Chain' (fun x y => valid x y = false) := List.Chain'.tail h
    show low_pass_filter.loop valid acc (a :: m :: (mid ++ b :: tl)) = _
    rw [low_pass_filter.loop]
    simp only [hv, Bool.false_eq_true, if_false]
    have e := ih m (acc + 1) ht
    simp only [List.cons_append] at e
    have e0 : (if acc + 1 = 0 then [m] else []) = [] := if_neg (by omega)
    rw [e0, List.nil_append] at e
    rw [e]
    by_cases h0 : acc = 0
    · subst h0
      simp
    · have h2 : ¬ (acc + 1 < 2) := by omega
      rw [if_neg h2, if_neg h0]
      rfl

/-- Elements joined by valid transitions up to the end of the sequence are all
kept. -/
theorem low_pass_filter_loop_valid_end {α : Type} (valid : α → α → Bool) (b : α)
    (post : List α) (acc : Nat) (h : (b :: post).Chain' (fun x y => valid x y = true))
    (hp : post ≠ [] ∨ acc = 0) :
    low_pass_filter.loop valid acc (b :: post) = b :: post := by
  induction post generalizing b acc with
  | nil =>
    rcases hp with hp | hp
    · exact absurd rfl hp
    · subst hp
      simp [low_pass_filter.loop]
  | cons c post ih =>
    have hv : valid b c = true := (List.chain'_cons.1 h).1
    rw [low_pass_filter.loop]
    simp only [hv, if_true, Nat.zero_lt_two]
    rw [ih c 0 (List.Chain'.tail h) (Or.inr rfl)]

/-- A stretch of invalid transitions between stretches of valid ones. -/
theorem low_pass_filter_stretch {α : Type} (valid : α → α → Bool) (pre mid post : List α)
    (a b : α) (h1 : (pre ++ [a]).Chain' (fun x y => valid x y = true))
    (h2 : (a :: mid ++ [b]).Chain' (fun x y => valid x y = false))
    (h3 : (b :: post).Chain' (fun x y => valid x y = true)) :
    low_pass_filter (pre ++ a :: mid ++ b :: post) valid =
      pre ++ (if pre.isEmpty then [] else [a]) ++ (if post.isEmpty then [] else b :: post) := by
  rw [low_pass_filter_eq_loop]
  have e : pre ++ a :: mid ++ b :: post = pre ++ a :: (mid ++ b :: post) := by simp
  rw [e, low_pass_filter_loop_valid_run valid pre a _ 1 h1]
  have h4 := low_pass_filter_loop_invalid_run valid mid a b post (if pre.isEmpty then 1 else 0) h2
  simp only [List.cons_append] at h4
  rw [h4]
  have h5 : low_pass_filter.loop valid 1 (b :: post) = if post.isEmpty then [] else b :: post := by
    cases post with
    | nil => simp [low_pass_filter.loop]
    | cons c post =>
      simp only [List.isEmpty_cons, Bool.false_eq_true, if_false]
      exact low_pass_filter_loop_valid_end valid b (c :: post) 1 h3 (Or.inl (by simp))
  rw [h5]
  cases pre with
  | nil => simp
  | cons p pre => simp

end utility

/-- Counterexample to C26 as stated: in `[1, 2, 99, 55, 5, 6, 7]` with the
predicate `|a - b| < 2` of the test the three consecutive transitions `2 -> 99`,
`99 -> 55` and `55 -> 5` are invalid, and the elements 99 and 55 are not
preserved: the output is `[1, 2, 5, 6, 7]`. -/
theorem low_pass_filter_drops_consecutive_bad_points :
    test_abs_diff_lt_2 2 99 = false ∧ test_abs_diff_lt_2 99 55 = false ∧
    test_abs_diff_lt_2 55 5 = false ∧
    utility.low_pass_filter [1, 2, 99, 55, 5, 6, 7] test_abs_diff_lt_2 = [1, 2, 5, 6, 7] ∧
    (99 : Int) ∉ utility.low_pass_filter [1, 2, 99, 55, 5, 6, 7] test_abs_diff_lt_2 ∧
    (55 : Int) ∉ utility.low_pass_filter [1, 2, 99, 55, 5, 6, 7] test_abs_diff_lt_2 := by
  decide

/-- C26 (amended): for every sequence and predicate, where a stretch of
consecutive invalid transitions `a -> m_1 -> ... -> m_k -> b` (`k >= 0`) lies
between stretches of valid transitions, the spike filter drops every element
`m_i` between them: an isolated single bad point (`k = 1`) is dropped, and so are
two or more consecutive bad points with invalid transitions between them.  The
element `a` is kept if a valid transition leads into it and `b` if a valid
transition leads out of it.  Bad points are preserved only where a valid
transition joins them: `[1, 2, 99, 99, 5, 6, 7]` is unchanged, while
`[1, 2, 99, 4, 99, 6, 7]` gives `[1, 2, 6, 7]`. -/
theorem low_pass_filter_drops_between_invalid_transitions :
    (∀ (α : Type) (valid : α → α → Bool) (pre mid post : List α) (a b : α),
      (pre ++ [a]).Chain' (fun x y => valid x y = true) →
      (a :: mid ++ [b]).Chain' (fun x y => valid x y = false) →
      (b :: post).Chain' (fun x y => valid x y = true) →
      utility.low_pass_filter (pre ++ a :: mid ++ b :: post) valid =
        pre ++ (if pre.isEmpty then [] else [a]) ++ (if post.isEmpty then [] else b :: post)) ∧
    (∀ (α : Type) (valid : α → α → Bool) (pre post : List α) (a x b : α),
      pre ≠ [] → post ≠ [] →
      (pre ++ [a]).Chain' (fun x y => valid x y = true) →
      valid a x = false → valid x b = false →
      (b :: post).Chain' (fun x y => valid x y = true) →
      utility.low_pass_filter (pre ++ a :: x :: b :: post) valid = pre ++ a :: b :: post) ∧
    utility.low_pass_filter [1, 2, 3, 99, 5, 6, 7] test_abs_diff_lt_2 = [1, 2, 3, 5, 6, 7] ∧
    utility.low_pass_filter [1, 2, 99, 99, 5, 6, 7] test_abs_diff_lt_2 =
      [1, 2, 99, 99, 5, 6, 7] ∧
    utility.low_pass_filter [1, 2, 99, 4, 99, 6, 7] test_abs_diff_lt_2 = [1, 2, 6, 7] := by
  refine ⟨?_, ?_, by decide, by decide, by decide⟩
  · intro α valid pre mid post a b h1 h2 h3
    exact utility.low_pass_filter_stretch valid pre mid post a b h1 h2 h3
  · intro α valid pre post a x b hpre hpost h1 h2 h3 h4
    have h := utility.low_pass_filter_stretch valid pre [x] post a b h1
      (by simp [h2, h3]) h4
    have e1 : pre.isEmpty = false := by
      cases pre with
      | nil => exact absurd rfl hpre
      | cons p pre => rfl
    have e2 : post.isEmpty = false := by
      cases post with
      | nil => exact absurd rfl hpost
      | cons p post => rfl
    rw [e1, e2] at h
    simpa using h

/-- Witness of C26 (amended): the sequence `[1, 2, 99, 55, 5, 6, 7]` of the
test. -/
theorem low_pass_filter_drops_between_invalid_transitions_witness :
    utility.low_pass_filter ([1] ++ 2 :: [99, 55] ++ 5 :: [6, 7]) test_abs_diff_lt_2 =
      [1] ++ (if ([1] : List Int).isEmpty then [] else [2]) ++
        (if ([6, 7] : List Int).isEmpty then [] else 5 :: [6, 7]) :=
  low_pass_filter_drops_between_invalid_transitions.1 Int test_abs_diff_lt_2 [1] [99, 55]
    [6, 7] 2 5 (by simp; decide) (by simp; decide) (by simp; decide)

/-- C30: `low_pass_filter` is idempotent for every sequence and every
transition predicate; a filter output never has exactly one element, its first
and its last transition are valid, and it contains no two consecutive invalid
transitions (every element has a valid transition with a neighbour). -/
theorem low_pass_filter_idempotent :
    (∀ (α : Type) (valid : α → α → Bool) (xs : List α),
      utility.low_pass_filter (utility.low_pass_filter xs valid) valid =
        utility.low_pass_filter xs valid) ∧
    (∀ (α : Type) (valid : α → α → Bool) (xs : List α),
      (utility.low_pass_filter xs valid).length ≠ 1) ∧
    (∀ (α : Type) (valid : α → α → Bool) (xs : List α),
      utility.low_pass_filter xs valid ≠ [] →
      utility.valid_at valid (utility.low_pass_filter xs valid) 0 = true ∧
      utility.valid_at valid (utility.low_pass_filter xs valid)
        ((utility.low_pass_filter xs valid).length - 2) = true) ∧
    (∀ (α : Type) (valid : α → α → Bool) (xs : List α) (k : Nat),
      k + 2 < (utility.low_pass_filter xs valid).length →
      utility.valid_at valid (utility.low_pass_filter xs valid) k = true ∨
      utility.valid_at valid (utility.low_pass_filter xs valid) (k + 1) = true) := by
  have hall : ∀ (α : Type) (valid : α → α → Bool) (xs : List α),
      ∀ k < (utility.low_pass_filter xs valid).length,
        utility.has_valid_neighbour valid (utility.low_pass_filter xs valid) k = true :=
    fun α valid xs => utility.low_pass_filter_fixed_all valid _
      (utility.low_pass_filter_idem valid xs)
  have hpast : ∀ (α : Type) (valid : α → α → Bool) (ys : List α) (k : Nat),
      ys.length ≤ k + 1 → utility.valid_at valid ys k = false := by
    intro α valid ys k hk
    unfold utility.valid_at
    rw [List.getElem?_eq_none (by omega : ys.length ≤ k + 1)]
    cases ys[k]? <;> rfl
  refine ⟨fun α valid xs => utility.low_pass_filter_idem valid xs, ?_, ?_, ?_⟩
  · intro α valid xs h1
    have h := hall α valid xs 0 (by omega)
    unfold utility.has_valid_neighbour at h
    rw [hpast α valid _ 0 (by omega)] at h
    simp at h
  · intro α valid xs hne
    have hpos : 0 < (utility.low_pass_filter xs valid).length := List.length_pos.2 hne
    have h0 := hall α valid xs 0 hpos
    have hl := hall α valid xs ((utility.low_pass_filter xs valid).length - 1) (by omega)
    unfold utility.has_valid_neighbour at h0 hl
    rw [hpast α valid _ ((utility.low_pass_filter xs valid).length - 1) (by omega)] at hl
    simp only [lt_self_iff_false, decide_False, Bool.false_and, Bool.false_or] at h0
    simp only [Bool.or_false, Bool.and_eq_true, decide_eq_true_eq] at hl
    have e : (utility.low_pass_filter xs valid).length - 1 - 1 =
        (utility.low_pass_filter xs valid).length - 2 := by omega
    rw [e] at hl
    exact ⟨h0, hl.2⟩
  · intro α valid xs k hk
    have h := hall α valid xs (k + 1) (by omega)
    unfold utility.has_valid_neighbour at h
    simp only [Nat.add_sub_cancel, Bool.or_eq_true, Bool.and_eq_true, decide_eq_true_eq] at h
    rcases h with h | h
    · exact Or.inl h.2
    · exact Or.inr h

/-- Witness of C30: the output `[1, 2, 5, 6, 7]` of the test. -/
theorem low_pass_filter_idempotent_witness :
    utility.valid_at test_abs_diff_lt_2
        (utility.low_pass_filter [1, 2, 99, 55, 5, 6, 7] test_abs_diff_lt_2) 0 = true ∧
      utility.valid_at test_abs_diff_lt_2
        (utility.low_pass_filter [1, 2, 99, 55, 5, 6, 7] test_abs_diff_lt_2)
        ((utility.low_pass_filter [1, 2, 99, 55, 5, 6, 7] test_abs_diff_lt_2).length - 2) =
          true :=
  low_pass_filter_idempotent.2.2.1 Int test_abs_diff_lt_2 [1, 2, 99, 55, 5, 6, 7] (by decide)

/-! ### Restart after a completed segment, thresholds and out-of-order timestamps -/

theorem drop_rate.step_after_completion (D : Dbl) (args : split_args D)
    (s : drop_rate.State) (pos : Position) (h : s.i = 0) :
    drop_rate.step D args s pos = { s with i := 1, t0 := pos.t, last_pos := pos } := by
  unfold drop_rate.step
  rw [h]
  rfl

theorem drop_rate.step_completes (D : Dbl) (args : split_args D) (s : drop_rate.State)
    (pos : Position) (h1 : uadd s.i 1 ≠ 1) (h2 : is_gap D args pos s.last_pos = false)
    (h3 : usub pos.t s.t0 ≥ umul args.seq_length args.dti) :
    drop_rate.step D args s pos =
      { s with total := uadd s.total (uadd s.i 1), i := 0, last_pos := pos } := by
  unfold drop_rate.step
  simp only [h1, if_false, h2, Bool.false_eq_true, h3, if_true]

theorem split.step_empty (D : Dbl) (args : split_args D) (s : split.State) (pos : Position)
    (h : s.buffer = []) :
    split.step D args s pos = some { s with buffer := [pos], t0 := pos.t } := by
  unfold split.step
  rw [h]
  rfl

theorem is_gap_of_time (D : Dbl) (args : split_args D) (pos last_pos : Position)
    (h : usub pos.t last_pos.t > args.dt_max) : is_gap D args pos last_pos = true := by
  unfold is_gap
  simp [h]

theorem split.step_gap (D : Dbl) (args : split_args D) (s : split.State)
    (pos last_pos : Position) (hl : s.buffer.getLast? = some last_pos)
    (hg : is_gap D args pos last_pos = true) :
    split.step D args s pos = some { s with buffer := [pos], t0 := pos.t } := by
  unfold split.step
  rw [hl]
  simp only [hg, if_true]

theorem drop_rate.step_on_gap (D : Dbl) (args : split_args D) (s : drop_rate.State)
    (pos : Position) (hg : is_gap D args pos s.last_pos = true) :
    drop_rate.step D args s pos = { s with i := 1, t0 := pos.t, last_pos := pos } := by
  unfold drop_rate.step
  by_cases h1 : uadd s.i 1 = 1
  · simp only [h1, if_true]
  · simp only [h1, if_false, hg, if_true]

/-- The wrapped difference of a smaller and a larger 32-bit value. -/
theorem usub_wrap (a b : Nat) (hab : a < b) (hb : b < U32) : usub a b = U32 - (b - a) := by
  unfold usub
  have ha : a < U32 := lt_trans hab hb
  rw [Nat.mod_eq_of_lt ha, Nat.mod_eq_of_lt hb, Nat.mod_eq_of_lt (by omega)]
  omega

set_option maxRecDepth 100000 in
set_option exponentiation.threshold 4000 in
/-- The three positions at the thresholds form one completed segment. -/
theorem boundary_segments :
    split.segments (ieee.model ieee.cos_zero) boundary_args [] 0 boundary_trajectory =
      [boundary_trajectory] := by
  decide

set_option maxRecDepth 100000 in
set_option exponentiation.threshold 4000 in
/-- The resampled positions at the thresholds. -/
theorem boundary_interp :
    interpolate (ieee.model ieee.cos_zero) boundary_trajectory 6 5 =
      some [⟨0, 0⟩, ⟨0, 0⟩, ⟨0, 1⟩, ⟨0, 2⟩, ⟨0, 2⟩, ⟨0, 3⟩] :=
  rfl

set_option maxRecDepth 100000 in
set_option exponentiation.threshold 4000 in
/-- The accumulated distance of the resampled positions at the thresholds: the
first three distances. -/
theorem boundary_acc_stage_1 (r1 r2 : List Point) :
    List.foldl (ieee.model ieee.cos_zero).add ((ieee.model ieee.cos_zero).lit 0 0)
      (List.zipWith (fun a b => a.dist_nm (ieee.model ieee.cos_zero) b)
        (⟨0, 0⟩ :: ⟨0, 0⟩ :: ⟨0, 1⟩ :: r1) (⟨0, 0⟩ :: ⟨0, 1⟩ :: ⟨0, 2⟩ :: r2)) =
    List.foldl (ieee.model ieee.cos_zero).add (ieee.B64.fin false 7378697629483821 (-65))
      (List.zipWith (fun a b => a.dist_nm (ieee.model ieee.cos_zero) b) r1 r2) :=
  rfl

set_option maxRecDepth 100000 in
set_option exponentiation.threshold 4000 in
/-- The accumulated distance of the resampled positions at the thresholds: the
last two distances. -/
theorem boundary_acc_stage_2 (r1 r2 : List Point) :
    List.foldl (ieee.model ieee.cos_zero).add (ieee.B64.fin false 7378697629483821 (-65))
      (List.zipWith (fun a b => a.dist_nm (ieee.model ieee.cos_zero) b)
        (⟨0, 2⟩ :: ⟨0, 2⟩ :: r1) (⟨0, 2⟩ :: ⟨0, 3⟩ :: r2)) =
    List.foldl (ieee.model ieee.cos_zero).add (ieee.B64.fin false 5534023222112866 (-64))
      (List.zipWith (fun a b => a.dist_nm (ieee.model ieee.cos_zero) b) r1 r2) :=
  rfl

/-- The resampled positions at the thresholds pass the admission test. -/
theorem boundary_accepted :
    split.accepted (ieee.model ieee.cos_zero) boundary_args
      [⟨0, 0⟩, ⟨0, 0⟩, ⟨0, 1⟩, ⟨0, 2⟩, ⟨0, 2⟩, ⟨0, 3⟩] = true := by
  rw [split.accepted, acc_dist_nm_eq, List.tail_cons, boundary_acc_stage_1,
    boundary_acc_stage_2]
  rfl

/-- The sequence emitted for the positions at the thresholds. -/
theorem boundary_split :
    split (ieee.model ieee.cos_zero) boundary_trajectory boundary_args =
      some [⟨0, 0⟩, ⟨0, 0⟩, ⟨0, 1⟩, ⟨0, 2⟩, ⟨0, 2⟩, ⟨0, 3⟩] := by
  rw [split_of_segments (ieee.model ieee.cos_zero) boundary_trajectory boundary_args
    [[⟨0, 0⟩, ⟨0, 0⟩, ⟨0, 1⟩, ⟨0, 2⟩, ⟨0, 2⟩, ⟨0, 3⟩]]
    (by
      rw [boundary_segments]
      exact List.Forall₂.cons boundary_interp List.Forall₂.nil),
    List.filter_cons_of_pos boundary_accepted]
  rfl

set_option maxRecDepth 100000 in
set_option exponentiation.threshold 4000 in
/-- The first step of the positions at the thresholds is `ds_max` long. -/
theorem boundary_first_step :
    ieee.le boundary_args.ds_max (Point.dist_nm (ieee.model ieee.cos_zero) ⟨0, 2⟩ ⟨0, 0⟩) =
      true ∧
    ieee.lt (Point.dist_nm (ieee.model ieee.cos_zero) ⟨0, 2⟩ ⟨0, 0⟩) boundary_args.ds_max =
      false := by
  decide

set_option maxRecDepth 100000 in
set_option exponentiation.threshold 4000 in
/-- The second step of the positions at the thresholds is `ds_max` long. -/
theorem boundary_second_step :
    ieee.le boundary_args.ds_max (Point.dist_nm (ieee.model ieee.cos_zero) ⟨0, 4⟩ ⟨0, 2⟩) =
      true ∧
    ieee.lt (Point.dist_nm (ieee.model ieee.cos_zero) ⟨0, 4⟩ ⟨0, 2⟩) boundary_args.ds_max =
      false := by
  decide

/-- C25: the code at the thresholds.  With `dt_max = 15` and `ds_max` equal to the
distance of two longitude units on the equator, the three positions at the times
0, 15 and 30, each exactly `dt_max` seconds and exactly `ds_max` nautical miles
(not less) from its predecessor, form one completed segment of `split` and yield an emitted
sequence: consecutive raw positions of the run deviate by `dt_max` and by
`ds_max`, not by less. -/
theorem split_keeps_positions_at_the_thresholds :
    split.segments (ieee.model ieee.cos_zero) boundary_args [] 0 boundary_trajectory =
      [boundary_trajectory] ∧
    split (ieee.model ieee.cos_zero) boundary_trajectory boundary_args =
      some [⟨0, 0⟩, ⟨0, 0⟩, ⟨0, 1⟩, ⟨0, 2⟩, ⟨0, 2⟩, ⟨0, 3⟩] ∧
    usub 15 0 = boundary_args.dt_max ∧ usub 30 15 = boundary_args.dt_max ∧
    ¬ (usub 15 0 < boundary_args.dt_max) ∧ ¬ (usub 30 15 < boundary_args.dt_max) ∧
    Point.dist_nm (ieee.model ieee.cos_zero) ⟨0, 2⟩ ⟨0, 0⟩ = boundary_args.ds_max ∧
    ieee.le boundary_args.ds_max (Point.dist_nm (ieee.model ieee.cos_zero) ⟨0, 2⟩ ⟨0, 0⟩) =
      true ∧
    ieee.lt (Point.dist_nm (ieee.model ieee.cos_zero) ⟨0, 2⟩ ⟨0, 0⟩) boundary_args.ds_max =
      false ∧
    ieee.le boundary_args.ds_max (Point.dist_nm (ieee.model ieee.cos_zero) ⟨0, 4⟩ ⟨0, 2⟩) =
      true ∧
    ieee.lt (Point.dist_nm (ieee.model ieee.cos_zero) ⟨0, 4⟩ ⟨0, 2⟩) boundary_args.ds_max =
      false := by
  have h1 : Point.dist_nm (ieee.model ieee.cos_zero) ⟨0, 2⟩ ⟨0, 0⟩ = boundary_args.ds_max := by
    simp only [boundary_args]
  exact ⟨boundary_segments, boundary_split, by decide, by decide, by decide, by decide, h1,
    boundary_first_step.1, boundary_first_step.2, boundary_second_step.1,
    boundary_second_step.2⟩

set_option maxRecDepth 100000 in
set_option exponentiation.threshold 4000 in
/-- The loop of `drop_rate` on the trajectory of the test case `Test split` is
evaluated in stages: each stage folds a few positions, from the state the
previous stage ends with. -/
theorem test_split_drop_stage_1 (rest : Trajectory) :
    List.foldl (drop_rate.step (ieee.model ieee.cos_unit)
        (test_args (ieee.model ieee.cos_unit)))
      { total := 0, i := 0, last_pos := ⟨0, ⟨0, 0⟩⟩, t0 := 0 }
      (⟨0, ⟨0, 0⟩⟩ :: ⟨10, ⟨4, 2⟩⟩ :: ⟨20, ⟨8, 4⟩⟩ :: ⟨30, ⟨12, 6⟩⟩ :: rest) =
    List.foldl (drop_rate.step (ieee.model ieee.cos_unit)
        (test_args (ieee.model ieee.cos_unit)))
      { total := 4, i := 0, last_pos := ⟨30, ⟨12, 6⟩⟩, t0 := 0 } rest :=
  rfl

set_option maxRecDepth 100000 in
set_option exponentiation.threshold 4000 in
theorem test_split_drop_stage_2 (rest : Trajectory) :
    List.foldl (drop_rate.step (ieee.model ieee.cos_unit)
        (test_args (ieee.model ieee.cos_unit)))
      { total := 4, i := 0, last_pos := ⟨30, ⟨12, 6⟩⟩, t0 := 0 }
      (⟨40, ⟨16, 8⟩⟩ :: ⟨50, ⟨20, 10⟩⟩ :: ⟨60, ⟨24, 12⟩⟩ :: ⟨70, ⟨28, 14⟩⟩ :: ⟨999, ⟨32, 16⟩⟩ ::
        ⟨90, ⟨36, 18⟩⟩ :: rest) =
    List.foldl (drop_rate.step (ieee.model ieee.cos_unit)
        (test_args (ieee.model ieee.cos_unit)))
      { total := 8, i := 1, last_pos := ⟨90, ⟨36, 18⟩⟩, t0 := 90 } rest :=
  rfl

set_option maxRecDepth 100000 in
set_option exponentiation.threshold 4000 in
theorem test_split_drop_stage_3 (rest : Trajectory) :
    List.foldl (drop_rate.step (ieee.model ieee.cos_unit)
        (test_args (ieee.model ieee.cos_unit)))
      { total := 8, i := 1, last_pos := ⟨90, ⟨36, 18⟩⟩, t0 := 90 }
      (⟨100, ⟨40, 20⟩⟩ :: ⟨110, ⟨44, 22⟩⟩ :: ⟨120, ⟨48, 24⟩⟩ :: ⟨130, ⟨52, 26⟩⟩ :: rest) =
    List.foldl (drop_rate.step (ieee.model ieee.cos_unit)
        (test_args (ieee.model ieee.cos_unit)))
      { total := 12, i := 1, last_pos := ⟨130, ⟨52, 26⟩⟩, t0 := 130 } rest :=
  rfl

set_option maxRecDepth 100000 in
set_option exponentiation.threshold 4000 in
theorem test_split_drop_stage_4 (rest : Trajectory) :
    List.foldl (drop_rate.step (ieee.model ieee.cos_unit)
        (test_args (ieee.model ieee.cos_unit)))
      { total := 12, i := 1, last_pos := ⟨130, ⟨52, 26⟩⟩, t0 := 130 }
      (⟨140, ⟨60, 28⟩⟩ :: ⟨150, ⟨60, 30⟩⟩ :: rest) =
    List.foldl (drop_rate.step (ieee.model ieee.cos_unit)
        (test_args (ieee.model ieee.cos_unit)))
      { total := 12, i := 2, last_pos := ⟨150, ⟨60, 30⟩⟩, t0 := 140 } rest :=
  rfl

/-- The counter `total` of `drop_rate` for the trajectory of the test case
`Test split`. -/
theorem test_split_drop_total :
    drop_rate.total (ieee.model ieee.cos_unit) test_split_trajectory
      (test_args (ieee.model ieee.cos_unit)) = 12 := by
  rw [drop_rate.total, test_split_trajectory, test_split_drop_stage_1, test_split_drop_stage_2, test_split_drop_stage_3,
    test_split_drop_stage_4]
  rfl

set_option maxRecDepth 100000 in
set_option exponentiation.threshold 4000 in
/-- The loop of `drop_rate` with the anchor kept after a completed segment, on
the trajectory of the test case `Test split`, evaluated in stages. -/
theorem test_split_anchor_stage_1 (rest : Trajectory) :
    List.foldl (drop_rate.step_keeping_anchor (ieee.model ieee.cos_unit)
        (test_args (ieee.model ieee.cos_unit)))
      ({ total := 0, i := 0, last_pos := ⟨0, ⟨0, 0⟩⟩, t0 := 0 }, false)
      (⟨0, ⟨0, 0⟩⟩ :: ⟨10, ⟨4, 2⟩⟩ :: ⟨20, ⟨8, 4⟩⟩ :: ⟨30, ⟨12, 6⟩⟩ :: rest) =
    List.foldl (drop_rate.step_keeping_anchor (ieee.model ieee.cos_unit)
        (test_args (ieee.model ieee.cos_unit)))
      ({ total := 4, i := 0, last_pos := ⟨30, ⟨12, 6⟩⟩, t0 := 0 }, true) rest :=
  rfl

set_option maxRecDepth 100000 in
set_option exponentiation.threshold 4000 in
theorem test_split_anchor_stage_2 (rest : Trajectory) :
    List.foldl (drop_rate.step_keeping_anchor (ieee.model ieee.cos_unit)
        (test_args (ieee.model ieee.cos_unit)))
      ({ total := 4, i := 0, last_pos := ⟨30, ⟨12, 6⟩⟩, t0 := 0 }, true)
      (⟨40, ⟨16, 8⟩⟩ :: ⟨50, ⟨20, 10⟩⟩ :: ⟨60, ⟨24, 12⟩⟩ :: rest) =
    List.foldl (drop_rate.step_keeping_anchor (ieee.model ieee.cos_unit)
        (test_args (ieee.model ieee.cos_unit)))
      ({ total := 7, i := 0, last_pos := ⟨60, ⟨24, 12⟩⟩, t0 := 0 }, true) rest :=
  rfl

set_option maxRecDepth 100000 in
set_option exponentiation.threshold 4000 in
theorem test_split_anchor_stage_3 (rest : Trajectory) :
    List.foldl (drop_rate.step_keeping_anchor (ieee.model ieee.cos_unit)
        (test_args (ieee.model ieee.cos_unit)))
      ({ total := 7, i := 0, last_pos := ⟨60, ⟨24, 12⟩⟩, t0 := 0 }, true)
      (⟨70, ⟨28, 14⟩⟩ :: ⟨999, ⟨32, 16⟩⟩ :: ⟨90, ⟨36, 18⟩⟩ :: ⟨100, ⟨40, 20⟩⟩ ::
        ⟨110, ⟨44, 22⟩⟩ :: rest) =
    List.foldl (drop_rate.step_keeping_anchor (ieee.model ieee.cos_unit)
        (test_args (ieee.model ieee.cos_unit)))
      ({ total := 8, i := 3, last_pos := ⟨110, ⟨44, 22⟩⟩, t0 := 90 }, true) rest :=
  rfl

set_option maxRecDepth 100000 in
set_option exponentiation.threshold 4000 in
theorem test_split_anchor_stage_4 (rest : Trajectory) :
    List.foldl (drop_rate.step_keeping_anchor (ieee.model ieee.cos_unit)
        (test_args (ieee.model ieee.cos_unit)))
      ({ total := 8, i := 3, last_pos := ⟨110, ⟨44, 22⟩⟩, t0 := 90 }, true)
      (⟨120, ⟨48, 24⟩⟩ :: ⟨130, ⟨52, 26⟩⟩ :: ⟨140, ⟨60, 28⟩⟩ :: rest) =
    List.foldl (drop_rate.step_keeping_anchor (ieee.model ieee.cos_unit)
        (test_args (ieee.model ieee.cos_unit)))
      ({ total := 13, i := 1, last_pos := ⟨140, ⟨60, 28⟩⟩, t0 := 140 }, true) rest :=
  rfl

set_option maxRecDepth 100000 in
set_option exponentiation.threshold 4000 in
theorem test_split_anchor_stage_5 (rest : Trajectory) :
    List.foldl (drop_rate.step_keeping_anchor (ieee.model ieee.cos_unit)
        (test_args (ieee.model ieee.cos_unit)))
      ({ total := 13, i := 1, last_pos := ⟨140, ⟨60, 28⟩⟩, t0 := 140 }, true)
      (⟨150, ⟨60, 30⟩⟩ :: rest) =
    List.foldl (drop_rate.step_keeping_anchor (ieee.model ieee.cos_unit)
        (test_args (ieee.model ieee.cos_unit)))
      ({ total := 13, i := 2, last_pos := ⟨150, ⟨60, 30⟩⟩, t0 := 140 }, true) rest :=
  rfl

/-- The counter `total` for the trajectory of the test case `Test split` when
the anchor is kept after a completed segment. -/
theorem test_split_anchor_total :
    drop_rate.total_keeping_anchor (ieee.model ieee.cos_unit) test_split_trajectory
      (test_args (ieee.model ieee.cos_unit)) = 13 := by
  rw [drop_rate.total_keeping_anchor, test_split_trajectory, test_split_anchor_stage_1, test_split_anchor_stage_2, test_split_anchor_stage_3,
    test_split_anchor_stage_4, test_split_anchor_stage_5]
  rfl

/-- Counterexample to C27 as stated: in the test case `Test split` the segment
of the positions at 0, 10, 20, 30 completes with anchor `t0 = 0`; the following
position at 40 is not tested against that anchor (`40 - 0 >= 25` would complete
again) but starts a fresh segment: `i = 1` and `t0 = 40`.  With the policy of the
claim the counter `total` would be 13; `drop_rate` computes 12. -/
theorem drop_rate_reanchors_after_completion :
    List.foldl (drop_rate.step (ieee.model ieee.cos_unit) (test_args (ieee.model ieee.cos_unit)))
        { total := 0, i := 0, last_pos := ⟨0, ⟨0, 0⟩⟩, t0 := 0 }
        [⟨0, ⟨0, 0⟩⟩, ⟨10, ⟨4, 2⟩⟩, ⟨20, ⟨8, 4⟩⟩, ⟨30, ⟨12, 6⟩⟩] =
      { total := 4, i := 0, last_pos := ⟨30, ⟨12, 6⟩⟩, t0 := 0 } ∧
    drop_rate.step (ieee.model ieee.cos_unit) (test_args (ieee.model ieee.cos_unit))
        { total := 4, i := 0, last_pos := ⟨30, ⟨12, 6⟩⟩, t0 := 0 } ⟨40, ⟨16, 8⟩⟩ =
      { total := 4, i := 1, last_pos := ⟨40, ⟨16, 8⟩⟩, t0 := 40 } ∧
    usub 40 0 ≥ umul (test_args (ieee.model ieee.cos_unit)).seq_length
      (test_args (ieee.model ieee.cos_unit)).dti ∧
    drop_rate.total (ieee.model ieee.cos_unit) test_split_trajectory
      (test_args (ieee.model ieee.cos_unit)) = 12 ∧
    drop_rate.total_keeping_anchor (ieee.model ieee.cos_unit) test_split_trajectory
      (test_args (ieee.model ieee.cos_unit)) = 13 :=
  ⟨test_split_drop_stage_1 [], rfl, by decide, test_split_drop_total, test_split_anchor_total⟩

/-- C27 (amended): in `drop_rate`, completing a segment adds the point counter
to `total` and resets it to 0; the position that follows a completed segment
makes the counter 1 and therefore starts a fresh segment anchored at its own
timestamp, without any test against the previous anchor.  This is the restart
policy of `split`, whose first position after a completed segment seeds the
cleared buffer and sets `t0`; hence `total` is the number of positions in the
completed segments of `split`. -/
theorem drop_rate_restarts_like_split :
    (∀ (D : Dbl) (args : split_args D) (s : drop_rate.State) (pos : Position),
      uadd s.i 1 ≠ 1 → is_gap D args pos s.last_pos = false →
      usub pos.t s.t0 ≥ umul args.seq_length args.dti →
      drop_rate.step D args s pos =
        { s with total := uadd s.total (uadd s.i 1), i := 0, last_pos := pos }) ∧
    (∀ (D : Dbl) (args : split_args D) (s : drop_rate.State) (pos : Position),
      s.i = 0 →
      drop_rate.step D args s pos = { s with i := 1, t0 := pos.t, last_pos := pos }) ∧
    (∀ (D : Dbl) (args : split_args D) (s : split.State) (pos : Position),
      s.buffer = [] →
      split.step D args s pos = some { s with buffer := [pos], t0 := pos.t }) ∧
    (∀ (D : Dbl) (trajectory : Trajectory) (args : split_args D),
      trajectory.length < U32 →
      drop_rate.total D trajectory args =
        ((split.segments D args [] 0 trajectory).map List.length).sum) :=
  ⟨drop_rate.step_completes, drop_rate.step_after_completion, split.step_empty,
    drop_rate.total_eq_segments⟩

/-- Witness of C27 (amended): the position at 40 of the test case `Test split`
after the segment completed at 30. -/
theorem drop_rate_restarts_like_split_witness :
    drop_rate.step (ieee.model ieee.cos_unit) (test_args (ieee.model ieee.cos_unit))
        { total := 4, i := 0, last_pos := ⟨30, ⟨12, 6⟩⟩, t0 := 0 } ⟨40, ⟨16, 8⟩⟩ =
      { total := 4, i := 1, last_pos := ⟨40, ⟨16, 8⟩⟩, t0 := 40 } :=
  drop_rate_restarts_like_split.2.1 (ieee.model ieee.cos_unit)
    (test_args (ieee.model ieee.cos_unit))
    { total := 4, i := 0, last_pos := ⟨30, ⟨12, 6⟩⟩, t0 := 0 } ⟨40, ⟨16, 8⟩⟩ rfl

/-- C29: a position whose 32-bit timestamp is smaller than its predecessor's
makes `p.t - prev.t` wrap to `2^32 - (prev.t - p.t)`; whenever `dt_max` is below
that value the pair is a temporal gap, and both `split` and `drop_rate` restart
the segment at that position (buffer `[p]`, counter 1, anchor `p.t`).  In the
test case `Test split` the position at 90 that follows the position at 999 is
such a gap for `dt_max = 15`, and the third completed segment starts at 90. -/
theorem out_of_order_position_restarts_segment :
    (∀ (D : Dbl) (args : split_args D) (p prev : Position),
      p.t < prev.t → prev.t < U32 → args.dt_max < U32 - (prev.t - p.t) →
      usub p.t prev.t = U32 - (prev.t - p.t) ∧
      is_gap D args p prev = true ∧
      (∀ s : split.State, s.buffer.getLast? = some prev →
        split.step D args s p = some { s with buffer := [p], t0 := p.t }) ∧
      (∀ s : drop_rate.State, s.last_pos = prev →
        drop_rate.step D args s p = { s with i := 1, t0 := p.t, last_pos := p })) ∧
    (∀ cos : ieee.B64 → ieee.B64, ieee.CosSpec cos →
      usub 90 999 = 2 ^ 32 - 909 ∧
      is_gap (ieee.model cos) (test_args (ieee.model cos)) ⟨90, ⟨36, 18⟩⟩ ⟨999, ⟨32, 16⟩⟩ = true ∧
      split.segments (ieee.model cos) (test_args (ieee.model cos)) [] 0 test_split_trajectory =
        [[⟨0, ⟨0, 0⟩⟩, ⟨10, ⟨4, 2⟩⟩, ⟨20, ⟨8, 4⟩⟩, ⟨30, ⟨12, 6⟩⟩],
         [⟨40, ⟨16, 8⟩⟩, ⟨50, ⟨20, 10⟩⟩, ⟨60, ⟨24, 12⟩⟩, ⟨70, ⟨28, 14⟩⟩],
         [⟨90, ⟨36, 18⟩⟩, ⟨100, ⟨40, 20⟩⟩, ⟨110, ⟨44, 22⟩⟩, ⟨120, ⟨48, 24⟩⟩]]) := by
  refine ⟨?_, ?_⟩
  · intro D args p prev hlt hU hdt
    have hw := usub_wrap p.t prev.t hlt hU
    have hg : is_gap D args p prev = true := is_gap_of_time D args p prev (by rw [hw]; exact hdt)
    refine ⟨hw, hg, ?_, ?_⟩
    · intro s hs
      exact split.step_gap D args s p prev hs hg
    · intro s hs
      exact drop_rate.step_on_gap D args s p (by rw [hs]; exact hg)
  · intro cos hcos
    have h15 : usub 90 999 > 15 := by decide
    refine ⟨by decide, is_gap_of_time _ _ _ _ h15, ?_⟩
    exact (test_segments_congr cos ieee.cos_unit hcos ieee.cos_unit_spec _
      test_split_classified).trans test_split_segments_unit

/-- Witness of C29: the positions at 999 and 90 of the test case `Test split`. -/
theorem out_of_order_position_restarts_segment_witness :
    usub 90 999 = U32 - (999 - 90) ∧
      is_gap (ieee.model ieee.cos_unit) (test_args (ieee.model ieee.cos_unit))
        ⟨90, ⟨36, 18⟩⟩ ⟨999, ⟨32, 16⟩⟩ = true :=
  ⟨(out_of_order_position_restarts_segment.1 (ieee.model ieee.cos_unit)
      (test_args (ieee.model ieee.cos_unit)) ⟨90, ⟨36, 18⟩⟩ ⟨999, ⟨32, 16⟩⟩
      (by decide) (by decide) (by decide)).1,
    (out_of_order_position_restarts_segment.1 (ieee.model ieee.cos_unit)
      (test_args (ieee.model ieee.cos_unit)) ⟨90, ⟨36, 18⟩⟩ ⟨999, ⟨32, 16⟩⟩
      (by decide) (by decide) (by decide)).2.1⟩

/-! ### The calls of `interpolate` made by `split` -/

/-- The precondition of `interpolate` at every call made by `split`, for a
segment with non-decreasing 32-bit timestamps. -/
theorem split.segment_precondition (D : Dbl) (traj : Trajectory) (args : split_args D)
    (seg : Trajectory) (hseg : seg ∈ split.segments D args [] 0 traj)
    (hs2 : seg.Pairwise (fun a b => a.t ≤ b.t)) (hU2 : ∀ p ∈ seg, p.t < U32)
    (hdur : args.seq_length * args.dti < U32) :
    2 ≤ seg.length ∧
    ∃ first last, seg.head? = some first ∧ seg.getLast? = some last ∧
      first.t + args.seq_length * args.dti ≤ last.t ∧
      ∃ pts, interpolate D seg (uadd args.seq_length 1) args.dti = some pts ∧
        pts.length = uadd args.seq_length 1 ∧
        ∀ i < uadd args.seq_length 1, ∃ pt, pts[i]? = some pt ∧
          IsGridPoint D seg (first.t + i * args.dti) pt := by
  obtain ⟨runs, r1, _, _⟩ := split.segments_runs D args traj traj [] 0 []
    (by simp) (split.BufInv.empty D args 0)
  obtain ⟨r, _, hr⟩ := forall₂_mem_right _ _ _ r1 seg hseg
  obtain ⟨pa, pb, hpa, hpb, hreach⟩ := hr.reach
  have hle := head_le_last seg pa pb hs2 hpa hpb
  have hpbU : pb.t < U32 := hU2 pb (List.mem_of_getLast?_eq_some hpb)
  rw [usub_eq _ _ hle hpbU, umul_eq _ _ hdur] at hreach
  have hN : uadd args.seq_length 1 - 1 ≤ args.seq_length := by
    unfold uadd
    have := Nat.mod_le (args.seq_length + 1) U32
    omega
  have hcover : pa.t + (uadd args.seq_length 1 - 1) * args.dti ≤ pb.t := by
    have := Nat.mul_le_mul_right args.dti hN
    omega
  have hlen : 2 ≤ seg.length := by
    rw [hr.length]
    have := hr.lt
    omega
  obtain ⟨pts, h1, h2, h3⟩ :=
    interpolate_grid D seg pa pb _ args.dti hlen hpa hpb hs2 hU2 hcover
  exact ⟨hlen, pa, pb, hpa, hpb, by omega, pts, h1, h2, h3⟩

/-- The pair of positions a grid point is blended from encloses the grid time;
with strictly increasing timestamps the weight is a quotient with a positive
denominator and a numerator not above it. -/
theorem IsGridPoint.enclosed (D : Dbl) (seg : Trajectory) (first : Position) (ti : Nat)
    (pt : Point) (hfirst : seg.head? = some first) (hti : first.t ≤ ti)
    (hinc : seg.Pairwise (fun a b => a.t < b.t)) (h : IsGridPoint D seg ti pt) :
    ∃ j pj pj1, seg[j]? = some pj ∧ seg[j + 1]? = some pj1 ∧
      pj.t ≤ ti ∧ ti ≤ pj1.t ∧ pj.t < pj1.t ∧
      pt = pj.x.interpolate D pj1.x (D.div (D.ofNat (ti - pj.t)) (D.ofNat (pj1.t - pj.t))) := by
  obtain ⟨j, pj, pj1, h1, h2, h3, h4, h5⟩ := h
  refine ⟨j, pj, pj1, h1, h2, ?_, h3, ?_, h5⟩
  · cases j with
    | zero =>
      cases seg with
      | nil => simp at hfirst
      | cons a rest =>
        simp only [List.head?_cons, Option.some.injEq] at hfirst
        simp only [List.getElem?_cons_zero, Option.some.injEq] at h1
        rw [← h1, hfirst]
        exact hti
    | succ j =>
      exact Nat.le_of_lt (h4 j (by omega) pj h1)
  · have hj : j < seg.length := (List.getElem?_eq_some_iff.1 h1).1
    have hj1 : j + 1 < seg.length := (List.getElem?_eq_some_iff.1 h2).1
    have e1 : seg[j] = pj := (List.getElem?_eq_some_iff.1 h1).2
    have e2 : seg[j + 1] = pj1 := (List.getElem?_eq_some_iff.1 h2).2
    have := List.pairwise_iff_getElem.1 hinc j (j + 1) hj hj1 (by omega)
    rw [e1, e2] at this
    exact this

namespace ieee

/-- The weight `double(a) / double(b)` for 32-bit values `a <= b`, `b > 0`, lies
in `[0, 1]`. -/
theorem weight_range (cos : B64 → B64) (a b : Nat) (hab : a ≤ b) (hb0 : 0 < b)
    (hb : b < U32) :
    (model cos).le ((model cos).lit 0 0)
        ((model cos).div ((model cos).ofNat a) ((model cos).ofNat b)) = true ∧
      (model cos).le ((model cos).div ((model cos).ofNat a) ((model cos).ofNat b))
        ((model cos).lit 1 0) = true := by
  have e0 : (model cos).lit 0 0 = B64.fin false 0 (-1074) := by
    show rnd false 0 (10 ^ 0) = _
    rw [pow_zero, lit_0]
  have e1 : (model cos).lit 1 0 = B64.fin false (2 ^ 52) (-52) := by
    show rnd false 1 (10 ^ 0) = _
    rw [pow_zero, lit_1]
    rfl
  rw [e0, e1]
  show le _ (div (rndZ false a 0) (rndZ false b 0)) = true ∧
    le (div (rndZ false a 0) (rndZ false b 0)) _ = true
  have hfa : Fin0 (rndZ false a 0) := ofNat_fin0 a (by omega)
  have hfb : Fin0 (rndZ false b 0) := ofNat_fin0 b hb
  have hU64 : b < U64 := by
    unfold U32 at hb
    unfold U64
    omega
  have hpos := (ofNat_pos b hb0 hU64).2
  have hmono := (rndZ_mono a 0 b 0 (by
    simp only [zpow_zero, mul_one]
    exact_mod_cast hab) hfb).2.2
  obtain ⟨hfw, hw1⟩ := div_unit hfa hfb hmono (by linarith)
  constructor
  · rw [le_fin0 ⟨0, -1074, rfl⟩ hfw]
    have : val (.fin false 0 (-1074)) = 0 := by
      rw [val_fin_false]
      simp
    rw [this]
    exact val_nonneg_of_fin0 hfw
  · rw [le_fin0 hfw ⟨2 ^ 52, -52, rfl⟩]
    have : val (.fin false (2 ^ 52) (-52)) = 1 := by
      rw [val_fin_false]
      norm_num
    rw [this]
    exact hw1

end ieee

/-- C28: for a segment `split` hands to `interpolate` whose timestamps are
non-decreasing 32-bit values, with `seq_length * dti` below `2^32`, the
precondition of the resampler holds: the segment has at least two positions and
its last timestamp is at least the final grid time `t0 + seq_length * dti`, and
`interpolate` returns its `seq_length + 1` points, i.e. no read of
`trajectory[j + 1]` leaves the buffer.  If the timestamps are strictly
increasing, every grid point is the blend of a pair `p_j`, `p_j+1` with
`p_j.t <= t_i <= p_j+1.t` and `p_j.t < p_j+1.t` (no division by zero), and in
binary64 arithmetic its weight lies in `[0, 1]`. -/
theorem split_calls_interpolate_within_bounds :
    (∀ (D : Dbl) (trajectory : Trajectory) (args : split_args D) (seg : Trajectory),
      seg ∈ split.segments D args [] 0 trajectory →
      seg.Pairwise (fun a b => a.t ≤ b.t) → (∀ p ∈ seg, p.t < U32) →
      args.seq_length * args.dti < U32 →
      2 ≤ seg.length ∧
      ∃ first last, seg.head? = some first ∧ seg.getLast? = some last ∧
        first.t + args.seq_length * args.dti ≤ last.t ∧
        ∃ pts, interpolate D seg (uadd args.seq_length 1) args.dti = some pts ∧
          pts.length = uadd args.seq_length 1 ∧
          ∀ i < uadd args.seq_length 1, ∃ pt, pts[i]? = some pt ∧
            IsGridPoint D seg (first.t + i * args.dti) pt) ∧
    (∀ (cos : ieee.B64 → ieee.B64) (trajectory : Trajectory)
        (args : split_args (ieee.model cos)) (seg : Trajectory),
      seg ∈ split.segments (ieee.model cos) args [] 0 trajectory →
      seg.Pairwise (fun a b => a.t < b.t) → (∀ p ∈ seg, p.t < U32) →
      args.seq_length * args.dti < U32 →
      ∃ first pts, seg.head? = some first ∧
        interpolate (ieee.model cos) seg (uadd args.seq_length 1) args.dti = some pts ∧
        ∀ i < uadd args.seq_length 1,
          ∃ pt j pj pj1, pts[i]? = some pt ∧ seg[j]? = some pj ∧ seg[j + 1]? = some pj1 ∧
            pj.t ≤ first.t + i * args.dti ∧ first.t + i * args.dti ≤ pj1.t ∧
            pj.t < pj1.t ∧
            pt = pj.x.interpolate (ieee.model cos) pj1.x
              ((ieee.model cos).div ((ieee.model cos).ofNat (first.t + i * args.dti - pj.t))
                ((ieee.model cos).ofNat (pj1.t - pj.t))) ∧
            (ieee.model cos).le ((ieee.model cos).lit 0 0)
              ((ieee.model cos).div ((ieee.model cos).ofNat (first.t + i * args.dti - pj.t))
                ((ieee.model cos).ofNat (pj1.t - pj.t))) = true ∧
            (ieee.model cos).le
              ((ieee.model cos).div ((ieee.model cos).ofNat (first.t + i * args.dti - pj.t))
                ((ieee.model cos).ofNat (pj1.t - pj.t)))
              ((ieee.model cos).lit 1 0) = true) := by
  refine ⟨?_, ?_⟩
  · intro D trajectory args seg hseg hs hU hdur
    exact split.segment_precondition D trajectory args seg hseg hs hU hdur
  · intro cos trajectory args seg hseg hinc hU hdur
    obtain ⟨_, first, last, hf, hl, _, pts, hp1, _, hp3⟩ :=
      split.segment_precondition (ieee.model cos) trajectory args seg hseg
        (hinc.imp (fun h => Nat.le_of_lt h)) hU hdur
    refine ⟨first, pts, hf, hp1, ?_⟩
    intro i hi
    obtain ⟨pt, hpt, hg⟩ := hp3 i hi
    obtain ⟨j, pj, pj1, h1, h2, h3, h4, h5, h6⟩ :=
      IsGridPoint.enclosed (ieee.model cos) seg first _ pt hf (by omega) hinc hg
    have hpj1U : pj1.t < U32 := hU pj1 (List.mem_iff_getElem?.2 ⟨j + 1, h2⟩)
    obtain ⟨w0, w1⟩ := ieee.weight_range cos (first.t + i * args.dti - pj.t) (pj1.t - pj.t)
      (by omega) (by omega) (by omega)
    exact ⟨pt, j, pj, pj1, hpt, h1, h2, h3, h4, h5, h6, w0, w1⟩

set_option maxRecDepth 1000000 in
set_option exponentiation.threshold 4000 in
/-- Witness of C28: the first completed segment of the test case `Test split`. -/
theorem split_calls_interpolate_within_bounds_witness :
    2 ≤ ([⟨0, ⟨0, 0⟩⟩, ⟨10, ⟨4, 2⟩⟩, ⟨20, ⟨8, 4⟩⟩, ⟨30, ⟨12, 6⟩⟩] : Trajectory).length ∧
      ∃ first last,
        ([⟨0, ⟨0, 0⟩⟩, ⟨10, ⟨4, 2⟩⟩, ⟨20, ⟨8, 4⟩⟩, ⟨30, ⟨12, 6⟩⟩] : Trajectory).head? =
          some first ∧
        ([⟨0, ⟨0, 0⟩⟩, ⟨10, ⟨4, 2⟩⟩, ⟨20, ⟨8, 4⟩⟩, ⟨30, ⟨12, 6⟩⟩] : Trajectory).getLast? =
          some last ∧
        first.t + (test_args (ieee.model ieee.cos_unit)).seq_length *
          (test_args (ieee.model ieee.cos_unit)).dti ≤ last.t ∧
        ∃ pts, interpolate (ieee.model ieee.cos_unit)
            [⟨0, ⟨0, 0⟩⟩, ⟨10, ⟨4, 2⟩⟩, ⟨20, ⟨8, 4⟩⟩, ⟨30, ⟨12, 6⟩⟩]
            (uadd (test_args (ieee.model ieee.cos_unit)).seq_length 1)
            (test_args (ieee.model ieee.cos_unit)).dti = some pts ∧
          pts.length = uadd (test_args (ieee.model ieee.cos_unit)).seq_length 1 ∧
          ∀ i < uadd (test_args (ieee.model ieee.cos_unit)).seq_length 1,
            ∃ pt, pts[i]? = some pt ∧
              IsGridPoint (ieee.model ieee.cos_unit)
                [⟨0, ⟨0, 0⟩⟩, ⟨10, ⟨4, 2⟩⟩, ⟨20, ⟨8, 4⟩⟩, ⟨30, ⟨12, 6⟩⟩]
                (first.t + i * (test_args (ieee.model ieee.cos_unit)).dti) pt :=
  split_calls_interpolate_within_bounds.1 (ieee.model ieee.cos_unit) test_split_trajectory
    (test_args (ieee.model ieee.cos_unit))
    [⟨0, ⟨0, 0⟩⟩, ⟨10, ⟨4, 2⟩⟩, ⟨20, ⟨8, 4⟩⟩, ⟨30, ⟨12, 6⟩⟩]
    (by rw [test_split_segments_unit]; simp)
    (by decide) (by decide) (by decide)

/-! ### The line splitter and the ingestion of one line -/

namespace utility

theorem splitOnP_takeWhile (p : Char → Bool) (s : List Char) :
    s.splitOnP p = s.takeWhile (fun c => !p c) ::
      (match s.dropWhile (fun c => !p c) with
        | [] => []
        | _ :: r => r.splitOnP p) := by
  have hs : s.takeWhile (fun c => !p c) ++ s.dropWhile (fun c => !p c) = s :=
    List.takeWhile_append_dropWhile _ _
  have htw : ∀ x ∈ s.takeWhile (fun c => !p c), ¬ p x = true := by
    intro x hx
    have := List.mem_takeWhile_imp hx
    simpa using this
  cases hd : s.dropWhile (fun c => !p c) with
  | nil =>
    rw [hd, List.append_nil] at hs
    simp only
    rw [hs] at htw ⊢
    exact List.splitOnP_eq_single p s htw
  | cons sep r =>
    simp only
    have hsep : p sep = true := by
      have := List.head_dropWhile_not (fun c => !p c) s (by rw [hd]; simp)
      simp only [hd, List.head_cons] at this
      simpa using this
    rw [hd] at hs
    conv_lhs => rw [← hs]
    exact List.splitOnP_first p _ htw sep hsep r

theorem splitOnP_delimiter (delimiter s : List Char) :
    s.splitOnP (fun c => delimiter.contains c) =
      s.takeWhile (fun c => !delimiter.contains c) ::
        (match s.dropWhile (fun c => !delimiter.contains c) with
          | [] => []
          | _ :: r => r.splitOnP (fun c => delimiter.contains c)) :=
  splitOnP_takeWhile _ s

theorem separator_free_tokens_step (delimiter s : List Char) :
    separator_free_tokens delimiter s =
      (if s.takeWhile (fun c => !delimiter.contains c) ≠ [] then
        [s.takeWhile (fun c => !delimiter.contains c)] else []) ++
      (match s.dropWhile (fun c => !delimiter.contains c) with
        | [] => []
        | _ :: r => separator_free_tokens delimiter r) := by
  unfold separator_free_tokens
  rw [splitOnP_delimiter]
  generalize s.takeWhile (fun c => !delimiter.contains c) = tok
  generalize s.dropWhile (fun c => !delimiter.contains c) = dw
  cases dw with
  | nil =>
    cases tok with
    | nil => rfl
    | cons c t => rfl
  | cons sep r =>
    cases tok with
    | nil => rfl
    | cons c t => rfl

theorem separator_free_tokens_nil (delimiter : List Char) :
    separator_free_tokens delimiter [] = [] := by
  simp [separator_free_tokens]

theorem split_map_loop_spec (delimiter : List Char) (N : Nat) (fuel : Nat)
    (tokens : List (List Char)) (first : List Char) (hf : first.length < fuel) :
    detail.split_map.loop delimiter N fuel tokens first =
      tokens ++ (separator_free_tokens delimiter first).take (N - tokens.length) := by
  induction fuel generalizing tokens first with
  | zero => omega
  | succ fuel ih =>
    rw [detail.split_map.loop]
    by_cases hc : tokens.length < N ∧ first ≠ []
    · rw [if_pos hc]
      have hstep := separator_free_tokens_step delimiter first
      have hlen : (first.dropWhile (fun c => !delimiter.contains c)).length ≤ first.length :=
        (List.dropWhile_sublist _).length_le
      rw [hstep]
      show (match first.dropWhile (fun c => !delimiter.contains c) with
        | [] => if first.takeWhile (fun c => !delimiter.contains c) ≠ [] then
            tokens ++ [first.takeWhile (fun c => !delimiter.contains c)] else tokens
        | _ :: next => detail.split_map.loop delimiter N fuel
            (if first.takeWhile (fun c => !delimiter.contains c) ≠ [] then
              tokens ++ [first.takeWhile (fun c => !delimiter.contains c)] else tokens) next) = _
      generalize first.takeWhile (fun c => !delimiter.contains c) = tok
      generalize first.dropWhile (fun c => !delimiter.contains c) = dw at hlen
      have e : N - tokens.length = (N - (tokens.length + 1)) + 1 := by omega
      cases dw with
      | nil =>
        simp only [List.append_nil]
        by_cases ht : tok = []
        · subst ht
          simp
        · rw [if_pos ht, if_pos ht, List.take_of_length_le (by simp; omega)]
      | cons sep next =>
        simp only [List.length_cons] at hlen
        simp only
        rw [ih _ next (by omega)]
        by_cases ht : tok = []
        · subst ht
          simp
        · rw [if_pos ht, if_pos ht, List.length_append, List.length_singleton, e,
            List.singleton_append, List.take_succ_cons, List.append_assoc]
          rfl
    · rw [if_neg hc]
      by_cases h1 : tokens.length < N
      · have h2 : first = [] := by
          by_contra h
          exact hc ⟨h1, h⟩
        rw [h2, separator_free_tokens_nil]
        simp
      · have : N - tokens.length = 0 := by omega
        rw [this]
        simp

/-- `split_map` in terms of the tokens of the line. -/
theorem split_map_spec {β : Type} (N : Nat) (line delimiter : List Char)
    (map : List (List Char) → β) :
    split_map N line delimiter map =
      if (separator_free_tokens delimiter line).length < N then
        .error "Invalid data format. Could not find enough columns."
      else .ok (map ((separator_free_tokens delimiter line).take N)) := by
  unfold split_map
  simp only
  rw [split_map_loop_spec delimiter N _ [] line (by omega)]
  simp only [List.nil_append, List.length_nil, Nat.sub_zero, List.length_take]
  by_cases h : (separator_free_tokens delimiter line).length < N
  · rw [if_pos (by omega), if_pos h]
  · rw [if_neg (by omega), if_neg h]

end utility

theorem Sequencer.lookup_append_position_self (m : List (Int × Trajectory)) (mmsi : Int)
    (pos : Position) :
    (Sequencer.append_position m mmsi pos).lookup mmsi =
      some ((m.lookup mmsi).getD [] ++ [pos]) := by
  induction m with
  | nil => simp [Sequencer.append_position, List.lookup]
  | cons e rest ih =>
    obtain ⟨k, buffer⟩ := e
    rw [Sequencer.append_position]
    by_cases h : k = mmsi
    · subst h
      simp [List.lookup]
    · have h2 : (mmsi == k) = false := by
        simp only [beq_eq_false_iff_ne, ne_eq]
        exact fun h3 => h h3.symm
      rw [if_neg h]
      simp only [List.lookup, h2, ih]

theorem Sequencer.lookup_append_position_other (m : List (Int × Trajectory)) (mmsi : Int)
    (pos : Position) (k : Int) (hk : k ≠ mmsi) :
    (Sequencer.append_position m mmsi pos).lookup k = m.lookup k := by
  induction m with
  | nil =>
    have h2 : (k == mmsi) = false := by simpa using hk
    simp [Sequencer.append_position, List.lookup, h2]
  | cons e rest ih =>
    obtain ⟨k1, buffer⟩ := e
    rw [Sequencer.append_position]
    by_cases h : k1 = mmsi
    · subst h
      have h2 : (k == k1) = false := by simpa using hk
      simp [List.lookup, h2]
    · rw [if_neg h]
      by_cases h3 : k = k1
      · subst h3
        simp [List.lookup]
      · have h2 : (k == k1) = false := by simpa using h3
        simp only [List.lookup, h2, ih]

theorem Sequencer.keys_append_position (m : List (Int × Trajectory)) (mmsi : Int)
    (pos : Position) :
    (Sequencer.append_position m mmsi pos).map Prod.fst =
      if mmsi ∈ m.map Prod.fst then m.map Prod.fst else m.map Prod.fst ++ [mmsi] := by
  induction m with
  | nil => simp [Sequencer.append_position]
  | cons e rest ih =>
    obtain ⟨k, buffer⟩ := e
    rw [Sequencer.append_position]
    by_cases h : k = mmsi
    · subst h
      simp
    · rw [if_neg h]
      simp only [List.map_cons, ih, List.mem_cons]
      have h2 : ¬ mmsi = k := fun h3 => h h3.symm
      simp only [h2, false_or]
      split <;> simp

/-- The callback on a line with at least five tokens. -/
theorem Sequencer.ingest_tokens (delimiter : List Char) (m : List (Int × Trajectory))
    (line : List Char) (t_str mmsi_str slot_str lat_str lon_str : List Char)
    (h : (utility.separator_free_tokens delimiter line).take 5 =
      [t_str, mmsi_str, slot_str, lat_str, lon_str]) :
    Sequencer.ingest delimiter m line =
      match process_ais_line t_str mmsi_str slot_str lat_str lon_str with
      | .error msg => .error msg
      | .ok none => .ok m
      | .ok (some (mmsi, trajectory)) => .ok (Sequencer.append_position m mmsi trajectory) := by
  have hlen : ¬ (utility.separator_free_tokens delimiter line).length < 5 := by
    intro hc
    have := congrArg List.length h
    simp only [List.length_take, List.length_cons, List.length_nil] at this
    omega
  unfold Sequencer.ingest
  rw [utility.split_map_spec, if_neg hlen, h]
  simp only [Sequencer.process_tokens]
  cases process_ais_line t_str mmsi_str slot_str lat_str lon_str with
  | error msg => rfl
  | ok r =>
    cases r with
    | none => rfl
    | some v => rfl

/-- The callback on a line with fewer than five tokens throws. -/
theorem Sequencer.ingest_short (delimiter : List Char) (m : List (Int × Trajectory))
    (line : List Char) (h : (utility.separator_free_tokens delimiter line).length < 5) :
    Sequencer.ingest delimiter m line =
      .error "Invalid data format. Could not find enough columns." := by
  unfold Sequencer.ingest
  rw [utility.split_map_spec, if_pos h]

theorem process_input_stream_line {σ : Type} (f : σ → List Char → Except String σ)
    (line rest buffer : List Char) (st : σ) (h : '\n' ∉ line) :
    process_input_stream f (line ++ '\n' :: rest) buffer st =
      match f st (buffer ++ line) with
      | .error msg => .error msg
      | .ok st1 => process_input_stream f rest [] st1 := by
  induction line generalizing buffer with
  | nil =>
    simp only [List.nil_append, List.append_nil]
    rw [process_input_stream]
    simp
  | cons c line ih =>
    have hc : c ≠ '\n' := by
      intro h1
      exact h (by rw [h1]; exact List.mem_cons_self _ _)
    have hl : '\n' ∉ line := fun h1 => h (List.mem_cons_of_mem _ h1)
    rw [List.cons_append, process_input_stream, if_neg hc, ih _ hl]
    simp

namespace utility

/-- Every token is non-empty and contains no separator. -/
theorem separator_free_tokens_mem (delimiter : List Char) (n : Nat) (line : List Char)
    (hn : line.length ≤ n) (tok : List Char)
    (h : tok ∈ separator_free_tokens delimiter line) :
    tok ≠ [] ∧ ∀ c ∈ tok, c ∉ delimiter := by
  induction n generalizing line with
  | zero =>
    have : line = [] := List.length_eq_zero.1 (by omega)
    rw [this, separator_free_tokens_nil] at h
    cases h
  | succ n ih =>
    rw [separator_free_tokens_step] at h
    rcases List.mem_append.1 h with h1 | h1
    · by_cases ht : line.takeWhile (fun c => !delimiter.contains c) = []
      · rw [if_neg (by simpa using ht)] at h1
        cases h1
      · rw [if_pos ht] at h1
        have e : tok = line.takeWhile (fun c => !delimiter.contains c) := by simpa using h1
        rw [e]
        refine ⟨ht, ?_⟩
        intro c hc
        have := List.mem_takeWhile_imp hc
        simpa using this
    · have hlen : (line.dropWhile (fun c => !delimiter.contains c)).length ≤ line.length :=
        (List.dropWhile_sublist _).length_le
      cases hd : line.dropWhile (fun c => !delimiter.contains c) with
      | nil =>
        rw [hd] at h1
        cases h1
      | cons sep r =>
        rw [hd] at h1 hlen
        simp only [List.length_cons] at hlen
        exact ih r (by omega) h1

/-- The lambda `process_ais_line` does not throw on non-empty columns. -/
theorem process_ais_line_ok (t_str mmsi_str slot_str lat_str lon_str : List Char)
    (h1 : t_str ≠ []) (h2 : mmsi_str ≠ []) (h3 : slot_str ≠ []) (h4 : lat_str ≠ [])
    (h5 : lon_str ≠ []) :
    ∃ r, process_ais_line t_str mmsi_str slot_str lat_str lon_str = .ok r := by
  unfold process_ais_line
  have he : ¬ (t_str.isEmpty || mmsi_str.isEmpty || slot_str.isEmpty || lat_str.isEmpty ||
      lon_str.isEmpty) = true := by
    simp only [Bool.or_eq_true, List.isEmpty_iff, not_or]
    exact ⟨⟨⟨⟨h1, h2⟩, h3⟩, h4⟩, h5⟩
  rw [if_neg he]
  simp only
  split
  · split
    · exact ⟨_, rfl⟩
    · exact ⟨_, rfl⟩
  · exact ⟨_, rfl⟩

end utility

/-- C21: ingesting one input line with the callback of the constructor of
`Sequencer`.  For a line whose first five tokens form a record that
`process_ais_line` accepts with `(mmsi, position)`, the new store maps `mmsi` to
its former buffer (the empty buffer if the key was unknown) with the position
appended at the end, every other key to its unchanged buffer, and its keys are
the former keys, with `mmsi` added if it was unknown.  If the record fails
validation (`std::nullopt`), the store is unchanged and no error is raised.  A
record of five tokens is either accepted or fails validation. -/
theorem ingest_line_updates_one_buffer :
    (∀ (delimiter : List Char) (store : List (Int × Trajectory)) (line : List Char)
        (t_str mmsi_str slot_str lat_str lon_str : List Char) (mmsi : Int) (pos : Position),
      (utility.separator_free_tokens delimiter line).take 5 =
        [t_str, mmsi_str, slot_str, lat_str, lon_str] →
      process_ais_line t_str mmsi_str slot_str lat_str lon_str = .ok (some (mmsi, pos)) →
      ∃ store1, Sequencer.ingest delimiter store line = .ok store1 ∧
        store1.lookup mmsi = some ((store.lookup mmsi).getD [] ++ [pos]) ∧
        (store.lookup mmsi = none → store1.lookup mmsi = some [pos]) ∧
        (∀ k, k ≠ mmsi → store1.lookup k = store.lookup k) ∧
        store1.map Prod.fst =
          if mmsi ∈ store.map Prod.fst then store.map Prod.fst
          else store.map Prod.fst ++ [mmsi]) ∧
    (∀ (delimiter : List Char) (store : List (Int × Trajectory)) (line : List Char)
        (t_str mmsi_str slot_str lat_str lon_str : List Char),
      (utility.separator_free_tokens delimiter line).take 5 =
        [t_str, mmsi_str, slot_str, lat_str, lon_str] →
      process_ais_line t_str mmsi_str slot_str lat_str lon_str = .ok none →
      Sequencer.ingest delimiter store line = .ok store) ∧
    (∀ (delimiter : List Char) (line : List Char)
        (t_str mmsi_str slot_str lat_str lon_str : List Char),
      (utility.separator_free_tokens delimiter line).take 5 =
        [t_str, mmsi_str, slot_str, lat_str, lon_str] →
      ∃ r, process_ais_line t_str mmsi_str slot_str lat_str lon_str = .ok r) := by
  refine ⟨?_, ?_, ?_⟩
  · intro delimiter store line t_str mmsi_str slot_str lat_str lon_str mmsi pos htok hacc
    refine ⟨Sequencer.append_position store mmsi pos, ?_,
      Sequencer.lookup_append_position_self store mmsi pos, ?_,
      fun k hk => Sequencer.lookup_append_position_other store mmsi pos k hk,
      Sequencer.keys_append_position store mmsi pos⟩
    · rw [Sequencer.ingest_tokens delimiter store line _ _ _ _ _ htok, hacc]
    · intro hnone
      rw [Sequencer.lookup_append_position_self, hnone]
      rfl
  · intro delimiter store line t_str mmsi_str slot_str lat_str lon_str htok hrej
    rw [Sequencer.ingest_tokens delimiter store line _ _ _ _ _ htok, hrej]
  · intro delimiter line t_str mmsi_str slot_str lat_str lon_str htok
    have hmem : ∀ tok ∈ [t_str, mmsi_str, slot_str, lat_str, lon_str], tok ≠ [] := by
      intro tok htokm
      rw [← htok] at htokm
      exact (utility.separator_free_tokens_mem delimiter _ line (le_refl _) tok
        (List.mem_of_mem_take htokm)).1
    exact utility.process_ais_line_ok _ _ _ _ _ (hmem _ (by simp)) (hmem _ (by simp))
      (hmem _ (by simp)) (hmem _ (by simp)) (hmem _ (by simp))

/-- Witness of C21: a valid record for a vessel that is not yet in the store. -/
theorem ingest_line_updates_one_buffer_witness :
    ∃ store1, Sequencer.ingest [',', ' '] []
        "1456786800.005, 211000000, 0, 60000000, 6000000, x".toList = .ok store1 ∧
      store1.lookup 211000000 =
        some ((([] : List (Int × Trajectory)).lookup 211000000).getD [] ++
          [⟨1456786800, ⟨60000000, 6000000⟩⟩]) ∧
      ((([] : List (Int × Trajectory)).lookup 211000000) = none →
        store1.lookup 211000000 = some [⟨1456786800, ⟨60000000, 6000000⟩⟩]) ∧
      (∀ k, k ≠ 211000000 → store1.lookup k = ([] : List (Int × Trajectory)).lookup k) ∧
      store1.map Prod.fst =
        if (211000000 : Int) ∈ ([] : List (Int × Trajectory)).map Prod.fst then
          ([] : List (Int × Trajectory)).map Prod.fst
        else ([] : List (Int × Trajectory)).map Prod.fst ++ [211000000] :=
  ingest_line_updates_one_buffer.1 [',', ' '] []
    "1456786800.005, 211000000, 0, 60000000, 6000000, x".toList
    "1456786800.005".toList "211000000".toList "0".toList "60000000".toList "6000000".toList
    211000000 ⟨1456786800, ⟨60000000, 6000000⟩⟩ (by decide) rfl

/-- C22: `split_map(line, delimiter, map)` for a function `map` of `N`
parameters cuts the line at every character that occurs in `delimiter`, takes
the first `N` non-empty separator-free tokens in order and returns `map` applied
to them, whatever follows the `N`-th token; it throws `std::invalid_argument` if
and only if the line has fewer than `N` such tokens.  The exception leaves the
callback of the constructor of `Sequencer` and ends `io::process_input_stream`:
the run is aborted, the record is not skipped. -/
theorem split_map_takes_first_tokens :
    (∀ (β : Type) (N : Nat) (line delimiter : List Char) (map : List (List Char) → β),
      utility.split_map N line delimiter map =
        if (utility.separator_free_tokens delimiter line).length < N then
          .error "Invalid data format. Could not find enough columns."
        else .ok (map ((utility.separator_free_tokens delimiter line).take N))) ∧
    (∀ (delimiter line tok : List Char), tok ∈ utility.separator_free_tokens delimiter line →
      tok ≠ [] ∧ ∀ c ∈ tok, c ∉ delimiter) ∧
    utility.separator_free_tokens [',', ' '] "a, b,,c d ".toList =
      ["a".toList, "b".toList, "c".toList, "d".toList] ∧
    (∀ (delimiter : List Char) (store : List (Int × Trajectory)) (line : List Char),
      (utility.separator_free_tokens delimiter line).length < 5 →
      Sequencer.ingest delimiter store line =
        .error "Invalid data format. Could not find enough columns.") ∧
    (∀ (σ : Type) (f : σ → List Char → Except String σ) (line rest : List Char) (st : σ)
        (msg : String), '\n' ∉ line → f st line = .error msg →
      process_input_stream f (line ++ '\n' :: rest) [] st = .error msg) := by
  refine ⟨fun β N line delimiter map => utility.split_map_spec N line delimiter map,
    fun delimiter line tok h =>
      utility.separator_free_tokens_mem delimiter _ line (le_refl _) tok h,
    by decide, Sequencer.ingest_short, ?_⟩
  intro σ f line rest st msg hline hf
  rw [process_input_stream_line f line rest [] st hline, List.nil_append, hf]

/-- Witness of C22: a line with four tokens is a format error for the callback
of `Sequencer`. -/
theorem split_map_takes_first_tokens_witness :
    Sequencer.ingest [',', ' '] [] "1456786800.005, 211000000, 0, 60000000".toList =
      .error "Invalid data format. Could not find enough columns." :=
  split_map_takes_first_tokens.2.2.2.1 [',', ' '] []
    "1456786800.005, 211000000, 0, 60000000".toList (by decide)

/-! ### The handlers `SequenceDiff` and `SequenceCounter` -/

/-- With the parameters of `SequenceDiff` the gate of `Sequencer::run` only
tests that the buffer is not empty. -/
theorem SequenceDiff.gate_non_empty (D : Dbl) (trajectory : Trajectory) :
    Sequencer.gate D (SequenceDiff.args D) trajectory = true ↔ trajectory ≠ [] := by
  unfold Sequencer.gate
  have hd : umul (SequenceDiff.args D).seq_length (SequenceDiff.args D).dti = 0 := by
    show umul 0 0 = 0
    rfl
  simp only [hd, ge_iff_le, Nat.zero_le, and_true, decide_True]
  cases trajectory with
  | nil => simp
  | cons a rest =>
    have hl : ∃ l, (a :: rest).getLast? = some l :=
      ⟨(a :: rest).getLast (by simp), List.getLast?_eq_getLast _ _⟩
    obtain ⟨l, hl⟩ := hl
    simp [hl]

theorem utility.adjacent_diff_eq {α β : Type} (xs : List α) (op : α → α → β) (stride : Nat) :
    utility.adjacent_diff xs op stride = List.zipWith op xs (xs.drop stride) := by
  unfold utility.adjacent_diff
  by_cases h : xs.length > stride
  · rw [if_pos h, adjacent_diff_loop_zipWith]
  · rw [if_neg h, List.drop_of_length_le (by omega)]
    simp

theorem SequenceDiff.process_eq (D : Dbl) (stride : Nat) (st : List (Nat × Int)) (k : Int)
    (trajectory : Trajectory) :
    SequenceDiff.process D stride st k trajectory =
      some (st ++ utility.adjacent_diff trajectory (SequenceDiff.diff D) stride) := by
  unfold SequenceDiff.process
  by_cases hl : trajectory.length > stride
  · rw [if_pos hl]
  · rw [if_neg hl, utility.adjacent_diff, if_neg hl, List.append_nil]

/-- The member `diffs_` after `Sequencer::run`: the concatenation, over the
vessels of the store in iteration order, of the lists `adjacent_diff` produces
for the cleaned buffers. -/
theorem SequenceDiff.run_from (D : Dbl) (sort : Trajectory → Trajectory) (stride : Nat)
    (store : List (Int × Trajectory)) (st : List (Nat × Int)) :
    Sequencer.run D (SequenceDiff.args D) sort (SequenceDiff.process D stride) false store st =
      some (st ++ (store.map (fun e => utility.adjacent_diff
        (Sequencer.clean D (SequenceDiff.args D) false (sort e.2))
        (SequenceDiff.diff D) stride)).flatten) := by
  induction store generalizing st with
  | nil => simp [Sequencer.run]
  | cons e rest ih =>
    obtain ⟨k, raw⟩ := e
    rw [Sequencer.run_cons]
    by_cases hg : Sequencer.gate D (SequenceDiff.args D)
        (Sequencer.clean D (SequenceDiff.args D) false (sort raw)) = true
    · rw [if_pos hg, SequenceDiff.process_eq]
      simp only
      rw [ih]
      simp
    · rw [if_neg hg, ih]
      have hnil : Sequencer.clean D (SequenceDiff.args D) false (sort raw) = [] := by
        by_contra hne
        exact hg ((SequenceDiff.gate_non_empty D _).2 hne)
      simp [hnil, utility.adjacent_diff]

theorem emplace_fresh {ν : Type} (m : List (Int × ν)) (k : Int) (v : ν)
    (h : k ∉ m.map Prod.fst) : emplace m k v = m ++ [(k, v)] := by
  unfold emplace
  have : m.any (fun e => e.1 == k) = false := by
    rw [List.any_eq_false]
    intro e he hek
    apply h
    have : e.1 = k := by simpa using hek
    rw [← this]
    exact List.mem_map_of_mem _ he
  rw [this]
  simp

/-- The member `drop_rates_` after `Sequencer::run`, for a store with distinct
keys. -/
theorem SequenceCounter.run_onto (D : Dbl) (args : split_args D) (sort : Trajectory → Trajectory)
    (lpf : Bool) (store : List (Int × Trajectory)) (st : List (Int × D.F))
    (hnd : (store.map Prod.fst).Nodup) (hfresh : ∀ e ∈ store, e.1 ∉ st.map Prod.fst) :
    Sequencer.run D args sort (SequenceCounter.process D args) lpf store st =
      some (st ++ (store.filter (fun e =>
          Sequencer.gate D args (Sequencer.clean D args lpf (sort e.2)))).map
        (fun e => (e.1, drop_rate D (Sequencer.clean D args lpf (sort e.2)) args))) := by
  induction store generalizing st with
  | nil => simp [Sequencer.run]
  | cons e rest ih =>
    obtain ⟨k, raw⟩ := e
    rw [Sequencer.run_cons]
    simp only [List.map_cons, List.nodup_cons] at hnd
    by_cases hg : Sequencer.gate D args (Sequencer.clean D args lpf (sort raw)) = true
    · rw [if_pos hg]
      have hp : SequenceCounter.process D args st k (Sequencer.clean D args lpf (sort raw)) =
          some (st ++ [(k, drop_rate D (Sequencer.clean D args lpf (sort raw)) args)]) := by
        unfold SequenceCounter.process
        rw [emplace_fresh st k _ (hfresh (k, raw) (List.mem_cons_self _ _))]
      rw [hp]
      simp only
      rw [ih _ hnd.2 (by
        intro e he
        simp only [List.map_append, List.map_cons, List.map_nil, List.mem_append,
          List.mem_singleton, not_or]
        refine ⟨hfresh e (List.mem_cons_of_mem _ he), ?_⟩
        intro hek
        apply hnd.1
        rw [← hek]
        exact List.mem_map_of_mem _ he)]
      rw [List.filter_cons, if_pos hg]
      simp
    · rw [if_neg hg, ih _ hnd.2 (fun e he => hfresh e (List.mem_cons_of_mem _ he))]
      rw [List.filter_cons, if_neg hg]

namespace ieee

/-- Multiplication in the model is commutative. -/
theorem mul_comm_b64 (x y : B64) : mul x y = mul y x := by
  cases x with
  | nan => cases y <;> rfl
  | inf s =>
    cases y with
    | nan => rfl
    | inf t => simp [mul, Bool.xor_comm]
    | fin t k f => simp [mul, Bool.xor_comm]
  | fin s m e =>
    cases y with
    | nan => rfl
    | inf t => simp [mul, Bool.xor_comm]
    | fin t k f =>
      show rndZ (xor s t) (m * k) (e + f) = rndZ (xor t s) (k * m) (f + e)
      rw [Bool.xor_comm, Nat.mul_comm, Int.add_comm]

/-- The conversions of a coordinate difference and of its negative have the
same magnitude. -/
theorem ais2deg_neg (a : Int) (h : a.natAbs ≤ 2 ^ 33) :
    ∃ s t m e, ais2deg a = .fin s m e ∧ ais2deg (-a) = .fin t m e := by
  have hb := ais2deg_bnd a h
  obtain ⟨s0, m0, e0, h0, _⟩ := hb
  unfold ais2deg at h0 ⊢
  rw [Int.natAbs_neg]
  rw [rndZ_withSign] at h0 ⊢
  rw [rndZ_withSign (decide (-a < 0))]
  rw [lit_600000] at h0 ⊢
  rcases rndZ_cases false a.natAbs 0 with hx | ⟨m2, e2, hx⟩
  · rw [hx] at h0
    simp [withSign, div] at h0
  · rw [hx] at h0 ⊢
    simp only [withSign] at h0 ⊢
    have hd : ∀ u : Bool, div (.fin u m2 e2) (.fin false 5153960755200000 (-33)) =
        withSign u (rnd false (scaleN m2 (-33 - e2)) (scaleD 5153960755200000 (-33 - e2))) := by
      intro u
      show (if (5153960755200000 : Nat) = 0 then (if m2 = 0 then B64.nan else B64.inf (xor u false)) else
        rnd (xor u false) (scaleN m2 (-33 - e2)) (scaleD 5153960755200000 (-33 - e2))) = _
      rw [if_neg (by norm_num), Bool.xor_false, rnd_withSign]
    rw [hd] at h0 ⊢
    rw [hd]
    rcases rnd_cases false (scaleN m2 (-33 - e2)) (scaleD 5153960755200000 (-33 - e2)) with
      hy | ⟨m3, e3, hy⟩
    · rw [hy] at h0
      simp [withSign] at h0
    · rw [hy]
      exact ⟨_, _, m3, e3, rfl, rfl⟩

theorem sub_natAbs_le (x y : Int) (hx1 : -2 ^ 31 ≤ x) (hx2 : x < 2 ^ 31) (hy1 : -2 ^ 31 ≤ y)
    (hy2 : y < 2 ^ 31) : (x - y).natAbs ≤ 2 ^ 33 := by
  omega

/-- The square of a cosine value is finite and non-negative. -/
theorem cos_sq_fin0 (cos : B64 → B64) (hcos : CosSpec cos) (s : Bool) (m : Nat) (e : Int) :
    Fin0 (mul (cos (.fin s m e)) (cos (.fin s m e))) := by
  obtain ⟨t, k, f, hc, hv⟩ := hcos.bounded s m e
  rw [hc, mul_self_abs]
  apply mul_self_fin0 ⟨k, f, rfl⟩
  rw [val_fin_false]
  simpa using hv

/-- The distance of `Point::dist_nm` is symmetric in the binary64 model, for
coordinates in the range of `int32_t`. -/
theorem dist_nm_symm (cos : B64 → B64) (hcos : CosSpec cos) (p q : Point) (hp : InRange p)
    (hq : InRange q) :
    Point.dist_nm (model cos) p q = Point.dist_nm (model cos) q p := by
  rw [dist_nm_model, dist_nm_model]
  have hc : cos_arg q p = cos_arg p q := by
    unfold cos_arg
    rw [Int.add_comm]
  rw [hc]
  obtain ⟨s, m, e, ha⟩ := cos_arg_fin p q hp hq
  have hu := cos_sq_fin0 cos hcos s m e
  rw [ha]
  unfold dist_of
  have e1 : q.latitude - p.latitude = -(p.latitude - q.latitude) := by ring
  have e2 : q.longitude - p.longitude = -(p.longitude - q.longitude) := by ring
  rw [e1, e2]
  obtain ⟨s1, t1, m1, f1, h1, h1n⟩ := ais2deg_neg (p.latitude - q.latitude)
    (sub_natAbs_le _ _ hp.1 hp.2.1 hq.1 hq.2.1)
  obtain ⟨s2, t2, m2, f2, h2, h2n⟩ := ais2deg_neg (p.longitude - q.longitude)
    (sub_natAbs_le _ _ hp.2.2.1 hp.2.2.2 hq.2.2.1 hq.2.2.2)
  rw [h1, h1n, h2, h2n, S_of_abs _ hu s1, S_of_abs _ hu t1]

end ieee

theorem std_unique_eq_nil {α : Type} (p : α → α → Bool) (xs : List α) :
    std_unique p xs = [] ↔ xs = [] := by
  cases xs <;> simp [std_unique]

theorem SequenceDiff.dispatches_non_empty (D : Dbl) (sort : Trajectory → Trajectory)
    (hsort : SortSpec sort) (raw : Trajectory) (h : raw ≠ []) :
    Sequencer.gate D (SequenceDiff.args D)
      (Sequencer.clean D (SequenceDiff.args D) false (sort raw)) = true := by
  rw [SequenceDiff.gate_non_empty]
  show std_unique _ (sort raw) ≠ []
  rw [Ne, std_unique_eq_nil]
  intro h0
  have hp := (hsort raw).1
  rw [h0] at hp
  exact h (List.Perm.eq_nil hp.symm)

set_option maxRecDepth 100000 in
set_option exponentiation.threshold 4000 in
/-- C23: `SequenceDiff::run(stride)` cleans every buffer without the spike
filter (sort, then `std::unique` on the timestamps); its fixed parameters give
the target duration 0, so the gate of `Sequencer::run` lets exactly the
non-empty cleaned buffers through, hence every vessel with a non-empty buffer;
the returned sequence is the concatenation, in the iteration order of the
store, of the per-vessel lists; the list of a vessel with cleaned positions
`p_0, ..., p_(n-1)` has `n - stride` pairs (none when `n ≤ stride`), the `i`-th
being the 32-bit difference `p_(i+stride).t - p_i.t`, which is the plain
difference as the cleaned timestamps increase, and the rounded product of the
distance of the two positions with 10000, converted to `int32_t`; in the
binary64 model neither the order of the two points in the distance nor the
order of the factors matters.  On a store of three vessels and stride 1 the
result is `(10, 6000), (15, 6000), (4, 1)`. -/
theorem sequence_diff_concatenates_stride_pairs (D : Dbl) (sort : Trajectory → Trajectory)
    (hsort : SortSpec sort) (stride : Nat) (store : List (Int × Trajectory)) :
    (∀ raw, Sequencer.clean D (SequenceDiff.args D) false (sort raw) =
      std_unique (fun a b => decide (a.t = b.t)) (sort raw)) ∧
    umul (SequenceDiff.args D).seq_length (SequenceDiff.args D).dti = 0 ∧
    (∀ trajectory, Sequencer.gate D (SequenceDiff.args D) trajectory = true ↔
      trajectory ≠ []) ∧
    (∀ raw, raw ≠ [] → Sequencer.gate D (SequenceDiff.args D)
      (Sequencer.clean D (SequenceDiff.args D) false (sort raw)) = true) ∧
    SequenceDiff.run D sort stride store =
      some (store.map (fun e => utility.adjacent_diff
        (Sequencer.clean D (SequenceDiff.args D) false (sort e.2))
        (SequenceDiff.diff D) stride)).flatten ∧
    (∀ trajectory : Trajectory,
      (utility.adjacent_diff trajectory (SequenceDiff.diff D) stride).length
        = trajectory.length - stride ∧
      ∀ i a b, trajectory[i]? = some a → trajectory[i + stride]? = some b →
        (utility.adjacent_diff trajectory (SequenceDiff.diff D) stride)[i]? =
          some (usub b.t a.t,
            D.toInt (D.round (D.mul (b.x.dist_nm D a.x) (D.lit 10000 0))))) ∧
    (∀ raw i a b,
      (Sequencer.clean D (SequenceDiff.args D) false (sort raw))[i]? = some a →
      (Sequencer.clean D (SequenceDiff.args D) false (sort raw))[i + stride]? = some b →
      a.t ≤ b.t ∧ (b.t < U32 → usub b.t a.t = b.t - a.t)) ∧
    (∀ cos, ieee.CosSpec cos → ∀ a b : Position, ieee.InRange a.x → ieee.InRange b.x →
      SequenceDiff.diff (ieee.model cos) a b =
        (usub b.t a.t, (ieee.model cos).toInt ((ieee.model cos).round
          ((ieee.model cos).mul ((ieee.model cos).lit 10000 0)
            (Point.dist_nm (ieee.model cos) a.x b.x))))) ∧
    SequenceDiff.run (ieee.model ieee.cos_unit) sort_by_time 1 diff_store =
      some [(10, 6000), (15, 6000), (4, 1)] := by
  refine ⟨fun _ => rfl, rfl, SequenceDiff.gate_non_empty D,
    SequenceDiff.dispatches_non_empty D sort hsort, ?_, ?_, ?_, ?_, by decide⟩
  · unfold SequenceDiff.run
    rw [SequenceDiff.run_from, List.nil_append]
  · intro trajectory
    rw [utility.adjacent_diff_eq]
    refine ⟨?_, ?_⟩
    · rw [List.length_zipWith, List.length_drop]
      omega
    · intro i a b ha hb
      rw [getElem?_zipWith_drop, ha, hb]
      rfl
  · intro raw i a b ha hb
    have hinc := std_unique_increasing (sort raw) (hsort raw).2
    have hle : a.t ≤ b.t := by
      rcases Nat.eq_zero_or_pos stride with h0 | hpos
      · subst h0
        rw [Nat.add_zero, ha] at hb
        cases hb
        exact le_refl _
      · have hi := (List.getElem?_eq_some.1 ha)
        have hj := (List.getElem?_eq_some.1 hb)
        obtain ⟨hi1, hi2⟩ := hi
        obtain ⟨hj1, hj2⟩ := hj
        have := List.pairwise_iff_getElem.1 hinc i (i + stride) hi1 hj1 (by omega)
        rw [← hi2, ← hj2]
        exact le_of_lt this
    refine ⟨hle, fun hb32 => ?_⟩
    exact usub_eq _ _ hle hb32
  · intro cos hcos a b ha hb
    show (usub b.t a.t, ieee.toInt (ieee.round (ieee.mul
      (Point.dist_nm (ieee.model cos) b.x a.x) ((ieee.model cos).lit 10000 0)))) = _
    rw [ieee.mul_comm_b64, ieee.dist_nm_symm cos hcos b.x a.x hb ha]
    rfl

/-- Witness of C23: the insertion sort and the store of three vessels. -/
theorem sequence_diff_concatenates_stride_pairs_witness :
    SortSpec sort_by_time ∧
    SequenceDiff.run (ieee.model ieee.cos_unit) sort_by_time 1 diff_store =
      some (diff_store.map (fun e => utility.adjacent_diff
        (Sequencer.clean (ieee.model ieee.cos_unit)
          (SequenceDiff.args (ieee.model ieee.cos_unit)) false (sort_by_time e.2))
        (SequenceDiff.diff (ieee.model ieee.cos_unit)) 1)).flatten :=
  ⟨sort_by_time_spec,
    (sequence_diff_concatenates_stride_pairs (ieee.model ieee.cos_unit) sort_by_time
      sort_by_time_spec 1 diff_store).2.2.2.2.1⟩

theorem lookup_filter_map_absent {ν : Type} (l : List (Int × Trajectory))
    (g : Int × Trajectory → Bool) (f : Int × Trajectory → ν) (k : Int)
    (h : k ∉ l.map Prod.fst) :
    List.lookup k ((l.filter g).map (fun e => (e.1, f e))) = none := by
  induction l with
  | nil => rfl
  | cons e rest ih =>
    simp only [List.map_cons, List.mem_cons, not_or] at h
    have hne : (k == e.1) = false := by simpa using h.1
    rw [List.filter_cons]
    by_cases hg : g e = true
    · rw [if_pos hg, List.map_cons]
      simp only [List.lookup, hne]
      exact ih h.2
    · rw [if_neg hg]
      exact ih h.2

/-- Looking up a key of a list with distinct keys after filtering and
mapping the values. -/
theorem lookup_filter_map {ν : Type} (l : List (Int × Trajectory))
    (g : Int × Trajectory → Bool) (f : Int × Trajectory → ν)
    (hnd : (l.map Prod.fst).Nodup) (k : Int) (raw : Trajectory) (hmem : (k, raw) ∈ l) :
    List.lookup k ((l.filter g).map (fun e => (e.1, f e))) =
      if g (k, raw) then some (f (k, raw)) else none := by
  induction l with
  | nil => cases hmem
  | cons e rest ih =>
    simp only [List.map_cons, List.nodup_cons] at hnd
    rcases List.mem_cons.1 hmem with he | hrest
    · subst he
      rw [List.filter_cons]
      by_cases hg : g (k, raw) = true
      · rw [if_pos hg, if_pos hg, List.map_cons]
        simp [List.lookup]
      · rw [if_neg hg, if_neg hg]
        exact lookup_filter_map_absent rest g f k hnd.1
    · have hne : (k == e.1) = false := by
        have : k ≠ e.1 := by
          intro hk
          apply hnd.1
          rw [← hk]
          exact List.mem_map_of_mem Prod.fst hrest
        simpa using this
      rw [List.filter_cons]
      by_cases hg : g e = true
      · rw [if_pos hg, List.map_cons]
        simp only [List.lookup, hne]
        exact ih hnd.2 hrest
      · rw [if_neg hg]
        exact ih hnd.2 hrest

set_option maxRecDepth 100000 in
set_option exponentiation.threshold 4000 in
/-- C24 (counterexample): a vessel with a single position has the drop rate
1.0, does not pass the gate of `Sequencer::run` with the parameters of the
tests, and has no entry in the map after `SequenceCounter::run`. -/
theorem drop_rate_map_omits_vessel_below_gate :
    drop_rate (ieee.model ieee.cos_unit)
      (Sequencer.clean (ieee.model ieee.cos_unit) (test_args _) false
        (sort_by_time [⟨0, ⟨0, 0⟩⟩])) (test_args _) = ieee.B64.fin false 4503599627370496 (-52) ∧
    Sequencer.gate (ieee.model ieee.cos_unit) (test_args _)
      (Sequencer.clean (ieee.model ieee.cos_unit) (test_args _) false
        (sort_by_time [⟨0, ⟨0, 0⟩⟩])) = false ∧
    SequenceCounter.run (ieee.model ieee.cos_unit) (test_args _) sort_by_time false
      [(211000000, [⟨0, ⟨0, 0⟩⟩])] = some [] ∧
    SequenceCounter.run (ieee.model ieee.cos_unit) (test_args _) sort_by_time false
      counter_store = some [(305000000, ieee.B64.fin false 4503599627370496 (-52)),
        (412000000, ieee.B64.fin false 0 (-1074))] := by
  refine ⟨by rfl, by rfl, by rfl, by rfl⟩

set_option maxRecDepth 100000 in
set_option exponentiation.threshold 4000 in
/-- C24: after `SequenceCounter::run` on a store with distinct keys the map of
drop rates has exactly one entry for every vessel whose cleaned buffer passes
the gate of `Sequencer::run`, in the iteration order of the store, and the
value is `drop_rate` of the cleaned buffer, whatever its value; a vessel whose
cleaned buffer does not pass the gate has no entry.  With the parameters of the
tests a vessel with two positions 100 s apart is stored with the rate 1.0. -/
theorem drop_rate_map_has_entry_for_dispatched_vessels (D : Dbl) (args : split_args D)
    (sort : Trajectory → Trajectory) (apply_low_pass_filter : Bool)
    (store : List (Int × Trajectory)) (hnd : (store.map Prod.fst).Nodup) :
    SequenceCounter.run D args sort apply_low_pass_filter store =
      some ((store.filter (fun e => Sequencer.gate D args
          (Sequencer.clean D args apply_low_pass_filter (sort e.2)))).map
        (fun e => (e.1, drop_rate D
          (Sequencer.clean D args apply_low_pass_filter (sort e.2)) args))) ∧
    (∃ rates, SequenceCounter.run D args sort apply_low_pass_filter store = some rates ∧
      ∀ mmsi raw, (mmsi, raw) ∈ store →
        (Sequencer.gate D args (Sequencer.clean D args apply_low_pass_filter (sort raw)) = true →
          List.lookup mmsi rates = some (drop_rate D
            (Sequencer.clean D args apply_low_pass_filter (sort raw)) args)) ∧
        (Sequencer.gate D args (Sequencer.clean D args apply_low_pass_filter (sort raw)) = false →
          List.lookup mmsi rates = none)) ∧
    SequenceCounter.run (ieee.model ieee.cos_unit) (test_args _) sort_by_time false
      [(305000000, [⟨0, ⟨0, 0⟩⟩, ⟨100, ⟨0, 0⟩⟩])] =
        some [(305000000, ieee.B64.fin false 4503599627370496 (-52))] := by
  have hrun := SequenceCounter.run_onto D args sort apply_low_pass_filter store [] hnd
    (fun _ _ => by simp)
  rw [List.nil_append] at hrun
  refine ⟨hrun, ⟨_, hrun, ?_⟩, by rfl⟩
  intro mmsi raw hmem
  have hl := lookup_filter_map store (fun e => Sequencer.gate D args
      (Sequencer.clean D args apply_low_pass_filter (sort e.2)))
    (fun e => drop_rate D (Sequencer.clean D args apply_low_pass_filter (sort e.2)) args)
    hnd mmsi raw hmem
  refine ⟨fun hg => ?_, fun hg => ?_⟩
  · rw [hl]
    simp only [hg, if_true]
  · rw [hl]
    simp only [hg]
    rfl

/-- Witness of C24: the store of three vessels. -/
theorem drop_rate_map_has_entry_for_dispatched_vessels_witness :
    (counter_store.map Prod.fst).Nodup ∧
    SequenceCounter.run (ieee.model ieee.cos_unit) (test_args _) sort_by_time false
        counter_store =
      some ((counter_store.filter (fun e => Sequencer.gate (ieee.model ieee.cos_unit)
          (test_args _)
          (Sequencer.clean (ieee.model ieee.cos_unit) (test_args _) false
            (sort_by_time e.2)))).map
        (fun e => (e.1, drop_rate (ieee.model ieee.cos_unit)
          (Sequencer.clean (ieee.model ieee.cos_unit) (test_args _) false
            (sort_by_time e.2)) (test_args _)))) :=
  ⟨by decide, (drop_rate_map_has_entry_for_dispatched_vessels (ieee.model ieee.cos_unit)
    (test_args _) sort_by_time false counter_store (by decide)).1⟩

/-! ### Integer arithmetic of `Point::dist_nm` and the range of `time_recorded` -/

theorem i32_eq_some (z : Int) (h : z.natAbs ≤ 216000000) : i32 z = some z := by
  unfold i32
  rw [if_pos]
  omega

/-- C37: for two points whose coordinates lie in the valid range
`[MIN_LATITUDE, MAX_LATITUDE] = [MIN_LONGITUDE, MAX_LONGITUDE] =
[-108000000, 108000000]`, the `std::int32_t` expressions `latitude -
other.latitude`, `longitude - other.longitude` and `latitude + other.latitude`
of `Point::dist_nm` do not overflow: each has the exact value, of magnitude at
most 216000000, which is below `2^31`; `dist_nm` computed with 32-bit integer
arithmetic is therefore defined and is the value computed with exact integers. -/
theorem dist_nm_integer_arithmetic_cannot_overflow (D : Dbl) (self other : Point)
    (h1 : Point.MIN_LATITUDE ≤ self.latitude ∧ self.latitude ≤ Point.MAX_LATITUDE)
    (h2 : Point.MIN_LONGITUDE ≤ self.longitude ∧ self.longitude ≤ Point.MAX_LONGITUDE)
    (h3 : Point.MIN_LATITUDE ≤ other.latitude ∧ other.latitude ≤ Point.MAX_LATITUDE)
    (h4 : Point.MIN_LONGITUDE ≤ other.longitude ∧ other.longitude ≤ Point.MAX_LONGITUDE) :
    (Point.MIN_LATITUDE = -108000000 ∧ Point.MAX_LATITUDE = 108000000 ∧
      Point.MIN_LONGITUDE = -108000000 ∧ Point.MAX_LONGITUDE = 108000000) ∧
    (i32 (self.latitude - other.latitude) = some (self.latitude - other.latitude) ∧
      |self.latitude - other.latitude| ≤ 216000000) ∧
    (i32 (self.longitude - other.longitude) = some (self.longitude - other.longitude) ∧
      |self.longitude - other.longitude| ≤ 216000000) ∧
    (i32 (self.latitude + other.latitude) = some (self.latitude + other.latitude) ∧
      |self.latitude + other.latitude| ≤ 216000000) ∧
    (216000000 : Int) < 2 ^ 31 ∧
    Point.dist_nm_i32 D self other = some (Point.dist_nm D self other) := by
  have hc : Point.MIN_LATITUDE = -108000000 ∧ Point.MAX_LATITUDE = 108000000 ∧
      Point.MIN_LONGITUDE = -108000000 ∧ Point.MAX_LONGITUDE = 108000000 := by
    refine ⟨?_, ?_, ?_, ?_⟩ <;> norm_num [Point.MIN_LATITUDE, Point.MAX_LATITUDE,
      Point.MIN_LONGITUDE, Point.MAX_LONGITUDE]
  obtain ⟨c1, c2, c3, c4⟩ := hc
  rw [c1, c2] at h1 h3
  rw [c3, c4] at h2 h4
  have e1 := i32_eq_some (self.latitude - other.latitude) (by omega)
  have e2 := i32_eq_some (self.longitude - other.longitude) (by omega)
  have e3 := i32_eq_some (self.latitude + other.latitude) (by omega)
  refine ⟨⟨c1, c2, c3, c4⟩, ⟨e1, ?_⟩, ⟨e2, ?_⟩, ⟨e3, ?_⟩, by norm_num, ?_⟩
  · rw [abs_le]
    constructor <;> omega
  · rw [abs_le]
    constructor <;> omega
  · rw [abs_le]
    constructor <;> omega
  · unfold Point.dist_nm_i32
    simp only [e1, e2, e3]
    rfl

/-- Witness of C37: the two corners of the valid range. -/
theorem dist_nm_integer_arithmetic_cannot_overflow_witness :
    i32 ((⟨108000000, -108000000⟩ : Point).latitude -
        (⟨-108000000, 108000000⟩ : Point).latitude) =
      some ((⟨108000000, -108000000⟩ : Point).latitude -
        (⟨-108000000, 108000000⟩ : Point).latitude) ∧
    |(⟨108000000, -108000000⟩ : Point).latitude -
        (⟨-108000000, 108000000⟩ : Point).latitude| ≤ 216000000 :=
  (dist_nm_integer_arithmetic_cannot_overflow (ieee.model ieee.cos_unit)
    ⟨108000000, -108000000⟩ ⟨-108000000, 108000000⟩
    (by decide) (by decide) (by decide) (by decide)).2.1

/-- Counterexample to C34 as stated: for the reception time 1 and the slot 59
the result is `2^32 - 1`: it is after the reception, and its second of the
minute is 15, not 59. -/
theorem time_recorded_after_reception_in_first_minute :
    utility.to_u32 ['1'] 0 = 1 ∧ utility.to_u32 ['5', '9'] 60 = 59 ∧
    utility.time_recorded ['1'] ['5', '9'] = some 4294967295 ∧
    (4294967295 : Nat) % 60 = 15 ∧ ¬ ((4294967295 : Nat) ≤ utility.to_u32 ['1'] 0) := by
  decide

/-- The first result of `time_recorded` (slot after the second of the reception)
without wrap, and its position relative to the reception. -/
theorem latest_slot_previous_minute (recv slot : Nat) (hU : recv < U32) (h59 : slot ≤ 59)
    (hs : recv % 60 < slot) (hr : 60 ≤ recv) :
    usub recv (60 - (slot - recv % 60)) = recv - (60 - (slot - recv % 60)) ∧
    (recv - (60 - (slot - recv % 60))) % 60 = slot ∧
    recv - (60 - (slot - recv % 60)) ≤ recv ∧
    recv ≤ recv - (60 - (slot - recv % 60)) + 59 := by
  refine ⟨usub_eq _ _ (by omega) hU, by omega, by omega, by omega⟩

/-- No time up to the reception with the slot as second of the minute is later
than the first result of `time_recorded`. -/
theorem latest_slot_previous_minute_max (recv slot t1 : Nat)
    (hs : recv % 60 < slot) (hr : 60 ≤ recv) (h1 : t1 ≤ recv) (h2 : t1 % 60 = slot) :
    t1 ≤ recv - (60 - (slot - recv % 60)) := by
  omega

/-- The second result of `time_recorded` (slot not after the second of the
reception) and its position relative to the reception. -/
theorem latest_slot_same_minute (recv slot : Nat) (hs : ¬ recv % 60 < slot) :
    (recv - recv % 60 + slot) % 60 = slot ∧
    recv - recv % 60 + slot ≤ recv ∧
    recv ≤ recv - recv % 60 + slot + 59 := by
  refine ⟨by omega, by omega, by omega⟩

/-- No time up to the reception with the slot as second of the minute is later
than the second result of `time_recorded`. -/
theorem latest_slot_same_minute_max (recv slot t1 : Nat)
    (h1 : t1 ≤ recv) (h2 : t1 % 60 = slot) : t1 ≤ recv - recv % 60 + slot := by
  omega

/-- The result of `time_recorded` for a reception in the first minute of the
epoch, before the slot. -/
theorem first_minute_wrap (recv slot : Nat) (h59 : slot ≤ 59) (hlt : recv < slot) :
    usub recv (60 - (slot - recv)) = 2 ^ 32 + slot - 60 ∧ recv < 2 ^ 32 + slot - 60 := by
  unfold usub U32
  omega

/-- C34 (amended): for every reception time `recv >= 1` (a 32-bit unsigned
value) and every slot in `0..59` with `recv >= 60` or `slot <= recv`, the time
`t` returned by `time_recorded` satisfies `t mod 60 = slot` and
`recv - 59 <= t <= recv`: it is the latest time not after the reception whose
second of the minute is the slot, and no unsigned operation wraps.  In the
remaining case `recv < slot` (reception in the first minute of the epoch, before
the slot) the subtraction wraps and the result is `2^32 + slot - 60`, which is
after the reception. -/
theorem time_recorded_latest_slot_time :
    (∀ (recv_seconds slot_seconds : List Char),
      utility.to_u32 recv_seconds 0 ≠ 0 → utility.to_u32 slot_seconds 60 ≤ 59 →
      (60 ≤ utility.to_u32 recv_seconds 0 ∨
        utility.to_u32 slot_seconds 60 ≤ utility.to_u32 recv_seconds 0) →
      ∃ t, utility.time_recorded recv_seconds slot_seconds = some t ∧
        t % 60 = utility.to_u32 slot_seconds 60 ∧
        t ≤ utility.to_u32 recv_seconds 0 ∧ utility.to_u32 recv_seconds 0 ≤ t + 59 ∧
        (∀ t1, t1 ≤ utility.to_u32 recv_seconds 0 →
          t1 % 60 = utility.to_u32 slot_seconds 60 → t1 ≤ t)) ∧
    (∀ (recv_seconds slot_seconds : List Char),
      utility.to_u32 recv_seconds 0 ≠ 0 → utility.to_u32 slot_seconds 60 ≤ 59 →
      utility.to_u32 recv_seconds 0 < utility.to_u32 slot_seconds 60 →
      utility.time_recorded recv_seconds slot_seconds =
        some (2 ^ 32 + utility.to_u32 slot_seconds 60 - 60) ∧
      utility.to_u32 recv_seconds 0 < 2 ^ 32 + utility.to_u32 slot_seconds 60 - 60) := by
  refine ⟨?_, ?_⟩
  · intro recv_seconds slot_seconds h0 h59 hdom
    have hU := utility.from_chars_u32_lt recv_seconds 0 (by decide)
    rw [utility.time_recorded_eq]
    change utility.to_u32 recv_seconds 0 < U32 at hU
    generalize utility.to_u32 recv_seconds 0 = recv at *
    generalize utility.to_u32 slot_seconds 60 = slot at *
    rw [if_neg (fun h => h.elim h0 (Nat.not_lt.2 h59))]
    by_cases hs : recv % 60 < slot
    · rw [if_pos hs]
      have hr : 60 ≤ recv := by omega
      obtain ⟨hw, g1, g2, g3⟩ := latest_slot_previous_minute recv slot hU h59 hs hr
      rw [hw]
      exact ⟨_, rfl, g1, g2, g3,
        fun t1 h1 h2 => latest_slot_previous_minute_max recv slot t1 hs hr h1 h2⟩
    · rw [if_neg hs]
      obtain ⟨g1, g2, g3⟩ := latest_slot_same_minute recv slot hs
      exact ⟨_, rfl, g1, g2, g3,
        fun t1 h1 h2 => latest_slot_same_minute_max recv slot t1 h1 h2⟩
  · intro recv_seconds slot_seconds h0 h59 hlt
    rw [utility.time_recorded_eq]
    generalize utility.to_u32 recv_seconds 0 = recv at *
    generalize utility.to_u32 slot_seconds 60 = slot at *
    rw [if_neg (fun h => h.elim h0 (Nat.not_lt.2 h59))]
    have hr : recv % 60 = recv := Nat.mod_eq_of_lt (lt_of_lt_of_le hlt (le_trans h59 (by decide)))
    rw [hr, if_pos hlt]
    obtain ⟨g1, g2⟩ := first_minute_wrap recv slot h59 hlt
    exact ⟨congrArg some g1, g2⟩

/-- Witness of C34 (amended): the reception time 123 and the slot 50 of the
test. -/
theorem time_recorded_latest_slot_time_witness :
    ∃ t, utility.time_recorded ['1', '2', '3', '.', '4'] ['5', '0'] = some t ∧
      t % 60 = utility.to_u32 ['5', '0'] 60 ∧
      t ≤ utility.to_u32 ['1', '2', '3', '.', '4'] 0 ∧
      utility.to_u32 ['1', '2', '3', '.', '4'] 0 ≤ t + 59 ∧
      (∀ t1, t1 ≤ utility.to_u32 ['1', '2', '3', '.', '4'] 0 →
        t1 % 60 = utility.to_u32 ['5', '0'] 60 → t1 ≤ t) :=
  time_recorded_latest_slot_time.1 ['1', '2', '3', '.', '4'] ['5', '0']
    (by decide) (by decide) (by decide)

/-! ### Empty columns -/

namespace utility

/-- Two consecutive separators cut the line like one: the empty piece between
them is no token. -/
theorem splitOnP_empty_column (p : Char → Bool) (pre post : List Char) (d1 d2 : Char)
    (h1 : p d1 = true) (h2 : p d2 = true) :
    ∃ h t t1, List.splitOnP p (pre ++ d1 :: d2 :: post) = h :: t ∧
      List.splitOnP p (pre ++ d1 :: post) = h :: t1 ∧
      t.filter (fun s => !s.isEmpty) = t1.filter (fun s => !s.isEmpty) := by
  induction pre with
  | nil =>
    refine ⟨[], [] :: List.splitOnP p post, List.splitOnP p post, ?_, ?_, ?_⟩
    · rw [List.nil_append, List.splitOnP_cons, if_pos h1, List.splitOnP_cons, if_pos h2]
    · rw [List.nil_append, List.splitOnP_cons, if_pos h1]
    · rfl
  | cons x pre ih =>
    obtain ⟨h, t, t1, e1, e2, e3⟩ := ih
    by_cases hx : p x = true
    · refine ⟨[], h :: t, h :: t1, ?_, ?_, ?_⟩
      · rw [List.cons_append, List.splitOnP_cons, if_pos hx, e1]
      · rw [List.cons_append, List.splitOnP_cons, if_pos hx, e2]
      · rw [List.filter_cons, List.filter_cons, e3]
    · refine ⟨x :: h, t, t1, ?_, ?_, e3⟩
      · rw [List.cons_append, List.splitOnP_cons, if_neg hx, e1]
        rfl
      · rw [List.cons_append, List.splitOnP_cons, if_neg hx, e2]
        rfl

theorem separator_free_tokens_empty_column (delimiter pre post : List Char) (d1 d2 : Char)
    (h1 : d1 ∈ delimiter) (h2 : d2 ∈ delimiter) :
    separator_free_tokens delimiter (pre ++ d1 :: d2 :: post) =
      separator_free_tokens delimiter (pre ++ d1 :: post) := by
  unfold separator_free_tokens
  obtain ⟨h, t, t1, e1, e2, e3⟩ := splitOnP_empty_column (fun c => delimiter.contains c)
    pre post d1 d2 (by simpa using h1) (by simpa using h2)
  rw [e1, e2, List.filter_cons, List.filter_cons, e3]

theorem split_map_empty_column {β : Type} (N : Nat) (delimiter pre post : List Char)
    (d1 d2 : Char) (h1 : d1 ∈ delimiter) (h2 : d2 ∈ delimiter) (map : List (List Char) → β) :
    split_map N (pre ++ d1 :: d2 :: post) delimiter map =
      split_map N (pre ++ d1 :: post) delimiter map := by
  rw [split_map_spec, split_map_spec, separator_free_tokens_empty_column _ _ _ _ _ h1 h2]

end utility

/-- The callback of `Sequencer` either reports too few columns or applies
`process_ais_line` to five non-empty tokens, which does not throw. -/
theorem Sequencer.ingest_cases (delimiter : List Char) (m : List (Int × Trajectory))
    (line : List Char) :
    ((utility.separator_free_tokens delimiter line).length < 5 ∧
      Sequencer.ingest delimiter m line =
        .error "Invalid data format. Could not find enough columns.") ∨
    (∃ t_str mmsi_str slot_str lat_str lon_str r,
      (utility.separator_free_tokens delimiter line).take 5 =
        [t_str, mmsi_str, slot_str, lat_str, lon_str] ∧
      t_str ≠ [] ∧ mmsi_str ≠ [] ∧ slot_str ≠ [] ∧ lat_str ≠ [] ∧ lon_str ≠ [] ∧
      process_ais_line t_str mmsi_str slot_str lat_str lon_str = .ok r ∧
      Sequencer.ingest delimiter m line =
        match r with
        | none => .ok m
        | some (mmsi, trajectory) => .ok (Sequencer.append_position m mmsi trajectory)) := by
  by_cases hlen : (utility.separator_free_tokens delimiter line).length < 5
  · exact Or.inl ⟨hlen, Sequencer.ingest_short delimiter m line hlen⟩
  · right
    have hl : ((utility.separator_free_tokens delimiter line).take 5).length = 5 := by
      rw [List.length_take]
      omega
    obtain ⟨a, b, c, d, e, htake⟩ : ∃ a b c d e,
        (utility.separator_free_tokens delimiter line).take 5 = [a, b, c, d, e] := by
      generalize (utility.separator_free_tokens delimiter line).take 5 = l at hl
      match l, hl with
      | [a, b, c, d, e], _ => exact ⟨a, b, c, d, e, rfl⟩
    have hmem : ∀ tok ∈ [a, b, c, d, e], tok ≠ [] := by
      intro tok htokm
      rw [← htake] at htokm
      exact (utility.separator_free_tokens_mem delimiter _ line (le_refl _) tok
        (List.mem_of_mem_take htokm)).1
    have ha := hmem a (by simp)
    have hb := hmem b (by simp)
    have hc := hmem c (by simp)
    have hd := hmem d (by simp)
    have he := hmem e (by simp)
    obtain ⟨r, hr⟩ := utility.process_ais_line_ok a b c d e ha hb hc hd he
    refine ⟨a, b, c, d, e, r, htake, ha, hb, hc, hd, he, hr, ?_⟩
    rw [Sequencer.ingest_tokens delimiter m line _ _ _ _ _ htake, hr]
    cases r with
    | none => rfl
    | some v => rfl

/-- C35: every token `split_map` passes to its callback is non-empty (and free
of separators), for every line, delimiter and callback, so the branch `At least
one column is empty` of `process_ais_line` is never taken: the only exception of
the callback of `Sequencer` is the one for too few columns.  A line with an empty
column (two consecutive separators) is split exactly like the line without it:
it is reported as having too few columns, or its later columns take the place of
the empty one. -/
theorem split_map_passes_no_empty_token :
    (∀ (β : Type) (N : Nat) (line delimiter : List Char) (map : List (List Char) → β)
        (r : β), utility.split_map N line delimiter map = .ok r →
      ∃ tokens : List (List Char), tokens.length = N ∧
        (∀ tok ∈ tokens, tok ≠ [] ∧ ∀ c ∈ tok, c ∉ delimiter) ∧ r = map tokens) ∧
    (∀ (delimiter : List Char) (m : List (Int × Trajectory)) (line : List Char),
      Sequencer.ingest delimiter m line ≠
        .error "Invalid data format. At least one column is empty.") ∧
    (∀ (delimiter : List Char) (m : List (Int × Trajectory)) (line : List Char)
        (msg : String), Sequencer.ingest delimiter m line = .error msg →
      msg = "Invalid data format. Could not find enough columns." ∧
        (utility.separator_free_tokens delimiter line).length < 5) ∧
    (∀ (t_str mmsi_str slot_str lat_str lon_str : List Char),
      t_str ≠ [] → mmsi_str ≠ [] → slot_str ≠ [] → lat_str ≠ [] → lon_str ≠ [] →
      ∃ r, process_ais_line t_str mmsi_str slot_str lat_str lon_str = .ok r) ∧
    (∀ (β : Type) (N : Nat) (delimiter pre post : List Char) (d1 d2 : Char)
        (map : List (List Char) → β), d1 ∈ delimiter → d2 ∈ delimiter →
      utility.split_map N (pre ++ d1 :: d2 :: post) delimiter map =
        utility.split_map N (pre ++ d1 :: post) delimiter map) ∧
    Sequencer.ingest [','] [] "1456786800.005,211000000,,60000000,6000000".toList =
      .error "Invalid data format. Could not find enough columns." ∧
    Sequencer.ingest [','] [] "1456786800.005,211000000,,30,6000000,7000000".toList =
      .ok [(211000000, [⟨1456786770, ⟨6000000, 7000000⟩⟩])] ∧
    Sequencer.ingest [','] [] "1456786800.005,211000000,30,6000000,7000000".toList =
      .ok [(211000000, [⟨1456786770, ⟨6000000, 7000000⟩⟩])] := by
  refine ⟨?_, ?_, ?_, utility.process_ais_line_ok, ?_, by rfl, by rfl, by rfl⟩
  · intro β N line delimiter map r h
    rw [utility.split_map_spec] at h
    by_cases hlen : (utility.separator_free_tokens delimiter line).length < N
    · rw [if_pos hlen] at h
      cases h
    · rw [if_neg hlen] at h
      refine ⟨(utility.separator_free_tokens delimiter line).take N, ?_, ?_, ?_⟩
      · rw [List.length_take]
        omega
      · intro tok htok
        exact utility.separator_free_tokens_mem delimiter _ line (le_refl _) tok
          (List.mem_of_mem_take htok)
      · cases h
        rfl
  · intro delimiter m line h
    rcases Sequencer.ingest_cases delimiter m line with ⟨_, h1⟩ | ⟨_, _, _, _, _, r, _, _, _, _, _,
      _, _, h1⟩
    · rw [h1] at h
      injection h with h2
      exact absurd h2 (by decide)
    · rw [h1] at h
      cases r with
      | none => cases h
      | some v => cases h
  · intro delimiter m line msg h
    rcases Sequencer.ingest_cases delimiter m line with ⟨hlen, h1⟩ | ⟨_, _, _, _, _, r, _, _, _, _,
      _, _, _, h1⟩
    · rw [h1] at h
      cases h
      exact ⟨rfl, hlen⟩
    · rw [h1] at h
      cases r with
      | none => cases h
      | some v => cases h
  · intro β N delimiter pre post d1 d2 map h1 h2
    exact utility.split_map_empty_column N delimiter pre post d1 d2 h1 h2 map

/-- Witness of C35: the tokens of a line with an empty third column. -/
theorem split_map_passes_no_empty_token_witness :
    ∃ tokens : List (List Char), tokens.length = 5 ∧
      (∀ tok ∈ tokens, tok ≠ [] ∧ ∀ c ∈ tok, c ∉ [',']) ∧
      ["1456786800.005".toList, "211000000".toList, "30".toList, "6000000".toList,
        "7000000".toList] = (fun toks => toks) tokens :=
  split_map_passes_no_empty_token.1 (List (List Char)) 5
    "1456786800.005,211000000,,30,6000000,7000000".toList [','] (fun toks => toks)
    ["1456786800.005".toList, "211000000".toList, "30".toList, "6000000".toList,
      "7000000".toList] (by rfl)

/-! ### The gate and the completed segments -/

/-- In a sorted list of 32-bit timestamps whose consecutive differences are at
most `d`, the last timestamp is at most `(length - 1) * d` after the first. -/
theorem chain_span {D : Dbl} (args : split_args D) (xs : Trajectory)
    (hs : xs.Pairwise (fun a b => a.t ≤ b.t)) (hU : ∀ p ∈ xs, p.t < U32)
    (hc : xs.Chain' (fun p q =>
      usub q.t p.t ≤ args.dt_max ∧ D.lt args.ds_max (q.x.dist_nm D p.x) = false))
    (pa pb : Position) (ha : xs.head? = some pa) (hb : xs.getLast? = some pb) :
    pb.t ≤ pa.t + (xs.length - 1) * args.dt_max := by
  induction xs generalizing pa with
  | nil => cases ha
  | cons a rest ih =>
    cases rest with
    | nil =>
      simp only [List.head?_cons, Option.some.injEq] at ha
      simp only [List.getLast?_singleton, Option.some.injEq] at hb
      subst ha
      subst hb
      simp
    | cons b rest =>
      simp only [List.head?_cons, Option.some.injEq] at ha
      subst ha
      have hc2 := List.chain'_cons.1 hc
      have hs2 := List.pairwise_cons.1 hs
      have hab : a.t ≤ b.t := hs2.1 b (List.mem_cons_self _ _)
      have hbU : b.t < U32 := hU b (by simp)
      have hstep := hc2.1.1
      rw [usub_eq _ _ hab hbU] at hstep
      have hb2 : (b :: rest).getLast? = some pb := by
        rw [← hb, List.getLast?_cons_cons]
      have := ih hs2.2 (fun p hp => hU p (List.mem_cons_of_mem _ hp)) hc2.2 b rfl hb2
      simp only [List.length_cons] at this ⊢
      have e : (rest.length + 1 + 1 - 1) * args.dt_max =
          (rest.length + 1 - 1) * args.dt_max + args.dt_max := by
        have : rest.length + 1 + 1 - 1 = (rest.length + 1 - 1) + 1 := by omega
        rw [this, Nat.add_mul, Nat.one_mul]
      omega

theorem sorted_head_le (xs : Trajectory) (hs : xs.Pairwise (fun a b => a.t ≤ b.t))
    (first p : Position) (hf : xs.head? = some first) (hp : p ∈ xs) : first.t ≤ p.t := by
  cases xs with
  | nil => cases hf
  | cons a rest =>
    simp only [List.head?_cons, Option.some.injEq] at hf
    subst hf
    rcases List.mem_cons.1 hp with rfl | h
    · exact le_refl _
    · exact (List.pairwise_cons.1 hs).1 p h

theorem sorted_le_last (xs : Trajectory) (hs : xs.Pairwise (fun a b => a.t ≤ b.t))
    (last p : Position) (hl : xs.getLast? = some last) (hp : p ∈ xs) : p.t ≤ last.t := by
  obtain ⟨ys, rfl⟩ : ∃ ys, xs = ys ++ [last] := by
    have hne : xs ≠ [] := by
      intro h
      subst h
      cases hl
    refine ⟨xs.dropLast, ?_⟩
    have h1 := List.dropLast_append_getLast hne
    have h2 : xs.getLast hne = last := by
      have := List.getLast?_eq_getLast xs hne
      rw [hl] at this
      exact (Option.some.inj this).symm
    rw [h2] at h1
    exact h1.symm
  rcases List.mem_append.1 hp with h | h
  · exact (List.pairwise_append.1 hs).2.2 p h last (by simp)
  · simp only [List.mem_singleton] at h
    subst h
    exact le_refl _

/-- A trajectory with sorted 32-bit timestamps that has a completed segment
passes the three tests of the gate. -/
theorem split.segment_passes_gate (D : Dbl) (traj : Trajectory) (args : split_args D)
    (hsorted : traj.Pairwise (fun a b => a.t ≤ b.t)) (hU : ∀ p ∈ traj, p.t < U32)
    (hdur : args.seq_length * args.dti < U32) (seg : Trajectory)
    (hseg : seg ∈ split.segments D args [] 0 traj) :
    traj ≠ [] ∧ args.seq_length * args.dti ≤ traj.length * args.dt_max ∧
      ∀ first last, traj.head? = some first → traj.getLast? = some last →
        args.seq_length * args.dti ≤ last.t - first.t := by
  obtain ⟨runs, r1, _, _⟩ := split.segments_runs D args traj traj [] 0 []
    (by simp) (split.BufInv.empty D args 0)
  obtain ⟨r, _, hr⟩ := forall₂_mem_right _ _ _ r1 seg hseg
  have hsub : seg.Sublist traj := hr.sublist
  have hs2 : seg.Pairwise (fun a b => a.t ≤ b.t) := hsorted.sublist hsub
  have hU2 : ∀ p ∈ seg, p.t < U32 := fun p hp => hU p (hsub.subset hp)
  obtain ⟨pa, pb, hpa, hpb, hreach⟩ := hr.reach
  have hle := head_le_last seg pa pb hs2 hpa hpb
  have hpbU : pb.t < U32 := hU2 pb (List.mem_of_getLast?_eq_some hpb)
  rw [usub_eq _ _ hle hpbU, umul_eq _ _ hdur] at hreach
  have hspan := chain_span args seg hs2 hU2 hr.nogap pa pb hpa hpb
  have hlen : seg.length ≤ traj.length := hsub.length_le
  have hpam : pa ∈ traj := hsub.subset (List.mem_of_mem_head? hpa)
  have hpbm : pb ∈ traj := hsub.subset (List.mem_of_getLast?_eq_some hpb)
  refine ⟨List.ne_nil_of_mem hpam, ?_, ?_⟩
  · have h1 : (seg.length - 1) * args.dt_max ≤ traj.length * args.dt_max :=
      Nat.mul_le_mul_right _ (by omega)
    omega
  · intro first last hf hl
    have h1 := sorted_head_le traj hsorted first pa hf hpam
    have h2 := sorted_le_last traj hsorted last pb hl hpbm
    omega

theorem split_nil_of_no_segment (D : Dbl) (traj : Trajectory) (args : split_args D)
    (h : split.segments D args [] 0 traj = []) : split D traj args = some [] := by
  have := split_of_segments D traj args [] (by rw [h]; exact List.Forall₂.nil)
  simpa using this

/-- C31: the gate never discards a vessel that could yield a sequence.  For a
trajectory with non-decreasing 32-bit timestamps and `seq_length * dti` below
`2^32`: if the buffer is empty, or `size * dt_max < seq_length * dti`, or
`last.t - first.t < seq_length * dti`, then `split` has no completed segment and
returns the empty sequence; in particular, where the gate of `Sequencer::run`
(whose 64-bit product `size * dt_max` does not wrap) is false, `split` returns
the empty sequence. -/
theorem gate_discards_only_empty_results (D : Dbl) (trajectory : Trajectory)
    (args : split_args D) (hsorted : trajectory.Pairwise (fun a b => a.t ≤ b.t))
    (hU : ∀ p ∈ trajectory, p.t < U32) (hdur : args.seq_length * args.dti < U32) :
    ((trajectory = [] ∨ trajectory.length * args.dt_max < args.seq_length * args.dti ∨
        (∃ first last, trajectory.head? = some first ∧ trajectory.getLast? = some last ∧
          last.t - first.t < args.seq_length * args.dti)) →
      split.segments D args [] 0 trajectory = [] ∧ split D trajectory args = some []) ∧
    (trajectory.length * args.dt_max < U64 → Sequencer.gate D args trajectory = false →
      split D trajectory args = some []) := by
  have key : (trajectory = [] ∨ trajectory.length * args.dt_max < args.seq_length * args.dti ∨
        (∃ first last, trajectory.head? = some first ∧ trajectory.getLast? = some last ∧
          last.t - first.t < args.seq_length * args.dti)) →
      split.segments D args [] 0 trajectory = [] := by
    intro h
    rw [List.eq_nil_iff_forall_not_mem]
    intro seg hseg
    obtain ⟨h1, h2, h3⟩ := split.segment_passes_gate D trajectory args hsorted hU hdur seg hseg
    rcases h with h | h | ⟨first, last, hf, hl, h⟩
    · exact h1 h
    · omega
    · have := h3 first last hf hl
      omega
  refine ⟨fun h => ⟨key h, split_nil_of_no_segment D trajectory args (key h)⟩, ?_⟩
  intro h64 hgate
  apply split_nil_of_no_segment
  apply key
  by_contra hnot
  simp only [not_or, not_exists, not_and, not_lt] at hnot
  obtain ⟨hne, hsize, hspan⟩ := hnot
  have hg : Sequencer.gate D args trajectory = true := by
    rw [Sequencer.gate_iff]
    obtain ⟨first, hf⟩ : ∃ first, trajectory.head? = some first := by
      cases trajectory with
      | nil => exact absurd rfl hne
      | cons a rest => exact ⟨a, rfl⟩
    obtain ⟨last, hl⟩ : ∃ last, trajectory.getLast? = some last :=
      ⟨trajectory.getLast hne, List.getLast?_eq_getLast _ _⟩
    have hle := head_le_last trajectory first last hsorted hf hl
    have hlU : last.t < U32 := hU last (List.mem_of_getLast?_eq_some hl)
    refine ⟨hne, ?_, first, last, hf, hl, ?_⟩
    · rw [Nat.mod_eq_of_lt h64, umul_eq _ _ hdur]
      exact hsize
    · rw [usub_eq _ _ hle hlU, umul_eq _ _ hdur]
      exact hspan first last hf hl
  rw [hg] at hgate
  cases hgate

/-- Witness of C31: with the parameters of the tests, two positions 20 s apart
do not reach the target duration of 25 s. -/
theorem gate_discards_only_empty_results_witness :
    split.segments (ieee.model ieee.cos_unit) (test_args (ieee.model ieee.cos_unit)) [] 0
        [⟨0, ⟨0, 0⟩⟩, ⟨20, ⟨0, 0⟩⟩] = [] ∧
      split (ieee.model ieee.cos_unit) [⟨0, ⟨0, 0⟩⟩, ⟨20, ⟨0, 0⟩⟩]
        (test_args (ieee.model ieee.cos_unit)) = some [] :=
  (gate_discards_only_empty_results (ieee.model ieee.cos_unit) [⟨0, ⟨0, 0⟩⟩, ⟨20, ⟨0, 0⟩⟩]
    (test_args (ieee.model ieee.cos_unit)) (by simp) (by simp; decide) (by decide)).1
    (Or.inr (Or.inr ⟨⟨0, ⟨0, 0⟩⟩, ⟨20, ⟨0, 0⟩⟩, rfl, rfl, by decide⟩))

/-! ### Symmetry of the distance and the two threshold tests -/

namespace ieee

/-- For a finite `x` and a `y` that is not NaN, `x <= y` is the negation of
`y < x`. -/
theorem le_eq_not_lt (s : Bool) (m : Nat) (e : Int) (y : B64) (hy : y ≠ .nan) :
    le (.fin s m e) y = !(lt y (.fin s m e)) := by
  cases y with
  | nan => exact absurd rfl hy
  | inf t => rfl
  | fin t k f =>
    show decide (scaled s m e (min e f) ≤ scaled t k f (min e f)) =
      !(decide (scaled t k f (min f e) < scaled s m e (min f e)))
    rw [min_comm f e]
    by_cases h : scaled s m e (min e f) ≤ scaled t k f (min e f)
    · rw [decide_eq_true h, decide_eq_false (not_lt.2 h)]
      rfl
    · rw [decide_eq_false h, decide_eq_true (not_le.1 h)]
      rfl

set_option maxRecDepth 100000 in
set_option exponentiation.threshold 4000 in
theorem ais2deg_zero : ais2deg 0 = .fin false 0 (-1074) := by decide

set_option maxRecDepth 100000 in
set_option exponentiation.threshold 4000 in
/-- The distance of a point from itself is `+0`, whatever the cosine. -/
theorem dist_of_self (c : B64) (hu : Fin0 (mul c c)) (p : Point) :
    dist_of c p p = .fin false 0 (-1074) := by
  unfold dist_of S_of
  rw [sub_self, sub_self, ais2deg_zero]
  obtain ⟨m, e, hm⟩ := hu
  rw [hm]
  have h1 : mul (.fin false m e) (.fin false 0 (-1074)) = .fin false 0 (-1074) := by
    show rndZ (xor false false) (m * 0) (e + -1074) = _
    rw [Nat.mul_zero, rndZ_zero]
    rfl
  rw [h1]
  decide

/-- The distance of two points with `int32_t` coordinates is finite and not
negative. -/
theorem dist_nm_fin0 (cos : B64 → B64) (hcos : CosSpec cos) (p q : Point) (hp : InRange p)
    (hq : InRange q) : Fin0 (Point.dist_nm (model cos) p q) := by
  rw [dist_nm_model]
  obtain ⟨s, m, e, ha⟩ := cos_arg_fin p q hp hq
  rw [ha]
  exact dist_of_fin0 _ (hcos.bounded s m e) p q hp hq

theorem dist_nm_self (cos : B64 → B64) (hcos : CosSpec cos) (p : Point) (hp : InRange p) :
    Point.dist_nm (model cos) p p = .fin false 0 (-1074) := by
  rw [dist_nm_model]
  obtain ⟨s, m, e, ha⟩ := cos_arg_fin p p hp hp
  rw [ha]
  exact dist_of_self _ (cos_sq_fin0 cos hcos s m e) p

end ieee

/-- C36: in binary64 arithmetic, for all points `a` and `b` with `int32_t`
coordinates, `dist_nm` is symmetric, finite and not negative, and
`a.dist_nm(a)` is 0.  Therefore, for every threshold `ds_max` that is not NaN
(in particular every `ds_max > 0`, which `is_valid` asserts), the test
`a.x.dist_nm(b.x) <= ds_max` of the spike filter is exactly the negation of the
spatial gap test `pos.x.dist_nm(last_pos.x) > ds_max` of `split` and `drop_rate`
for `pos = b` and `last_pos = a`, and the gap test is `the time difference
exceeds dt_max, or the transition is not valid`. -/
theorem dist_nm_symmetric_and_tests_complementary (cos : ieee.B64 → ieee.B64)
    (hcos : ieee.CosSpec cos) :
    (∀ a b : Point, ieee.InRange a → ieee.InRange b →
      Point.dist_nm (ieee.model cos) a b = Point.dist_nm (ieee.model cos) b a ∧
      (∃ m e, Point.dist_nm (ieee.model cos) a b = ieee.B64.fin false m e) ∧
      ieee.le (.fin false 0 (-1074)) (Point.dist_nm (ieee.model cos) a b) = true ∧
      ieee.lt (Point.dist_nm (ieee.model cos) a b) (.fin false 0 (-1074)) = false ∧
      Point.dist_nm (ieee.model cos) a a = ieee.B64.fin false 0 (-1074)) ∧
    (∀ (args : split_args (ieee.model cos)) (a b : Position),
      ieee.InRange a.x → ieee.InRange b.x → args.ds_max ≠ ieee.B64.nan →
      Sequencer.is_valid (ieee.model cos) args a b =
        !((ieee.model cos).lt args.ds_max (b.x.dist_nm (ieee.model cos) a.x)) ∧
      is_gap (ieee.model cos) args b a =
        (decide (usub b.t a.t > args.dt_max) ||
          !(Sequencer.is_valid (ieee.model cos) args a b))) ∧
    (∀ (args : split_args (ieee.model cos)),
      (ieee.model cos).lt ((ieee.model cos).lit 0 0) args.ds_max = true →
      args.ds_max ≠ ieee.B64.nan) ∧
    (∀ (args : split_args (ieee.model cos)) (sorted : Trajectory),
      Sequencer.clean (ieee.model cos) args true sorted =
        utility.low_pass_filter (std_unique (fun a b => decide (a.t = b.t)) sorted)
          (Sequencer.is_valid (ieee.model cos) args)) := by
  refine ⟨?_, ?_, ?_, fun _ _ => rfl⟩
  · intro a b ha hb
    obtain ⟨m, e, hd⟩ := ieee.dist_nm_fin0 cos hcos a b ha hb
    refine ⟨ieee.dist_nm_symm cos hcos a b ha hb, ⟨m, e, hd⟩, ?_, ?_,
      ieee.dist_nm_self cos hcos a ha⟩
    · rw [hd, ieee.le_fin_val, ieee.val_fin_false, ieee.val_fin_false]
      simp only [Nat.cast_zero, zero_mul]
      exact mul_nonneg (Nat.cast_nonneg _) (le_of_lt (ieee.two_zpow_pos e))
    · have h := ieee.le_eq_not_lt false 0 (-1074) (Point.dist_nm (ieee.model cos) a b)
        (by rw [hd]; simp)
      have h2 : ieee.le (.fin false 0 (-1074)) (Point.dist_nm (ieee.model cos) a b) = true := by
        rw [hd, ieee.le_fin_val, ieee.val_fin_false, ieee.val_fin_false]
        simp only [Nat.cast_zero, zero_mul]
        exact mul_nonneg (Nat.cast_nonneg _) (le_of_lt (ieee.two_zpow_pos e))
      rw [h2] at h
      cases hlt : ieee.lt (Point.dist_nm (ieee.model cos) a b) (.fin false 0 (-1074))
      · rfl
      · rw [hlt] at h
        cases h
  · intro args a b ha hb hnan
    obtain ⟨m, e, hd⟩ := ieee.dist_nm_fin0 cos hcos b.x a.x hb ha
    have hv : Sequencer.is_valid (ieee.model cos) args a b =
        !((ieee.model cos).lt args.ds_max (b.x.dist_nm (ieee.model cos) a.x)) := by
      show ieee.le (Point.dist_nm (ieee.model cos) a.x b.x) args.ds_max =
        !(ieee.lt args.ds_max (Point.dist_nm (ieee.model cos) b.x a.x))
      rw [ieee.dist_nm_symm cos hcos a.x b.x ha hb, hd]
      exact ieee.le_eq_not_lt false m e args.ds_max hnan
    refine ⟨hv, ?_⟩
    rw [hv, Bool.not_not]
    rfl
  · intro args h hnan
    rw [hnan] at h
    cases (ieee.model cos).lit 0 0 <;> cases h

/-- Witness of C36: the constant cosine 1 and two points of the test
trajectory. -/
theorem dist_nm_symmetric_and_tests_complementary_witness :
    ieee.CosSpec ieee.cos_unit ∧
    Point.dist_nm (ieee.model ieee.cos_unit) ⟨4, 2⟩ ⟨8, 4⟩ =
      Point.dist_nm (ieee.model ieee.cos_unit) ⟨8, 4⟩ ⟨4, 2⟩ :=
  ⟨ieee.cos_unit_spec,
    ((dist_nm_symmetric_and_tests_complementary ieee.cos_unit ieee.cos_unit_spec).1
      ⟨4, 2⟩ ⟨8, 4⟩ (by unfold ieee.InRange; norm_num) (by unfold ieee.InRange; norm_num)).1⟩

/-! ### The span of the coordinates under `Point::interpolate` -/

namespace ieee

/-- Truncation toward zero of a value within one half of the integer interval
`[lo, hi]`: the result is in the interval, or is the neighbouring integer on the
side of zero. -/
theorem trunc_between (lo hi : Int) (v : ℚ) (h1 : (lo : ℚ) - 1 / 2 ≤ v)
    (h2 : v ≤ (hi : ℚ) + 1 / 2) :
    (0 ≤ hi → trunc v ≤ hi) ∧ (hi < 0 → trunc v ≤ hi + 1) ∧
      (lo ≤ 0 → lo ≤ trunc v) ∧ (0 < lo → lo - 1 ≤ trunc v) := by
  unfold trunc
  by_cases hv : 0 ≤ v
  · rw [if_pos hv]
    have hf0 : (0 : Int) ≤ ⌊v⌋ := Int.floor_nonneg.2 hv
    have hfu : ⌊v⌋ < hi + 1 := by
      rw [Int.floor_lt]
      push_cast
      linarith
    have hfl : lo - 1 ≤ ⌊v⌋ := by
      rw [Int.le_floor]
      push_cast
      by_cases hlo : 0 < lo
      · have : (1 : ℚ) ≤ (lo : ℚ) := by exact_mod_cast hlo
        have h3 := Int.lt_floor_add_one v
        by_contra hc
        have hc2 : v < (lo : ℚ) - 1 := not_le.1 hc
        linarith
      · have : (lo : ℚ) ≤ 0 := by
          have : lo ≤ 0 := by omega
          exact_mod_cast this
        linarith
    refine ⟨fun _ => by omega, fun _ => by omega, fun _ => by omega, fun _ => by omega⟩
  · rw [if_neg hv]
    have hneg : v < 0 := not_le.1 hv
    have hc0 : ⌈v⌉ ≤ (0 : Int) := by
      rw [Int.ceil_le]
      push_cast
      linarith
    have hcl : lo - 1 < ⌈v⌉ := by
      rw [Int.lt_ceil]
      push_cast
      linarith
    have hcu : ⌈v⌉ ≤ hi + 1 := by
      rw [Int.ceil_le]
      push_cast
      linarith
    refine ⟨fun _ => by omega, fun _ => by omega, fun _ => by omega, fun _ => by omega⟩

/-- For coordinates of `std::int32_t` and a weight in `[0, 1]`, the `double`
value of `(1. - w) * a + w * b` is within `5 * 2^-22` of the interval spanned by
`a` and `b`. -/
theorem blend_between (a b : Int) (ha1 : -2 ^ 31 ≤ a) (ha2 : a < 2 ^ 31) (hb1 : -2 ^ 31 ≤ b)
    (hb2 : b < 2 ^ 31) (w : B64) (h0 : le (.fin false 0 (-1074)) w = true)
    (h1 : le w (.fin false (2 ^ 52) (-52)) = true) :
    ∃ s m e, add (mul (sub (.fin false (2 ^ 52) (-52)) w)
        (rndZ (decide (a < 0)) a.natAbs 0)) (mul w (rndZ (decide (b < 0)) b.natAbs 0)) =
          .fin s m e ∧
      ((min a b : Int) : ℚ) - 1 / 2 ≤ val (.fin s m e) ∧
      val (.fin s m e) ≤ ((max a b : Int) : ℚ) + 1 / 2 := by
  obtain ⟨sw, mw, ew, rfl, hw, hw1⟩ := weight_unit w h0 h1
  obtain ⟨mu, eu, hu, hu1, huerr⟩ := one_sub_signed sw mw ew hw hw1
  rw [hu]
  obtain ⟨sx, mx, ex, hx, hxerr, _, _⟩ :=
    mul_int_val false mu eu (Or.inl rfl) hu1 a (by omega)
  obtain ⟨sy, my, ey, hy, hyerr, _, _⟩ := mul_int_val sw mw ew hw hw1 b (by omega)
  rw [hx, hy]
  generalize hX : val (.fin sx mx ex) = X at hxerr
  generalize hY : val (.fin sy my ey) = Y at hyerr
  have hW0 : (0 : ℚ) ≤ (mw : ℚ) * (2 : ℚ) ^ ew :=
    mul_nonneg (Nat.cast_nonneg _) (le_of_lt (two_zpow_pos ew))
  generalize (mw : ℚ) * (2 : ℚ) ^ ew = W at hw1 huerr hyerr hW0
  generalize (mu : ℚ) * (2 : ℚ) ^ eu = U at hu1 huerr hxerr
  have e22 : (2 : ℚ) ^ (-22 : Int) = 1 / 4194304 := by norm_num
  have e53 : (2 : ℚ) ^ (-53 : Int) = 1 / 9007199254740992 := by norm_num
  rw [e22] at hxerr hyerr
  rw [e53] at huerr
  have hA1 : (-2 ^ 31 : ℚ) ≤ (a : ℚ) := by exact_mod_cast ha1
  have hA2 : (a : ℚ) ≤ 2 ^ 31 := by
    have : a ≤ 2 ^ 31 := by omega
    exact_mod_cast this
  have hB1 : (-2 ^ 31 : ℚ) ≤ (b : ℚ) := by exact_mod_cast hb1
  have hB2 : (b : ℚ) ≤ 2 ^ 31 := by
    have : b ≤ 2 ^ 31 := by omega
    exact_mod_cast this
  have habs : |(a : ℚ)| ≤ 2 ^ 31 := abs_le.2 ⟨by linarith, hA2⟩
  have hd : |(U - (1 - W)) * (a : ℚ)| ≤ 1 / 4194304 := by
    rw [abs_mul]
    calc |U - (1 - W)| * |(a : ℚ)| ≤ 1 / 9007199254740992 * 2 ^ 31 :=
          mul_le_mul huerr habs (abs_nonneg _) (by norm_num)
      _ = 1 / 4194304 := by norm_num
  have hlo_a : ((min a b : Int) : ℚ) ≤ (a : ℚ) := by exact_mod_cast min_le_left a b
  have hlo_b : ((min a b : Int) : ℚ) ≤ (b : ℚ) := by exact_mod_cast min_le_right a b
  have hhi_a : (a : ℚ) ≤ ((max a b : Int) : ℚ) := by exact_mod_cast le_max_left a b
  have hhi_b : (b : ℚ) ≤ ((max a b : Int) : ℚ) := by exact_mod_cast le_max_right a b
  have hlo1 : (-2 ^ 31 : ℚ) ≤ ((min a b : Int) : ℚ) := by
    have : -2 ^ 31 ≤ min a b := le_min ha1 hb1
    exact_mod_cast this
  have hhi1 : ((max a b : Int) : ℚ) ≤ 2 ^ 31 := by
    have : max a b ≤ 2 ^ 31 := max_le (by omega) (by omega)
    exact_mod_cast this
  generalize ((min a b : Int) : ℚ) = lo at hlo_a hlo_b hlo1
  generalize ((max a b : Int) : ℚ) = hi at hhi_a hhi_b hhi1
  have hW1 : (0 : ℚ) ≤ 1 - W := by linarith
  have p1 : 0 ≤ (1 - W) * ((a : ℚ) - lo) := mul_nonneg hW1 (by linarith)
  have p2 : 0 ≤ W * ((b : ℚ) - lo) := mul_nonneg hW0 (by linarith)
  have p3 : 0 ≤ (1 - W) * (hi - (a : ℚ)) := mul_nonneg hW1 (by linarith)
  have p4 : 0 ≤ W * (hi - (b : ℚ)) := mul_nonneg hW0 (by linarith)
  have hxe := abs_le.1 hxerr
  have hye := abs_le.1 hyerr
  have hde := abs_le.1 hd
  have hsum_lo : lo - 3 / 4194304 ≤ X + Y := by nlinarith
  have hsum_hi : X + Y ≤ hi + 3 / 4194304 := by nlinarith
  have hVabs : |val (.fin sx mx ex) + val (.fin sy my ey)| ≤ (2 : ℚ) ^ (32 : Int) := by
    rw [hX, hY, abs_le]
    have : (2 : ℚ) ^ (32 : Int) = 4294967296 := by norm_num
    rw [this]
    constructor <;> linarith
  obtain ⟨s1, m1, e1, hadd, _, _, _, herr, _⟩ :=
    add_signed sx mx ex sy my ey 32 (by norm_num) (by norm_num) hVabs
  rw [hX, hY] at herr
  have e21 : (2 : ℚ) ^ ((32 : Int) - 53) = 1 / 2097152 := by norm_num
  rw [e21] at herr
  have hre := abs_le.1 herr
  exact ⟨s1, m1, e1, hadd, by linarith, by linarith⟩

end ieee

theorem valid_pos_iff (lat lon : Int) :
    valid_pos lat lon = true ↔
      (-108000000 ≤ lat ∧ lat ≤ 108000000) ∧ (-108000000 ≤ lon ∧ lon ≤ 108000000) := by
  unfold valid_pos Point.MIN_LATITUDE Point.MAX_LATITUDE Point.MIN_LONGITUDE
    Point.MAX_LONGITUDE
  simp only [Bool.and_eq_true, decide_eq_true_eq]
  constructor
  · rintro ⟨⟨⟨h1, h2⟩, h3⟩, h4⟩
    norm_num at h1 h2 h3 h4
    exact ⟨⟨h1, h2⟩, h3, h4⟩
  · rintro ⟨⟨h1, h2⟩, h3, h4⟩
    norm_num
    exact ⟨⟨⟨h1, h2⟩, h3⟩, h4⟩

theorem NearSpan.bounds {a b r : Int} (h : NearSpan a b r) :
    min a b - 1 ≤ r ∧ r ≤ max a b + 1 ∧ r.natAbs ≤ max a.natAbs b.natAbs := by
  obtain ⟨h1, h2, h3, h4⟩ := h
  have hmin : min a b ≤ max a b := le_trans (min_le_left a b) (le_max_left a b)
  have k1 : min a b - 1 ≤ r := by
    by_cases h : min a b ≤ 0
    · have := h3 h
      omega
    · exact h4 (by omega)
  have k2 : r ≤ max a b + 1 := by
    by_cases h : 0 ≤ max a b
    · have := h1 h
      omega
    · exact h2 (by omega)
  refine ⟨k1, k2, ?_⟩
  have ha : (a.natAbs : Int) ≤ (max a.natAbs b.natAbs : Nat) := by
    exact_mod_cast le_max_left a.natAbs b.natAbs
  have hb : (b.natAbs : Int) ≤ (max a.natAbs b.natAbs : Nat) := by
    exact_mod_cast le_max_right a.natAbs b.natAbs
  have hmax : max a b ≤ (max a.natAbs b.natAbs : Nat) := max_le (by omega) (by omega)
  have hmin2 : -((max a.natAbs b.natAbs : Nat) : Int) ≤ min a b := le_min (by omega) (by omega)
  have : -((max a.natAbs b.natAbs : Nat) : Int) ≤ r ∧ r ≤ (max a.natAbs b.natAbs : Nat) := by
    constructor
    · by_cases h : min a b ≤ 0
      · have := h3 h
        omega
      · have := h4 (by omega)
        omega
    · by_cases h : 0 ≤ max a b
      · have := h1 h
        omega
      · have := h2 (by omega)
        omega
  omega

theorem NearSpan.valid {a b r : Int} (h : NearSpan a b r) (ha1 : -108000000 ≤ a)
    (ha2 : a ≤ 108000000) (hb1 : -108000000 ≤ b) (hb2 : b ≤ 108000000) :
    -108000000 ≤ r ∧ r ≤ 108000000 := by
  have := h.bounds.2.2
  have ha : a.natAbs ≤ 108000000 := by omega
  have hb : b.natAbs ≤ 108000000 := by omega
  have : max a.natAbs b.natAbs ≤ 108000000 := max_le ha hb
  omega

/-- Each coordinate of `a.interpolate(b, w)` is near the span of the
coordinates of `a` and `b`, for `int32_t` coordinates and `0 <= w <= 1`. -/
theorem Point.interpolate_near_span (cos : ieee.B64 → ieee.B64) (a b : Point) (w : ieee.B64)
    (ha : ieee.InRange a) (hb : ieee.InRange b)
    (h0 : (ieee.model cos).le ((ieee.model cos).lit 0 0) w = true)
    (h1 : (ieee.model cos).le w ((ieee.model cos).lit 1 0) = true) :
    NearSpan a.latitude b.latitude (a.interpolate (ieee.model cos) b w).latitude ∧
      NearSpan a.longitude b.longitude (a.interpolate (ieee.model cos) b w).longitude := by
  have e0 : (ieee.model cos).lit 0 0 = ieee.B64.fin false 0 (-1074) := by
    show ieee.rnd false 0 (10 ^ 0) = _
    rw [pow_zero, ieee.lit_0]
  have e1 : (ieee.model cos).lit 1 0 = ieee.B64.fin false (2 ^ 52) (-52) := by
    show ieee.rnd false 1 (10 ^ 0) = _
    rw [pow_zero, ieee.lit_1]
    rfl
  rw [e0] at h0
  rw [e1] at h1
  obtain ⟨a1, a2, a3, a4⟩ := ha
  obtain ⟨b1, b2, b3, b4⟩ := hb
  rw [Point.interpolate_blend, Point.blend_model, Point.blend_model]
  show NearSpan _ _ (ieee.toInt _) ∧ NearSpan _ _ (ieee.toInt _)
  rw [ieee.blend_toInt a.latitude b.latitude a1 a2 b1 b2 w h0 h1,
    ieee.blend_toInt a.longitude b.longitude a3 a4 b3 b4 w h0 h1]
  obtain ⟨s, m, e, hv, hl, hu⟩ := ieee.blend_between a.latitude b.latitude a1 a2 b1 b2 w h0 h1
  obtain ⟨s2, m2, e2, hv2, hl2, hu2⟩ :=
    ieee.blend_between a.longitude b.longitude a3 a4 b3 b4 w h0 h1
  rw [hv, hv2]
  exact ⟨ieee.trunc_between _ _ _ hl hu, ieee.trunc_between _ _ _ hl2 hu2⟩

theorem Point.interpolate_valid_pos (cos : ieee.B64 → ieee.B64) (a b : Point) (w : ieee.B64)
    (ha : valid_pos a.latitude a.longitude = true)
    (hb : valid_pos b.latitude b.longitude = true)
    (h0 : (ieee.model cos).le ((ieee.model cos).lit 0 0) w = true)
    (h1 : (ieee.model cos).le w ((ieee.model cos).lit 1 0) = true) :
    valid_pos (a.interpolate (ieee.model cos) b w).latitude
      (a.interpolate (ieee.model cos) b w).longitude = true := by
  rw [valid_pos_iff] at ha hb ⊢
  have hra : ieee.InRange a := by
    unfold ieee.InRange
    omega
  have hrb : ieee.InRange b := by
    unfold ieee.InRange
    omega
  obtain ⟨n1, n2⟩ := Point.interpolate_near_span cos a b w hra hrb h0 h1
  exact ⟨n1.valid ha.1.1 ha.1.2 hb.1.1 hb.1.2, n2.valid ha.2.1 ha.2.2 hb.2.1 hb.2.2⟩

/-- The resampler on positions with valid coordinates and strictly increasing
32-bit timestamps that cover the grid: every point of the result has valid
coordinates. -/
theorem interpolate_valid (cos : ieee.B64 → ieee.B64) (trajectory : Trajectory)
    (front last : Position) (N dt : Nat) (hlen : 2 ≤ trajectory.length)
    (hfront : trajectory.head? = some front) (hlast : trajectory.getLast? = some last)
    (hinc : trajectory.Pairwise (fun a b => a.t < b.t)) (hU : ∀ p ∈ trajectory, p.t < U32)
    (hcover : front.t + (N - 1) * dt ≤ last.t)
    (hvalid : ∀ p ∈ trajectory, valid_pos p.x.latitude p.x.longitude = true) :
    ∃ pts, interpolate (ieee.model cos) trajectory N dt = some pts ∧ pts.length = N ∧
      ∀ pt ∈ pts, valid_pos pt.latitude pt.longitude = true := by
  obtain ⟨pts, h1, h2, h3⟩ := interpolate_grid (ieee.model cos) trajectory front last N dt hlen
    hfront hlast (hinc.imp (fun h => Nat.le_of_lt h)) hU hcover
  refine ⟨pts, h1, h2, ?_⟩
  intro pt hpt
  obtain ⟨i, hi⟩ := List.mem_iff_getElem?.1 hpt
  have hiN : i < N := by
    rw [← h2]
    exact (List.getElem?_eq_some.1 hi).1
  obtain ⟨pt2, hpt2, hg⟩ := h3 i hiN
  rw [hi] at hpt2
  cases hpt2
  obtain ⟨j, pj, pj1, g1, g2, g3, g4, g5, g6⟩ :=
    IsGridPoint.enclosed (ieee.model cos) trajectory front _ pt hfront (by omega) hinc hg
  have hpj1U : pj1.t < U32 := hU pj1 (List.mem_iff_getElem?.2 ⟨j + 1, g2⟩)
  obtain ⟨w0, w1⟩ := ieee.weight_range cos (front.t + i * dt - pj.t) (pj1.t - pj.t)
    (by omega) (by omega) (by omega)
  rw [g6]
  exact Point.interpolate_valid_pos cos pj.x pj1.x _
    (hvalid pj (List.mem_iff_getElem?.2 ⟨j, g1⟩))
    (hvalid pj1 (List.mem_iff_getElem?.2 ⟨j + 1, g2⟩)) w0 w1

set_option maxRecDepth 100000 in
set_option exponentiation.threshold 4000 in
/-- Counterexample to C33 as stated: for `a = b = (3, 3)` and the weight
`3. / 10.`, which lies in `[0, 1]`, `a.interpolate(b, w)` is `(2, 2)`, below the
minimum 3 of the coordinates; the resampler returns `(3, 3), (2, 2)` for a
vessel that rests at `(3, 3)` from `t = 0` to `t = 10` and the grid times 0
and 3, and a vessel resting at latitude 60000000 is moved to 59999999 by the
weight `1. / 9.`. -/
theorem interpolate_leaves_span_of_coordinates :
    ieee.le (.fin false 0 (-1074)) (ieee.div (ieee.rndZ false 3 0) (ieee.rndZ false 10 0)) =
      true ∧
    ieee.le (ieee.div (ieee.rndZ false 3 0) (ieee.rndZ false 10 0))
      (.fin false (2 ^ 52) (-52)) = true ∧
    Point.interpolate (ieee.model ieee.cos_unit) ⟨3, 3⟩ ⟨3, 3⟩
      (ieee.div (ieee.rndZ false 3 0) (ieee.rndZ false 10 0)) = ⟨2, 2⟩ ∧
    ¬ (min (3 : Int) 3 ≤ (Point.interpolate (ieee.model ieee.cos_unit) ⟨3, 3⟩ ⟨3, 3⟩
      (ieee.div (ieee.rndZ false 3 0) (ieee.rndZ false 10 0))).latitude) ∧
    interpolate (ieee.model ieee.cos_unit) [⟨0, ⟨3, 3⟩⟩, ⟨10, ⟨3, 3⟩⟩] 2 3 =
      some [⟨3, 3⟩, ⟨2, 2⟩] ∧
    Point.interpolate (ieee.model ieee.cos_unit) ⟨60000000, 6000000⟩ ⟨60000000, 6000000⟩
      (ieee.div (ieee.rndZ false 1 0) (ieee.rndZ false 9 0)) = ⟨59999999, 6000000⟩ := by
  decide

/-- C33 (amended): for all points `a`, `b` with `int32_t` coordinates and every
weight `w` in `[0, 1]`, each coordinate of `a.interpolate(b, w)` lies between the
corresponding coordinates of `a` and `b` or is the integer next to them on the
side of zero (`min - 1 <= result <= max + 1`, with `result <= max` when
`max >= 0` and `min <= result` when `min <= 0`), so its magnitude is at most the
larger magnitude of the two coordinates; hence resampling positions whose
coordinates are in the valid range `[-108000000, 108000000]` never produces a
point outside that range. -/
theorem interpolate_stays_near_span :
    (∀ (cos : ieee.B64 → ieee.B64) (a b : Point) (w : ieee.B64),
      ieee.InRange a → ieee.InRange b →
      (ieee.model cos).le ((ieee.model cos).lit 0 0) w = true →
      (ieee.model cos).le w ((ieee.model cos).lit 1 0) = true →
      (NearSpan a.latitude b.latitude (a.interpolate (ieee.model cos) b w).latitude ∧
        NearSpan a.longitude b.longitude (a.interpolate (ieee.model cos) b w).longitude) ∧
      (min a.latitude b.latitude - 1 ≤ (a.interpolate (ieee.model cos) b w).latitude ∧
        (a.interpolate (ieee.model cos) b w).latitude ≤ max a.latitude b.latitude + 1 ∧
        (a.interpolate (ieee.model cos) b w).latitude.natAbs ≤
          max a.latitude.natAbs b.latitude.natAbs) ∧
      (min a.longitude b.longitude - 1 ≤ (a.interpolate (ieee.model cos) b w).longitude ∧
        (a.interpolate (ieee.model cos) b w).longitude ≤ max a.longitude b.longitude + 1 ∧
        (a.interpolate (ieee.model cos) b w).longitude.natAbs ≤
          max a.longitude.natAbs b.longitude.natAbs)) ∧
    (∀ (cos : ieee.B64 → ieee.B64) (a b : Point) (w : ieee.B64),
      valid_pos a.latitude a.longitude = true → valid_pos b.latitude b.longitude = true →
      (ieee.model cos).le ((ieee.model cos).lit 0 0) w = true →
      (ieee.model cos).le w ((ieee.model cos).lit 1 0) = true →
      valid_pos (a.interpolate (ieee.model cos) b w).latitude
        (a.interpolate (ieee.model cos) b w).longitude = true) ∧
    (∀ (cos : ieee.B64 → ieee.B64) (trajectory : Trajectory) (front last : Position)
        (N dt : Nat), 2 ≤ trajectory.length → trajectory.head? = some front →
      trajectory.getLast? = some last → trajectory.Pairwise (fun a b => a.t < b.t) →
      (∀ p ∈ trajectory, p.t < U32) → front.t + (N - 1) * dt ≤ last.t →
      (∀ p ∈ trajectory, valid_pos p.x.latitude p.x.longitude = true) →
      ∃ pts, interpolate (ieee.model cos) trajectory N dt = some pts ∧ pts.length = N ∧
        ∀ pt ∈ pts, valid_pos pt.latitude pt.longitude = true) ∧
    (∀ lat lon : Int, valid_pos lat lon = true ↔
      (-108000000 ≤ lat ∧ lat ≤ 108000000) ∧ (-108000000 ≤ lon ∧ lon ≤ 108000000)) := by
  refine ⟨?_, Point.interpolate_valid_pos, interpolate_valid, valid_pos_iff⟩
  intro cos a b w ha hb h0 h1
  obtain ⟨n1, n2⟩ := Point.interpolate_near_span cos a b w ha hb h0 h1
  exact ⟨⟨n1, n2⟩, n1.bounds, n2.bounds⟩

set_option maxRecDepth 100000 in
set_option exponentiation.threshold 4000 in
/-- Witness of C33 (amended): the points `(4, 2)` and `(10, 5)` and the weight
`10. / 30.` of the test `Test interpolation`. -/
theorem interpolate_stays_near_span_witness :
    min (4 : Int) 10 - 1 ≤ (Point.interpolate (ieee.model ieee.cos_unit) ⟨4, 2⟩ ⟨10, 5⟩
        (.fin false 6004799503160661 (-54))).latitude ∧
      (Point.interpolate (ieee.model ieee.cos_unit) ⟨4, 2⟩ ⟨10, 5⟩
        (.fin false 6004799503160661 (-54))).latitude ≤ max (4 : Int) 10 + 1 ∧
      (Point.interpolate (ieee.model ieee.cos_unit) ⟨4, 2⟩ ⟨10, 5⟩
        (.fin false 6004799503160661 (-54))).latitude.natAbs ≤
          max (4 : Int).natAbs (10 : Int).natAbs :=
  (interpolate_stays_near_span.1 ieee.cos_unit ⟨4, 2⟩ ⟨10, 5⟩
    (.fin false 6004799503160661 (-54))
    (by unfold ieee.InRange; norm_num) (by unfold ieee.InRange; norm_num)
    (by decide) (by decide)).2.1

/-! ### Monotonicity in the minimal speed -/

namespace ieee

end ieee

end seqmaker
